import Mathlib

/-!
# Analytic anti-aliased triangle rasterizer of `extra/example_repack.cpp`

Shallow embedding of `ClippedTriangle` and `Triangle` (constructor,
`computeDeltas`, `computeUnitInwardNormals`, `drawAA`).

The source is embedded twice.  The first embedding reads `float` as an exact
ordered field; the theorems about it say what the program computes in exact
arithmetic.  The second embedding (namespace `Binary32`) reads `float` as IEEE
binary32 with every operation rounded to nearest, keeps the `7 + 1` slots of
the vertex buffers and bounds the loops by a fuel; it is run on concrete
inputs to show where rounding makes the program leave the exact behaviour.

Conventions of the exact embedding.

* `float` is read as an exact ordered field `α` (the theorems are used at
  `ℝ`, the clipper can be run at `ℚ`).  `floorf`/`ceilf` are `⌊·⌋`/`⌈·⌉`.
* `sqrtf` is a library function; it is a parameter `sqrtf : α → α` and the
  theorems that need it assume `0 ≤ sqrtf x ∧ sqrtf x * sqrtf x = x` for
  `0 ≤ x`.
* `1.0f / d` with `d = 0` is not finite.  The two places where the source
  can divide one by zero (`computeDeltas`, `computeUnitInwardNormals`) use
  `recip`, whose `none` stands for the non-finite result; a normal scaled by
  a non-finite factor is NaN (the normal is the zero vector there), written
  `none`, and every comparison with NaN is false.
* The callback `bool cb(void *param, ...)` is a function of the state behind
  `param`: `σ → Call α → σ × Bool`.
-/

set_option linter.unusedSectionVars false
set_option linter.unusedVariables false

namespace Repack

/-! ## Vectors -/

/-- The `Vector2` struct. -/
structure Vector2 (α : Type) where
  x : α
  y : α
deriving DecidableEq, Repr

/-- The `Vector3` struct. -/
structure Vector3 (α : Type) where
  x : α
  y : α
  z : α
deriving DecidableEq, Repr

section Defs

variable {α : Type} [LinearOrderedField α]

/-- `operator+(Vector2, Vector2)`. -/
def Vector2.add (a b : Vector2 α) : Vector2 α := ⟨a.x + b.x, a.y + b.y⟩

/-- `operator-(Vector2, Vector2)`. -/
def Vector2.sub (a b : Vector2 α) : Vector2 α := ⟨a.x - b.x, a.y - b.y⟩

/-- `operator*(Vector2, float)`. -/
def Vector2.smul (v : Vector2 α) (s : α) : Vector2 α := ⟨v.x * s, v.y * s⟩

/-- `operator+(Vector3, Vector3)`, also used for `operator+=`. -/
def Vector3.add (a b : Vector3 α) : Vector3 α := ⟨a.x + b.x, a.y + b.y, a.z + b.z⟩

/-- `operator-(Vector3, Vector3)`. -/
def Vector3.sub (a b : Vector3 α) : Vector3 α := ⟨a.x - b.x, a.y - b.y, a.z - b.z⟩

/-- `operator*(Vector3, float)`. -/
def Vector3.smul (v : Vector3 α) (s : α) : Vector3 α := ⟨v.x * s, v.y * s, v.z * s⟩

/-- Content of a buffer slot that was never written. -/
def Vector2.zero : Vector2 α := ⟨0, 0⟩

/-! ## ClippedTriangle -/

/-- The `ClippedTriangle` class.  `m_vertices` is the content
`v[0 .. m_numVertices)` of the active vertex buffer, so `m_numVertices` is
its length; `m_area` and `m_centroid` are meaningful after
`computeAreaCentroid`. -/
structure ClippedTriangle (α : Type) where
  m_vertices : List (Vector2 α)
  m_area : α
  m_centroid : Vector2 α

/-- The vertex count `m_numVertices`. -/
def ClippedTriangle.m_numVertices (ct : ClippedTriangle α) : Nat := ct.m_vertices.length

/-- The constructor `ClippedTriangle(a, b, c)`. -/
def ClippedTriangle.new (a b c : Vector2 α) : ClippedTriangle α :=
  { m_vertices := [a, b, c], m_area := 0, m_centroid := Vector2.zero }

/-- The active buffer after `v[m_numVertices] = v[0]`. -/
def closeRing (vs : List (Vector2 α)) : List (Vector2 α) :=
  vs ++ [vs.headD Vector2.zero]

/-- The C truth value of a comparison, `0` or `1`. -/
def truth (p : Prop) [Decidable p] : Nat := if p then 1 else 0

/-- One iteration of the loop of `clipHorizontalPlane`; the state is
`(v2[0..p), dy1, dy1in)`. -/
def clipHorizontalStep (v : List (Vector2 α)) (offset clipdirection : α)
    (st : List (Vector2 α) × α × Nat) (k : Nat) : List (Vector2 α) × α × Nat :=
  let v2 := st.1
  let dy1 := st.2.1
  let dy1in := st.2.2
  let vk := v.getD k Vector2.zero
  let vk1 := v.getD (k + 1) Vector2.zero
  let dy2 := offset - vk1.y
  let dy2in := truth (clipdirection * dy2 ≥ 0)
  let v2 := if dy1in ≠ 0 then v2 ++ [vk] else v2
  let v2 :=
    if dy1in + dy2in = 1 then
      let dx := vk1.x - vk.x
      let dy := vk1.y - vk.y
      v2 ++ [⟨vk.x + dy1 * (dx / dy), offset⟩]
    else v2
  (v2, dy2, dy2in)

/-- `ClippedTriangle::clipHorizontalPlane`. -/
def ClippedTriangle.clipHorizontalPlane (ct : ClippedTriangle α) (offset clipdirection : α) :
    ClippedTriangle α :=
  let v := closeRing ct.m_vertices
  let dy1 := offset - (v.getD 0 Vector2.zero).y
  let dy1in := truth (clipdirection * dy1 ≥ 0)
  let st := (List.range ct.m_numVertices).foldl (clipHorizontalStep v offset clipdirection)
    ([], dy1, dy1in)
  { ct with m_vertices := st.1 }

/-- One iteration of the loop of `clipVerticalPlane`; the state is
`(v2[0..p), dx1, dx1in)`. -/
def clipVerticalStep (v : List (Vector2 α)) (offset clipdirection : α)
    (st : List (Vector2 α) × α × Nat) (k : Nat) : List (Vector2 α) × α × Nat :=
  let v2 := st.1
  let dx1 := st.2.1
  let dx1in := st.2.2
  let vk := v.getD k Vector2.zero
  let vk1 := v.getD (k + 1) Vector2.zero
  let dx2 := offset - vk1.x
  let dx2in := truth (clipdirection * dx2 ≥ 0)
  let v2 := if dx1in ≠ 0 then v2 ++ [vk] else v2
  let v2 :=
    if dx1in + dx2in = 1 then
      let dx := vk1.x - vk.x
      let dy := vk1.y - vk.y
      v2 ++ [⟨offset, vk.y + dx1 * (dy / dx)⟩]
    else v2
  (v2, dx2, dx2in)

/-- `ClippedTriangle::clipVerticalPlane`. -/
def ClippedTriangle.clipVerticalPlane (ct : ClippedTriangle α) (offset clipdirection : α) :
    ClippedTriangle α :=
  let v := closeRing ct.m_vertices
  let dx1 := offset - (v.getD 0 Vector2.zero).x
  let dx1in := truth (clipdirection * dx1 ≥ 0)
  let st := (List.range ct.m_numVertices).foldl (clipVerticalStep v offset clipdirection)
    ([], dx1, dx1in)
  { ct with m_vertices := st.1 }

/-- One iteration of the loop of `computeAreaCentroid`; the state is
`(m_area, centroidx, centroidy)`. -/
def areaCentroidStep (v : List (Vector2 α)) (st : α × α × α) (k : Nat) : α × α × α :=
  let vk := v.getD k Vector2.zero
  let vk1 := v.getD (k + 1) Vector2.zero
  let f := vk.x * vk1.y - vk1.x * vk.y
  (st.1 + f, st.2.1 + f * (vk.x + vk1.x), st.2.2 + f * (vk.y + vk1.y))

/-- `ClippedTriangle::computeAreaCentroid`. -/
def ClippedTriangle.computeAreaCentroid (ct : ClippedTriangle α) : ClippedTriangle α :=
  let v := closeRing ct.m_vertices
  let st := (List.range ct.m_numVertices).foldl (areaCentroidStep v) (0, 0, 0)
  let m_area := (1 / 2) * |st.1|
  if m_area = 0 then
    { ct with m_area := m_area, m_centroid := ⟨0, 0⟩ }
  else
    { ct with m_area := m_area,
              m_centroid := ⟨st.2.1 / (6 * m_area), st.2.2 / (6 * m_area)⟩ }

/-- `ClippedTriangle::clipAABox`. -/
def ClippedTriangle.clipAABox (ct : ClippedTriangle α) (x0 y0 x1 y1 : α) : ClippedTriangle α :=
  let ct := ct.clipVerticalPlane x0 (-1)
  let ct := ct.clipHorizontalPlane y0 (-1)
  let ct := ct.clipVerticalPlane x1 1
  let ct := ct.clipHorizontalPlane y1 1
  ct.computeAreaCentroid

/-- `ClippedTriangle::centroid`. -/
def ClippedTriangle.centroid (ct : ClippedTriangle α) : Vector2 α := ct.m_centroid

/-- `ClippedTriangle::area`. -/
def ClippedTriangle.area (ct : ClippedTriangle α) : α := ct.m_area

/-! ## Triangle -/

/-- The arguments of one invocation of the `SamplingCallback`. -/
structure Call (α : Type) where
  x : Int
  y : Int
  bar : Vector3 α
  dx : Vector3 α
  dy : Vector3 α
  coverage : α

/-- The `SamplingCallback` type: the state behind `param` is threaded, the
Boolean is the callback's return value (`false` terminates rasterization). -/
abbrev SamplingCallback (σ α : Type) := σ → Call α → σ × Bool

/-- The `Triangle` struct.  A normal `none` is the NaN vector. -/
structure Triangle (α : Type) where
  v1 : Vector2 α
  v2 : Vector2 α
  v3 : Vector2 α
  n1 : Option (Vector2 α)
  n2 : Option (Vector2 α)
  n3 : Option (Vector2 α)
  t1 : Vector3 α
  t2 : Vector3 α
  t3 : Vector3 α
  dx : Vector3 α
  dy : Vector3 α

/-- The quotient `1.0f / d`; `none` is the non-finite result for `d = 0`. -/
def recip (d : α) : Option α := if d = 0 then none else some (1 / d)

/-- `Triangle::computeDeltas`: the new state of the triangle and the
returned Boolean. -/
def Triangle.computeDeltas (t : Triangle α) : Triangle α × Bool :=
  let e0 := t.v3.sub t.v1
  let e1 := t.v2.sub t.v1
  let de0 := t.t3.sub t.t1
  let de1 := t.t2.sub t.t1
  match recip (e0.y * e1.x - e1.y * e0.x) with
  | none => (t, false)
  | some denom =>
    let lambda1 := - e1.y * denom
    let lambda2 := e0.y * denom
    let lambda3 := e1.x * denom
    let lambda4 := - e0.x * denom
    ({ t with dx := (de0.smul lambda1).add (de1.smul lambda2),
              dy := (de0.smul lambda3).add (de1.smul lambda4) }, true)

/-- The three statements computing one normal in
`computeUnitInwardNormals`, for the edge from `b` to `a`. -/
def unitNormal (sqrtf : α → α) (a b : Vector2 α) : Option (Vector2 α) :=
  let n := a.sub b
  let n : Vector2 α := ⟨-n.y, n.x⟩
  (recip (sqrtf (n.x * n.x + n.y * n.y))).map (fun s => n.smul s)

/-- `Triangle::computeUnitInwardNormals`. -/
def Triangle.computeUnitInwardNormals (sqrtf : α → α) (t : Triangle α) : Triangle α :=
  { t with n1 := unitNormal sqrtf t.v1 t.v2,
           n2 := unitNormal sqrtf t.v2 t.v3,
           n3 := unitNormal sqrtf t.v3 t.v1 }

/-- The constructor `Triangle(v0, v1, v2, t0, t1, t2)`.  `dx0`, `dy0` are the
indeterminate contents of the fields `dx`, `dy` before `computeDeltas`; the
constructor discards the Boolean returned by `computeDeltas`. -/
def Triangle.new (sqrtf : α → α) (v0 v1 v2 : Vector2 α) (t0 t1 t2 : Vector3 α)
    (dx0 dy0 : Vector3 α) : Triangle α :=
  let t : Triangle α :=
    { v1 := v0, v2 := v2, v3 := v1, n1 := none, n2 := none, n3 := none,
      t1 := t0, t2 := t2, t3 := t1, dx := dx0, dy := dy0 }
  Triangle.computeUnitInwardNormals sqrtf t.computeDeltas.1

/-- Comparison `a >= b` of a possibly-NaN value. -/
def nanGE (a : Option α) (b : α) : Bool :=
  match a with
  | some a => decide (a ≥ b)
  | none => false

/-- Comparison `a <= b` of a possibly-NaN value. -/
def nanLE (a : Option α) (b : α) : Bool :=
  match a with
  | some a => decide (a ≤ b)
  | none => false

/-- Sum of possibly-NaN values. -/
def nanAdd (a b : Option α) : Option α :=
  match a, b with
  | some a, some b => some (a + b)
  | _, _ => none

end Defs

section Loops

variable {α : Type} [LinearOrderedField α]

/-- The cast `(int)x`, truncation towards zero. -/
def truncInt [FloorRing α] (x : α) : Int := if 0 ≤ x then ⌊x⌋ else ⌈x⌉

/-- The loop `for (float x = x; x < hi; x += step) body`.  The body maps the
loop-carried state to its new value and tells whether to go on (`false`:
the function returns `false` from inside the loop). -/
def forLT [FloorRing α] {S : Type} (step hi : α) (hstep : 0 < step) (body : α → S → S × Bool)
    (x : α) (s : S) : S × Bool :=
  if h : x < hi then
    let r := body x s
    if r.2 then forLT step hi hstep body (x + step) r.1 else (r.1, false)
  else (s, true)
termination_by (⌈(hi - x) / step⌉).toNat
decreasing_by
  have h1 : (hi - (x + step)) / step = (hi - x) / step - 1 := by
    have hs : step ≠ 0 := ne_of_gt hstep
    field_simp
    ring
  have h2 : 0 < (hi - x) / step := div_pos (sub_pos.mpr h) hstep
  have h3 : 0 < ⌈(hi - x) / step⌉ := Int.ceil_pos.mpr h2
  rw [h1, Int.ceil_sub_one]
  omega

/-- The loop `for (float x = x; x <= hi; x += step) body`. -/
def forLE [FloorRing α] {S : Type} (step hi : α) (hstep : 0 < step) (body : α → S → S × Bool)
    (x : α) (s : S) : S × Bool :=
  if h : x ≤ hi then
    let r := body x s
    if r.2 then forLE step hi hstep body (x + step) r.1 else (r.1, false)
  else (s, true)
termination_by (⌊(hi - x) / step⌋ + 1).toNat
decreasing_by
  have h1 : (hi - (x + step)) / step = (hi - x) / step - 1 := by
    have hs : step ≠ 0 := ne_of_gt hstep
    field_simp
    ring
  have h2 : 0 ≤ (hi - x) / step := div_nonneg (sub_nonneg.mpr h) hstep.le
  have h3 : 0 ≤ ⌊(hi - x) / step⌋ := Int.floor_nonneg.mpr h2
  rw [h1, Int.floor_sub_one]
  omega

end Loops

section Draw

variable {α : Type} [LinearOrderedField α] [FloorRing α] {σ : Type}

/-- Body of the inner loop of a wholly covered block (source lines 377-382);
the loop-carried state is `(tex, param)`. -/
def fullPixelBody (t : Triangle α) (cb : SamplingCallback σ α) (y x : α)
    (st : Vector3 α × σ) : (Vector3 α × σ) × Bool :=
  let tex := st.1
  let r := cb st.2 ⟨truncInt x, truncInt y, tex, t.dx, t.dy, 1⟩
  if r.2 then ((tex.add t.dx, r.1), true) else ((tex, r.1), false)

/-- Body of the row loop of a wholly covered block (source lines 375-384);
the loop-carried state is `(texRow, param)`. -/
def fullRowBody (t : Triangle α) (cb : SamplingCallback σ α) (BK_SIZE x0 y : α)
    (st : Vector3 α × σ) : (Vector3 α × σ) × Bool :=
  let texRow := st.1
  let tex := texRow
  let r := forLT 1 (x0 + BK_SIZE) one_pos (fullPixelBody t cb y) x0 (tex, st.2)
  if r.2 then ((texRow.add t.dy, r.1.2), true) else ((texRow, r.1.2), false)

/-- The values carried by the loops of a partially covered block besides
the callback state: `CX1`, `CX2`, `CX3`, `tex` in the pixel loop and
`CY1`, `CY2`, `CY3`, `texRow` in the row loop. -/
structure EdgeState (α : Type) where
  C1 : Option α
  C2 : Option α
  C3 : Option α
  tex : Vector3 α

/-- The classification of one pixel of a partially covered block and the
callback invocation it makes, if any (source lines 396-418): the new
callback state and whether rasterization goes on. -/
def partialPixel (t : Triangle α) (cb : SamplingCallback σ α) (PX_INSIDE PX_OUTSIDE : α)
    (y x : α) (cx : EdgeState α) (param : σ) : σ × Bool :=
  if nanGE cx.C1 PX_INSIDE && nanGE cx.C2 PX_INSIDE && nanGE cx.C3 PX_INSIDE then
    let tex2 := (t.t1.add (t.dx.smul (x - t.v1.x))).add (t.dy.smul (y - t.v1.y))
    cb param ⟨truncInt x, truncInt y, tex2, t.dx, t.dy, 1⟩
  else if nanGE cx.C1 PX_OUTSIDE && nanGE cx.C2 PX_OUTSIDE && nanGE cx.C3 PX_OUTSIDE then
    let ct := ClippedTriangle.new (t.v1.sub ⟨x, y⟩) (t.v2.sub ⟨x, y⟩) (t.v3.sub ⟨x, y⟩)
    let ct := ct.clipAABox (-(1 / 2)) (-(1 / 2)) (1 / 2) (1 / 2)
    let centroid := ct.centroid
    let area := ct.area
    if area > 0 then
      let texCent := (cx.tex.sub (t.dx.smul centroid.x)).sub (t.dy.smul centroid.y)
      cb param ⟨truncInt x, truncInt y, texCent, t.dx, t.dy, area⟩
    else (param, true)
  else (param, true)

/-- Body of the pixel loop of a partially covered block (source lines
395-423). -/
def partialPixelBody (t : Triangle α) (cb : SamplingCallback σ α) (PX_INSIDE PX_OUTSIDE : α)
    (y x : α) (st : EdgeState α × σ) : (EdgeState α × σ) × Bool :=
  let cx := st.1
  let r := partialPixel t cb PX_INSIDE PX_OUTSIDE y x cx st.2
  if r.2 then
    (({ C1 := nanAdd cx.C1 (t.n1.map Vector2.x),
        C2 := nanAdd cx.C2 (t.n2.map Vector2.x),
        C3 := nanAdd cx.C3 (t.n3.map Vector2.x),
        tex := cx.tex.add t.dx }, r.1), true)
  else ((cx, r.1), false)

/-- Body of the row loop of a partially covered block (source lines
390-428). -/
def partialRowBody (t : Triangle α) (cb : SamplingCallback σ α)
    (PX_INSIDE PX_OUTSIDE BK_SIZE x0 y : α) (st : EdgeState α × σ) :
    (EdgeState α × σ) × Bool :=
  let cy := st.1
  let r := forLT 1 (x0 + BK_SIZE) one_pos (partialPixelBody t cb PX_INSIDE PX_OUTSIDE y) x0
    ({ C1 := cy.C1, C2 := cy.C2, C3 := cy.C3, tex := cy.tex }, st.2)
  if r.2 then
    (({ C1 := nanAdd cy.C1 (t.n1.map Vector2.y),
        C2 := nanAdd cy.C2 (t.n2.map Vector2.y),
        C3 := nanAdd cy.C3 (t.n3.map Vector2.y),
        tex := cy.tex.add t.dy }, r.1.2), true)
  else ((cy, r.1.2), false)

/-- The value `C + n.x * x + n.y * y` of a half-space function. -/
def halfSpace (C : Option α) (n : Option (Vector2 α)) (x y : α) : Option α :=
  nanAdd (nanAdd C (n.map (fun n => n.x * x))) (n.map (fun n => n.y * y))

/-- The half-edge constant `n.x * (-v.x) + n.y * (-v.y)`. -/
def halfEdgeConstant (n : Option (Vector2 α)) (v : Vector2 α) : Option α :=
  n.map (fun n => n.x * (-v.x) + n.y * (-v.y))

/-- Body of the block loop (source lines 362-430). -/
def blockBody (t : Triangle α) (cb : SamplingCallback σ α)
    (PX_INSIDE PX_OUTSIDE BK_SIZE BK_INSIDE BK_OUTSIDE : α) (C1 C2 C3 : Option α)
    (y0 x0 : α) (param : σ) : σ × Bool :=
  let xc := x0 + (BK_SIZE - 1) / 2
  let yc := y0 + (BK_SIZE - 1) / 2
  let aC := halfSpace C1 t.n1 xc yc
  let bC := halfSpace C2 t.n2 xc yc
  let cC := halfSpace C3 t.n3 xc yc
  if nanLE aC BK_OUTSIDE || nanLE bC BK_OUTSIDE || nanLE cC BK_OUTSIDE then (param, true)
  else if nanGE aC BK_INSIDE && nanGE bC BK_INSIDE && nanGE cC BK_INSIDE then
    let texRow := (t.t1.add (t.dy.smul (y0 - t.v1.y))).add (t.dx.smul (x0 - t.v1.x))
    let r := forLT 1 (y0 + BK_SIZE) one_pos (fullRowBody t cb BK_SIZE x0) y0 (texRow, param)
    (r.1.2, r.2)
  else
    let CY1 := halfSpace C1 t.n1 x0 y0
    let CY2 := halfSpace C2 t.n2 x0 y0
    let CY3 := halfSpace C3 t.n3 x0 y0
    let texRow := (t.t1.add (t.dy.smul (y0 - t.v1.y))).add (t.dx.smul (x0 - t.v1.x))
    let r := forLT 1 (y0 + BK_SIZE) one_pos
      (partialRowBody t cb PX_INSIDE PX_OUTSIDE BK_SIZE x0) y0
      ({ C1 := CY1, C2 := CY2, C3 := CY3, tex := texRow }, param)
    (r.1.2, r.2)

/-- `Triangle::drawAA`: the final callback state and the returned Boolean. -/
def Triangle.drawAA (sqrtf : α → α) (t : Triangle α) (cb : SamplingCallback σ α) (param : σ) :
    σ × Bool :=
  let PX_INSIDE : α := 1 / sqrtf 2
  let PX_OUTSIDE : α := -1 / sqrtf 2
  let BK_SIZE : α := 8
  let BK_INSIDE : α := sqrtf (BK_SIZE * BK_SIZE / 2)
  let BK_OUTSIDE : α := -sqrtf (BK_SIZE * BK_SIZE / 2)
  -- Bounding rectangle
  let minx : α := ⌊max (min t.v1.x (min t.v2.x t.v3.x)) 0⌋
  let miny : α := ⌊max (min t.v1.y (min t.v2.y t.v3.y)) 0⌋
  let maxx : α := ⌈max t.v1.x (max t.v2.x t.v3.x)⌉
  let maxy : α := ⌈max t.v1.y (max t.v2.y t.v3.y)⌉
  let minx : α := ⌊minx⌋
  let miny : α := ⌊miny⌋
  let minx := minx + 1 / 2
  let miny := miny + 1 / 2
  let maxx := maxx + 1 / 2
  let maxy := maxy + 1 / 2
  -- Half-edge constants
  let C1 := halfEdgeConstant t.n1 t.v1
  let C2 := halfEdgeConstant t.n2 t.v2
  let C3 := halfEdgeConstant t.n3 t.v3
  -- Loop through blocks
  forLE BK_SIZE maxy (by norm_num)
    (fun y0 param =>
      forLE BK_SIZE maxx (by norm_num)
        (blockBody t cb PX_INSIDE PX_OUTSIDE BK_SIZE BK_INSIDE BK_OUTSIDE C1 C2 C3 y0)
        minx param)
    miny param

end Draw

/-! ## Notions used to state the properties -/

section SpecDefs

variable {α : Type} [LinearOrderedField α]

/-- Twice the signed area of the triangle `(a, b, c)`: the cross product
`cross(b - a, c - a)`. -/
def cross2 (a b c : Vector2 α) : α :=
  (b.x - a.x) * (c.y - a.y) - (b.y - a.y) * (c.x - a.x)

/-- The edge-vector determinant `e0.y * e1.x - e1.y * e0.x` of
`computeDeltas`, with `e0 = v3 - v1` and `e1 = v2 - v1`. -/
def Triangle.det (t : Triangle α) : α :=
  (t.v3.sub t.v1).y * (t.v2.sub t.v1).x - (t.v2.sub t.v1).y * (t.v3.sub t.v1).x

/-- The affine interpolant `t1 + dx * (p.x - v1.x) + dy * (p.y - v1.y)` built
from the stored fields (the expression of source line 398). -/
def Triangle.interp (t : Triangle α) (p : Vector2 α) : Vector3 α :=
  (t.t1.add (t.dx.smul (p.x - t.v1.x))).add (t.dy.smul (p.y - t.v1.y))

/-- The inside test of `clipHorizontalPlane`: `clipdirection * (offset - p.y) >= 0`. -/
def insideH (offset clipdirection : α) (p : Vector2 α) : Bool :=
  decide (clipdirection * (offset - p.y) ≥ 0)

/-- The inside test of `clipVerticalPlane`: `clipdirection * (offset - p.x) >= 0`. -/
def insideV (offset clipdirection : α) (p : Vector2 α) : Bool :=
  decide (clipdirection * (offset - p.x) ≥ 0)

/-- The vertex `clipHorizontalPlane` inserts on the edge from `a` to `b`. -/
def isectH (offset : α) (a b : Vector2 α) : Vector2 α :=
  ⟨a.x + (offset - a.y) * ((b.x - a.x) / (b.y - a.y)), offset⟩

/-- The vertex `clipVerticalPlane` inserts on the edge from `a` to `b`. -/
def isectV (offset : α) (a b : Vector2 α) : Vector2 α :=
  ⟨offset, a.y + (offset - a.x) * ((b.y - a.y) / (b.x - a.x))⟩

/-- One clip pass over the closed path `v[0], ..., v[n]`: for every edge the
start vertex when it is inside, then the intersection vertex when exactly one
end is inside. -/
def clipPath (ins : Vector2 α → Bool) (isect : Vector2 α → Vector2 α → Vector2 α) :
    List (Vector2 α) → List (Vector2 α)
  | a :: b :: rest =>
    ((if ins a then [a] else []) ++ (if ins a != ins b then [isect a b] else []))
      ++ clipPath ins isect (b :: rest)
  | _ => []

/-- The sum of `h u w` over the consecutive pairs of a path. -/
def pathSum (h : Vector2 α → Vector2 α → α) : List (Vector2 α) → α
  | a :: b :: rest => h a b + pathSum h (b :: rest)
  | _ => 0

/-- The shoelace term `f = v[k].x * v[k+1].y - v[k+1].x * v[k].y`. -/
def shoelace (a b : Vector2 α) : α := a.x * b.y - b.x * a.y

/-- The term `f * (v[k].x + v[k+1].x)` of `centroidx`. -/
def centroidTermX (a b : Vector2 α) : α := shoelace a b * (a.x + b.x)

/-- The term `f * (v[k].y + v[k+1].y)` of `centroidy`. -/
def centroidTermY (a b : Vector2 α) : α := shoelace a b * (a.y + b.y)

/-- The closed box `[x0, x1] x [y0, y1]`. -/
def inBox (x0 y0 x1 y1 : α) (p : Vector2 α) : Prop :=
  x0 ≤ p.x ∧ p.x ≤ x1 ∧ y0 ≤ p.y ∧ p.y ≤ y1

/-- The vertex ring left by the four clip passes of `clipAABox`. -/
def clipBoxRing (x0 y0 x1 y1 : α) (vs : List (Vector2 α)) : List (Vector2 α) :=
  let r1 := clipPath (insideV x0 (-1)) (isectV x0) (closeRing vs)
  let r2 := clipPath (insideH y0 (-1)) (isectH y0) (closeRing r1)
  let r3 := clipPath (insideV x1 1) (isectV x1) (closeRing r2)
  clipPath (insideH y1 1) (isectH y1) (closeRing r3)

end SpecDefs

section TraceDefs

variable {α : Type} [LinearOrderedField α] {σ : Type}

/-- The values `x, x + step, ..., x + (n-1) * step` taken by a loop variable. -/
def steps (step : α) : Nat → α → List α
  | 0, _ => []
  | n + 1, x => x :: steps step n (x + step)

/-- A loop body run over a list of values of the loop variable, stopping at
the first body that asks to return. -/
def loopList {S : Type} (body : α → S → S × Bool) : List α → S → S × Bool
  | [], s => (s, true)
  | x :: xs, s =>
    let r := body x s
    if r.2 then loopList body xs r.1 else (r.1, false)

/-- A callback applied to a list of calls in order, stopping after the first
call on which it returns false. -/
def runCalls (cb : SamplingCallback σ α) : List (Call α) → σ → σ × Bool
  | [], s => (s, true)
  | c :: cs, s =>
    let r := cb s c
    if r.2 then runCalls cb cs r.1 else (r.1, false)

/-- The calls of a loop whose body, at loop value `x` and carried values `c`,
makes the calls `f x c` and carries `g x c` on. -/
def unrollCalls {C : Type} (f : α → C → List (Call α)) (g : α → C → C) :
    List α → C → List (Call α)
  | [], _ => []
  | x :: xs, c => f x c ++ unrollCalls f g xs (g x c)

/-- The carried values after such a loop. -/
def unrollCarry {C : Type} (g : α → C → C) : List α → C → C
  | [], c => c
  | x :: xs, c => unrollCarry g xs (g x c)

/-- A loop result `r` agrees with making the calls `calls` from callback
state `s` and, when it does not return early, carrying `c'` on. -/
def Emits {C : Type} (cb : SamplingCallback σ α) (r : (C × σ) × Bool)
    (calls : List (Call α)) (c' : C) (s : σ) : Prop :=
  r.2 = (runCalls cb calls s).2 ∧ r.1.2 = (runCalls cb calls s).1 ∧ (r.2 = true → r.1.1 = c')

end TraceDefs

section DrawCallsDefs

variable {α : Type} [LinearOrderedField α] [FloorRing α] {σ : Type}

/-- The call made for one pixel of a wholly covered block. -/
def fullPixelCalls (t : Triangle α) (y x : α) (tex : Vector3 α) : List (Call α) :=
  [⟨truncInt x, truncInt y, tex, t.dx, t.dy, 1⟩]

/-- The calls made for one row of a wholly covered block. -/
def fullRowCalls (t : Triangle α) (x0 y : α) (texRow : Vector3 α) : List (Call α) :=
  unrollCalls (fullPixelCalls t y) (fun _ tex => tex.add t.dx) (steps 1 8 x0) texRow

/-- The calls made for a wholly covered block. -/
def fullBlockCalls (t : Triangle α) (y0 x0 : α) : List (Call α) :=
  unrollCalls (fullRowCalls t x0) (fun _ texRow => texRow.add t.dy) (steps 1 8 y0)
    ((t.t1.add (t.dy.smul (y0 - t.v1.y))).add (t.dx.smul (x0 - t.v1.x)))

/-- The clipper run for the pixel with centre `(x, y)` (source lines 404-405). -/
def pixelClip (t : Triangle α) (x y : α) : ClippedTriangle α :=
  (ClippedTriangle.new (t.v1.sub ⟨x, y⟩) (t.v2.sub ⟨x, y⟩) (t.v3.sub ⟨x, y⟩)).clipAABox
    (-(1 / 2)) (-(1 / 2)) (1 / 2) (1 / 2)

/-- The call made for one pixel of a partially covered block, if any. -/
def partialPixelCalls (t : Triangle α) (PX_INSIDE PX_OUTSIDE : α) (y x : α)
    (cx : EdgeState α) : List (Call α) :=
  if nanGE cx.C1 PX_INSIDE && nanGE cx.C2 PX_INSIDE && nanGE cx.C3 PX_INSIDE then
    [⟨truncInt x, truncInt y, (t.t1.add (t.dx.smul (x - t.v1.x))).add (t.dy.smul (y - t.v1.y)),
      t.dx, t.dy, 1⟩]
  else if nanGE cx.C1 PX_OUTSIDE && nanGE cx.C2 PX_OUTSIDE && nanGE cx.C3 PX_OUTSIDE then
    if (pixelClip t x y).area > 0 then
      [⟨truncInt x, truncInt y,
        (cx.tex.sub (t.dx.smul (pixelClip t x y).centroid.x)).sub
          (t.dy.smul (pixelClip t x y).centroid.y),
        t.dx, t.dy, (pixelClip t x y).area⟩]
    else []
  else []

/-- The step `CX1 += n1.x; CX2 += n2.x; CX3 += n3.x; tex += dx`. -/
def stepX (t : Triangle α) (cx : EdgeState α) : EdgeState α :=
  { C1 := nanAdd cx.C1 (t.n1.map Vector2.x),
    C2 := nanAdd cx.C2 (t.n2.map Vector2.x),
    C3 := nanAdd cx.C3 (t.n3.map Vector2.x),
    tex := cx.tex.add t.dx }

/-- The step `CY1 += n1.y; CY2 += n2.y; CY3 += n3.y; texRow += dy`. -/
def stepY (t : Triangle α) (cy : EdgeState α) : EdgeState α :=
  { C1 := nanAdd cy.C1 (t.n1.map Vector2.y),
    C2 := nanAdd cy.C2 (t.n2.map Vector2.y),
    C3 := nanAdd cy.C3 (t.n3.map Vector2.y),
    tex := cy.tex.add t.dy }

/-- The calls made for one row of a partially covered block. -/
def partialRowCalls (t : Triangle α) (PX_INSIDE PX_OUTSIDE x0 y : α) (cy : EdgeState α) :
    List (Call α) :=
  unrollCalls (partialPixelCalls t PX_INSIDE PX_OUTSIDE y) (fun _ cx => stepX t cx)
    (steps 1 8 x0) cy

/-- The calls made for a partially covered block. -/
def partialBlockCalls (t : Triangle α) (PX_INSIDE PX_OUTSIDE : α) (C1 C2 C3 : Option α)
    (y0 x0 : α) : List (Call α) :=
  unrollCalls (partialRowCalls t PX_INSIDE PX_OUTSIDE x0) (fun _ cy => stepY t cy)
    (steps 1 8 y0)
    { C1 := halfSpace C1 t.n1 x0 y0, C2 := halfSpace C2 t.n2 x0 y0,
      C3 := halfSpace C3 t.n3 x0 y0,
      tex := (t.t1.add (t.dy.smul (y0 - t.v1.y))).add (t.dx.smul (x0 - t.v1.x)) }

/-- The calls made for the block with first pixel centre `(x0, y0)`. -/
def blockCalls (t : Triangle α) (PX_INSIDE PX_OUTSIDE BK_INSIDE BK_OUTSIDE : α)
    (C1 C2 C3 : Option α) (y0 x0 : α) : List (Call α) :=
  if nanLE (halfSpace C1 t.n1 (x0 + (8 - 1) / 2) (y0 + (8 - 1) / 2)) BK_OUTSIDE
      || nanLE (halfSpace C2 t.n2 (x0 + (8 - 1) / 2) (y0 + (8 - 1) / 2)) BK_OUTSIDE
      || nanLE (halfSpace C3 t.n3 (x0 + (8 - 1) / 2) (y0 + (8 - 1) / 2)) BK_OUTSIDE then []
  else if nanGE (halfSpace C1 t.n1 (x0 + (8 - 1) / 2) (y0 + (8 - 1) / 2)) BK_INSIDE
      && nanGE (halfSpace C2 t.n2 (x0 + (8 - 1) / 2) (y0 + (8 - 1) / 2)) BK_INSIDE
      && nanGE (halfSpace C3 t.n3 (x0 + (8 - 1) / 2) (y0 + (8 - 1) / 2)) BK_INSIDE then
    fullBlockCalls t y0 x0
  else partialBlockCalls t PX_INSIDE PX_OUTSIDE C1 C2 C3 y0 x0

/-- The lower bound `minx` of the block loop: first pixel centre of the
bounding rectangle (computed from the x coordinates; from the y coordinates
it is `miny`). -/
def loBound (a b c : α) : α := ((⌊((⌊max (min a (min b c)) 0⌋ : ℤ) : α)⌋ : ℤ) : α) + 1 / 2

/-- The upper bound `maxx` (or `maxy`) of the block loop. -/
def hiBound (a b c : α) : α := ((⌈max a (max b c)⌉ : ℤ) : α) + 1 / 2

/-- The number of iterations of a block loop `for (x0 = lo; x0 <= hi; x0 += 8)`. -/
def blockCount (lo hi : α) : Nat := (⌊(hi - lo) / 8⌋ + 1).toNat

/-- The sequence of callback invocations `drawAA` makes when the callback
never returns false. -/
def drawCalls (sqrtf : α → α) (t : Triangle α) : List (Call α) :=
  (steps 8 (blockCount (loBound t.v1.y t.v2.y t.v3.y) (hiBound t.v1.y t.v2.y t.v3.y))
      (loBound t.v1.y t.v2.y t.v3.y)).flatMap
    (fun y0 =>
      (steps 8 (blockCount (loBound t.v1.x t.v2.x t.v3.x) (hiBound t.v1.x t.v2.x t.v3.x))
          (loBound t.v1.x t.v2.x t.v3.x)).flatMap
        (blockCalls t (1 / sqrtf 2) (-1 / sqrtf 2) (sqrtf (8 * 8 / 2)) (-sqrtf (8 * 8 / 2))
          (halfEdgeConstant t.n1 t.v1) (halfEdgeConstant t.n2 t.v2)
          (halfEdgeConstant t.n3 t.v3) y0))

end DrawCallsDefs

section RecordDefs

variable {α : Type} {σ : Type}

/-- The callback `cb` instrumented with a log: every invocation is appended
to the log together with the value `cb` returned for it. -/
def record (cb : SamplingCallback σ α) : SamplingCallback (σ × List (Call α × Bool)) α :=
  fun st c => ((( cb st.1 c).1, st.2 ++ [(c, (cb st.1 c).2)]), (cb st.1 c).2)

/-- A log in which only the last entry, if any, has the callback returning
false. -/
def FalseOnlyLast (log : List (Call α × Bool)) : Prop :=
  ∀ (pre post : List (Call α × Bool)) (e : Call α × Bool),
    log = pre ++ e :: post → e.2 = false → post = []

end RecordDefs

section PixelDefs

variable {α : Type} [LinearOrderedField α] [FloorRing α]

/-- The values `CX1`, `CX2`, `CX3`, `tex` evaluated directly at the pixel
centre `(x, y)`. -/
def edgeAt (t : Triangle α) (C1 C2 C3 : Option α) (x y : α) : EdgeState α :=
  { C1 := halfSpace C1 t.n1 x y, C2 := halfSpace C2 t.n2 x y, C3 := halfSpace C3 t.n3 x y,
    tex := t.interp ⟨x, y⟩ }

/-- The calls `drawAA` makes for the pixel with centre `(x, y)` of the block
with first pixel centre `(x0, y0)`, with every carried value evaluated
directly at `(x, y)`. -/
def pixelCallsAt (t : Triangle α) (PX_INSIDE PX_OUTSIDE BK_INSIDE BK_OUTSIDE : α)
    (C1 C2 C3 : Option α) (y0 x0 y x : α) : List (Call α) :=
  if nanLE (halfSpace C1 t.n1 (x0 + (8 - 1) / 2) (y0 + (8 - 1) / 2)) BK_OUTSIDE
      || nanLE (halfSpace C2 t.n2 (x0 + (8 - 1) / 2) (y0 + (8 - 1) / 2)) BK_OUTSIDE
      || nanLE (halfSpace C3 t.n3 (x0 + (8 - 1) / 2) (y0 + (8 - 1) / 2)) BK_OUTSIDE then []
  else if nanGE (halfSpace C1 t.n1 (x0 + (8 - 1) / 2) (y0 + (8 - 1) / 2)) BK_INSIDE
      && nanGE (halfSpace C2 t.n2 (x0 + (8 - 1) / 2) (y0 + (8 - 1) / 2)) BK_INSIDE
      && nanGE (halfSpace C3 t.n3 (x0 + (8 - 1) / 2) (y0 + (8 - 1) / 2)) BK_INSIDE then
    [⟨truncInt x, truncInt y, t.interp ⟨x, y⟩, t.dx, t.dy, 1⟩]
  else partialPixelCalls t PX_INSIDE PX_OUTSIDE y x (edgeAt t C1 C2 C3 x y)

end PixelDefs

section GridDefs

variable {α : Type} [LinearOrderedField α] [FloorRing α]

/-- The pixel column (or row) of the first pixel of the bounding rectangle:
`floorf(max(min(a, min(b, c)), 0))`. -/
def loPixel (a b c : α) : Int := ⌊max (min a (min b c)) 0⌋

/-- The calls `drawAA` makes for pixel `(k, r)` of block `(bx, by)`. -/
def pixelCalls (sqrtf : α → α) (t : Triangle α) (bY bX r k : Nat) : List (Call α) :=
  pixelCallsAt t (1 / sqrtf 2) (-1 / sqrtf 2) (sqrtf (8 * 8 / 2)) (-sqrtf (8 * 8 / 2))
    (halfEdgeConstant t.n1 t.v1) (halfEdgeConstant t.n2 t.v2) (halfEdgeConstant t.n3 t.v3)
    (loBound t.v1.y t.v2.y t.v3.y + bY * 8) (loBound t.v1.x t.v2.x t.v3.x + bX * 8)
    (loBound t.v1.y t.v2.y t.v3.y + bY * 8 + r) (loBound t.v1.x t.v2.x t.v3.x + bX * 8 + k)

end GridDefs

section GeometryDefs

variable {α : Type} [LinearOrderedField α]

/-- The point `a + t * (b - a)` of the segment from `a` to `b`. -/
def lerp (a b : Vector2 α) (t : α) : Vector2 α :=
  ⟨a.x + t * (b.x - a.x), a.y + t * (b.y - a.y)⟩

/-- A set of points that contains the segment between any two of its points. -/
def ConvexPred (P : Vector2 α → Prop) : Prop :=
  ∀ a b t, P a → P b → 0 ≤ t → t ≤ 1 → P (lerp a b t)

/-- The closed triangle with vertices `a`, `b`, `c` (their convex hull), also
when the vertices are collinear. -/
def inTriangle (a b c p : Vector2 α) : Prop :=
  ∃ l1 l2 l3 : α, 0 ≤ l1 ∧ 0 ≤ l2 ∧ 0 ≤ l3 ∧ l1 + l2 + l3 = 1 ∧
    p.x = l1 * a.x + l2 * b.x + l3 * c.x ∧ p.y = l1 * a.y + l2 * b.y + l3 * c.y

end GeometryDefs

section VariationDefs

variable {α : Type} [LinearOrderedField α]

/-- The value `y` clamped to `[lo, hi]`. -/
def clampTo (lo hi y : α) : α := max lo (min y hi)

/-- The distance between the clamped heights of two points. -/
def clampedRise (lo hi : α) (u w : Vector2 α) : α := |clampTo lo hi w.y - clampTo lo hi u.y|

end VariationDefs

section EdgeDefs

variable {α : Type} [LinearOrderedField α]

/-- What is assumed of `sqrtf`: on non-negative arguments it returns the
non-negative square root. -/
def IsSqrt (sqrtf : α → α) : Prop := ∀ x, 0 ≤ x → 0 ≤ sqrtf x ∧ sqrtf x * sqrtf x = x

/-- The length `sqrtf(n.x * n.x + n.y * n.y)` that `computeUnitInwardNormals`
divides by, for `n = (-(a - b).y, (a - b).x)`. -/
def edgeLen (sqrtf : α → α) (a b : Vector2 α) : α :=
  sqrtf (-(a.y - b.y) * -(a.y - b.y) + (a.x - b.x) * (a.x - b.x))

/-- The half-space function of the edge starting at `a`, with normal
`unitNormal sqrtf a b`, at the point `(x, y)`: the constant
`n.x * (-a.x) + n.y * (-a.y)` plus `n.x * x + n.y * y`, as `drawAA` forms it. -/
def edgeFn (sqrtf : α → α) (a b : Vector2 α) (x y : α) : Option α :=
  halfSpace (halfEdgeConstant (unitNormal sqrtf a b) a) (unitNormal sqrtf a b) x y

end EdgeDefs

section ClassifyDefs

variable {α : Type} [LinearOrderedField α] [FloorRing α]

/-- The half-space function of edge `v1 v2` at `(x, y)`, as `drawAA` forms it
with `C1` and `n1`. -/
def Triangle.e1 (t : Triangle α) (x y : α) : Option α :=
  halfSpace (halfEdgeConstant t.n1 t.v1) t.n1 x y

/-- The half-space function of edge `v2 v3` at `(x, y)`. -/
def Triangle.e2 (t : Triangle α) (x y : α) : Option α :=
  halfSpace (halfEdgeConstant t.n2 t.v2) t.n2 x y

/-- The half-space function of edge `v3 v1` at `(x, y)`. -/
def Triangle.e3 (t : Triangle α) (x y : α) : Option α :=
  halfSpace (halfEdgeConstant t.n3 t.v3) t.n3 x y

/-- All three half-space functions at `(x, y)` are `>= c`. -/
def Triangle.allGE (t : Triangle α) (c x y : α) : Bool :=
  nanGE (t.e1 x y) c && nanGE (t.e2 x y) c && nanGE (t.e3 x y) c

/-- Some half-space function at `(x, y)` is `<= c`. -/
def Triangle.anyLE (t : Triangle α) (c x y : α) : Bool :=
  nanLE (t.e1 x y) c || nanLE (t.e2 x y) c || nanLE (t.e3 x y) c

/-- The centre of pixel `i` of block `b` in a block loop that starts at `lo`. -/
def centreOf (lo : α) (b i : Nat) : α := lo + b * 8 + i

/-- The centre of block `b`: `x0 + (BK_SIZE - 1) / 2`. -/
def blockCentre (lo : α) (b : Nat) : α := lo + b * 8 + (8 - 1) / 2

end ClassifyDefs

section ExampleDefs

/-- A callback without state that always returns true. -/
def alwaysTrue {α : Type} : SamplingCallback Unit α := fun s _ => (s, true)

end ExampleDefs

section RingDefs

variable {α : Type} [LinearOrderedField α]

/-- The part of an edge functional `F` that a clip pass keeps of the edge from
`a` to `b`: the whole edge, the piece up to or from the inserted vertex, or
nothing. -/
def inPart (ins : Vector2 α → Bool) (isect : Vector2 α → Vector2 α → Vector2 α)
    (F : Vector2 α → Vector2 α → α) (a b : Vector2 α) : α :=
  if ins a then (if ins b then F a b else F a (isect a b))
  else (if ins b then F (isect a b) b else 0)

/-- Every pair of consecutive vertices of a path satisfies `O`. -/
def pairsAll (O : Vector2 α → Vector2 α → Prop) : List (Vector2 α) → Prop
  | a :: b :: rest => O a b ∧ pairsAll O (b :: rest)
  | _ => True

/-- The vertices a clip pass emits for the edge from `a` to `b`. -/
def emitEdge (ins : Vector2 α → Bool) (isect : Vector2 α → Vector2 α → Vector2 α)
    (a b : Vector2 α) : List (Vector2 α) :=
  (if ins a then [a] else []) ++ (if ins a != ins b then [isect a b] else [])

end RingDefs

section StarDefs

variable {α : Type} [LinearOrderedField α]

/-- The edge from `u` to `w` turns around `q` in the sense of the sign `s`
(counter-clockwise for `s = 1`), or is seen from `q` under no angle:
`s * cross(u - q, w - q) >= 0`. -/
def starRel (s : α) (q u w : Vector2 α) : Prop := 0 ≤ s * cross2 q u w

end StarDefs

section FormDefs

variable {α : Type} [LinearOrderedField α]

/-- Twice the area between the edge from `u` to `w` and the line `y = y1`,
signed: `-(u.y + w.y - 2 * y1) * (w.x - u.x)`. Around a ring it sums to the
shoelace sum. -/
def capForm (y1 : α) (u w : Vector2 α) : α := -(u.y + w.y - 2 * y1) * (w.x - u.x)

/-- The potential `2 * (y1 - y0) * min p.x x1`, whose differences are what
the last two clip passes keep of edges on the line `y = y0`. -/
def stripPot (y0 x1 y1 : α) (p : Vector2 α) : α := 2 * (y1 - y0) * min p.x x1

/-- What the last two clip passes keep of `capForm`, made to vanish on the
line `y = y0`. -/
def stripForm (y0 x1 y1 : α) (u w : Vector2 α) : α :=
  inPart (insideV x1 1) (isectV x1) (inPart (insideH y1 1) (isectH y1) (capForm y1)) u w
    - (stripPot y0 x1 y1 w - stripPot y0 x1 y1 u)

/-- The contribution of the edge from `u` to `w` of a ring to the shoelace sum
of the ring clipped to the box: what the four clip passes keep of it. -/
def boxForm (x0 y0 x1 y1 : α) (u w : Vector2 α) : α :=
  inPart (insideV x0 (-1)) (isectV x0)
    (inPart (insideH y0 (-1)) (isectH y0) (stripForm y0 x1 y1)) u w

end FormDefs

section ClipSumDefs

variable {α : Type} [LinearOrderedField α]

/-- The shoelace sum (twice the signed area) of the ring that the four clip
passes leave of the triangle `(a, b, c)`. -/
def clipSum (x0 y0 x1 y1 : α) (a b c : Vector2 α) : α :=
  pathSum shoelace (closeRing (clipBoxRing x0 y0 x1 y1 [a, b, c]))

end ClipSumDefs

section WalkDefs

variable {α : Type} [LinearOrderedField α]

/-- The edge from `u` to `w` lies on the boundary of the box and runs
clockwise (up the left side, right along the top, down the right side, left
along the bottom), or is a single point. -/
def cwSideEdge (x0 y0 x1 y1 : α) (u w : Vector2 α) : Prop :=
  u = w ∨ (u.x = x0 ∧ w.x = x0 ∧ u.y ≤ w.y) ∨ (u.y = y1 ∧ w.y = y1 ∧ u.x ≤ w.x) ∨
    (u.x = x1 ∧ w.x = x1 ∧ w.y ≤ u.y) ∨ (u.y = y0 ∧ w.y = y0 ∧ w.x ≤ u.x)

/-- Twice the area swept, seen from the corner `(x0, y0)`, by going clockwise
along the boundary of the box from that corner to the boundary point `p`. -/
def sweptArea (x0 y0 x1 y1 : α) (p : Vector2 α) : α :=
  if p.x = x0 then 0
  else if p.y = y1 then (y1 - y0) * (p.x - x0)
  else if p.x = x1 then (x1 - x0) * (y1 - y0) + (x1 - x0) * (y1 - p.y)
  else 2 * ((x1 - x0) * (y1 - y0))

/-- Whether the edge from `u` to `w` arrives at the corner `(x0, y0)` along the
bottom side: `1` if so, else `0`. -/
def wrapsAround (x0 y0 : α) (u w : Vector2 α) : α :=
  if w.x = x0 ∧ u.x ≠ x0 ∧ u.y = y0 then 1 else 0

end WalkDefs

section KeyDefs

/-- The pixel a call is made for. -/
def pixelKey {α : Type} (c : Call α) : Int × Int := (c.x, c.y)

end KeyDefs

section CountDefs

variable {α : Type} [LinearOrderedField α]

/-- The number of consecutive pairs of a path on which `g` changes. -/
def changes (g : Vector2 α → Bool) : List (Vector2 α) → Nat
  | a :: b :: rest => (if g a != g b then 1 else 0) + changes g (b :: rest)
  | _ => 0

/-- A path with the intersection vertex of a clip pass inserted on every edge
that has exactly one end inside. -/
def crossPath (ins : Vector2 α → Bool) (isect : Vector2 α → Vector2 α → Vector2 α) :
    List (Vector2 α) → List (Vector2 α)
  | a :: b :: rest =>
    (a :: (if ins a != ins b then [isect a b] else [])) ++ crossPath ins isect (b :: rest)
  | l => l

end CountDefs

section CountDefs2

variable {α : Type} [LinearOrderedField α]

/-- Around the closed ring, the inside test of every vertical and of every
horizontal clip plane changes at most twice. -/
def AtMostTwoChanges (vs : List (Vector2 α)) : Prop :=
  ∀ off dir : α, changes (insideV off dir) (closeRing vs) ≤ 2 ∧
    changes (insideH off dir) (closeRing vs) ≤ 2

end CountDefs2

section CentroidDefs

variable {α : Type} [LinearOrderedField α]

/-- The area centroid of the polygon with vertex ring `vs`, by the formula
`C = (1 / (6 A)) * sum (v[k] + v[k+1]) * f[k]` with the signed area
`A = (1 / 2) * sum f[k]` and `f[k] = v[k].x * v[k+1].y - v[k+1].x * v[k].y`. -/
def polygonCentroid (vs : List (Vector2 α)) : Vector2 α :=
  ⟨pathSum centroidTermX (closeRing vs) / (6 * ((1 / 2) * pathSum shoelace (closeRing vs))),
   pathSum centroidTermY (closeRing vs) / (6 * ((1 / 2) * pathSum shoelace (closeRing vs)))⟩

end CentroidDefs

section LineDefs

variable {α : Type} [LinearOrderedField α]

/-- Where the parameter `t` of the point `c0 + t * cd` of a line goes when the
line is cut to the half-plane `dir * (off - c) >= 0` of a clip pass: to itself
when the point is inside, else to the parameter of the point on the clip line
(to `0` when the whole line is outside). -/
def lineClamp (dir off c0 cd t : α) : α :=
  if 0 < -(dir * cd) then max t ((off - c0) / cd)
  else if -(dir * cd) < 0 then min t ((off - c0) / cd)
  else if 0 ≤ dir * (off - c0) then t
  else 0

/-- Along the line through `u` and `w`, the functional `F` is the difference
of the function `P` of the parameter. -/
def HasPot (u w : Vector2 α) (F : Vector2 α → Vector2 α → α) (P : α → α) : Prop :=
  ∀ s e, s ≤ e → F (lerp u w s) (lerp u w e) = P e - P s

end LineDefs

section RowDefs

variable {α : Type} [LinearOrderedField α]

/-- What the two horizontal clip passes of the rows `y0 <= y <= y1` keep of
`capForm`, made to vanish on the line `y = y0`: the contribution of an edge to
the shoelace sum of the ring clipped to the strip between the two lines. -/
def rowForm (y0 y1 : α) (u w : Vector2 α) : α :=
  inPart (insideH y0 (-1)) (isectH y0)
    (fun a b => inPart (insideH y1 1) (isectH y1) (capForm y1) a b
      - 2 * (y1 - y0) * (b.x - a.x)) u w

/-- The potential of `capForm y1` along the line through `u` and `w`. -/
def capPot (u w : Vector2 α) (y1 t : α) : α :=
  -(w.x - u.x) * (2 * (u.y - y1) * t + (w.y - u.y) * (t * t))

/-- The potential along the line through `u` and `w` of what the clip pass at
`y1` keeps of `capForm y1`, less `2 * (y1 - y0)` times the abscissa. -/
def rowPot (u w : Vector2 α) (y0 y1 t : α) : α :=
  capPot u w y1 (lineClamp 1 y1 u.y (w.y - u.y) t) - 2 * (y1 - y0) * (u.x + t * (w.x - u.x))

end RowDefs

section RowSumDefs

variable {α : Type} [LinearOrderedField α]

/-- The function of the ordinate whose differences along an edge, times minus
the inverse slope of the edge, are `rowForm y0 y1`. -/
def rowW (y0 y1 y : α) : α :=
  (min (max y y0) y1 - y1) * (min (max y y0) y1 - y1) + 2 * (y1 - y0) * max y y0

end RowSumDefs

section OverlapDefs

variable {α : Type} [LinearOrderedField α]

/-- The interior of the triangle `(a, b, c)`: the points strictly on the
inner side of all three edge lines, for either orientation of the vertices.
It is empty when the vertices are collinear. -/
def inOpenTriangle (a b c p : Vector2 α) : Prop :=
  (0 < cross2 a b p ∧ 0 < cross2 b c p ∧ 0 < cross2 c a p) ∨
  (cross2 a b p < 0 ∧ cross2 b c p < 0 ∧ cross2 c a p < 0)

/-- The open box `(x0, x1) x (y0, y1)`. -/
def inOpenBox (x0 y0 x1 y1 : α) (p : Vector2 α) : Prop :=
  x0 < p.x ∧ p.x < x1 ∧ y0 < p.y ∧ p.y < y1

end OverlapDefs

/-! ## Binary32 arithmetic -/

/-- A value of the C type `float` (IEEE 754 binary32): the finite value
`(-1)^neg * mag * 2^(-149)`, an infinity, or a NaN.  The finite values of the
format are those with `mag < 2^277` whose `mag` is a multiple of the spacing
`ulp mag` (24 significant bits); every operation below returns such a value. -/
inductive F32 where
  | fin (neg : Bool) (mag : Nat)
  | inf (neg : Bool)
  | nan
deriving DecidableEq

namespace F32

/-- The exponent `k` of the spacing `2^k` of binary32 values around the
magnitude `f` (in units of `2^(-149)`): `0` below `2^24`, and otherwise the
`k` with `2^(23 + k) <= f < 2^(24 + k)`.  It is found bit by bit, from bit `b`
down: `ulpExp (b + 1) f k` adds `2^b` to `k` when `2^(23 + k + 2^b) <= f`. -/
def ulpExp : Nat → Nat → Nat → Nat
  | 0, _, k => k
  | b + 1, f, k => if 2 ^ (23 + k + 2 ^ b) ≤ f then ulpExp b f (k + 2 ^ b) else ulpExp b f k

/-- The spacing of binary32 values around the magnitude `f < 2^1047` (in
units of `2^(-149)`): `1` below `2^24`, doubling with every further binade. -/
def ulp (f : Nat) : Nat := 2 ^ ulpExp 10 f 0

/-- Round the magnitude `p / q` (in units of `2^(-149)`, `q > 0`) to the
nearest binary32 magnitude, ties to the even significand; `none` on
overflow, where the rounded magnitude is `2^128` or more. -/
def roundMag (p q : Nat) : Option Nat :=
  let e := ulp (p / q)
  let d := q * e
  let m := p / d
  let r := p % d
  let m := if d < 2 * r ∨ (2 * r = d ∧ m % 2 = 1) then m + 1 else m
  if m * e < 2 ^ 277 then some (m * e) else none

/-- The binary32 value nearest to `(-1)^neg * p / (q * 2^149)`. -/
def round (neg : Bool) (p q : Nat) : F32 :=
  match roundMag p q with
  | some m => fin neg m
  | none => inf neg

/-- The `float` nearest to the integer `n`; exact for `|n| <= 2^24`. -/
def ofInt (n : Int) : F32 := round (decide (n < 0)) (n.natAbs * 2 ^ 149) 1

/-- The `float` nearest to `n / 2^k`; exact when `|n| <= 2^24` and the value
is in the normal range. -/
def ofScaled (n : Int) (k : Nat) : F32 := round (decide (n < 0)) (n.natAbs * 2 ^ 149) (2 ^ k)

/-- The literal `0.5f`. -/
def half : F32 := fin false (2 ^ 148)

/-- A value is a finite member of the binary32 format. -/
def isFloat : F32 → Bool
  | fin _ m => decide (m < 2 ^ 277) && decide (m % ulp m = 0)
  | _ => false

/-- The rational value of a finite `float` (`0` for an infinity or a NaN). -/
def toRat : F32 → ℚ
  | fin neg m => if neg then -((m : ℚ) / 2 ^ 149) else (m : ℚ) / 2 ^ 149
  | _ => 0

/-- `std::isfinite`. -/
def isFinite : F32 → Bool
  | fin _ _ => true
  | _ => false

/-- Unary minus. -/
def neg : F32 → F32
  | fin s m => fin (!s) m
  | inf s => inf (!s)
  | nan => nan

/-- `fabsf`. -/
def abs : F32 → F32
  | fin _ m => fin false m
  | inf _ => inf false
  | nan => nan

/-- Addition, rounded to nearest.  An exact zero sum of opposite signs is
`+0`. -/
def add : F32 → F32 → F32
  | nan, _ => nan
  | _, nan => nan
  | inf a, inf b => if a = b then inf a else nan
  | inf a, fin _ _ => inf a
  | fin _ _, inf b => inf b
  | fin sa ma, fin sb mb =>
    if sa = sb then round sa (ma + mb) 1
    else if ma = mb then fin false 0
    else if mb < ma then round sa (ma - mb) 1
    else round sb (mb - ma) 1

/-- Subtraction, rounded to nearest. -/
def sub (a b : F32) : F32 := add a (neg b)

/-- Multiplication, rounded to nearest. -/
def mul : F32 → F32 → F32
  | nan, _ => nan
  | _, nan => nan
  | inf a, inf b => inf (a != b)
  | inf a, fin sb mb => if mb = 0 then nan else inf (a != sb)
  | fin sa ma, inf b => if ma = 0 then nan else inf (sa != b)
  | fin sa ma, fin sb mb => round (sa != sb) (ma * mb) (2 ^ 149)

/-- Division, rounded to nearest; `x / 0` is an infinity for `x` not zero and
NaN for `x` zero. -/
def div : F32 → F32 → F32
  | nan, _ => nan
  | _, nan => nan
  | inf _, inf _ => nan
  | inf a, fin sb _ => inf (a != sb)
  | fin sa _, inf b => fin (sa != b) 0
  | fin sa ma, fin sb mb =>
    if mb = 0 then (if ma = 0 then nan else inf (sa != sb))
    else round (sa != sb) (ma * 2 ^ 149) mb

/-- The integer square root, by bisection on the bits below `2^k`: the
largest `r + j` with `j < 2^k` and `(r + j)^2 <= n`, provided `r^2 <= n`. -/
def isqrt : Nat → Nat → Nat → Nat
  | 0, _, r => r
  | k + 1, n, r => if (r + 2 ^ k) * (r + 2 ^ k) ≤ n then isqrt k n (r + 2 ^ k) else isqrt k n r

/-- `sqrtf`, correctly rounded.  The square root of `mag * 2^(-149)` is
`sqrt (mag * 2^149)` units; it lies below `2^213`, is never a rounding tie,
and exceeds the midpoint `(m + 1/2) * e` of two neighbours exactly when
`4 * mag * 2^149 > ((2 * m + 1) * e)^2`. -/
def sqrt : F32 → F32
  | nan => nan
  | inf s => if s then nan else inf false
  | fin s mag =>
    if mag = 0 then fin s 0
    else if s then nan
    else
      let n := mag * 2 ^ 149
      let r := isqrt 256 n 0
      let e := ulp r
      let m := r / e
      let m := if ((2 * m + 1) * e) * ((2 * m + 1) * e) < 4 * n then m + 1 else m
      fin false (m * e)

/-- The comparison `a < b`; false when an operand is NaN. -/
def lt : F32 → F32 → Bool
  | nan, _ => false
  | _, nan => false
  | inf a, inf b => a && !b
  | inf a, fin _ _ => a
  | fin _ _, inf b => !b
  | fin false ma, fin false mb => decide (ma < mb)
  | fin true ma, fin true mb => decide (mb < ma)
  | fin true ma, fin false mb => decide (0 < ma) || decide (0 < mb)
  | fin false _, fin true _ => false

/-- The comparison `a == b`; false when an operand is NaN, true for `-0` and
`+0`. -/
def eq : F32 → F32 → Bool
  | nan, _ => false
  | _, nan => false
  | inf a, inf b => a == b
  | inf _, fin _ _ => false
  | fin _ _, inf _ => false
  | fin sa ma, fin sb mb => (decide (ma = 0) && decide (mb = 0)) || (sa == sb && decide (ma = mb))

/-- The comparison `a <= b`. -/
def le (a b : F32) : Bool := lt a b || eq a b

/-- The comparison `a >= b`. -/
def ge (a b : F32) : Bool := le b a

/-- The comparison `a > b`. -/
def gt (a b : F32) : Bool := lt b a

/-- `std::min(a, b)`, which is `(b < a) ? b : a`. -/
def min (a b : F32) : F32 := if lt b a then b else a

/-- `std::max(a, b)`, which is `(a < b) ? b : a`. -/
def max (a b : F32) : F32 := if lt a b then b else a

/-- `floorf`. -/
def floor : F32 → F32
  | fin false m => fin false (m / 2 ^ 149 * 2 ^ 149)
  | fin true m => fin true ((m + (2 ^ 149 - 1)) / 2 ^ 149 * 2 ^ 149)
  | x => x

/-- `ceilf`. -/
def ceil : F32 → F32
  | fin false m => fin false ((m + (2 ^ 149 - 1)) / 2 ^ 149 * 2 ^ 149)
  | fin true m => fin true (m / 2 ^ 149 * 2 ^ 149)
  | x => x

/-- The cast `(int)x` of a finite value whose truncation fits an `int`:
truncation towards zero.  (The cast of any other value is undefined in C; it
is `0` here.) -/
def toInt : F32 → Int
  | fin false m => ((m / 2 ^ 149 : Nat) : Int)
  | fin true m => -((m / 2 ^ 149 : Nat) : Int)
  | _ => 0

instance : Add F32 := ⟨add⟩
instance : Sub F32 := ⟨sub⟩
instance : Mul F32 := ⟨mul⟩
instance : Div F32 := ⟨div⟩
instance : Neg F32 := ⟨neg⟩
instance (n : Nat) : OfNat F32 n := ⟨ofInt n⟩

end F32

/-! ## The clipper and the rasterizer in binary32

The same source functions again with `float` read as binary32: every
arithmetic operation is rounded to nearest (ties to even) on its own, with no
fused multiply-add and no excess precision.  The `7 + 1` slots of a vertex
buffer and the termination of the `float`-counted loops are no longer taken
for granted: an access outside a buffer, and a loop that has not ended after
`fuel` iterations, end the run with a `Fault`. -/

namespace Binary32

/-- What ends a run of the binary32 program without a result. -/
inductive Fault where
  /-- An access to a slot outside `m_verticesA` or `m_verticesB`. -/
  | outOfBounds
  /-- A loop has not ended after `fuel` iterations. -/
  | outOfFuel
deriving DecidableEq

deriving instance DecidableEq for Except

/-- `operator+(Vector2, Vector2)`. -/
def Vector2.add (a b : Vector2 F32) : Vector2 F32 := ⟨a.x + b.x, a.y + b.y⟩

/-- `operator-(Vector2, Vector2)`. -/
def Vector2.sub (a b : Vector2 F32) : Vector2 F32 := ⟨a.x - b.x, a.y - b.y⟩

/-- `operator*(Vector2, float)`. -/
def Vector2.smul (v : Vector2 F32) (s : F32) : Vector2 F32 := ⟨v.x * s, v.y * s⟩

/-- `operator+(Vector3, Vector3)`, also used for `operator+=`. -/
def Vector3.add (a b : Vector3 F32) : Vector3 F32 := ⟨a.x + b.x, a.y + b.y, a.z + b.z⟩

/-- `operator-(Vector3, Vector3)`. -/
def Vector3.sub (a b : Vector3 F32) : Vector3 F32 := ⟨a.x - b.x, a.y - b.y, a.z - b.z⟩

/-- `operator*(Vector3, float)`. -/
def Vector3.smul (v : Vector3 F32) (s : F32) : Vector3 F32 := ⟨v.x * s, v.y * s, v.z * s⟩

/-- The number of slots of `m_verticesA` and of `m_verticesB`. -/
def capacity : Nat := 7 + 1

/-- The `ClippedTriangle` class.  `m_vertices` is the content
`v[0 .. m_numVertices)` of the active vertex buffer. -/
structure ClippedTriangle where
  m_vertices : List (Vector2 F32)
  m_area : F32
  m_centroid : Vector2 F32
deriving DecidableEq

/-- The vertex count `m_numVertices`. -/
def ClippedTriangle.m_numVertices (ct : ClippedTriangle) : Nat := ct.m_vertices.length

/-- The constructor `ClippedTriangle(a, b, c)`. -/
def ClippedTriangle.new (a b c : Vector2 F32) : ClippedTriangle :=
  { m_vertices := [a, b, c], m_area := 0, m_centroid := ⟨0, 0⟩ }

/-- The active buffer after `v[m_numVertices] = v[0]`. -/
def closeRing (vs : List (Vector2 F32)) : List (Vector2 F32) :=
  vs ++ [vs.headD ⟨0, 0⟩]

/-- One iteration of the loop of `clipHorizontalPlane`; the state is
`(v2[0..p), dy1, dy1in)`. -/
def clipHorizontalStep (v : List (Vector2 F32)) (offset clipdirection : F32)
    (st : List (Vector2 F32) × F32 × Nat) (k : Nat) : List (Vector2 F32) × F32 × Nat :=
  let v2 := st.1
  let dy1 := st.2.1
  let dy1in := st.2.2
  let vk := v.getD k ⟨0, 0⟩
  let vk1 := v.getD (k + 1) ⟨0, 0⟩
  let dy2 := offset - vk1.y
  let dy2in := if F32.ge (clipdirection * dy2) 0 then 1 else 0
  let v2 := if dy1in ≠ 0 then v2 ++ [vk] else v2
  let v2 :=
    if dy1in + dy2in = 1 then
      let dx := vk1.x - vk.x
      let dy := vk1.y - vk.y
      v2 ++ [⟨vk.x + dy1 * (dx / dy), offset⟩]
    else v2
  (v2, dy2, dy2in)

/-- `ClippedTriangle::clipHorizontalPlane`; a fault when `v[m_numVertices]` or
a slot `v2[p++]` lies outside its buffer. -/
def ClippedTriangle.clipHorizontalPlane (ct : ClippedTriangle) (offset clipdirection : F32) :
    Except Fault ClippedTriangle :=
  if ct.m_numVertices < capacity then
    let v := closeRing ct.m_vertices
    let dy1 := offset - (v.getD 0 ⟨0, 0⟩).y
    let dy1in := if F32.ge (clipdirection * dy1) 0 then 1 else 0
    let st := (List.range ct.m_numVertices).foldl (clipHorizontalStep v offset clipdirection)
      ([], dy1, dy1in)
    if st.1.length ≤ capacity then .ok { ct with m_vertices := st.1 } else .error .outOfBounds
  else .error .outOfBounds

/-- One iteration of the loop of `clipVerticalPlane`; the state is
`(v2[0..p), dx1, dx1in)`. -/
def clipVerticalStep (v : List (Vector2 F32)) (offset clipdirection : F32)
    (st : List (Vector2 F32) × F32 × Nat) (k : Nat) : List (Vector2 F32) × F32 × Nat :=
  let v2 := st.1
  let dx1 := st.2.1
  let dx1in := st.2.2
  let vk := v.getD k ⟨0, 0⟩
  let vk1 := v.getD (k + 1) ⟨0, 0⟩
  let dx2 := offset - vk1.x
  let dx2in := if F32.ge (clipdirection * dx2) 0 then 1 else 0
  let v2 := if dx1in ≠ 0 then v2 ++ [vk] else v2
  let v2 :=
    if dx1in + dx2in = 1 then
      let dx := vk1.x - vk.x
      let dy := vk1.y - vk.y
      v2 ++ [⟨offset, vk.y + dx1 * (dy / dx)⟩]
    else v2
  (v2, dx2, dx2in)

/-- `ClippedTriangle::clipVerticalPlane`; a fault when `v[m_numVertices]` or a
slot `v2[p++]` lies outside its buffer. -/
def ClippedTriangle.clipVerticalPlane (ct : ClippedTriangle) (offset clipdirection : F32) :
    Except Fault ClippedTriangle :=
  if ct.m_numVertices < capacity then
    let v := closeRing ct.m_vertices
    let dx1 := offset - (v.getD 0 ⟨0, 0⟩).x
    let dx1in := if F32.ge (clipdirection * dx1) 0 then 1 else 0
    let st := (List.range ct.m_numVertices).foldl (clipVerticalStep v offset clipdirection)
      ([], dx1, dx1in)
    if st.1.length ≤ capacity then .ok { ct with m_vertices := st.1 } else .error .outOfBounds
  else .error .outOfBounds

/-- One iteration of the loop of `computeAreaCentroid`; the state is
`(m_area, centroidx, centroidy)`. -/
def areaCentroidStep (v : List (Vector2 F32)) (st : F32 × F32 × F32) (k : Nat) :
    F32 × F32 × F32 :=
  let vk := v.getD k ⟨0, 0⟩
  let vk1 := v.getD (k + 1) ⟨0, 0⟩
  let f := vk.x * vk1.y - vk1.x * vk.y
  (st.1 + f, st.2.1 + f * (vk.x + vk1.x), st.2.2 + f * (vk.y + vk1.y))

/-- `ClippedTriangle::computeAreaCentroid`; a fault when `v[m_numVertices]`
lies outside the buffer. -/
def ClippedTriangle.computeAreaCentroid (ct : ClippedTriangle) : Except Fault ClippedTriangle :=
  if ct.m_numVertices < capacity then
    let v := closeRing ct.m_vertices
    let st := (List.range ct.m_numVertices).foldl (areaCentroidStep v) (0, 0, 0)
    let m_area := F32.half * F32.abs st.1
    if F32.eq m_area 0 then
      .ok { ct with m_area := m_area, m_centroid := ⟨0, 0⟩ }
    else
      .ok { ct with m_area := m_area,
                    m_centroid := ⟨st.2.1 / (6 * m_area), st.2.2 / (6 * m_area)⟩ }
  else .error .outOfBounds

/-- `ClippedTriangle::clipAABox`. -/
def ClippedTriangle.clipAABox (ct : ClippedTriangle) (x0 y0 x1 y1 : F32) :
    Except Fault ClippedTriangle :=
  match ct.clipVerticalPlane x0 (-1) with
  | .error e => .error e
  | .ok ct =>
    match ct.clipHorizontalPlane y0 (-1) with
    | .error e => .error e
    | .ok ct =>
      match ct.clipVerticalPlane x1 1 with
      | .error e => .error e
      | .ok ct =>
        match ct.clipHorizontalPlane y1 1 with
        | .error e => .error e
        | .ok ct => ct.computeAreaCentroid

/-- `ClippedTriangle::centroid`. -/
def ClippedTriangle.centroid (ct : ClippedTriangle) : Vector2 F32 := ct.m_centroid

/-- `ClippedTriangle::area`. -/
def ClippedTriangle.area (ct : ClippedTriangle) : F32 := ct.m_area

/-- The `Triangle` struct. -/
structure Triangle where
  v1 : Vector2 F32
  v2 : Vector2 F32
  v3 : Vector2 F32
  n1 : Vector2 F32
  n2 : Vector2 F32
  n3 : Vector2 F32
  t1 : Vector3 F32
  t2 : Vector3 F32
  t3 : Vector3 F32
  dx : Vector3 F32
  dy : Vector3 F32

/-- The edge-vector determinant `e0.y * e1.x - e1.y * e0.x` as
`computeDeltas` computes it, with `e0 = v3 - v1` and `e1 = v2 - v1`. -/
def Triangle.det (t : Triangle) : F32 :=
  let e0 := Vector2.sub t.v3 t.v1
  let e1 := Vector2.sub t.v2 t.v1
  e0.y * e1.x - e1.y * e0.x

/-- `Triangle::computeDeltas`: the new state of the triangle and the
returned Boolean. -/
def Triangle.computeDeltas (t : Triangle) : Triangle × Bool :=
  let e0 := Vector2.sub t.v3 t.v1
  let e1 := Vector2.sub t.v2 t.v1
  let de0 := Vector3.sub t.t3 t.t1
  let de1 := Vector3.sub t.t2 t.t1
  let denom := 1 / (e0.y * e1.x - e1.y * e0.x)
  if !F32.isFinite denom then (t, false)
  else
    let lambda1 := - e1.y * denom
    let lambda2 := e0.y * denom
    let lambda3 := e1.x * denom
    let lambda4 := - e0.x * denom
    ({ t with dx := Vector3.add (Vector3.smul de0 lambda1) (Vector3.smul de1 lambda2),
              dy := Vector3.add (Vector3.smul de0 lambda3) (Vector3.smul de1 lambda4) }, true)

/-- The three statements computing one normal in
`computeUnitInwardNormals`, for the edge from `b` to `a`. -/
def unitNormal (a b : Vector2 F32) : Vector2 F32 :=
  let n := Vector2.sub a b
  let n : Vector2 F32 := ⟨-n.y, n.x⟩
  Vector2.smul n (1 / F32.sqrt (n.x * n.x + n.y * n.y))

/-- `Triangle::computeUnitInwardNormals`. -/
def Triangle.computeUnitInwardNormals (t : Triangle) : Triangle :=
  { t with n1 := unitNormal t.v1 t.v2,
           n2 := unitNormal t.v2 t.v3,
           n3 := unitNormal t.v3 t.v1 }

/-- The constructor `Triangle(v0, v1, v2, t0, t1, t2)`.  `dx0`, `dy0` are the
indeterminate contents of the fields `dx`, `dy` before `computeDeltas`; the
constructor discards the Boolean returned by `computeDeltas`. -/
def Triangle.new (v0 v1 v2 : Vector2 F32) (t0 t1 t2 : Vector3 F32) (dx0 dy0 : Vector3 F32) :
    Triangle :=
  let t : Triangle :=
    { v1 := v0, v2 := v2, v3 := v1, n1 := ⟨0, 0⟩, n2 := ⟨0, 0⟩, n3 := ⟨0, 0⟩,
      t1 := t0, t2 := t2, t3 := t1, dx := dx0, dy := dy0 }
  Triangle.computeUnitInwardNormals t.computeDeltas.1

/-- The loop `for (float x = x; x < hi; x += step) body`, run for at most
`fuel` iterations.  The body maps the loop-carried state to its new value and
tells whether to go on (`false`: the function returns `false` from inside the
loop). -/
def forLT {S : Type} (step hi : F32) (body : F32 → S → Except Fault (S × Bool)) :
    Nat → F32 → S → Except Fault (S × Bool)
  | 0, _, _ => .error .outOfFuel
  | fuel + 1, x, s =>
    if F32.lt x hi then
      match body x s with
      | .error e => .error e
      | .ok r => if r.2 then forLT step hi body fuel (x + step) r.1 else .ok (r.1, false)
    else .ok (s, true)

/-- The loop `for (float x = x; x <= hi; x += step) body`, run for at most
`fuel` iterations. -/
def forLE {S : Type} (step hi : F32) (body : F32 → S → Except Fault (S × Bool)) :
    Nat → F32 → S → Except Fault (S × Bool)
  | 0, _, _ => .error .outOfFuel
  | fuel + 1, x, s =>
    if F32.le x hi then
      match body x s with
      | .error e => .error e
      | .ok r => if r.2 then forLE step hi body fuel (x + step) r.1 else .ok (r.1, false)
    else .ok (s, true)

section Draw

variable {σ : Type}

/-- Body of the inner loop of a wholly covered block (source lines 377-382);
the loop-carried state is `(tex, param)`. -/
def fullPixelBody (t : Triangle) (cb : SamplingCallback σ F32) (y x : F32)
    (st : Vector3 F32 × σ) : Except Fault ((Vector3 F32 × σ) × Bool) :=
  let tex := st.1
  let r := cb st.2 ⟨F32.toInt x, F32.toInt y, tex, t.dx, t.dy, 1⟩
  if r.2 then .ok ((Vector3.add tex t.dx, r.1), true) else .ok ((tex, r.1), false)

/-- Body of the row loop of a wholly covered block (source lines 375-384);
the loop-carried state is `(texRow, param)`. -/
def fullRowBody (fuel : Nat) (t : Triangle) (cb : SamplingCallback σ F32) (BK_SIZE x0 y : F32)
    (st : Vector3 F32 × σ) : Except Fault ((Vector3 F32 × σ) × Bool) :=
  let texRow := st.1
  let tex := texRow
  match forLT 1 (x0 + BK_SIZE) (fullPixelBody t cb y) fuel x0 (tex, st.2) with
  | .error e => .error e
  | .ok r =>
    if r.2 then .ok ((Vector3.add texRow t.dy, r.1.2), true) else .ok ((texRow, r.1.2), false)

/-- The values carried by the loops of a partially covered block besides
the callback state: `CX1`, `CX2`, `CX3`, `tex` in the pixel loop and
`CY1`, `CY2`, `CY3`, `texRow` in the row loop. -/
structure EdgeState where
  C1 : F32
  C2 : F32
  C3 : F32
  tex : Vector3 F32

/-- The classification of one pixel of a partially covered block and the
callback invocation it makes, if any (source lines 396-418): the new
callback state and whether rasterization goes on. -/
def partialPixel (t : Triangle) (cb : SamplingCallback σ F32) (PX_INSIDE PX_OUTSIDE : F32)
    (y x : F32) (cx : EdgeState) (param : σ) : Except Fault (σ × Bool) :=
  if F32.ge cx.C1 PX_INSIDE && F32.ge cx.C2 PX_INSIDE && F32.ge cx.C3 PX_INSIDE then
    let tex2 := Vector3.add (Vector3.add t.t1 (Vector3.smul t.dx (x - t.v1.x)))
      (Vector3.smul t.dy (y - t.v1.y))
    .ok (cb param ⟨F32.toInt x, F32.toInt y, tex2, t.dx, t.dy, 1⟩)
  else if F32.ge cx.C1 PX_OUTSIDE && F32.ge cx.C2 PX_OUTSIDE && F32.ge cx.C3 PX_OUTSIDE then
    let ct := ClippedTriangle.new (Vector2.sub t.v1 ⟨x, y⟩) (Vector2.sub t.v2 ⟨x, y⟩)
      (Vector2.sub t.v3 ⟨x, y⟩)
    match ct.clipAABox (-F32.half) (-F32.half) F32.half F32.half with
    | .error e => .error e
    | .ok ct =>
      let centroid := ct.centroid
      let area := ct.area
      if F32.gt area 0 then
        let texCent := Vector3.sub (Vector3.sub cx.tex (Vector3.smul t.dx centroid.x))
          (Vector3.smul t.dy centroid.y)
        .ok (cb param ⟨F32.toInt x, F32.toInt y, texCent, t.dx, t.dy, area⟩)
      else .ok (param, true)
  else .ok (param, true)

/-- Body of the pixel loop of a partially covered block (source lines
395-423). -/
def partialPixelBody (t : Triangle) (cb : SamplingCallback σ F32) (PX_INSIDE PX_OUTSIDE : F32)
    (y x : F32) (st : EdgeState × σ) : Except Fault ((EdgeState × σ) × Bool) :=
  let cx := st.1
  match partialPixel t cb PX_INSIDE PX_OUTSIDE y x cx st.2 with
  | .error e => .error e
  | .ok r =>
    if r.2 then
      .ok (({ C1 := cx.C1 + t.n1.x, C2 := cx.C2 + t.n2.x, C3 := cx.C3 + t.n3.x,
               tex := Vector3.add cx.tex t.dx }, r.1), true)
    else .ok ((cx, r.1), false)

/-- Body of the row loop of a partially covered block (source lines
390-428). -/
def partialRowBody (fuel : Nat) (t : Triangle) (cb : SamplingCallback σ F32)
    (PX_INSIDE PX_OUTSIDE BK_SIZE x0 y : F32) (st : EdgeState × σ) :
    Except Fault ((EdgeState × σ) × Bool) :=
  let cy := st.1
  match forLT 1 (x0 + BK_SIZE) (partialPixelBody t cb PX_INSIDE PX_OUTSIDE y) fuel x0
    ({ C1 := cy.C1, C2 := cy.C2, C3 := cy.C3, tex := cy.tex }, st.2) with
  | .error e => .error e
  | .ok r =>
    if r.2 then
      .ok (({ C1 := cy.C1 + t.n1.y, C2 := cy.C2 + t.n2.y, C3 := cy.C3 + t.n3.y,
               tex := Vector3.add cy.tex t.dy }, r.1.2), true)
    else .ok ((cy, r.1.2), false)

/-- The value `C + n.x * x + n.y * y` of a half-space function. -/
def halfSpace (C : F32) (n : Vector2 F32) (x y : F32) : F32 :=
  C + n.x * x + n.y * y

/-- The half-edge constant `n.x * (-v.x) + n.y * (-v.y)`. -/
def halfEdgeConstant (n : Vector2 F32) (v : Vector2 F32) : F32 :=
  n.x * (-v.x) + n.y * (-v.y)

/-- Body of the block loop (source lines 362-430). -/
def blockBody (fuel : Nat) (t : Triangle) (cb : SamplingCallback σ F32)
    (PX_INSIDE PX_OUTSIDE BK_SIZE BK_INSIDE BK_OUTSIDE : F32) (C1 C2 C3 : F32)
    (y0 x0 : F32) (param : σ) : Except Fault (σ × Bool) :=
  let xc := x0 + (BK_SIZE - 1) / 2
  let yc := y0 + (BK_SIZE - 1) / 2
  let aC := halfSpace C1 t.n1 xc yc
  let bC := halfSpace C2 t.n2 xc yc
  let cC := halfSpace C3 t.n3 xc yc
  if F32.le aC BK_OUTSIDE || F32.le bC BK_OUTSIDE || F32.le cC BK_OUTSIDE then .ok (param, true)
  else if F32.ge aC BK_INSIDE && F32.ge bC BK_INSIDE && F32.ge cC BK_INSIDE then
    let texRow := Vector3.add (Vector3.add t.t1 (Vector3.smul t.dy (y0 - t.v1.y)))
      (Vector3.smul t.dx (x0 - t.v1.x))
    match forLT 1 (y0 + BK_SIZE) (fullRowBody fuel t cb BK_SIZE x0) fuel y0 (texRow, param) with
    | .error e => .error e
    | .ok r => .ok (r.1.2, r.2)
  else
    let CY1 := halfSpace C1 t.n1 x0 y0
    let CY2 := halfSpace C2 t.n2 x0 y0
    let CY3 := halfSpace C3 t.n3 x0 y0
    let texRow := Vector3.add (Vector3.add t.t1 (Vector3.smul t.dy (y0 - t.v1.y)))
      (Vector3.smul t.dx (x0 - t.v1.x))
    match forLT 1 (y0 + BK_SIZE) (partialRowBody fuel t cb PX_INSIDE PX_OUTSIDE BK_SIZE x0)
      fuel y0 ({ C1 := CY1, C2 := CY2, C3 := CY3, tex := texRow }, param) with
    | .error e => .error e
    | .ok r => .ok (r.1.2, r.2)

/-- The constant `PX_INSIDE = 1.0f/sqrtf(2.0f)` of `drawAA`. -/
def PX_INSIDE : F32 := 1 / F32.sqrt 2

/-- The constant `PX_OUTSIDE = -1.0f/sqrtf(2.0f)` of `drawAA`. -/
def PX_OUTSIDE : F32 := -1 / F32.sqrt 2

/-- The constant `BK_SIZE = 8` of `drawAA`. -/
def BK_SIZE : F32 := 8

/-- The constant `BK_INSIDE = sqrtf(BK_SIZE*BK_SIZE/2.0f)` of `drawAA`. -/
def BK_INSIDE : F32 := F32.sqrt (BK_SIZE * BK_SIZE / 2)

/-- The constant `BK_OUTSIDE = -sqrtf(BK_SIZE*BK_SIZE/2.0f)` of `drawAA`. -/
def BK_OUTSIDE : F32 := -F32.sqrt (BK_SIZE * BK_SIZE / 2)

/-- `Triangle::drawAA`, every loop run for at most `fuel` iterations: the
final callback state and the returned Boolean, or the fault that ended the
run. -/
def Triangle.drawAA (fuel : Nat) (t : Triangle) (cb : SamplingCallback σ F32) (param : σ) :
    Except Fault (σ × Bool) :=
  -- Bounding rectangle
  let minx := F32.floor (F32.max (F32.min t.v1.x (F32.min t.v2.x t.v3.x)) 0)
  let miny := F32.floor (F32.max (F32.min t.v1.y (F32.min t.v2.y t.v3.y)) 0)
  let maxx := F32.ceil (F32.max t.v1.x (F32.max t.v2.x t.v3.x))
  let maxy := F32.ceil (F32.max t.v1.y (F32.max t.v2.y t.v3.y))
  let minx := F32.floor minx
  let miny := F32.floor miny
  let minx := minx + F32.half
  let miny := miny + F32.half
  let maxx := maxx + F32.half
  let maxy := maxy + F32.half
  -- Half-edge constants
  let C1 := halfEdgeConstant t.n1 t.v1
  let C2 := halfEdgeConstant t.n2 t.v2
  let C3 := halfEdgeConstant t.n3 t.v3
  -- Loop through blocks
  forLE BK_SIZE maxy
    (fun y0 param =>
      forLE BK_SIZE maxx
        (blockBody fuel t cb PX_INSIDE PX_OUTSIDE BK_SIZE BK_INSIDE BK_OUTSIDE C1 C2 C3 y0)
        fuel minx param)
    fuel miny param

end Draw

end Binary32

namespace Binary32

/-- The half-space function of edge `v1 v2` at `(x, y)`, as `drawAA` forms it
with `C1` and `n1` (the value `CY1` when `(x, y)` is the first pixel centre of
a block). -/
def Triangle.e1 (t : Triangle) (x y : F32) : F32 :=
  halfSpace (halfEdgeConstant t.n1 t.v1) t.n1 x y

/-- The half-space function of edge `v2 v3` at `(x, y)`. -/
def Triangle.e2 (t : Triangle) (x y : F32) : F32 :=
  halfSpace (halfEdgeConstant t.n2 t.v2) t.n2 x y

/-- The half-space function of edge `v3 v1` at `(x, y)`. -/
def Triangle.e3 (t : Triangle) (x y : F32) : F32 :=
  halfSpace (halfEdgeConstant t.n3 t.v3) t.n3 x y

/-- All three half-space functions at `(x, y)` are `>= c`. -/
def Triangle.allGE (t : Triangle) (c x y : F32) : Bool :=
  F32.ge (t.e1 x y) c && F32.ge (t.e2 x y) c && F32.ge (t.e3 x y) c

/-- The exact position of a point with `float` coordinates. -/
def toQ (v : Vector2 F32) : Vector2 ℚ := ⟨v.x.toRat, v.y.toRat⟩

/-- The pixel coordinates and the coverage of the invocations of a log. -/
def callsOf {σ : Type} (r : Except Fault ((σ × List (Call F32 × Bool)) × Bool)) :
    Except Fault (List (Int × Int × F32)) :=
  r.map (fun r => r.1.2.map (fun e => (e.1.x, e.1.y, e.1.coverage)))

end Binary32

/-! # Properties -/

section DeltaProps

variable {α : Type} [LinearOrderedField α]

theorem recip_eq_none_iff (d : α) : recip d = none ↔ d = 0 := by
  unfold recip
  split_ifs with h <;> simp [h]

theorem recip_of_ne {d : α} (h : d ≠ 0) : recip d = some (1 / d) := by
  simp [recip, h]

theorem Triangle.det_eq_cross2 (t : Triangle α) : t.det = cross2 t.v1 t.v2 t.v3 := by
  simp only [Triangle.det, cross2, Vector2.sub]
  ring

/-- In exact arithmetic `computeDeltas` returns false exactly when the
edge-vector determinant is zero, which is exactly when the triangle has zero
signed area; then the triangle (so `dx`, `dy`) is left unmodified; and it
returns true exactly when the determinant is not zero. -/
theorem computeDeltas_exact (t : Triangle α) :
    (t.computeDeltas.2 = false ↔ t.det = 0) ∧
    (t.computeDeltas.2 = false ↔ cross2 t.v1 t.v2 t.v3 = 0) ∧
    (t.computeDeltas.2 = true ↔ t.det ≠ 0) ∧
    (t.det = 0 → t.computeDeltas.1 = t) := by
  have key : (t.computeDeltas.2 = false ↔ t.det = 0) ∧ (t.det = 0 → t.computeDeltas.1 = t) := by
    unfold Triangle.computeDeltas
    by_cases h : t.det = 0
    · have h' : recip ((t.v3.sub t.v1).y * (t.v2.sub t.v1).x
          - (t.v2.sub t.v1).y * (t.v3.sub t.v1).x) = none := (recip_eq_none_iff _).mpr h
      simp only [h']
      simp [h]
    · have h' := recip_of_ne h
      unfold Triangle.det at h'
      simp only [h']
      simp [h]
  refine ⟨key.1, ?_, ?_, key.2⟩
  · rw [← Triangle.det_eq_cross2]; exact key.1
  · rw [← not_iff_not]
    simp only [Bool.not_eq_true, not_not]
    exact key.1

theorem Triangle.new_fields (sqrtf : α → α) (p0 p1 p2 : Vector2 α) (a0 a1 a2 dx0 dy0 : Vector3 α) :
    let t := Triangle.new sqrtf p0 p1 p2 a0 a1 a2 dx0 dy0
    t.v1 = p0 ∧ t.v2 = p2 ∧ t.v3 = p1 ∧ t.t1 = a0 ∧ t.t2 = a2 ∧ t.t3 = a1 := by
  simp only [Triangle.new, Triangle.computeUnitInwardNormals, Triangle.computeDeltas]
  split <;> simp

/-- C8: for a non-degenerate triangle built by `Triangle(p0,p1,p2,a0,a1,a2)`
the affine interpolant `t1 + dx*(p.x - v1.x) + dy*(p.y - v1.y)` of the stored
fields takes the values `a0`, `a1`, `a2` at `p0`, `p1`, `p2`, and the swap of
the second and third inputs is applied to positions and attributes alike. -/
theorem interp_reproduces_vertex_attributes (sqrtf : α → α) (p0 p1 p2 : Vector2 α)
    (a0 a1 a2 dx0 dy0 : Vector3 α) (h : cross2 p0 p1 p2 ≠ 0) :
    (Triangle.new sqrtf p0 p1 p2 a0 a1 a2 dx0 dy0).interp p0 = a0 ∧
    (Triangle.new sqrtf p0 p1 p2 a0 a1 a2 dx0 dy0).interp p1 = a1 ∧
    (Triangle.new sqrtf p0 p1 p2 a0 a1 a2 dx0 dy0).interp p2 = a2 ∧
    (Triangle.new sqrtf p0 p1 p2 a0 a1 a2 dx0 dy0).v2 = p2 ∧
    (Triangle.new sqrtf p0 p1 p2 a0 a1 a2 dx0 dy0).t2 = a2 ∧
    (Triangle.new sqrtf p0 p1 p2 a0 a1 a2 dx0 dy0).v3 = p1 ∧
    (Triangle.new sqrtf p0 p1 p2 a0 a1 a2 dx0 dy0).t3 = a1 := by
  have hd : (p1.y - p0.y) * (p2.x - p0.x) - (p2.y - p0.y) * (p1.x - p0.x) ≠ 0 := by
    intro h0
    apply h
    simp only [cross2]
    linear_combination -h0
  have hr := recip_of_ne hd
  simp only [Triangle.new, Triangle.computeUnitInwardNormals, Triangle.computeDeltas,
    Vector2.sub, hr, Triangle.interp, Vector3.add, Vector3.sub, Vector3.smul]
  refine ⟨?_, ?_, ?_, trivial, trivial, trivial, trivial⟩
  · cases a0; simp
  · cases a0; cases a1; cases a2
    simp only [Vector3.mk.injEq]
    refine ⟨?_, ?_, ?_⟩ <;> (field_simp; ring)
  · cases a0; cases a1; cases a2
    simp only [Vector3.mk.injEq]
    refine ⟨?_, ?_, ?_⟩ <;> (field_simp; ring)

/-- C8 at the triangle `(0,0), (1,0), (0,1)` with the barycentric basis. -/
theorem interp_reproduces_vertex_attributes_witness :
    cross2 (⟨0, 0⟩ : Vector2 ℚ) ⟨1, 0⟩ ⟨0, 1⟩ ≠ 0 ∧
    (Triangle.new id (⟨0, 0⟩ : Vector2 ℚ) ⟨1, 0⟩ ⟨0, 1⟩ ⟨1, 0, 0⟩ ⟨0, 1, 0⟩ ⟨0, 0, 1⟩
      ⟨7, 7, 7⟩ ⟨9, 9, 9⟩).interp ⟨1, 0⟩ = ⟨0, 1, 0⟩ :=
  ⟨by simp [cross2],
   (interp_reproduces_vertex_attributes id (⟨0, 0⟩ : Vector2 ℚ) ⟨1, 0⟩ ⟨0, 1⟩ ⟨1, 0, 0⟩ ⟨0, 1, 0⟩
      ⟨0, 0, 1⟩ ⟨7, 7, 7⟩ ⟨9, 9, 9⟩ (by simp [cross2])).2.1⟩

end DeltaProps

/-! ## The clip passes as list functions -/

section ClipPass

variable {α : Type} [LinearOrderedField α]

theorem truth_ne_zero (p : Prop) [Decidable p] : truth p ≠ 0 ↔ p := by
  unfold truth; split_ifs with h <;> simp [h]

theorem truth_add_eq_one (p q : Prop) [Decidable p] [Decidable q] :
    truth p + truth q = 1 ↔ (decide p != decide q) = true := by
  unfold truth; by_cases hp : p <;> by_cases hq : q <;> simp [hp, hq]

theorem clipHorizontalStep_cons (a : Vector2 α) (q : List (Vector2 α)) (offset dir : α) :
    (fun st k => clipHorizontalStep (a :: q) offset dir st (k + 1))
      = clipHorizontalStep q offset dir := by
  funext st k
  simp [clipHorizontalStep]

theorem clipVerticalStep_cons (a : Vector2 α) (q : List (Vector2 α)) (offset dir : α) :
    (fun st k => clipVerticalStep (a :: q) offset dir st (k + 1))
      = clipVerticalStep q offset dir := by
  funext st k
  simp [clipVerticalStep]

theorem foldl_clipHorizontalStep (offset dir : α) :
    ∀ (p : List (Vector2 α)) (out : List (Vector2 α)),
      ((List.range (p.length - 1)).foldl (clipHorizontalStep p offset dir)
        (out, offset - (p.getD 0 Vector2.zero).y,
          truth (dir * (offset - (p.getD 0 Vector2.zero).y) ≥ 0))).1
        = out ++ clipPath (insideH offset dir) (isectH offset) p
  | [], out => by simp [clipPath]
  | [a], out => by simp [clipPath]
  | a :: b :: rest, out => by
    have ih := foldl_clipHorizontalStep offset dir (b :: rest)
    simp only [List.length_cons, Nat.add_sub_cancel] at ih ⊢
    rw [List.range_succ_eq_map, List.foldl_cons, List.foldl_map, clipHorizontalStep_cons]
    have hstep : clipHorizontalStep (a :: b :: rest) offset dir
        (out, offset - ((a :: b :: rest).getD 0 Vector2.zero).y,
          truth (dir * (offset - ((a :: b :: rest).getD 0 Vector2.zero).y) ≥ 0)) 0
        = (out ++ ((if insideH offset dir a then [a] else [])
              ++ (if insideH offset dir a != insideH offset dir b then [isectH offset a b]
                  else [])),
            offset - ((b :: rest).getD 0 Vector2.zero).y,
            truth (dir * (offset - ((b :: rest).getD 0 Vector2.zero).y) ≥ 0)) := by
      simp only [clipHorizontalStep, List.getD_cons_zero, List.getD_cons_succ, truth_ne_zero,
        truth_add_eq_one, insideH, isectH]
      by_cases h1 : dir * (offset - a.y) ≥ 0 <;> by_cases h2 : dir * (offset - b.y) ≥ 0 <;>
        simp [h1, h2]
    rw [hstep, ih]
    simp [clipPath, List.append_assoc]

theorem foldl_clipVerticalStep (offset dir : α) :
    ∀ (p : List (Vector2 α)) (out : List (Vector2 α)),
      ((List.range (p.length - 1)).foldl (clipVerticalStep p offset dir)
        (out, offset - (p.getD 0 Vector2.zero).x,
          truth (dir * (offset - (p.getD 0 Vector2.zero).x) ≥ 0))).1
        = out ++ clipPath (insideV offset dir) (isectV offset) p
  | [], out => by simp [clipPath]
  | [a], out => by simp [clipPath]
  | a :: b :: rest, out => by
    have ih := foldl_clipVerticalStep offset dir (b :: rest)
    simp only [List.length_cons, Nat.add_sub_cancel] at ih ⊢
    rw [List.range_succ_eq_map, List.foldl_cons, List.foldl_map, clipVerticalStep_cons]
    have hstep : clipVerticalStep (a :: b :: rest) offset dir
        (out, offset - ((a :: b :: rest).getD 0 Vector2.zero).x,
          truth (dir * (offset - ((a :: b :: rest).getD 0 Vector2.zero).x) ≥ 0)) 0
        = (out ++ ((if insideV offset dir a then [a] else [])
              ++ (if insideV offset dir a != insideV offset dir b then [isectV offset a b]
                  else [])),
            offset - ((b :: rest).getD 0 Vector2.zero).x,
            truth (dir * (offset - ((b :: rest).getD 0 Vector2.zero).x) ≥ 0)) := by
      simp only [clipVerticalStep, List.getD_cons_zero, List.getD_cons_succ, truth_ne_zero,
        truth_add_eq_one, insideV, isectV]
      by_cases h1 : dir * (offset - a.x) ≥ 0 <;> by_cases h2 : dir * (offset - b.x) ≥ 0 <;>
        simp [h1, h2]
    rw [hstep, ih]
    simp [clipPath, List.append_assoc]

theorem closeRing_length (vs : List (Vector2 α)) : (closeRing vs).length - 1 = vs.length := by
  simp [closeRing]

theorem clipHorizontalPlane_vertices (ct : ClippedTriangle α) (offset dir : α) :
    (ct.clipHorizontalPlane offset dir).m_vertices
      = clipPath (insideH offset dir) (isectH offset) (closeRing ct.m_vertices) := by
  have h := foldl_clipHorizontalStep offset dir (closeRing ct.m_vertices) []
  rw [closeRing_length] at h
  simpa [ClippedTriangle.clipHorizontalPlane, ClippedTriangle.m_numVertices] using h

theorem clipVerticalPlane_vertices (ct : ClippedTriangle α) (offset dir : α) :
    (ct.clipVerticalPlane offset dir).m_vertices
      = clipPath (insideV offset dir) (isectV offset) (closeRing ct.m_vertices) := by
  have h := foldl_clipVerticalStep offset dir (closeRing ct.m_vertices) []
  rw [closeRing_length] at h
  simpa [ClippedTriangle.clipVerticalPlane, ClippedTriangle.m_numVertices] using h

end ClipPass

/-! ## Area and centroid as path sums -/

section AreaCentroid

variable {α : Type} [LinearOrderedField α]

theorem areaCentroidStep_cons (a : Vector2 α) (q : List (Vector2 α)) :
    (fun st k => areaCentroidStep (a :: q) st (k + 1)) = areaCentroidStep q := by
  funext st k
  simp [areaCentroidStep]

theorem foldl_areaCentroidStep :
    ∀ (p : List (Vector2 α)) (s : α × α × α),
      (List.range (p.length - 1)).foldl (areaCentroidStep p) s
        = (s.1 + pathSum shoelace p, s.2.1 + pathSum centroidTermX p,
            s.2.2 + pathSum centroidTermY p)
  | [], s => by simp [pathSum]
  | [a], s => by simp [pathSum]
  | a :: b :: rest, s => by
    have ih := foldl_areaCentroidStep (b :: rest)
    simp only [List.length_cons, Nat.add_sub_cancel] at ih ⊢
    rw [List.range_succ_eq_map, List.foldl_cons, List.foldl_map, areaCentroidStep_cons, ih]
    simp only [areaCentroidStep, List.getD_cons_zero, List.getD_cons_succ, pathSum, shoelace,
      centroidTermX, centroidTermY, Prod.mk.injEq]
    refine ⟨?_, ?_, ?_⟩ <;> ring

theorem computeAreaCentroid_area (ct : ClippedTriangle α) :
    ct.computeAreaCentroid.area = (1 / 2) * |pathSum shoelace (closeRing ct.m_vertices)| := by
  have h := foldl_areaCentroidStep (closeRing ct.m_vertices) (0, 0, 0)
  rw [closeRing_length] at h
  simp only [ClippedTriangle.computeAreaCentroid, ClippedTriangle.m_numVertices, h,
    ClippedTriangle.area]
  split_ifs <;> simp

theorem computeAreaCentroid_centroid (ct : ClippedTriangle α) :
    ct.computeAreaCentroid.centroid =
      if ct.computeAreaCentroid.area = 0 then ⟨0, 0⟩
      else ⟨pathSum centroidTermX (closeRing ct.m_vertices) / (6 * ct.computeAreaCentroid.area),
            pathSum centroidTermY (closeRing ct.m_vertices) / (6 * ct.computeAreaCentroid.area)⟩ := by
  have h := foldl_areaCentroidStep (closeRing ct.m_vertices) (0, 0, 0)
  rw [closeRing_length] at h
  simp only [zero_add] at h
  rw [computeAreaCentroid_area]
  simp only [ClippedTriangle.computeAreaCentroid, ClippedTriangle.m_numVertices, h,
    ClippedTriangle.centroid]
  split_ifs <;> rfl

theorem computeAreaCentroid_vertices (ct : ClippedTriangle α) :
    ct.computeAreaCentroid.m_vertices = ct.m_vertices := by
  simp only [ClippedTriangle.computeAreaCentroid]
  split_ifs <;> rfl

theorem clipPath_all_inside (ins : Vector2 α → Bool) (isect : Vector2 α → Vector2 α → Vector2 α) :
    ∀ p : List (Vector2 α), (∀ v ∈ p, ins v = true) → clipPath ins isect p = p.dropLast
  | [], _ => by simp [clipPath]
  | [a], _ => by simp [clipPath]
  | a :: b :: rest, h => by
    have ha : ins a = true := h a (by simp)
    have hb : ins b = true := h b (by simp)
    have ih := clipPath_all_inside ins isect (b :: rest) (fun v hv => h v (by simp [hv]))
    simp [clipPath, ha, hb, ih]

theorem closeRing_dropLast (vs : List (Vector2 α)) : (closeRing vs).dropLast = vs := by
  simp [closeRing]

theorem mem_closeRing {vs : List (Vector2 α)} {v : Vector2 α} (h : v ∈ closeRing vs) (hne : vs ≠ []) :
    v ∈ vs := by
  cases vs with
  | nil => exact absurd rfl hne
  | cons a rest =>
    simp only [closeRing, List.headD_cons, List.mem_append, List.mem_singleton] at h
    rcases h with h | h
    · exact h
    · simp [h]

end AreaCentroid

/-! ## Clipping against a box that contains the triangle -/

section BoxContains

variable {α : Type} [LinearOrderedField α]

theorem clipAABox_vertices (ct : ClippedTriangle α) (x0 y0 x1 y1 : α) :
    (ct.clipAABox x0 y0 x1 y1).m_vertices = clipBoxRing x0 y0 x1 y1 ct.m_vertices := by
  simp only [ClippedTriangle.clipAABox, computeAreaCentroid_vertices,
    clipHorizontalPlane_vertices, clipVerticalPlane_vertices, clipBoxRing]

theorem clipAABox_area (ct : ClippedTriangle α) (x0 y0 x1 y1 : α) :
    (ct.clipAABox x0 y0 x1 y1).area
      = (1 / 2) * |pathSum shoelace (closeRing (clipBoxRing x0 y0 x1 y1 ct.m_vertices))| := by
  simp only [ClippedTriangle.clipAABox, computeAreaCentroid_area,
    clipHorizontalPlane_vertices, clipVerticalPlane_vertices, clipBoxRing]

theorem clipAABox_centroid (ct : ClippedTriangle α) (x0 y0 x1 y1 : α) :
    (ct.clipAABox x0 y0 x1 y1).centroid =
      if (ct.clipAABox x0 y0 x1 y1).area = 0 then ⟨0, 0⟩
      else ⟨pathSum centroidTermX (closeRing (clipBoxRing x0 y0 x1 y1 ct.m_vertices))
              / (6 * (ct.clipAABox x0 y0 x1 y1).area),
            pathSum centroidTermY (closeRing (clipBoxRing x0 y0 x1 y1 ct.m_vertices))
              / (6 * (ct.clipAABox x0 y0 x1 y1).area)⟩ := by
  simp only [ClippedTriangle.clipAABox, computeAreaCentroid_centroid,
    clipHorizontalPlane_vertices, clipVerticalPlane_vertices, clipBoxRing]

theorem insideV_neg_one (x0 : α) (p : Vector2 α) : insideV x0 (-1) p = true ↔ x0 ≤ p.x := by
  simp [insideV]

theorem insideH_neg_one (y0 : α) (p : Vector2 α) : insideH y0 (-1) p = true ↔ y0 ≤ p.y := by
  simp [insideH]

theorem insideV_one (x1 : α) (p : Vector2 α) : insideV x1 1 p = true ↔ p.x ≤ x1 := by
  simp [insideV]

theorem insideH_one (y1 : α) (p : Vector2 α) : insideH y1 1 p = true ↔ p.y ≤ y1 := by
  simp [insideH]

theorem clipPath_closeRing_all_inside (ins : Vector2 α → Bool)
    (isect : Vector2 α → Vector2 α → Vector2 α) (vs : List (Vector2 α))
    (h : ∀ v ∈ vs, ins v = true) : clipPath ins isect (closeRing vs) = vs := by
  cases vs with
  | nil => simp [closeRing, clipPath]
  | cons a rest =>
    rw [clipPath_all_inside ins isect _ (fun v hv => h v (mem_closeRing hv (by simp))),
      closeRing_dropLast]

theorem clipBoxRing_of_inBox (x0 y0 x1 y1 : α) (vs : List (Vector2 α))
    (h : ∀ v ∈ vs, inBox x0 y0 x1 y1 v) : clipBoxRing x0 y0 x1 y1 vs = vs := by
  unfold clipBoxRing
  simp only
  rw [clipPath_closeRing_all_inside _ _ vs (fun v hv => (insideV_neg_one x0 v).mpr (h v hv).1),
    clipPath_closeRing_all_inside _ _ vs (fun v hv => (insideH_neg_one y0 v).mpr (h v hv).2.2.1),
    clipPath_closeRing_all_inside _ _ vs (fun v hv => (insideV_one x1 v).mpr (h v hv).2.1),
    clipPath_closeRing_all_inside _ _ vs (fun v hv => (insideH_one y1 v).mpr (h v hv).2.2.2)]

theorem ClippedTriangle.new_vertices (a b c : Vector2 α) :
    (ClippedTriangle.new a b c).m_vertices = [a, b, c] := rfl

theorem pathSum_shoelace_triangle (a b c : Vector2 α) :
    pathSum shoelace (closeRing [a, b, c]) = cross2 a b c := by
  simp only [closeRing, pathSum, shoelace, cross2, List.headD_cons, List.cons_append,
    List.nil_append]
  ring

theorem pathSum_centroidTermX_triangle (a b c : Vector2 α) :
    pathSum centroidTermX (closeRing [a, b, c]) = cross2 a b c * (a.x + b.x + c.x) := by
  simp only [closeRing, pathSum, shoelace, centroidTermX, cross2, List.headD_cons,
    List.cons_append, List.nil_append]
  ring

theorem pathSum_centroidTermY_triangle (a b c : Vector2 α) :
    pathSum centroidTermY (closeRing [a, b, c]) = cross2 a b c * (a.y + b.y + c.y) := by
  simp only [closeRing, pathSum, shoelace, centroidTermY, cross2, List.headD_cons,
    List.cons_append, List.nil_append]
  ring

/-- What `clipAABox` reports for a triangle inside the box: the ring is
unchanged, the area is `|cross2| / 2`, and the centroid is the triangle's
centroid multiplied by the sign of `cross2` (the shoelace sums are signed, the
divisor `6 * m_area` is not). -/
theorem clipAABox_of_inBox (a b c : Vector2 α) (x0 y0 x1 y1 : α)
    (ha : inBox x0 y0 x1 y1 a) (hb : inBox x0 y0 x1 y1 b) (hc : inBox x0 y0 x1 y1 c) :
    ((ClippedTriangle.new a b c).clipAABox x0 y0 x1 y1).m_vertices = [a, b, c] ∧
    ((ClippedTriangle.new a b c).clipAABox x0 y0 x1 y1).area = |cross2 a b c| / 2 ∧
    (0 < cross2 a b c → ((ClippedTriangle.new a b c).clipAABox x0 y0 x1 y1).centroid
        = ⟨(a.x + b.x + c.x) / 3, (a.y + b.y + c.y) / 3⟩) ∧
    (cross2 a b c < 0 → ((ClippedTriangle.new a b c).clipAABox x0 y0 x1 y1).centroid
        = ⟨-((a.x + b.x + c.x) / 3), -((a.y + b.y + c.y) / 3)⟩) ∧
    (cross2 a b c = 0 → ((ClippedTriangle.new a b c).clipAABox x0 y0 x1 y1).centroid
        = ⟨0, 0⟩) := by
  have hring : clipBoxRing x0 y0 x1 y1 [a, b, c] = [a, b, c] :=
    clipBoxRing_of_inBox x0 y0 x1 y1 [a, b, c] (by
      intro v hv
      simp only [List.mem_cons, List.mem_singleton, List.not_mem_nil, or_false] at hv
      rcases hv with rfl | rfl | rfl <;> assumption)
  have harea : ((ClippedTriangle.new a b c).clipAABox x0 y0 x1 y1).area = |cross2 a b c| / 2 := by
    rw [clipAABox_area]
    simp only [ClippedTriangle.new_vertices, hring, pathSum_shoelace_triangle]
    ring
  have hcen := clipAABox_centroid (ClippedTriangle.new a b c) x0 y0 x1 y1
  rw [harea] at hcen
  simp only [ClippedTriangle.new_vertices, hring, pathSum_centroidTermX_triangle,
    pathSum_centroidTermY_triangle] at hcen
  refine ⟨?_, harea, ?_, ?_, ?_⟩
  · rw [clipAABox_vertices]; exact hring
  · intro hpos
    rw [hcen, abs_of_pos hpos, if_neg (by positivity)]
    have : cross2 a b c ≠ 0 := ne_of_gt hpos
    congr 1 <;> (field_simp; ring)
  · intro hneg
    rw [hcen, abs_of_neg hneg, if_neg (by linarith)]
    have : cross2 a b c ≠ 0 := ne_of_lt hneg
    congr 1 <;> (field_simp; ring)
  · intro hz
    rw [hcen, hz]
    simp

/-- C10 (as stated) fails: the collinear triangle `(0,0), (1,1), (2,2)` lies in
the box `[-1,3] x [-1,3]`, its centroid `(a+b+c)/3` is `(1,1)`, but
`centroid()` is the origin because the area is zero. -/
theorem clipAABox_centroid_zero_area_counterexample :
    inBox (-1) (-1) 3 3 (⟨0, 0⟩ : Vector2 ℚ) ∧ inBox (-1) (-1) 3 3 (⟨1, 1⟩ : Vector2 ℚ) ∧
    inBox (-1) (-1) 3 3 (⟨2, 2⟩ : Vector2 ℚ) ∧
    ((ClippedTriangle.new (⟨0, 0⟩ : Vector2 ℚ) ⟨1, 1⟩ ⟨2, 2⟩).clipAABox (-1) (-1) 3 3).centroid
      ≠ ⟨(0 + 1 + 2) / 3, (0 + 1 + 2) / 3⟩ := by
  have h1 : inBox (-1) (-1) 3 3 (⟨0, 0⟩ : Vector2 ℚ) := by norm_num [inBox]
  have h2 : inBox (-1) (-1) 3 3 (⟨1, 1⟩ : Vector2 ℚ) := by norm_num [inBox]
  have h3 : inBox (-1) (-1) 3 3 (⟨2, 2⟩ : Vector2 ℚ) := by norm_num [inBox]
  refine ⟨h1, h2, h3, ?_⟩
  rw [(clipAABox_of_inBox _ _ _ _ _ _ _ h1 h2 h3).2.2.2.2 (by norm_num [cross2])]
  norm_num

/-- C10 (amended): for a triangle `(a,b,c)` with all three vertices in the box,
`clipAABox` leaves the ring `[a,b,c]` unchanged and `area()` is
`|cross(b-a,c-a)|/2`; `centroid()` is `(a+b+c)/3` when the triangle is
counter-clockwise (`cross(b-a,c-a) > 0`) and the origin when its area is
zero. -/
theorem clipAABox_of_containing_box (a b c : Vector2 α) (x0 y0 x1 y1 : α)
    (ha : inBox x0 y0 x1 y1 a) (hb : inBox x0 y0 x1 y1 b) (hc : inBox x0 y0 x1 y1 c) :
    ((ClippedTriangle.new a b c).clipAABox x0 y0 x1 y1).m_vertices = [a, b, c] ∧
    ((ClippedTriangle.new a b c).clipAABox x0 y0 x1 y1).area = |cross2 a b c| / 2 ∧
    (0 < cross2 a b c → ((ClippedTriangle.new a b c).clipAABox x0 y0 x1 y1).centroid
        = ⟨(a.x + b.x + c.x) / 3, (a.y + b.y + c.y) / 3⟩) ∧
    (cross2 a b c = 0 → ((ClippedTriangle.new a b c).clipAABox x0 y0 x1 y1).centroid
        = ⟨0, 0⟩) :=
  let h := clipAABox_of_inBox a b c x0 y0 x1 y1 ha hb hc
  ⟨h.1, h.2.1, h.2.2.1, h.2.2.2.2⟩

/-- C10 (amended) at the triangle `(0,0), (3,0), (0,3)` in the box
`[-1,4] x [-1,4]`: area `9/2` and centroid `(1,1)`. -/
theorem clipAABox_of_containing_box_witness :
    ((ClippedTriangle.new (⟨0, 0⟩ : Vector2 ℚ) ⟨3, 0⟩ ⟨0, 3⟩).clipAABox (-1) (-1) 4 4).area = 9 / 2 ∧
    ((ClippedTriangle.new (⟨0, 0⟩ : Vector2 ℚ) ⟨3, 0⟩ ⟨0, 3⟩).clipAABox (-1) (-1) 4 4).centroid
      = ⟨1, 1⟩ := by
  have h := clipAABox_of_containing_box (⟨0, 0⟩ : Vector2 ℚ) ⟨3, 0⟩ ⟨0, 3⟩ (-1) (-1) 4 4
    (by norm_num [inBox]) (by norm_num [inBox]) (by norm_num [inBox])
  refine ⟨?_, ?_⟩
  · rw [h.2.1]; norm_num [cross2]
  · rw [h.2.2.1 (by norm_num [cross2])]; norm_num

end BoxContains

/-! ## Loops -/

section LoopProps

variable {α : Type} [LinearOrderedField α] [FloorRing α] {σ : Type}

theorem forLT_eq_loopList {S : Type} (step hi : α) (hstep : 0 < step) (body : α → S → S × Bool) :
    ∀ (n : Nat) (x : α) (s : S), (⌈(hi - x) / step⌉).toNat = n →
      forLT step hi hstep body x s = loopList body (steps step n x) s := by
  intro n
  induction n with
  | zero =>
    intro x s hn
    have h1 : ⌈(hi - x) / step⌉ ≤ 0 := by omega
    have h2 : (hi - x) / step ≤ 0 := by
      have := Int.ceil_le.mp h1
      simpa using this
    have h3 : ¬ x < hi := by
      intro hlt
      have : 0 < (hi - x) / step := div_pos (sub_pos.mpr hlt) hstep
      linarith
    rw [forLT]
    simp [h3, steps, loopList]
  | succ n ih =>
    intro x s hn
    have h1 : 0 < ⌈(hi - x) / step⌉ := by omega
    have h2 : 0 < (hi - x) / step := Int.ceil_pos.mp h1
    have hs : step ≠ 0 := ne_of_gt hstep
    have h3 : x < hi := by
      by_contra hge
      have : (hi - x) / step ≤ 0 := div_nonpos_of_nonpos_of_nonneg (by linarith) hstep.le
      linarith
    have h4 : (hi - (x + step)) / step = (hi - x) / step - 1 := by
      field_simp
      ring
    have h5 : (⌈(hi - (x + step)) / step⌉).toNat = n := by
      rw [h4, Int.ceil_sub_one]
      omega
    rw [forLT]
    simp only [h3, dite_true, steps, loopList]
    split_ifs with hb
    · exact ih (x + step) _ h5
    · rfl

theorem forLE_eq_loopList {S : Type} (step hi : α) (hstep : 0 < step) (body : α → S → S × Bool) :
    ∀ (n : Nat) (x : α) (s : S), (⌊(hi - x) / step⌋ + 1).toNat = n →
      forLE step hi hstep body x s = loopList body (steps step n x) s := by
  intro n
  induction n with
  | zero =>
    intro x s hn
    have h1 : ⌊(hi - x) / step⌋ < 0 := by omega
    have h2 : (hi - x) / step < 0 := by
      have := Int.floor_lt.mp h1
      simpa using this
    have h3 : ¬ x ≤ hi := by
      intro hle
      have : 0 ≤ (hi - x) / step := div_nonneg (sub_nonneg.mpr hle) hstep.le
      linarith
    rw [forLE]
    simp [h3, steps, loopList]
  | succ n ih =>
    intro x s hn
    have h1 : 0 ≤ ⌊(hi - x) / step⌋ := by omega
    have h2 : 0 ≤ (hi - x) / step := Int.floor_nonneg.mp h1
    have hs : step ≠ 0 := ne_of_gt hstep
    have h3 : x ≤ hi := by
      by_contra hge
      have : (hi - x) / step < 0 := div_neg_of_neg_of_pos (by linarith) hstep
      linarith
    have h4 : (hi - (x + step)) / step = (hi - x) / step - 1 := by
      field_simp
      ring
    have h5 : (⌊(hi - (x + step)) / step⌋ + 1).toNat = n := by
      rw [h4, Int.floor_sub_one]
      omega
    rw [forLE]
    simp only [h3, dite_true, steps, loopList]
    split_ifs with hb
    · exact ih (x + step) _ h5
    · rfl

/-- A loop `for (x = x0; x < x0 + 8; x++)` runs its body at
`x0, x0 + 1, ..., x0 + 7`. -/
theorem forLT_block {S : Type} (body : α → S → S × Bool) (x0 : α) (s : S) :
    forLT 1 (x0 + 8) one_pos body x0 s = loopList body (steps 1 8 x0) s := by
  apply forLT_eq_loopList
  have : (x0 + 8 - x0) / 1 = ((8 : ℤ) : α) := by push_cast; ring
  rw [this, Int.ceil_intCast]
  rfl

theorem mem_steps (step : α) : ∀ (n : Nat) (x y : α),
    y ∈ steps step n x ↔ ∃ k : Nat, k < n ∧ y = x + k * step
  | 0, x, y => by simp [steps]
  | n + 1, x, y => by
    simp only [steps, List.mem_cons, mem_steps step n]
    constructor
    · rintro (h | ⟨k, hk, h⟩)
      · exact ⟨0, by omega, by simp [h]⟩
      · exact ⟨k + 1, by omega, by rw [h]; push_cast; ring⟩
    · rintro ⟨k, hk, h⟩
      cases k with
      | zero => left; simpa using h
      | succ k => right; exact ⟨k, by omega, by rw [h]; push_cast; ring⟩

end LoopProps

/-! ## Loops as lists of callback invocations -/

section TraceProps

variable {α : Type} [LinearOrderedField α] {σ : Type}

theorem runCalls_append (cb : SamplingCallback σ α) :
    ∀ (l1 l2 : List (Call α)) (s : σ),
      runCalls cb (l1 ++ l2) s
        = if (runCalls cb l1 s).2 then runCalls cb l2 (runCalls cb l1 s).1
          else ((runCalls cb l1 s).1, false)
  | [], l2, s => by simp [runCalls]
  | c :: l1, l2, s => by
    simp only [List.cons_append, runCalls]
    by_cases h : (cb s c).2 = true
    · simp only [h, if_true]
      exact runCalls_append cb l1 l2 _
    · simp [h]

theorem runCalls_false_snd (cb : SamplingCallback σ α) (l : List (Call α)) (s : σ)
    (h : (runCalls cb l s).2 = false) : runCalls cb l s = ((runCalls cb l s).1, false) := by
  rw [← h]

theorem loopList_emits {C : Type} (cb : SamplingCallback σ α)
    (body : α → C × σ → (C × σ) × Bool) (f : α → C → List (Call α)) (g : α → C → C)
    (H : ∀ x c s, Emits cb (body x (c, s)) (f x c) (g x c) s) :
    ∀ (xs : List α) (c : C) (s : σ),
      Emits cb (loopList body xs (c, s)) (unrollCalls f g xs c) (unrollCarry g xs c) s
  | [], c, s => by simp [Emits, loopList, unrollCalls, unrollCarry, runCalls]
  | x :: xs, c, s => by
    obtain ⟨h1, h2, h3⟩ := H x c s
    simp only [loopList, unrollCalls, unrollCarry, Emits, runCalls_append]
    by_cases hb : (body x (c, s)).2 = true
    · have hg := h3 hb
      have hr : (runCalls cb (f x c) s).2 = true := by rw [← h1]; exact hb
      have hst : (body x (c, s)).1 = (g x c, (runCalls cb (f x c) s).1) := by
        rw [← hg, ← h2]
      simp only [hb, hr, if_true, hst]
      exact loopList_emits cb body f g H xs (g x c) _
    · have hb' : (body x (c, s)).2 = false := by simpa using hb
      have hr : (runCalls cb (f x c) s).2 = false := by rw [← h1]; exact hb'
      simp [hb', hr, h2]

theorem loopList_runCalls (cb : SamplingCallback σ α) (body : α → σ → σ × Bool)
    (f : α → List (Call α)) (H : ∀ x s, body x s = runCalls cb (f x) s) :
    ∀ (xs : List α) (s : σ), loopList body xs s = runCalls cb (xs.flatMap f) s
  | [], s => by simp [loopList, runCalls]
  | x :: xs, s => by
    simp only [loopList, List.flatMap_cons, runCalls_append, H]
    by_cases hb : (runCalls cb (f x) s).2 = true
    · simp only [hb, if_true]
      exact loopList_runCalls cb body f H xs _
    · have hb' : (runCalls cb (f x) s).2 = false := by simpa using hb
      simp [hb']

end TraceProps

/-! ## `drawAA` as a list of callback invocations -/

section DrawTrace

variable {α : Type} [LinearOrderedField α] [FloorRing α] {σ : Type}

theorem fullPixelBody_emits (t : Triangle α) (cb : SamplingCallback σ α) (y x : α)
    (tex : Vector3 α) (s : σ) :
    Emits cb (fullPixelBody t cb y x (tex, s)) (fullPixelCalls t y x tex) (tex.add t.dx) s := by
  simp only [Emits, fullPixelBody, fullPixelCalls, runCalls]
  by_cases h : (cb s ⟨truncInt x, truncInt y, tex, t.dx, t.dy, 1⟩).2 = true
  · simp [h]
  · simp [h]

theorem runCalls_singleton (cb : SamplingCallback σ α) (c : Call α) (s : σ) :
    runCalls cb [c] s = cb s c := by
  simp only [runCalls]
  by_cases h : (cb s c).2 = true
  · simp only [h, if_true]
    exact Prod.ext rfl h.symm
  · have h' : (cb s c).2 = false := by simpa using h
    simp only [h', Bool.false_eq_true, if_false]
    exact Prod.ext rfl h'.symm

theorem emits_wrap {C D : Type} (cb : SamplingCallback σ α) (r : (C × σ) × Bool)
    (calls : List (Call α)) (c' : C) (s : σ) (d0 d1 : D) (h : Emits cb r calls c' s) :
    Emits cb (if r.2 then ((d1, r.1.2), true) else ((d0, r.1.2), false)) calls d1 s := by
  obtain ⟨h1, h2, _⟩ := h
  by_cases hb : r.2 = true
  · simp only [hb, if_true, Emits]
    exact ⟨by rw [← h1, hb], h2, fun _ => trivial⟩
  · have hb' : r.2 = false := by simpa using hb
    simp only [hb', Bool.false_eq_true, if_false, Emits]
    exact ⟨by rw [← h1, hb'], h2, fun h => absurd h (by simp)⟩

theorem fullRowBody_emits (t : Triangle α) (cb : SamplingCallback σ α) (x0 y : α)
    (texRow : Vector3 α) (s : σ) :
    Emits cb (fullRowBody t cb 8 x0 y (texRow, s)) (fullRowCalls t x0 y texRow)
      (texRow.add t.dy) s := by
  have h := loopList_emits cb (fullPixelBody t cb y) (fullPixelCalls t y)
    (fun _ tex => tex.add t.dx) (fun x c s => fullPixelBody_emits t cb y x c s)
    (steps 1 8 x0) texRow s
  simp only [fullRowBody, forLT_block, fullRowCalls]
  exact emits_wrap cb _ _ _ s texRow (texRow.add t.dy) h

theorem partialPixel_eq (t : Triangle α) (cb : SamplingCallback σ α) (PI PO y x : α)
    (cx : EdgeState α) (s : σ) :
    partialPixel t cb PI PO y x cx s = runCalls cb (partialPixelCalls t PI PO y x cx) s := by
  simp only [partialPixel, partialPixelCalls, pixelClip, ClippedTriangle.centroid,
    ClippedTriangle.area]
  split_ifs <;> first | rw [runCalls_singleton] | rfl

theorem partialPixelBody_emits (t : Triangle α) (cb : SamplingCallback σ α) (PI PO y x : α)
    (cx : EdgeState α) (s : σ) :
    Emits cb (partialPixelBody t cb PI PO y x (cx, s)) (partialPixelCalls t PI PO y x cx)
      (stepX t cx) s := by
  simp only [partialPixelBody, partialPixel_eq, stepX, Emits]
  by_cases hb : (runCalls cb (partialPixelCalls t PI PO y x cx) s).2 = true
  · simp [hb]
  · simp [hb]

theorem partialRowBody_emits (t : Triangle α) (cb : SamplingCallback σ α) (PI PO x0 y : α)
    (cy : EdgeState α) (s : σ) :
    Emits cb (partialRowBody t cb PI PO 8 x0 y (cy, s)) (partialRowCalls t PI PO x0 y cy)
      (stepY t cy) s := by
  have h := loopList_emits cb (partialPixelBody t cb PI PO y) (partialPixelCalls t PI PO y)
    (fun _ cx => stepX t cx) (fun x c s => partialPixelBody_emits t cb PI PO y x c s)
    (steps 1 8 x0) cy s
  simp only [partialRowBody, forLT_block, partialRowCalls, stepY]
  exact emits_wrap cb _ _ _ s cy _ h

theorem emits_eq_runCalls {C : Type} (cb : SamplingCallback σ α) (r : (C × σ) × Bool)
    (calls : List (Call α)) (c' : C) (s : σ) (h : Emits cb r calls c' s) :
    (r.1.2, r.2) = runCalls cb calls s := by
  obtain ⟨h1, h2, _⟩ := h
  exact Prod.ext h2 h1

theorem blockBody_eq (t : Triangle α) (cb : SamplingCallback σ α)
    (PI PO BI BO : α) (C1 C2 C3 : Option α) (y0 x0 : α) (s : σ) :
    blockBody t cb PI PO 8 BI BO C1 C2 C3 y0 x0 s
      = runCalls cb (blockCalls t PI PO BI BO C1 C2 C3 y0 x0) s := by
  simp only [blockBody, blockCalls]
  split_ifs with h1 h2
  · rfl
  · rw [forLT_block]
    exact emits_eq_runCalls cb _ _ _ s
      (loopList_emits cb (fullRowBody t cb 8 x0) (fullRowCalls t x0)
        (fun _ texRow => texRow.add t.dy) (fun y c s => fullRowBody_emits t cb x0 y c s)
        (steps 1 8 y0) _ s)
  · rw [forLT_block]
    exact emits_eq_runCalls cb _ _ _ s
      (loopList_emits cb (partialRowBody t cb PI PO 8 x0) (partialRowCalls t PI PO x0)
        (fun _ cy => stepY t cy) (fun y c s => partialRowBody_emits t cb PI PO x0 y c s)
        (steps 1 8 y0) _ s)

/-- `drawAA` applies the callback to the calls of `drawCalls`, in order, and
stops after the first call on which the callback returns false. -/
theorem drawAA_eq_runCalls (sqrtf : α → α) (t : Triangle α) (cb : SamplingCallback σ α) (s : σ) :
    t.drawAA sqrtf cb s = runCalls cb (drawCalls sqrtf t) s := by
  simp only [Triangle.drawAA, drawCalls]
  rw [forLE_eq_loopList 8 _ (by norm_num) _
    (blockCount (loBound t.v1.y t.v2.y t.v3.y) (hiBound t.v1.y t.v2.y t.v3.y))
    _ s (by simp only [blockCount, loBound, hiBound])]
  apply loopList_runCalls
  intro y0 s'
  rw [forLE_eq_loopList 8 _ (by norm_num) _
    (blockCount (loBound t.v1.x t.v2.x t.v3.x) (hiBound t.v1.x t.v2.x t.v3.x))
    _ s' (by simp only [blockCount, loBound, hiBound])]
  apply loopList_runCalls
  intro x0 s''
  exact blockBody_eq t cb _ _ _ _ _ _ _ y0 x0 s''

end DrawTrace

/-! ## Early termination -/

section Termination

variable {α : Type} [LinearOrderedField α] {σ : Type}

theorem runCalls_record (cb : SamplingCallback σ α) :
    ∀ (calls : List (Call α)) (s : σ) (log0 : List (Call α × Bool)),
      ∃ entries : List (Call α × Bool),
        (runCalls (record cb) calls (s, log0)).1.2 = log0 ++ entries ∧
        (runCalls (record cb) calls (s, log0)).1.1 = (runCalls cb calls s).1 ∧
        (runCalls (record cb) calls (s, log0)).2 = (runCalls cb calls s).2 ∧
        entries.map Prod.fst <+: calls ∧
        ((runCalls cb calls s).2 = true →
          entries.map Prod.fst = calls ∧ ∀ e ∈ entries, e.2 = true) ∧
        ((runCalls cb calls s).2 = false →
          ∃ pre e, entries = pre ++ [e] ∧ e.2 = false ∧ ∀ e' ∈ pre, e'.2 = true)
  | [], s, log0 => ⟨[], by simp [runCalls]⟩
  | c :: cs, s, log0 => by
    by_cases hb : (cb s c).2 = true
    · obtain ⟨entries, h1, h2, h3, h4, h5, h6⟩ :=
        runCalls_record cb cs (cb s c).1 (log0 ++ [(c, (cb s c).2)])
      refine ⟨(c, (cb s c).2) :: entries, ?_, ?_, ?_, ?_, ?_, ?_⟩
      · simp only [runCalls, record, hb, if_true]
        simp only [record, hb] at h1
        rw [h1]; simp
      · simp only [runCalls, record, hb, if_true]
        simp only [record, hb] at h2
        exact h2
      · simp only [runCalls, record, hb, if_true]
        simp only [record, hb] at h3
        exact h3
      · simp only [List.map_cons]
        exact List.prefix_cons_inj c |>.mpr h4
      · intro h
        simp only [runCalls, hb, if_true] at h
        obtain ⟨h5a, h5b⟩ := h5 h
        refine ⟨by simp [h5a], ?_⟩
        intro e he
        simp only [List.mem_cons] at he
        rcases he with rfl | he
        · exact hb
        · exact h5b e he
      · intro h
        simp only [runCalls, hb, if_true] at h
        obtain ⟨pre, e, hpe, hef, hpre⟩ := h6 h
        refine ⟨(c, (cb s c).2) :: pre, e, by simp [hpe], hef, ?_⟩
        intro e' he'
        simp only [List.mem_cons] at he'
        rcases he' with rfl | he'
        · exact hb
        · exact hpre e' he'
    · have hb' : (cb s c).2 = false := by simpa using hb
      refine ⟨[(c, false)], ?_, ?_, ?_, ?_, ?_, ?_⟩
      · simp [runCalls, record, hb']
      · simp [runCalls, record, hb']
      · simp [runCalls, record, hb']
      · simp
      · intro h
        simp [runCalls, hb'] at h
      · intro _
        exact ⟨[], (c, false), by simp, rfl, by simp⟩

theorem falseOnlyLast_of_all_true (log : List (Call α × Bool)) (h : ∀ e ∈ log, e.2 = true) :
    FalseOnlyLast log := by
  intro pre post e hlog hf
  have := h e (by rw [hlog]; simp)
  rw [hf] at this
  exact absurd this (by simp)

theorem falseOnlyLast_of_last (pre : List (Call α × Bool)) (e : Call α × Bool)
    (h : ∀ e' ∈ pre, e'.2 = true) : FalseOnlyLast (pre ++ [e]) := by
  intro pre' post e' hlog hf
  by_contra hpost
  have hmem : e' ∈ pre := by
    rcases List.eq_nil_or_concat post with h0 | ⟨post', x, hx⟩
    · exact absurd h0 hpost
    · have h1 : pre ++ [e] = (pre' ++ e' :: post') ++ [x] := by
        rw [hlog, hx]; simp
      have h2 := List.append_inj_left' h1 rfl
      rw [h2]; simp
  have := h e' hmem
  rw [hf] at this
  exact absurd this (by simp)

end Termination

section TerminationDraw

variable {α : Type} [LinearOrderedField α] [FloorRing α] {σ : Type}

/-- The log of `drawAA` run with an instrumented callback: its calls are an
initial segment of `drawCalls`, the whole of it when `drawAA` returns true. -/
theorem drawAA_record (sqrtf : α → α) (t : Triangle α) (cb : SamplingCallback σ α) (s : σ) :
    (((t.drawAA sqrtf (record cb) (s, [])).1.1, (t.drawAA sqrtf (record cb) (s, [])).2)
        = t.drawAA sqrtf cb s) ∧
    (t.drawAA sqrtf (record cb) (s, [])).1.2.map Prod.fst <+: drawCalls sqrtf t ∧
    ((t.drawAA sqrtf (record cb) (s, [])).2 = true →
      (t.drawAA sqrtf (record cb) (s, [])).1.2.map Prod.fst = drawCalls sqrtf t ∧
      ∀ e ∈ (t.drawAA sqrtf (record cb) (s, [])).1.2, e.2 = true) ∧
    ((t.drawAA sqrtf (record cb) (s, [])).2 = false →
      ∃ pre e, (t.drawAA sqrtf (record cb) (s, [])).1.2 = pre ++ [e] ∧ e.2 = false ∧
        ∀ e' ∈ pre, e'.2 = true) := by
  obtain ⟨entries, h1, h2, h3, h4, h5, h6⟩ := runCalls_record cb (drawCalls sqrtf t) s []
  simp only [List.nil_append] at h1
  rw [drawAA_eq_runCalls, drawAA_eq_runCalls, h1]
  refine ⟨Prod.ext h2 h3, h4, ?_, ?_⟩
  · intro h; exact h5 (h3 ▸ h)
  · intro h; exact h6 (h3 ▸ h)

/-- C3: run with any callback (instrumented by `record`), `drawAA` returns
false exactly when some invocation of the callback returned false; such an
invocation is the last one of the log; and when the callback returns false on
the first invocation, `drawAA` returns false after exactly that one
invocation. -/
theorem drawAA_false_iff_callback_returned_false (sqrtf : α → α) (t : Triangle α)
    (cb : SamplingCallback σ α) (s : σ) :
    (((t.drawAA sqrtf (record cb) (s, [])).1.1, (t.drawAA sqrtf (record cb) (s, [])).2)
        = t.drawAA sqrtf cb s) ∧
    ((t.drawAA sqrtf (record cb) (s, [])).2 = false ↔
      ∃ e ∈ (t.drawAA sqrtf (record cb) (s, [])).1.2, e.2 = false) ∧
    FalseOnlyLast (t.drawAA sqrtf (record cb) (s, [])).1.2 ∧
    (∀ c0 rest, drawCalls sqrtf t = c0 :: rest → (cb s c0).2 = false →
      (t.drawAA sqrtf (record cb) (s, [])).2 = false ∧
      (t.drawAA sqrtf (record cb) (s, [])).1.2 = [(c0, false)]) := by
  obtain ⟨h0, _, h2, h3⟩ := drawAA_record sqrtf t cb s
  refine ⟨h0, ⟨?_, ?_⟩, ?_, ?_⟩
  · intro hf
    obtain ⟨pre, e, hlog, he, _⟩ := h3 hf
    exact ⟨e, by rw [hlog]; simp, he⟩
  · rintro ⟨e, hmem, he⟩
    by_contra hne
    have ht : (t.drawAA sqrtf (record cb) (s, [])).2 = true := by simpa using hne
    have := (h2 ht).2 e hmem
    rw [he] at this
    exact absurd this (by simp)
  · by_cases hb : (t.drawAA sqrtf (record cb) (s, [])).2 = true
    · exact falseOnlyLast_of_all_true _ (h2 hb).2
    · have hb' : (t.drawAA sqrtf (record cb) (s, [])).2 = false := by simpa using hb
      obtain ⟨pre, e, hlog, _, hpre⟩ := h3 hb'
      rw [hlog]
      exact falseOnlyLast_of_last pre e hpre
  · intro c0 rest hc hf
    rw [drawAA_eq_runCalls, hc]
    simp [runCalls, record, hf]

end TerminationDraw

/-! ## The calls of `drawAA`, pixel by pixel -/

section PixelCalls

variable {α : Type} [LinearOrderedField α] [FloorRing α]

theorem unrollCalls_steps {C : Type} (f : α → C → List (Call α)) (g : C → C) (step : α) :
    ∀ (n : Nat) (x : α) (c0 : C),
      unrollCalls f (fun _ c => g c) (steps step n x) c0
        = (List.range n).flatMap (fun k => f (x + k * step) (g^[k] c0))
  | 0, x, c0 => by simp [steps, unrollCalls]
  | n + 1, x, c0 => by
    rw [steps, unrollCalls, unrollCalls_steps f g step n, List.range_succ_eq_map,
      List.flatMap_cons, List.flatMap_map]
    congr 1
    · simp
    · apply List.flatMap_congr
      intro k _
      simp only [Function.comp, Function.iterate_succ, Nat.cast_succ]
      congr 1
      ring

theorem interp_add_dx (t : Triangle α) (x y : α) :
    (t.interp ⟨x, y⟩).add t.dx = t.interp ⟨x + 1, y⟩ := by
  simp only [Triangle.interp, Vector3.add, Vector3.smul, Vector3.mk.injEq]
  refine ⟨?_, ?_, ?_⟩ <;> ring

theorem interp_add_dy (t : Triangle α) (x y : α) :
    (t.interp ⟨x, y⟩).add t.dy = t.interp ⟨x, y + 1⟩ := by
  simp only [Triangle.interp, Vector3.add, Vector3.smul, Vector3.mk.injEq]
  refine ⟨?_, ?_, ?_⟩ <;> ring

theorem texRow_eq_interp (t : Triangle α) (x0 y0 : α) :
    (t.t1.add (t.dy.smul (y0 - t.v1.y))).add (t.dx.smul (x0 - t.v1.x)) = t.interp ⟨x0, y0⟩ := by
  simp only [Triangle.interp, Vector3.add, Vector3.smul, Vector3.mk.injEq]
  refine ⟨?_, ?_, ?_⟩ <;> ring

theorem halfSpace_add_x (C : Option α) (n : Option (Vector2 α)) (x y : α) :
    nanAdd (halfSpace C n x y) (n.map Vector2.x) = halfSpace C n (x + 1) y := by
  cases C <;> cases n <;> simp [halfSpace, nanAdd]
  ring

theorem halfSpace_add_y (C : Option α) (n : Option (Vector2 α)) (x y : α) :
    nanAdd (halfSpace C n x y) (n.map Vector2.y) = halfSpace C n x (y + 1) := by
  cases C <;> cases n <;> simp [halfSpace, nanAdd]
  ring

theorem stepX_edgeAt (t : Triangle α) (C1 C2 C3 : Option α) (x y : α) :
    stepX t (edgeAt t C1 C2 C3 x y) = edgeAt t C1 C2 C3 (x + 1) y := by
  simp only [stepX, edgeAt, halfSpace_add_x, interp_add_dx]

theorem stepY_edgeAt (t : Triangle α) (C1 C2 C3 : Option α) (x y : α) :
    stepY t (edgeAt t C1 C2 C3 x y) = edgeAt t C1 C2 C3 x (y + 1) := by
  simp only [stepY, edgeAt, halfSpace_add_y, interp_add_dy]

theorem iterate_stepX_edgeAt (t : Triangle α) (C1 C2 C3 : Option α) (y : α) :
    ∀ (k : Nat) (x : α), (stepX t)^[k] (edgeAt t C1 C2 C3 x y) = edgeAt t C1 C2 C3 (x + k) y
  | 0, x => by simp
  | k + 1, x => by
    rw [Function.iterate_succ_apply, stepX_edgeAt, iterate_stepX_edgeAt t C1 C2 C3 y k]
    congr 1
    push_cast
    ring

theorem iterate_stepY_edgeAt (t : Triangle α) (C1 C2 C3 : Option α) (x : α) :
    ∀ (k : Nat) (y : α), (stepY t)^[k] (edgeAt t C1 C2 C3 x y) = edgeAt t C1 C2 C3 x (y + k)
  | 0, y => by simp
  | k + 1, y => by
    rw [Function.iterate_succ_apply, stepY_edgeAt, iterate_stepY_edgeAt t C1 C2 C3 x k]
    congr 1
    push_cast
    ring

theorem iterate_add_dx (t : Triangle α) (y : α) :
    ∀ (k : Nat) (x : α), (fun tex : Vector3 α => tex.add t.dx)^[k] (t.interp ⟨x, y⟩)
      = t.interp ⟨x + k, y⟩
  | 0, x => by simp
  | k + 1, x => by
    rw [Function.iterate_succ_apply, interp_add_dx, iterate_add_dx t y k]
    congr 2
    push_cast
    ring

theorem iterate_add_dy (t : Triangle α) (x : α) :
    ∀ (k : Nat) (y : α), (fun tex : Vector3 α => tex.add t.dy)^[k] (t.interp ⟨x, y⟩)
      = t.interp ⟨x, y + k⟩
  | 0, y => by simp
  | k + 1, y => by
    rw [Function.iterate_succ_apply, interp_add_dy, iterate_add_dy t x k]
    congr 2
    push_cast
    ring

theorem steps_eq_map (step : α) : ∀ (n : Nat) (x : α),
    steps step n x = (List.range n).map (fun k : Nat => x + k * step)
  | 0, x => by simp [steps]
  | n + 1, x => by
    rw [steps, steps_eq_map step n, List.range_succ_eq_map, List.map_cons, List.map_map]
    congr 1
    · simp
    · apply List.map_congr_left
      intro k _
      simp only [Function.comp, Nat.cast_succ]
      ring

theorem fullBlockCalls_eq (t : Triangle α) (y0 x0 : α) :
    fullBlockCalls t y0 x0 = (List.range 8).flatMap (fun r : Nat =>
      (List.range 8).flatMap (fun k : Nat =>
        [(⟨truncInt (x0 + k), truncInt (y0 + r), t.interp ⟨x0 + k, y0 + r⟩, t.dx, t.dy, 1⟩ :
          Call α)])) := by
  unfold fullBlockCalls
  rw [texRow_eq_interp, unrollCalls_steps (fullRowCalls t x0) (fun texRow => texRow.add t.dy)]
  apply List.flatMap_congr
  intro r _
  rw [iterate_add_dy]
  unfold fullRowCalls
  rw [unrollCalls_steps (fullPixelCalls t (y0 + r * 1)) (fun tex => tex.add t.dx)]
  apply List.flatMap_congr
  intro k _
  rw [iterate_add_dx]
  simp only [fullPixelCalls, mul_one]

theorem partialBlockCalls_eq (t : Triangle α) (PI PO : α) (C1 C2 C3 : Option α) (y0 x0 : α) :
    partialBlockCalls t PI PO C1 C2 C3 y0 x0 = (List.range 8).flatMap (fun r : Nat =>
      (List.range 8).flatMap (fun k : Nat =>
        partialPixelCalls t PI PO (y0 + r) (x0 + k) (edgeAt t C1 C2 C3 (x0 + k) (y0 + r)))) := by
  unfold partialBlockCalls
  rw [texRow_eq_interp]
  change unrollCalls (partialRowCalls t PI PO x0) (fun _ cy => stepY t cy) (steps 1 8 y0)
    (edgeAt t C1 C2 C3 x0 y0) = _
  rw [unrollCalls_steps (partialRowCalls t PI PO x0) (stepY t)]
  apply List.flatMap_congr
  intro r _
  rw [iterate_stepY_edgeAt]
  unfold partialRowCalls
  rw [unrollCalls_steps (partialPixelCalls t PI PO (y0 + r * 1)) (stepX t)]
  apply List.flatMap_congr
  intro k _
  rw [iterate_stepX_edgeAt]
  simp only [mul_one]

theorem blockCalls_eq (t : Triangle α) (PI PO BI BO : α) (C1 C2 C3 : Option α) (y0 x0 : α) :
    blockCalls t PI PO BI BO C1 C2 C3 y0 x0 = (List.range 8).flatMap (fun r : Nat =>
      (List.range 8).flatMap (fun k : Nat =>
        pixelCallsAt t PI PO BI BO C1 C2 C3 y0 x0 (y0 + r) (x0 + k))) := by
  unfold blockCalls pixelCallsAt
  split_ifs with h1 h2
  · simp
  · exact fullBlockCalls_eq t y0 x0
  · exact partialBlockCalls_eq t PI PO C1 C2 C3 y0 x0

end PixelCalls

/-! ## The calls of `drawAA` over the grid of blocks -/

section Grid

variable {α : Type} [LinearOrderedField α] [FloorRing α]

theorem drawCalls_eq (sqrtf : α → α) (t : Triangle α) :
    drawCalls sqrtf t =
      (List.range (blockCount (loBound t.v1.y t.v2.y t.v3.y) (hiBound t.v1.y t.v2.y t.v3.y))).flatMap
        (fun bY : Nat =>
          (List.range (blockCount (loBound t.v1.x t.v2.x t.v3.x)
              (hiBound t.v1.x t.v2.x t.v3.x))).flatMap
            (fun bX : Nat => (List.range 8).flatMap (fun r : Nat =>
              (List.range 8).flatMap (fun k : Nat => pixelCalls sqrtf t bY bX r k)))) := by
  unfold drawCalls
  rw [steps_eq_map, List.flatMap_map]
  apply List.flatMap_congr
  intro bY _
  rw [steps_eq_map, List.flatMap_map]
  apply List.flatMap_congr
  intro bX _
  rw [blockCalls_eq]
  rfl

theorem mem_drawCalls (sqrtf : α → α) (t : Triangle α) (c : Call α) :
    c ∈ drawCalls sqrtf t ↔
      ∃ bY bX r k : Nat,
        bY < blockCount (loBound t.v1.y t.v2.y t.v3.y) (hiBound t.v1.y t.v2.y t.v3.y) ∧
        bX < blockCount (loBound t.v1.x t.v2.x t.v3.x) (hiBound t.v1.x t.v2.x t.v3.x) ∧
        r < 8 ∧ k < 8 ∧ c ∈ pixelCalls sqrtf t bY bX r k := by
  rw [drawCalls_eq]
  simp only [List.mem_flatMap, List.mem_range]
  constructor
  · rintro ⟨bY, hY, bX, hX, r, hr, k, hk, h⟩
    exact ⟨bY, bX, r, k, hY, hX, hr, hk, h⟩
  · rintro ⟨bY, bX, r, k, hY, hX, hr, hk, h⟩
    exact ⟨bY, hY, bX, hX, r, hr, k, hk, h⟩

theorem loBound_eq (a b c : α) : loBound a b c = ((loPixel a b c : ℤ) : α) + 1 / 2 := by
  simp [loBound, loPixel]

theorem loPixel_nonneg (a b c : α) : 0 ≤ loPixel a b c :=
  Int.floor_nonneg.mpr (le_max_right _ _)

theorem truncInt_pixel (m : Int) (n : Nat) (hm : 0 ≤ m) :
    truncInt ((m : α) + 1 / 2 + n) = m + n := by
  have h0 : (0 : α) ≤ (m : α) + 1 / 2 + n := by
    have : (0 : α) ≤ (m : α) := by exact_mod_cast hm
    positivity
  rw [truncInt, if_pos h0]
  have : (m : α) + 1 / 2 + n = ((m + n : ℤ) : α) + 1 / 2 := by push_cast; ring
  rw [this, Int.floor_eq_iff]
  constructor
  · linarith
  · linarith

end Grid

/-! ## The clipped ring stays inside the polygon and the box -/

section ClipConvex

variable {α : Type} [LinearOrderedField α]

theorem straddle_param (dir off p q : α)
    (h : decide (dir * (off - p) ≥ 0) ≠ decide (dir * (off - q) ≥ 0)) :
    q - p ≠ 0 ∧ 0 ≤ (off - p) / (q - p) ∧ (off - p) / (q - p) ≤ 1 := by
  have hne : q - p ≠ 0 := by
    intro h0
    have : q = p := by linarith
    rw [this] at h
    exact h rfl
  refine ⟨hne, ?_⟩
  have key : (0 ≤ off - p ∧ off - q < 0) ∨ (off - p ≤ 0 ∧ 0 < off - q)
      ∨ (0 < off - p ∧ off - q ≤ 0) ∨ (off - p < 0 ∧ 0 ≤ off - q) := by
    by_cases h1 : dir * (off - p) ≥ 0
    · have h2 : ¬ dir * (off - q) ≥ 0 := by
        intro h2; apply h; simp [h1, h2]
      push_neg at h2
      rcases lt_trichotomy dir 0 with hd | hd | hd
      · exact Or.inr (Or.inl ⟨nonpos_of_mul_nonneg_right h1 hd, pos_of_mul_neg_right h2 hd.le⟩)
      · rw [hd] at h2; simp at h2
      · exact Or.inl ⟨nonneg_of_mul_nonneg_right h1 hd, neg_of_mul_neg_right h2 hd.le⟩
    · have h2 : dir * (off - q) ≥ 0 := by
        by_contra h2; apply h; simp [h1, h2]
      push_neg at h1
      rcases lt_trichotomy dir 0 with hd | hd | hd
      · exact Or.inr (Or.inr (Or.inl ⟨pos_of_mul_neg_right h1 hd.le,
          nonpos_of_mul_nonneg_right h2 hd⟩))
      · rw [hd] at h1; simp at h1
      · exact Or.inr (Or.inr (Or.inr ⟨neg_of_mul_neg_right h1 hd.le,
          nonneg_of_mul_nonneg_right h2 hd⟩))
  rcases key with ⟨hp, hq⟩ | ⟨hp, hq⟩ | ⟨hp, hq⟩ | ⟨hp, hq⟩
  · have hqp : 0 < q - p := by linarith
    exact ⟨div_nonneg hp hqp.le, (div_le_one hqp).mpr (by linarith)⟩
  · have hqp : q - p < 0 := by linarith
    exact ⟨div_nonneg_of_nonpos hp hqp.le, (div_le_one_of_neg hqp).mpr (by linarith)⟩
  · have hqp : 0 < q - p := by linarith
    exact ⟨div_nonneg hp.le hqp.le, (div_le_one hqp).mpr (by linarith)⟩
  · have hqp : q - p < 0 := by linarith
    exact ⟨div_nonneg_of_nonpos hp.le hqp.le, (div_le_one_of_neg hqp).mpr (by linarith)⟩

theorem isectV_eq_lerp (off dir : α) (a b : Vector2 α)
    (h : (insideV off dir a != insideV off dir b) = true) :
    ∃ t, 0 ≤ t ∧ t ≤ 1 ∧ isectV off a b = lerp a b t := by
  have h' : decide (dir * (off - a.x) ≥ 0) ≠ decide (dir * (off - b.x) ≥ 0) := by
    simpa [insideV] using h
  obtain ⟨hne, h0, h1⟩ := straddle_param dir off a.x b.x h'
  refine ⟨(off - a.x) / (b.x - a.x), h0, h1, ?_⟩
  simp only [isectV, lerp, Vector2.mk.injEq]
  constructor
  · field_simp
  · field_simp

theorem isectH_eq_lerp (off dir : α) (a b : Vector2 α)
    (h : (insideH off dir a != insideH off dir b) = true) :
    ∃ t, 0 ≤ t ∧ t ≤ 1 ∧ isectH off a b = lerp a b t := by
  have h' : decide (dir * (off - a.y) ≥ 0) ≠ decide (dir * (off - b.y) ≥ 0) := by
    simpa [insideH] using h
  obtain ⟨hne, h0, h1⟩ := straddle_param dir off a.y b.y h'
  refine ⟨(off - a.y) / (b.y - a.y), h0, h1, ?_⟩
  simp only [isectH, lerp, Vector2.mk.injEq]
  constructor
  · field_simp
  · field_simp

theorem insideV_isectV (off dir : α) (a b : Vector2 α) :
    insideV off dir (isectV off a b) = true := by
  simp [insideV, isectV]

theorem insideH_isectH (off dir : α) (a b : Vector2 α) :
    insideH off dir (isectH off a b) = true := by
  simp [insideH, isectH]

theorem clipPath_forall (ins : Vector2 α → Bool) (isect : Vector2 α → Vector2 α → Vector2 α)
    (P : Vector2 α → Prop) (hP : ConvexPred P)
    (hl : ∀ a b, (ins a != ins b) = true → ∃ t, 0 ≤ t ∧ t ≤ 1 ∧ isect a b = lerp a b t)
    (hi : ∀ a b, ins (isect a b) = true) :
    ∀ p : List (Vector2 α), (∀ v ∈ p, P v) → ∀ v ∈ clipPath ins isect p, P v ∧ ins v = true
  | [], _, v, hv => by simp [clipPath] at hv
  | [a], _, v, hv => by simp [clipPath] at hv
  | a :: b :: rest, h, v, hv => by
    simp only [clipPath, List.mem_append] at hv
    rcases hv with (hv | hv) | hv
    · by_cases ha : ins a = true
      · simp only [ha, if_true, List.mem_singleton] at hv
        rw [hv]
        exact ⟨h a (by simp), ha⟩
      · simp [ha] at hv
    · by_cases hs : (ins a != ins b) = true
      · simp only [hs, if_true, List.mem_singleton] at hv
        obtain ⟨t, h0, h1, ht⟩ := hl a b hs
        rw [hv]
        refine ⟨?_, hi a b⟩
        rw [ht]
        exact hP a b t (h a (by simp)) (h b (by simp)) h0 h1
      · simp [hs] at hv
    · exact clipPath_forall ins isect P hP hl hi (b :: rest)
        (fun w hw => h w (List.mem_cons_of_mem _ hw)) v hv

theorem clipPath_closeRing_forall (ins : Vector2 α → Bool)
    (isect : Vector2 α → Vector2 α → Vector2 α)
    (P : Vector2 α → Prop) (hP : ConvexPred P)
    (hl : ∀ a b, (ins a != ins b) = true → ∃ t, 0 ≤ t ∧ t ≤ 1 ∧ isect a b = lerp a b t)
    (hi : ∀ a b, ins (isect a b) = true) (vs : List (Vector2 α)) (h : ∀ v ∈ vs, P v) :
    ∀ v ∈ clipPath ins isect (closeRing vs), P v ∧ ins v = true := by
  cases vs with
  | nil => intro v hv; simp [closeRing, clipPath] at hv
  | cons a rest =>
    exact clipPath_forall ins isect P hP hl hi _
      (fun v hv => h v (mem_closeRing hv (by simp)))

theorem convexPred_and (P Q : Vector2 α → Prop) (hP : ConvexPred P) (hQ : ConvexPred Q) :
    ConvexPred (fun v => P v ∧ Q v) :=
  fun a b t ha hb h0 h1 => ⟨hP a b t ha.1 hb.1 h0 h1, hQ a b t ha.2 hb.2 h0 h1⟩

theorem convexPred_insideV (off dir : α) : ConvexPred (fun v => insideV off dir v = true) := by
  intro a b t ha hb h0 h1
  simp only [insideV, decide_eq_true_eq, lerp] at *
  have : dir * (off - (a.x + t * (b.x - a.x)))
      = (1 - t) * (dir * (off - a.x)) + t * (dir * (off - b.x)) := by ring
  rw [ge_iff_le, this]
  have h2 : 0 ≤ 1 - t := by linarith
  positivity

theorem convexPred_insideH (off dir : α) : ConvexPred (fun v => insideH off dir v = true) := by
  intro a b t ha hb h0 h1
  simp only [insideH, decide_eq_true_eq, lerp] at *
  have : dir * (off - (a.y + t * (b.y - a.y)))
      = (1 - t) * (dir * (off - a.y)) + t * (dir * (off - b.y)) := by ring
  rw [ge_iff_le, this]
  have h2 : 0 ≤ 1 - t := by linarith
  positivity

/-- Every vertex of the ring left by `clipAABox` lies in the box, and in every
convex set that contains the vertices of the ring that was clipped. -/
theorem clipBoxRing_forall (x0 y0 x1 y1 : α) (P : Vector2 α → Prop) (hP : ConvexPred P)
    (vs : List (Vector2 α)) (h : ∀ v ∈ vs, P v) :
    ∀ v ∈ clipBoxRing x0 y0 x1 y1 vs, P v ∧ inBox x0 y0 x1 y1 v := by
  have h1 := clipPath_closeRing_forall (insideV x0 (-1)) (isectV x0) P hP
    (isectV_eq_lerp x0 (-1)) (insideV_isectV x0 (-1)) vs h
  have h2 := clipPath_closeRing_forall (insideH y0 (-1)) (isectH y0)
    (fun v => P v ∧ insideV x0 (-1) v = true)
    (convexPred_and _ _ hP (convexPred_insideV x0 (-1)))
    (isectH_eq_lerp y0 (-1)) (insideH_isectH y0 (-1)) _ h1
  have h3 := clipPath_closeRing_forall (insideV x1 1) (isectV x1)
    (fun v => (P v ∧ insideV x0 (-1) v = true) ∧ insideH y0 (-1) v = true)
    (convexPred_and _ _ (convexPred_and _ _ hP (convexPred_insideV x0 (-1)))
      (convexPred_insideH y0 (-1)))
    (isectV_eq_lerp x1 1) (insideV_isectV x1 1) _ h2
  have h4 := clipPath_closeRing_forall (insideH y1 1) (isectH y1)
    (fun v => ((P v ∧ insideV x0 (-1) v = true) ∧ insideH y0 (-1) v = true)
      ∧ insideV x1 1 v = true)
    (convexPred_and _ _ (convexPred_and _ _ (convexPred_and _ _ hP (convexPred_insideV x0 (-1)))
      (convexPred_insideH y0 (-1))) (convexPred_insideV x1 1))
    (isectH_eq_lerp y1 1) (insideH_isectH y1 1) _ h3
  intro v hv
  obtain ⟨⟨⟨⟨hp, ha⟩, hb⟩, hc⟩, hd⟩ := h4 v hv
  exact ⟨hp, (insideV_neg_one x0 v).mp ha, (insideV_one x1 v).mp hc,
    (insideH_neg_one y0 v).mp hb, (insideH_one y1 v).mp hd⟩

end ClipConvex

/-! ## Sums over closed paths -/

section PathSums

variable {α : Type} [LinearOrderedField α]

theorem pathSum_telescope (g : Vector2 α → α) :
    ∀ (rest : List (Vector2 α)) (a z : Vector2 α),
      pathSum (fun u w => g w - g u) (a :: (rest ++ [z])) = g z - g a
  | [], a, z => by simp [pathSum]
  | b :: r, a, z => by
    have ih := pathSum_telescope g r b z
    show g b - g a + pathSum (fun u w => g w - g u) (b :: (r ++ [z])) = g z - g a
    rw [ih]; ring

theorem pathSum_telescope_closeRing (g : Vector2 α → α) (vs : List (Vector2 α)) :
    pathSum (fun u w => g w - g u) (closeRing vs) = 0 := by
  cases vs with
  | nil => simp [closeRing, pathSum]
  | cons a rest =>
    have := pathSum_telescope g rest a a
    simpa [closeRing] using this

theorem pathSum_congr (h h' : Vector2 α → Vector2 α → α) :
    ∀ p : List (Vector2 α), (∀ u ∈ p, ∀ w ∈ p, h u w = h' u w) → pathSum h p = pathSum h' p
  | [], _ => by simp [pathSum]
  | [a], _ => by simp [pathSum]
  | a :: b :: rest, H => by
    simp only [pathSum]
    rw [H a (by simp) b (by simp),
      pathSum_congr h h' (b :: rest) (fun u hu w hw =>
        H u (List.mem_cons_of_mem _ hu) w (List.mem_cons_of_mem _ hw))]

theorem pathSum_add (h1 h2 : Vector2 α → Vector2 α → α) :
    ∀ p : List (Vector2 α),
      pathSum (fun u w => h1 u w + h2 u w) p = pathSum h1 p + pathSum h2 p
  | [] => by simp [pathSum]
  | [a] => by simp [pathSum]
  | a :: b :: rest => by
    simp only [pathSum]
    rw [pathSum_add h1 h2 (b :: rest)]; ring

theorem pathSum_mul_left (c : α) (h : Vector2 α → Vector2 α → α) :
    ∀ p : List (Vector2 α), pathSum (fun u w => c * h u w) p = c * pathSum h p
  | [] => by simp [pathSum]
  | [a] => by simp [pathSum]
  | a :: b :: rest => by
    simp only [pathSum]
    rw [pathSum_mul_left c h (b :: rest)]; ring

theorem pathSum_abs_le (h k : Vector2 α → Vector2 α → α) :
    ∀ p : List (Vector2 α), (∀ u ∈ p, ∀ w ∈ p, |h u w| ≤ k u w) → |pathSum h p| ≤ pathSum k p
  | [], _ => by simp [pathSum]
  | [a], _ => by simp [pathSum]
  | a :: b :: rest, H => by
    simp only [pathSum]
    have h1 := H a (by simp) b (by simp)
    have h2 := pathSum_abs_le h k (b :: rest) (fun u hu w hw =>
        H u (List.mem_cons_of_mem _ hu) w (List.mem_cons_of_mem _ hw))
    calc |h a b + pathSum h (b :: rest)| ≤ |h a b| + |pathSum h (b :: rest)| := abs_add _ _
      _ ≤ k a b + pathSum k (b :: rest) := add_le_add h1 h2

theorem pathSum_le_pathSum (h k : Vector2 α → Vector2 α → α) :
    ∀ p : List (Vector2 α), (∀ u ∈ p, ∀ w ∈ p, h u w ≤ k u w) → pathSum h p ≤ pathSum k p
  | [], _ => by simp [pathSum]
  | [a], _ => by simp [pathSum]
  | a :: b :: rest, H => by
    simp only [pathSum]
    exact add_le_add (H a (by simp) b (by simp))
      (pathSum_le_pathSum h k (b :: rest) (fun u hu w hw =>
        H u (List.mem_cons_of_mem _ hu) w (List.mem_cons_of_mem _ hw)))

theorem forall_mem_closeRing (P : Vector2 α → Prop) (vs : List (Vector2 α)) (hne : vs ≠ [])
    (h : ∀ v ∈ vs, P v) : ∀ v ∈ closeRing vs, P v :=
  fun v hv => h v (mem_closeRing hv hne)

theorem pathSum_closeRing_nil (h : Vector2 α → Vector2 α → α) :
    pathSum h (closeRing ([] : List (Vector2 α))) = 0 := by
  simp [closeRing, pathSum]

/-- The shoelace sum of a closed ring whose vertices lie on one line is zero. -/
theorem pathSum_shoelace_collinear (la lb lc : α) (hl : la ≠ 0 ∨ lb ≠ 0)
    (vs : List (Vector2 α)) (h : ∀ v ∈ vs, la * v.x + lb * v.y = lc) :
    pathSum shoelace (closeRing vs) = 0 := by
  by_cases hne : vs = []
  · rw [hne]; exact pathSum_closeRing_nil _
  have hc := forall_mem_closeRing _ vs hne h
  rcases hl with hl | hl
  · have h1 : la * pathSum shoelace (closeRing vs) = 0 := by
      rw [← pathSum_mul_left,
        pathSum_congr _ (fun u w => (fun v : Vector2 α => lc * v.y) w
          - (fun v : Vector2 α => lc * v.y) u) _ ?_]
      · exact pathSum_telescope_closeRing _ vs
      · intro u hu w hw
        have e1 := hc u hu
        have e2 := hc w hw
        simp only [shoelace]
        linear_combination w.y * e1 - u.y * e2
    rcases mul_eq_zero.mp h1 with h2 | h2
    · exact absurd h2 hl
    · exact h2
  · have h1 : lb * pathSum shoelace (closeRing vs) = 0 := by
      rw [← pathSum_mul_left,
        pathSum_congr _ (fun u w => (fun v : Vector2 α => -(lc * v.x)) w
          - (fun v : Vector2 α => -(lc * v.x)) u) _ ?_]
      · exact pathSum_telescope_closeRing _ vs
      · intro u hu w hw
        have e1 := hc u hu
        have e2 := hc w hw
        simp only [shoelace]
        linear_combination u.x * e2 - w.x * e1
    rcases mul_eq_zero.mp h1 with h2 | h2
    · exact absurd h2 hl
    · exact h2

/-- The shoelace sum of a closed ring inside the strip `x0 ≤ x ≤ x1` is at most
the width of the strip times the variation of `y` along the ring. -/
theorem abs_pathSum_shoelace_le (x0 x1 : α) (vs : List (Vector2 α))
    (h : ∀ v ∈ vs, x0 ≤ v.x ∧ v.x ≤ x1) :
    |pathSum shoelace (closeRing vs)|
      ≤ (x1 - x0) * pathSum (fun u w => |w.y - u.y|) (closeRing vs) := by
  by_cases hne : vs = []
  · rw [hne]; simp [pathSum_closeRing_nil]
  have hc := forall_mem_closeRing _ vs hne h
  have e : pathSum shoelace (closeRing vs)
      = pathSum (fun u w => (u.x + w.x - (x0 + x1)) * (w.y - u.y)) (closeRing vs) := by
    have h1 : pathSum shoelace (closeRing vs)
        = pathSum (fun u w => (u.x + w.x - (x0 + x1)) * (w.y - u.y)
            + ((fun v : Vector2 α => -(v.x * v.y - (x0 + x1) * v.y)) w
              - (fun v : Vector2 α => -(v.x * v.y - (x0 + x1) * v.y)) u)) (closeRing vs) := by
      apply pathSum_congr
      intro u _ w _
      simp only [shoelace]
      ring
    rw [h1, pathSum_add, pathSum_telescope_closeRing, add_zero]
  rw [e, ← pathSum_mul_left]
  apply pathSum_abs_le
  intro u hu w hw
  obtain ⟨u0, u1⟩ := hc u hu
  obtain ⟨w0, w1⟩ := hc w hw
  rw [abs_mul]
  apply mul_le_mul_of_nonneg_right _ (abs_nonneg _)
  rw [abs_le]
  constructor <;> linarith

end PathSums

/-! ## The variation of a ring does not grow under clipping -/

section Variation

variable {α : Type} [LinearOrderedField α]

theorem pathSum_cons_cons (h : Vector2 α → Vector2 α → α) (a b : Vector2 α)
    (rest : List (Vector2 α)) : pathSum h (a :: b :: rest) = h a b + pathSum h (b :: rest) := rfl

theorem var_edge (d : Vector2 α → Vector2 α → α) (hd0 : ∀ a, d a a = 0)
    (htri : ∀ a b c, d a c ≤ d a b + d b c)
    (ins : Vector2 α → Bool) (isect : Vector2 α → Vector2 α → Vector2 α)
    (hseg : ∀ a b, (ins a != ins b) = true → d a (isect a b) + d (isect a b) b ≤ d a b)
    (a b : Vector2 α) (X : List (Vector2 α)) (hX : X ≠ []) :
    pathSum d (a :: (((if ins a then [a] else []) ++ (if ins a != ins b then [isect a b] else []))
      ++ X)) ≤ d a b + pathSum d (b :: X) := by
  cases X with
  | nil => exact absurd rfl hX
  | cons h X' =>
    have t0 := htri a b h
    have t1 := htri (isect a b) b h
    cases hia : ins a <;> cases hib : ins b
    · simp only [bne_self_eq_false, Bool.false_eq_true, if_false, List.nil_append,
        pathSum_cons_cons]
      linarith
    · have hsg := hseg a b (by simp [hia, hib])
      simp only [Bool.false_eq_true, if_false, List.nil_append, show (false != true) = true from rfl,
        if_true, List.cons_append, pathSum_cons_cons]
      linarith
    · have hsg := hseg a b (by simp [hia, hib])
      simp only [if_true, List.nil_append, show (true != false) = true from rfl,
        List.cons_append, pathSum_cons_cons, hd0]
      linarith
    · simp only [bne_self_eq_false, Bool.false_eq_true, if_false, if_true, List.nil_append,
        List.append_nil, List.cons_append, pathSum_cons_cons, hd0]
      linarith

theorem var_clipPath (d : Vector2 α → Vector2 α → α) (hd0 : ∀ a, d a a = 0)
    (htri : ∀ a b c, d a c ≤ d a b + d b c)
    (ins : Vector2 α → Bool) (isect : Vector2 α → Vector2 α → Vector2 α)
    (hseg : ∀ a b, (ins a != ins b) = true → d a (isect a b) + d (isect a b) b ≤ d a b) :
    ∀ (rest : List (Vector2 α)) (a z : Vector2 α),
      pathSum d (a :: (clipPath ins isect (a :: (rest ++ [z])) ++ [z]))
        ≤ pathSum d (a :: (rest ++ [z]))
  | [], a, z => by
    have h := var_edge d hd0 htri ins isect hseg a z [z] (by simp)
    simpa [clipPath, pathSum, hd0] using h
  | b :: r, a, z => by
    have ih := var_clipPath d hd0 htri ins isect hseg r b z
    have h := var_edge d hd0 htri ins isect hseg a b
      (clipPath ins isect (b :: (r ++ [z])) ++ [z]) (by simp)
    have e : clipPath ins isect (a :: (b :: r ++ [z]))
        = ((if ins a then [a] else []) ++ (if ins a != ins b then [isect a b] else []))
          ++ clipPath ins isect (b :: (r ++ [z])) := by
      simp [clipPath]
    rw [e, List.append_assoc]
    calc _ ≤ d a b + pathSum d (b :: (clipPath ins isect (b :: (r ++ [z])) ++ [z])) := h
      _ ≤ d a b + pathSum d (b :: (r ++ [z])) := by linarith
      _ = pathSum d (a :: (b :: r ++ [z])) := by simp [pathSum_cons_cons]

theorem var_replace_last (d : Vector2 α → Vector2 α → α)
    (htri : ∀ a b c, d a c ≤ d a b + d b c) (a o : Vector2 α) :
    ∀ (q : List (Vector2 α)) (u : Vector2 α),
      pathSum d (u :: (q ++ [o])) ≤ pathSum d (u :: (q ++ [a])) + d a o
  | [], u => by
    simp only [List.nil_append, pathSum_cons_cons]
    have : pathSum d [o] = 0 := rfl
    have : pathSum d [a] = 0 := rfl
    linarith [htri u a o]
  | w :: q, u => by
    have ih := var_replace_last d htri a o q w
    simp only [List.cons_append, pathSum_cons_cons] at ih ⊢
    linarith

theorem pathSum_nonneg (d : Vector2 α → Vector2 α → α) (hnn : ∀ a b, 0 ≤ d a b) :
    ∀ p : List (Vector2 α), 0 ≤ pathSum d p
  | [] => by simp [pathSum]
  | [a] => by simp [pathSum]
  | a :: b :: rest => by
    simp only [pathSum]
    exact add_nonneg (hnn a b) (pathSum_nonneg d hnn (b :: rest))

/-- One clip pass does not increase the sum of a distance `d` around the
ring, when the inserted vertices lie between the ends of their edges. -/
theorem var_clip_ring (d : Vector2 α → Vector2 α → α) (hd0 : ∀ a, d a a = 0)
    (hnn : ∀ a b, 0 ≤ d a b) (htri : ∀ a b c, d a c ≤ d a b + d b c)
    (ins : Vector2 α → Bool) (isect : Vector2 α → Vector2 α → Vector2 α)
    (hseg : ∀ a b, (ins a != ins b) = true → d a (isect a b) + d (isect a b) b ≤ d a b)
    (vs : List (Vector2 α)) :
    pathSum d (closeRing (clipPath ins isect (closeRing vs))) ≤ pathSum d (closeRing vs) := by
  cases vs with
  | nil => simp [closeRing, clipPath, pathSum]
  | cons a rest =>
    have h := var_clipPath d hd0 htri ins isect hseg rest a a
    have hc : closeRing (a :: rest) = a :: (rest ++ [a]) := by simp [closeRing]
    rw [hc]
    cases hout : clipPath ins isect (a :: (rest ++ [a])) with
    | nil =>
      simp only [closeRing, List.headD_nil, List.nil_append, pathSum]
      exact pathSum_nonneg d hnn _
    | cons o out =>
      rw [hout] at h
      have h2 := var_replace_last d htri a o out o
      have hc2 : closeRing (o :: out) = o :: (out ++ [o]) := by simp [closeRing]
      rw [hc2]
      simp only [List.cons_append, pathSum_cons_cons] at h
      linarith

theorem clampTo_mono (lo hi : α) {y y' : α} (h : y ≤ y') : clampTo lo hi y ≤ clampTo lo hi y' :=
  max_le_max le_rfl (min_le_min h le_rfl)

theorem clampTo_mem (lo hi y : α) (h : lo ≤ hi) : lo ≤ clampTo lo hi y ∧ clampTo lo hi y ≤ hi :=
  ⟨le_max_left _ _, max_le h (min_le_right _ _)⟩

theorem clampTo_of_mem (lo hi y : α) (h0 : lo ≤ y) (h1 : y ≤ hi) : clampTo lo hi y = y := by
  simp [clampTo, h0, h1]

theorem clampedRise_self (lo hi : α) (a : Vector2 α) : clampedRise lo hi a a = 0 := by
  simp [clampedRise]

theorem clampedRise_nonneg (lo hi : α) (a b : Vector2 α) : 0 ≤ clampedRise lo hi a b :=
  abs_nonneg _

theorem clampedRise_triangle (lo hi : α) (a b c : Vector2 α) :
    clampedRise lo hi a c ≤ clampedRise lo hi a b + clampedRise lo hi b c := by
  simp only [clampedRise]
  have := abs_sub_le (clampTo lo hi c.y) (clampTo lo hi b.y) (clampTo lo hi a.y)
  linarith

theorem clampedRise_lerp (lo hi : α) (a b : Vector2 α) (t : α) (h0 : 0 ≤ t) (h1 : t ≤ 1) :
    clampedRise lo hi a (lerp a b t) + clampedRise lo hi (lerp a b t) b
      ≤ clampedRise lo hi a b := by
  simp only [clampedRise, lerp]
  have h2 : 0 ≤ 1 - t := by linarith
  rcases le_total a.y b.y with hab | hab
  · have k1 := mul_nonneg h0 (sub_nonneg.mpr hab)
    have k2 := mul_nonneg h2 (sub_nonneg.mpr hab)
    have m1 : a.y ≤ a.y + t * (b.y - a.y) := by linarith
    have m2 : a.y + t * (b.y - a.y) ≤ b.y := by linarith
    have c1 := clampTo_mono lo hi m1
    have c2 := clampTo_mono lo hi m2
    rw [abs_of_nonneg (by linarith), abs_of_nonneg (by linarith), abs_of_nonneg (by linarith)]
    linarith
  · have k1 := mul_nonneg h0 (sub_nonneg.mpr hab)
    have k2 := mul_nonneg h2 (sub_nonneg.mpr hab)
    have m1 : a.y + t * (b.y - a.y) ≤ a.y := by linarith
    have m2 : b.y ≤ a.y + t * (b.y - a.y) := by linarith
    have c1 := clampTo_mono lo hi m1
    have c2 := clampTo_mono lo hi m2
    rw [abs_of_nonpos (by linarith), abs_of_nonpos (by linarith), abs_of_nonpos (by linarith)]
    linarith

theorem clampedRise_clip_ring (lo hi : α) (ins : Vector2 α → Bool)
    (isect : Vector2 α → Vector2 α → Vector2 α)
    (hl : ∀ a b, (ins a != ins b) = true → ∃ t, 0 ≤ t ∧ t ≤ 1 ∧ isect a b = lerp a b t)
    (vs : List (Vector2 α)) :
    pathSum (clampedRise lo hi) (closeRing (clipPath ins isect (closeRing vs)))
      ≤ pathSum (clampedRise lo hi) (closeRing vs) := by
  apply var_clip_ring _ (clampedRise_self lo hi) (clampedRise_nonneg lo hi)
    (clampedRise_triangle lo hi)
  intro a b hs
  obtain ⟨t, h0, h1, ht⟩ := hl a b hs
  rw [ht]
  exact clampedRise_lerp lo hi a b t h0 h1

theorem clampedRise_triangle_ring (lo hi : α) (h : lo ≤ hi) (a b c : Vector2 α) :
    pathSum (clampedRise lo hi) (closeRing [a, b, c]) ≤ 2 * (hi - lo) := by
  simp only [closeRing, List.headD_cons, List.cons_append, List.nil_append, pathSum,
    clampedRise, add_zero]
  obtain ⟨a0, a1⟩ := clampTo_mem lo hi a.y h
  obtain ⟨b0, b1⟩ := clampTo_mem lo hi b.y h
  obtain ⟨c0, c1⟩ := clampTo_mem lo hi c.y h
  rcases abs_cases (clampTo lo hi b.y - clampTo lo hi a.y) with ⟨e1, _⟩ | ⟨e1, _⟩ <;>
  rcases abs_cases (clampTo lo hi c.y - clampTo lo hi b.y) with ⟨e2, _⟩ | ⟨e2, _⟩ <;>
  rcases abs_cases (clampTo lo hi a.y - clampTo lo hi c.y) with ⟨e3, _⟩ | ⟨e3, _⟩ <;>
  rw [e1, e2, e3] <;> linarith

/-- The area `clipAABox` reports never exceeds the area of the box. -/
theorem clipAABox_area_le (a b c : Vector2 α) (x0 y0 x1 y1 : α) (hx : x0 ≤ x1) (hy : y0 ≤ y1) :
    ((ClippedTriangle.new a b c).clipAABox x0 y0 x1 y1).area ≤ (x1 - x0) * (y1 - y0) := by
  rw [clipAABox_area, ClippedTriangle.new_vertices]
  have hbox := clipBoxRing_forall x0 y0 x1 y1 (fun _ => True) (fun _ _ _ _ _ _ _ => trivial)
    [a, b, c] (fun _ _ => trivial)
  have hvar : pathSum (clampedRise y0 y1) (closeRing (clipBoxRing x0 y0 x1 y1 [a, b, c]))
      ≤ 2 * (y1 - y0) := by
    unfold clipBoxRing
    simp only
    refine le_trans (clampedRise_clip_ring y0 y1 _ _ (isectH_eq_lerp y1 1) _) ?_
    refine le_trans (clampedRise_clip_ring y0 y1 _ _ (isectV_eq_lerp x1 1) _) ?_
    refine le_trans (clampedRise_clip_ring y0 y1 _ _ (isectH_eq_lerp y0 (-1)) _) ?_
    refine le_trans (clampedRise_clip_ring y0 y1 _ _ (isectV_eq_lerp x0 (-1)) _) ?_
    exact clampedRise_triangle_ring y0 y1 hy a b c
  have hsame : pathSum (fun u w => |w.y - u.y|) (closeRing (clipBoxRing x0 y0 x1 y1 [a, b, c]))
      = pathSum (clampedRise y0 y1) (closeRing (clipBoxRing x0 y0 x1 y1 [a, b, c])) := by
    by_cases hne : clipBoxRing x0 y0 x1 y1 [a, b, c] = []
    · rw [hne]; simp [pathSum_closeRing_nil]
    apply pathSum_congr
    intro u hu w hw
    have bu := (hbox u (mem_closeRing hu hne)).2
    have bw := (hbox w (mem_closeRing hw hne)).2
    simp only [clampedRise]
    rw [clampTo_of_mem y0 y1 u.y bu.2.2.1 bu.2.2.2, clampTo_of_mem y0 y1 w.y bw.2.2.1 bw.2.2.2]
  have hsh := abs_pathSum_shoelace_le x0 x1 (clipBoxRing x0 y0 x1 y1 [a, b, c])
    (fun v hv => ⟨(hbox v hv).2.1, (hbox v hv).2.2.1⟩)
  rw [hsame] at hsh
  have hw : 0 ≤ x1 - x0 := by linarith
  have := mul_le_mul_of_nonneg_left hvar hw
  linarith

end Variation

/-! ## The half-space functions -/

section EdgeFns

variable {α : Type} [LinearOrderedField α]

theorem nanGE_eq_true {a : Option α} {b : α} (h : nanGE a b = true) : ∃ f, a = some f ∧ b ≤ f := by
  cases a with
  | none => simp [nanGE] at h
  | some f => exact ⟨f, rfl, by simpa [nanGE] using h⟩

theorem nanLE_eq_true {a : Option α} {b : α} (h : nanLE a b = true) : ∃ f, a = some f ∧ f ≤ b := by
  cases a with
  | none => simp [nanLE] at h
  | some f => exact ⟨f, rfl, by simpa [nanLE] using h⟩

theorem nanGE_some (f b : α) : nanGE (some f) b = true ↔ b ≤ f := by simp [nanGE]

theorem nanLE_some (f b : α) : nanLE (some f) b = true ↔ f ≤ b := by simp [nanLE]

theorem isSqrt_pos {sqrtf : α → α} (hs : IsSqrt sqrtf) {x : α} (hx : 0 < x) : 0 < sqrtf x := by
  obtain ⟨h0, h1⟩ := hs x hx.le
  rcases h0.lt_or_eq with h | h
  · exact h
  · rw [← h] at h1; simp at h1; linarith

theorem unitNormal_def (sqrtf : α → α) (a b : Vector2 α) :
    unitNormal sqrtf a b
      = (recip (edgeLen sqrtf a b)).map
          (fun s => (⟨-(a.y - b.y), a.x - b.x⟩ : Vector2 α).smul s) := rfl

theorem edgeFn_of_len_eq_zero (sqrtf : α → α) (a b : Vector2 α) (x y : α)
    (h : edgeLen sqrtf a b = 0) : edgeFn sqrtf a b x y = none := by
  unfold edgeFn
  rw [unitNormal_def, (recip_eq_none_iff _).mpr h]
  rfl

theorem edgeFn_of_len_ne_zero (sqrtf : α → α) (a b : Vector2 α) (x y : α)
    (h : edgeLen sqrtf a b ≠ 0) :
    edgeFn sqrtf a b x y
      = some ((-(a.y - b.y) * (1 / edgeLen sqrtf a b)) * (-a.x)
          + ((a.x - b.x) * (1 / edgeLen sqrtf a b)) * (-a.y)
          + (-(a.y - b.y) * (1 / edgeLen sqrtf a b)) * x
          + ((a.x - b.x) * (1 / edgeLen sqrtf a b)) * y) := by
  unfold edgeFn
  rw [unitNormal_def, recip_of_ne h]
  rfl

theorem mul_self_le_of_abs_le (a A : α) (h : |a| ≤ A) : a * a ≤ A * A := by
  rw [← abs_mul_abs_self a]
  exact mul_self_le_mul_self (abs_nonneg a) h

theorem lt_of_mul_self_sub_lt (f f' D B : α) (hB : 0 ≤ B) (hl : (f - f') * (f - f') ≤ D)
    (hd : D < B * B) : f' - B < f ∧ f < f' + B := by
  have h3 : (f' - f) * (f' - f) = (f - f') * (f - f') := by ring
  constructor
  · by_contra h
    push_neg at h
    have h2 := mul_self_le_mul_self hB (show B ≤ f' - f by linarith)
    linarith
  · by_contra h
    push_neg at h
    have h2 := mul_self_le_mul_self hB (show B ≤ f - f' by linarith)
    linarith

theorem le_of_mul_self_sub_le (f f' D B : α) (hB : 0 ≤ B) (hl : (f - f') * (f - f') ≤ D)
    (hd : D ≤ B * B) : f' - B ≤ f ∧ f ≤ f' + B := by
  have h3 : (f' - f) * (f' - f) = (f - f') * (f - f') := by ring
  constructor
  · by_contra h
    push_neg at h
    have h2 := mul_self_lt_mul_self hB (show B < f' - f by linarith)
    linarith
  · by_contra h
    push_neg at h
    have h2 := mul_self_lt_mul_self hB (show B < f - f' by linarith)
    linarith

theorem edgeLen_sq {sqrtf : α → α} (hs : IsSqrt sqrtf) (a b : Vector2 α) :
    0 ≤ edgeLen sqrtf a b ∧
    edgeLen sqrtf a b * edgeLen sqrtf a b
      = (a.x - b.x) * (a.x - b.x) + (a.y - b.y) * (a.y - b.y) := by
  have hnn : (0 : α) ≤ -(a.y - b.y) * -(a.y - b.y) + (a.x - b.x) * (a.x - b.x) :=
    add_nonneg (mul_self_nonneg _) (mul_self_nonneg _)
  obtain ⟨h0, h1⟩ := hs _ hnn
  refine ⟨h0, ?_⟩
  unfold edgeLen
  rw [h1]; ring

/-- The value of a half-space function: a positive length `L` with
`L * L = |a - b|^2` scales it to minus twice the signed area of `(a, b, p)`. -/
theorem edgeFn_eq_some {sqrtf : α → α} (hs : IsSqrt sqrtf) (a b : Vector2 α) (x y f : α)
    (h : edgeFn sqrtf a b x y = some f) :
    ∃ L, 0 < L ∧ L * L = (a.x - b.x) * (a.x - b.x) + (a.y - b.y) * (a.y - b.y) ∧
      L * f = -cross2 a b ⟨x, y⟩ := by
  obtain ⟨h0, h1⟩ := edgeLen_sq hs a b
  by_cases hz : edgeLen sqrtf a b = 0
  · rw [edgeFn_of_len_eq_zero sqrtf a b x y hz] at h
    exact absurd h (by simp)
  · have hpos : 0 < edgeLen sqrtf a b := lt_of_le_of_ne h0 (Ne.symm hz)
    refine ⟨edgeLen sqrtf a b, hpos, h1, ?_⟩
    rw [edgeFn_of_len_ne_zero sqrtf a b x y hz, Option.some.injEq] at h
    rw [← h]
    simp only [cross2]
    field_simp
    ring

theorem edgeFn_isSome {sqrtf : α → α} (hs : IsSqrt sqrtf) (a b : Vector2 α) (x y : α)
    (hab : a ≠ b) : ∃ f, edgeFn sqrtf a b x y = some f := by
  obtain ⟨h0, h1⟩ := edgeLen_sq hs a b
  have hz : edgeLen sqrtf a b ≠ 0 := by
    intro hz
    rw [hz, mul_zero] at h1
    have k1 := mul_self_nonneg (a.x - b.x)
    have k2 := mul_self_nonneg (a.y - b.y)
    have e1 : (a.x - b.x) * (a.x - b.x) = 0 := le_antisymm (by linarith) k1
    have e2 : (a.y - b.y) * (a.y - b.y) = 0 := le_antisymm (by linarith) k2
    apply hab
    cases a; cases b
    simp only [Vector2.mk.injEq]
    simp only [mul_self_eq_zero] at e1 e2
    exact ⟨by linarith, by linarith⟩
  exact ⟨_, edgeFn_of_len_ne_zero sqrtf a b x y hz⟩

/-- A half-space function changes by at most the distance between the points. -/
theorem edgeFn_lipschitz {sqrtf : α → α} (hs : IsSqrt sqrtf) (a b : Vector2 α)
    (x y x' y' f f' : α)
    (h : edgeFn sqrtf a b x y = some f) (h' : edgeFn sqrtf a b x' y' = some f') :
    (f - f') * (f - f') ≤ (x - x') * (x - x') + (y - y') * (y - y') := by
  obtain ⟨L, hL, hLL, hf⟩ := edgeFn_eq_some hs a b x y f h
  obtain ⟨L', hL', hLL', hf'⟩ := edgeFn_eq_some hs a b x' y' f' h'
  have hLeq : L = L' := by
    have : (L - L') * (L + L') = 0 := by linear_combination hLL - hLL'
    rcases mul_eq_zero.mp this with h1 | h1
    · linarith
    · linarith
  subst hLeq
  have e : L * (f - f') = (a.x - b.x) * (y - y') - (a.y - b.y) * (x - x') := by
    rw [mul_sub, hf, hf']
    simp only [cross2]
    ring
  have cs : (L * (f - f')) * (L * (f - f'))
      ≤ (L * L) * ((x - x') * (x - x') + (y - y') * (y - y')) := by
    rw [e, hLL]
    have k := mul_self_nonneg ((a.x - b.x) * (x - x') + (a.y - b.y) * (y - y'))
    have id : ((a.x - b.x) * (a.x - b.x) + (a.y - b.y) * (a.y - b.y))
          * ((x - x') * (x - x') + (y - y') * (y - y'))
        - ((a.x - b.x) * (y - y') - (a.y - b.y) * (x - x'))
          * ((a.x - b.x) * (y - y') - (a.y - b.y) * (x - x'))
        = ((a.x - b.x) * (x - x') + (a.y - b.y) * (y - y'))
          * ((a.x - b.x) * (x - x') + (a.y - b.y) * (y - y')) := by ring
    rw [← id] at k
    exact sub_nonneg.mp k
  have hLL0 : 0 < L * L := mul_pos hL hL
  have : (L * L) * ((f - f') * (f - f'))
      ≤ (L * L) * ((x - x') * (x - x') + (y - y') * (y - y')) := by
    calc (L * L) * ((f - f') * (f - f')) = (L * (f - f')) * (L * (f - f')) := by ring
      _ ≤ _ := cs
  exact le_of_mul_le_mul_left this hLL0

theorem cross2_sum (a b c p : Vector2 α) :
    cross2 a b p + cross2 b c p + cross2 c a p = cross2 a b c := by
  simp only [cross2]; ring

/-- A point at which the three half-space functions of the edges `(a,b)`,
`(b,c)`, `(c,a)` are non-negative, one of them positive, lies in the triangle,
and the triangle `(a, b, c)` is clockwise. -/
theorem inTriangle_of_edgeFn_nonneg {sqrtf : α → α} (hs : IsSqrt sqrtf) (a b c : Vector2 α)
    (x y f1 f2 f3 : α) (h1 : edgeFn sqrtf a b x y = some f1) (h2 : edgeFn sqrtf b c x y = some f2)
    (h3 : edgeFn sqrtf c a x y = some f3) (p1 : 0 ≤ f1) (p2 : 0 ≤ f2) (p3 : 0 ≤ f3)
    (hp : 0 < f1 ∨ 0 < f2 ∨ 0 < f3) :
    cross2 a b c < 0 ∧ inTriangle a b c ⟨x, y⟩ := by
  obtain ⟨L1, hL1, _, e1⟩ := edgeFn_eq_some hs a b x y f1 h1
  obtain ⟨L2, hL2, _, e2⟩ := edgeFn_eq_some hs b c x y f2 h2
  obtain ⟨L3, hL3, _, e3⟩ := edgeFn_eq_some hs c a x y f3 h3
  have hsum := cross2_sum a b c ⟨x, y⟩
  have n1 : 0 ≤ L1 * f1 := mul_nonneg hL1.le p1
  have n2 : 0 ≤ L2 * f2 := mul_nonneg hL2.le p2
  have n3 : 0 ≤ L3 * f3 := mul_nonneg hL3.le p3
  have hD : cross2 a b c < 0 := by
    rcases hp with hp | hp | hp
    · have := mul_pos hL1 hp; linarith
    · have := mul_pos hL2 hp; linarith
    · have := mul_pos hL3 hp; linarith
  refine ⟨hD, ?_⟩
  have hD' : cross2 a b c ≠ 0 := ne_of_lt hD
  refine ⟨cross2 b c ⟨x, y⟩ / cross2 a b c, cross2 c a ⟨x, y⟩ / cross2 a b c,
    cross2 a b ⟨x, y⟩ / cross2 a b c, ?_, ?_, ?_, ?_, ?_, ?_⟩
  · exact div_nonneg_of_nonpos (by linarith) hD.le
  · exact div_nonneg_of_nonpos (by linarith) hD.le
  · exact div_nonneg_of_nonpos (by linarith) hD.le
  · rw [← add_div, ← add_div, div_eq_one_iff_eq hD']
    linarith
  · field_simp
    simp only [cross2]
    ring
  · field_simp
    simp only [cross2]
    ring

end EdgeFns

/-! ## The classification of one pixel -/

section Classify

variable {α : Type} [LinearOrderedField α] [FloorRing α]

theorem pixelCalls_eq (sqrtf : α → α) (t : Triangle α) (bY bX r k : Nat) :
    pixelCalls sqrtf t bY bX r k =
      if t.anyLE (-sqrtf (8 * 8 / 2)) (blockCentre (loBound t.v1.x t.v2.x t.v3.x) bX)
          (blockCentre (loBound t.v1.y t.v2.y t.v3.y) bY) then []
      else if t.allGE (sqrtf (8 * 8 / 2)) (blockCentre (loBound t.v1.x t.v2.x t.v3.x) bX)
          (blockCentre (loBound t.v1.y t.v2.y t.v3.y) bY) then
        [⟨truncInt (centreOf (loBound t.v1.x t.v2.x t.v3.x) bX k),
          truncInt (centreOf (loBound t.v1.y t.v2.y t.v3.y) bY r),
          t.interp ⟨centreOf (loBound t.v1.x t.v2.x t.v3.x) bX k,
            centreOf (loBound t.v1.y t.v2.y t.v3.y) bY r⟩, t.dx, t.dy, 1⟩]
      else if t.allGE (1 / sqrtf 2) (centreOf (loBound t.v1.x t.v2.x t.v3.x) bX k)
          (centreOf (loBound t.v1.y t.v2.y t.v3.y) bY r) then
        [⟨truncInt (centreOf (loBound t.v1.x t.v2.x t.v3.x) bX k),
          truncInt (centreOf (loBound t.v1.y t.v2.y t.v3.y) bY r),
          t.interp ⟨centreOf (loBound t.v1.x t.v2.x t.v3.x) bX k,
            centreOf (loBound t.v1.y t.v2.y t.v3.y) bY r⟩, t.dx, t.dy, 1⟩]
      else if t.allGE (-1 / sqrtf 2) (centreOf (loBound t.v1.x t.v2.x t.v3.x) bX k)
          (centreOf (loBound t.v1.y t.v2.y t.v3.y) bY r) then
        if (pixelClip t (centreOf (loBound t.v1.x t.v2.x t.v3.x) bX k)
            (centreOf (loBound t.v1.y t.v2.y t.v3.y) bY r)).area > 0 then
          [⟨truncInt (centreOf (loBound t.v1.x t.v2.x t.v3.x) bX k),
            truncInt (centreOf (loBound t.v1.y t.v2.y t.v3.y) bY r),
            ((t.interp ⟨centreOf (loBound t.v1.x t.v2.x t.v3.x) bX k,
                centreOf (loBound t.v1.y t.v2.y t.v3.y) bY r⟩).sub
              (t.dx.smul (pixelClip t (centreOf (loBound t.v1.x t.v2.x t.v3.x) bX k)
                (centreOf (loBound t.v1.y t.v2.y t.v3.y) bY r)).centroid.x)).sub
              (t.dy.smul (pixelClip t (centreOf (loBound t.v1.x t.v2.x t.v3.x) bX k)
                (centreOf (loBound t.v1.y t.v2.y t.v3.y) bY r)).centroid.y),
            t.dx, t.dy,
            (pixelClip t (centreOf (loBound t.v1.x t.v2.x t.v3.x) bX k)
              (centreOf (loBound t.v1.y t.v2.y t.v3.y) bY r)).area⟩]
        else []
      else [] := by
  rfl

theorem truncInt_centreOf (a b c : α) (bX k : Nat) :
    truncInt (centreOf (loBound a b c) bX k) = loPixel a b c + ((8 * bX + k : Nat) : Int) := by
  have h := truncInt_pixel (α := α) (loPixel a b c) (8 * bX + k) (loPixel_nonneg a b c)
  rw [← h, centreOf, loBound_eq]
  congr 1
  push_cast
  ring

/-- What a call made for pixel `(k, r)` of block `(bX, bY)` looks like. -/
theorem mem_pixelCalls (sqrtf : α → α) (t : Triangle α) (bY bX r k : Nat) (c : Call α)
    (h : c ∈ pixelCalls sqrtf t bY bX r k) :
    c.x = loPixel t.v1.x t.v2.x t.v3.x + ((8 * bX + k : Nat) : Int) ∧
    c.y = loPixel t.v1.y t.v2.y t.v3.y + ((8 * bY + r : Nat) : Int) ∧
    c.dx = t.dx ∧ c.dy = t.dy ∧
    ((c.coverage = 1 ∧
        t.allGE (sqrtf (8 * 8 / 2)) (blockCentre (loBound t.v1.x t.v2.x t.v3.x) bX)
          (blockCentre (loBound t.v1.y t.v2.y t.v3.y) bY) = true) ∨
     (c.coverage = 1 ∧
        t.allGE (1 / sqrtf 2) (centreOf (loBound t.v1.x t.v2.x t.v3.x) bX k)
          (centreOf (loBound t.v1.y t.v2.y t.v3.y) bY r) = true) ∨
     (c.coverage = (pixelClip t (centreOf (loBound t.v1.x t.v2.x t.v3.x) bX k)
          (centreOf (loBound t.v1.y t.v2.y t.v3.y) bY r)).area ∧
        0 < (pixelClip t (centreOf (loBound t.v1.x t.v2.x t.v3.x) bX k)
          (centreOf (loBound t.v1.y t.v2.y t.v3.y) bY r)).area)) := by
  rw [pixelCalls_eq] at h
  split_ifs at h with h1 h2 h3 h4 h5
  · simp at h
  · rw [List.mem_singleton] at h
    subst h
    exact ⟨truncInt_centreOf _ _ _ _ _, truncInt_centreOf _ _ _ _ _, rfl, rfl, Or.inl ⟨rfl, h2⟩⟩
  · rw [List.mem_singleton] at h
    subst h
    exact ⟨truncInt_centreOf _ _ _ _ _, truncInt_centreOf _ _ _ _ _, rfl, rfl,
      Or.inr (Or.inl ⟨rfl, h3⟩)⟩
  · rw [List.mem_singleton] at h
    subst h
    exact ⟨truncInt_centreOf _ _ _ _ _, truncInt_centreOf _ _ _ _ _, rfl, rfl,
      Or.inr (Or.inr ⟨rfl, h5⟩)⟩
  · simp at h
  · simp at h

theorem pixelClip_area_le_one (t : Triangle α) (x y : α) : (pixelClip t x y).area ≤ 1 := by
  have h := clipAABox_area_le (t.v1.sub ⟨x, y⟩) (t.v2.sub ⟨x, y⟩) (t.v3.sub ⟨x, y⟩)
    (-(1 / 2)) (-(1 / 2)) (1 / 2) (1 / 2) (by norm_num) (by norm_num)
  have e : ((1 : α) / 2 - -(1 / 2)) * (1 / 2 - -(1 / 2)) = 1 := by norm_num
  rw [e] at h
  exact h

/-- Every call of `drawCalls` has coverage in `(0, 1]`. -/
theorem coverage_of_mem_drawCalls (sqrtf : α → α) (t : Triangle α) (c : Call α)
    (h : c ∈ drawCalls sqrtf t) :
    0 < c.coverage ∧ c.coverage ≤ 1 ∧ (c.coverage = 1 ∨ ∃ x y, c.coverage = (pixelClip t x y).area) := by
  obtain ⟨bY, bX, r, k, _, _, _, _, hc⟩ := (mem_drawCalls sqrtf t c).mp h
  obtain ⟨_, _, _, _, hcov⟩ := mem_pixelCalls sqrtf t bY bX r k c hc
  rcases hcov with ⟨h1, _⟩ | ⟨h1, _⟩ | ⟨h1, h2⟩
  · rw [h1]; exact ⟨one_pos, le_rfl, Or.inl rfl⟩
  · rw [h1]; exact ⟨one_pos, le_rfl, Or.inl rfl⟩
  · rw [h1]; exact ⟨h2, pixelClip_area_le_one t _ _, Or.inr ⟨_, _, rfl⟩⟩

theorem mem_drawCalls_of_mem_log {σ : Type} (sqrtf : α → α) (t : Triangle α)
    (cb : SamplingCallback σ α) (s : σ) (e : Call α × Bool)
    (h : e ∈ (t.drawAA sqrtf (record cb) (s, [])).1.2) : e.1 ∈ drawCalls sqrtf t := by
  obtain ⟨_, hpre, _, _⟩ := drawAA_record sqrtf t cb s
  exact hpre.subset (List.mem_map_of_mem Prod.fst h)

end Classify

/-! ## Triangles as point sets -/

section TriangleSets

variable {α : Type} [LinearOrderedField α]

theorem convexPred_inTriangle (a b c : Vector2 α) : ConvexPred (inTriangle a b c) := by
  rintro p q t ⟨l1, l2, l3, hl1, hl2, hl3, hl, hpx, hpy⟩ ⟨m1, m2, m3, hm1, hm2, hm3, hm, hqx, hqy⟩
    h0 h1
  have h2 : 0 ≤ 1 - t := by linarith
  refine ⟨(1 - t) * l1 + t * m1, (1 - t) * l2 + t * m2, (1 - t) * l3 + t * m3,
    by positivity, by positivity, by positivity, ?_, ?_, ?_⟩
  · linear_combination (1 - t) * hl + t * hm
  · simp only [lerp]
    linear_combination (1 - t) * hpx + t * hqx
  · simp only [lerp]
    linear_combination (1 - t) * hpy + t * hqy

theorem inTriangle_vertex1 (a b c : Vector2 α) : inTriangle a b c a :=
  ⟨1, 0, 0, by norm_num, le_rfl, le_rfl, by norm_num, by ring, by ring⟩

theorem inTriangle_vertex2 (a b c : Vector2 α) : inTriangle a b c b :=
  ⟨0, 1, 0, le_rfl, by norm_num, le_rfl, by norm_num, by ring, by ring⟩

theorem inTriangle_vertex3 (a b c : Vector2 α) : inTriangle a b c c :=
  ⟨0, 0, 1, le_rfl, le_rfl, by norm_num, by norm_num, by ring, by ring⟩

theorem inTriangle_swap (a b c p : Vector2 α) (h : inTriangle a b c p) : inTriangle a c b p := by
  obtain ⟨l1, l2, l3, h1, h2, h3, hl, hx, hy⟩ := h
  exact ⟨l1, l3, l2, h1, h3, h2, by linarith, by linarith, by linarith⟩

theorem inTriangle_translate (a b c o w : Vector2 α)
    (h : inTriangle (a.sub o) (b.sub o) (c.sub o) w) :
    inTriangle a b c ⟨w.x + o.x, w.y + o.y⟩ := by
  obtain ⟨l1, l2, l3, h1, h2, h3, hl, hx, hy⟩ := h
  refine ⟨l1, l2, l3, h1, h2, h3, hl, ?_, ?_⟩
  · simp only [Vector2.sub] at hx
    linear_combination hx - o.x * hl
  · simp only [Vector2.sub] at hy
    linear_combination hy - o.y * hl

theorem cross2_swap (a b c : Vector2 α) : cross2 a c b = -cross2 a b c := by
  simp only [cross2]; ring

theorem cross2_translate (a b c o : Vector2 α) :
    cross2 (a.sub o) (b.sub o) (c.sub o) = cross2 a b c := by
  simp only [cross2, Vector2.sub]; ring

theorem exists_line_of_collinear (a b c : Vector2 α) (h : cross2 a b c = 0) :
    ∃ la lb lc : α, (la ≠ 0 ∨ lb ≠ 0) ∧ la * a.x + lb * a.y = lc ∧ la * b.x + lb * b.y = lc ∧
      la * c.x + lb * c.y = lc := by
  simp only [cross2] at h
  by_cases hbx : b.x - a.x = 0
  · by_cases hby : b.y - a.y = 0
    · by_cases hcx : c.x - a.x = 0
      · refine ⟨1, 0, a.x, Or.inl one_ne_zero, by ring, ?_, ?_⟩
        · linear_combination hbx
        · linear_combination hcx
      · refine ⟨-(c.y - a.y), c.x - a.x, -(c.y - a.y) * a.x + (c.x - a.x) * a.y, Or.inr hcx, rfl,
          ?_, ?_⟩
        · linear_combination (-(c.y - a.y)) * hbx + (c.x - a.x) * hby
        · ring
    · refine ⟨-(b.y - a.y), b.x - a.x, -(b.y - a.y) * a.x + (b.x - a.x) * a.y,
        Or.inl (neg_ne_zero.mpr hby), rfl, by ring, ?_⟩
      linear_combination h
  · refine ⟨-(b.y - a.y), b.x - a.x, -(b.y - a.y) * a.x + (b.x - a.x) * a.y, Or.inr hbx, rfl,
      by ring, ?_⟩
    linear_combination h

theorem convexPred_line (la lb lc : α) :
    ConvexPred (fun v : Vector2 α => la * v.x + lb * v.y = lc) := by
  intro p q t hp hq _ _
  simp only [lerp]
  linear_combination (1 - t) * hp + t * hq

/-- Clipping a triangle with collinear vertices reports area zero. -/
theorem clipAABox_area_collinear (a b c : Vector2 α) (x0 y0 x1 y1 : α) (h : cross2 a b c = 0) :
    ((ClippedTriangle.new a b c).clipAABox x0 y0 x1 y1).area = 0 := by
  obtain ⟨la, lb, lc, hl, ha, hb, hc⟩ := exists_line_of_collinear a b c h
  have hring := clipBoxRing_forall x0 y0 x1 y1 _ (convexPred_line la lb lc) [a, b, c] (by
    intro v hv
    simp only [List.mem_cons, List.mem_singleton, List.not_mem_nil, or_false] at hv
    rcases hv with rfl | rfl | rfl <;> assumption)
  rw [clipAABox_area, ClippedTriangle.new_vertices,
    pathSum_shoelace_collinear la lb lc hl _ (fun v hv => (hring v hv).1)]
  simp

/-- When `clipAABox` reports a positive area, the triangle and the box have
a point in common. -/
theorem exists_point_of_clipAABox_area_pos (a b c : Vector2 α) (x0 y0 x1 y1 : α)
    (h : 0 < ((ClippedTriangle.new a b c).clipAABox x0 y0 x1 y1).area) :
    ∃ w, inTriangle a b c w ∧ inBox x0 y0 x1 y1 w := by
  have hring := clipBoxRing_forall x0 y0 x1 y1 _ (convexPred_inTriangle a b c) [a, b, c] (by
    intro v hv
    simp only [List.mem_cons, List.mem_singleton, List.not_mem_nil, or_false] at hv
    rcases hv with rfl | rfl | rfl
    · exact inTriangle_vertex1 _ _ _
    · exact inTriangle_vertex2 _ _ _
    · exact inTriangle_vertex3 _ _ _)
  rw [clipAABox_area, ClippedTriangle.new_vertices] at h
  cases hR : clipBoxRing x0 y0 x1 y1 [a, b, c] with
  | nil =>
    rw [hR, pathSum_closeRing_nil] at h
    simp at h
  | cons w rest =>
    exact ⟨w, hring w (by rw [hR]; simp)⟩

end TriangleSets

/-! ## The classifications of `drawAA` for a constructed triangle -/

section Constructed

variable {α : Type} [LinearOrderedField α] [FloorRing α]

theorem new_v1 (sqrtf : α → α) (p0 p1 p2 : Vector2 α) (a0 a1 a2 dx0 dy0 : Vector3 α) :
    (Triangle.new sqrtf p0 p1 p2 a0 a1 a2 dx0 dy0).v1 = p0 :=
  (Triangle.new_fields sqrtf p0 p1 p2 a0 a1 a2 dx0 dy0).1

theorem new_v2 (sqrtf : α → α) (p0 p1 p2 : Vector2 α) (a0 a1 a2 dx0 dy0 : Vector3 α) :
    (Triangle.new sqrtf p0 p1 p2 a0 a1 a2 dx0 dy0).v2 = p2 :=
  (Triangle.new_fields sqrtf p0 p1 p2 a0 a1 a2 dx0 dy0).2.1

theorem new_v3 (sqrtf : α → α) (p0 p1 p2 : Vector2 α) (a0 a1 a2 dx0 dy0 : Vector3 α) :
    (Triangle.new sqrtf p0 p1 p2 a0 a1 a2 dx0 dy0).v3 = p1 :=
  (Triangle.new_fields sqrtf p0 p1 p2 a0 a1 a2 dx0 dy0).2.2.1

theorem new_e1 (sqrtf : α → α) (p0 p1 p2 : Vector2 α) (a0 a1 a2 dx0 dy0 : Vector3 α) (x y : α) :
    (Triangle.new sqrtf p0 p1 p2 a0 a1 a2 dx0 dy0).e1 x y = edgeFn sqrtf p0 p2 x y := by
  simp only [Triangle.e1, edgeFn, Triangle.new, Triangle.computeUnitInwardNormals,
    Triangle.computeDeltas]
  split <;> rfl

theorem new_e2 (sqrtf : α → α) (p0 p1 p2 : Vector2 α) (a0 a1 a2 dx0 dy0 : Vector3 α) (x y : α) :
    (Triangle.new sqrtf p0 p1 p2 a0 a1 a2 dx0 dy0).e2 x y = edgeFn sqrtf p2 p1 x y := by
  simp only [Triangle.e2, edgeFn, Triangle.new, Triangle.computeUnitInwardNormals,
    Triangle.computeDeltas]
  split <;> rfl

theorem new_e3 (sqrtf : α → α) (p0 p1 p2 : Vector2 α) (a0 a1 a2 dx0 dy0 : Vector3 α) (x y : α) :
    (Triangle.new sqrtf p0 p1 p2 a0 a1 a2 dx0 dy0).e3 x y = edgeFn sqrtf p1 p0 x y := by
  simp only [Triangle.e3, edgeFn, Triangle.new, Triangle.computeUnitInwardNormals,
    Triangle.computeDeltas]
  split <;> rfl

theorem new_allGE (sqrtf : α → α) (p0 p1 p2 : Vector2 α) (a0 a1 a2 dx0 dy0 : Vector3 α)
    (c x y : α) :
    (Triangle.new sqrtf p0 p1 p2 a0 a1 a2 dx0 dy0).allGE c x y
      = (nanGE (edgeFn sqrtf p0 p2 x y) c && nanGE (edgeFn sqrtf p2 p1 x y) c
          && nanGE (edgeFn sqrtf p1 p0 x y) c) := by
  simp only [Triangle.allGE, new_e1, new_e2, new_e3]

theorem new_anyLE (sqrtf : α → α) (p0 p1 p2 : Vector2 α) (a0 a1 a2 dx0 dy0 : Vector3 α)
    (c x y : α) :
    (Triangle.new sqrtf p0 p1 p2 a0 a1 a2 dx0 dy0).anyLE c x y
      = (nanLE (edgeFn sqrtf p0 p2 x y) c || nanLE (edgeFn sqrtf p2 p1 x y) c
          || nanLE (edgeFn sqrtf p1 p0 x y) c) := by
  simp only [Triangle.anyLE, new_e1, new_e2, new_e3]

theorem px_inside_pos {sqrtf : α → α} (hs : IsSqrt sqrtf) : (0 : α) < 1 / sqrtf 2 :=
  one_div_pos.mpr (isSqrt_pos hs (by norm_num))

theorem bk_inside_sq {sqrtf : α → α} (hs : IsSqrt sqrtf) :
    (0 : α) < sqrtf (8 * 8 / 2) ∧ sqrtf (8 * 8 / 2) * sqrtf (8 * 8 / 2) = 32 := by
  refine ⟨isSqrt_pos hs (by norm_num), ?_⟩
  rw [(hs (8 * 8 / 2) (by norm_num)).2]
  norm_num

/-- A point where the three half-space functions are at least a positive
threshold lies in the triangle, and the input triangle is counter-clockwise. -/
theorem inTriangle_of_allGE {sqrtf : α → α} (hs : IsSqrt sqrtf) (p0 p1 p2 : Vector2 α)
    (c x y : α) (hc : 0 < c)
    (h : (nanGE (edgeFn sqrtf p0 p2 x y) c && nanGE (edgeFn sqrtf p2 p1 x y) c
          && nanGE (edgeFn sqrtf p1 p0 x y) c) = true) :
    0 < cross2 p0 p1 p2 ∧ inTriangle p0 p1 p2 ⟨x, y⟩ := by
  simp only [Bool.and_eq_true] at h
  obtain ⟨⟨h1, h2⟩, h3⟩ := h
  obtain ⟨f1, e1, g1⟩ := nanGE_eq_true h1
  obtain ⟨f2, e2, g2⟩ := nanGE_eq_true h2
  obtain ⟨f3, e3, g3⟩ := nanGE_eq_true h3
  obtain ⟨hD, hT⟩ := inTriangle_of_edgeFn_nonneg hs p0 p2 p1 x y f1 f2 f3 e1 e2 e3
    (by linarith) (by linarith) (by linarith) (Or.inl (by linarith))
  rw [cross2_swap] at hD
  exact ⟨by linarith, inTriangle_swap _ _ _ _ hT⟩

theorem edgeFn_pos_of_near {sqrtf : α → α} (hs : IsSqrt sqrtf) (a b : Vector2 α)
    (x y x' y' B : α) (hB : 0 < B) (h : nanGE (edgeFn sqrtf a b x' y') B = true)
    (hd : (x - x') * (x - x') + (y - y') * (y - y') < B * B) :
    ∃ f, edgeFn sqrtf a b x y = some f ∧ 0 < f := by
  obtain ⟨f', e', g'⟩ := nanGE_eq_true h
  have hlen : edgeLen sqrtf a b ≠ 0 := by
    intro hz
    rw [edgeFn_of_len_eq_zero sqrtf a b x' y' hz] at e'
    exact absurd e' (by simp)
  refine ⟨_, edgeFn_of_len_ne_zero sqrtf a b x y hlen, ?_⟩
  have hl := edgeFn_lipschitz hs a b x y x' y' _ f' (edgeFn_of_len_ne_zero sqrtf a b x y hlen) e'
  have k := (lt_of_mul_self_sub_lt _ f' _ B hB.le hl hd).1
  exact lt_of_le_of_lt (sub_nonneg.mpr g') k

/-- A pixel centre of a block accepted as wholly covered lies in the
triangle. -/
theorem inTriangle_of_block_inside {sqrtf : α → α} (hs : IsSqrt sqrtf) (p0 p1 p2 : Vector2 α)
    (x y xc yc : α) (hx : |x - xc| ≤ 7 / 2) (hy : |y - yc| ≤ 7 / 2)
    (h : (nanGE (edgeFn sqrtf p0 p2 xc yc) (sqrtf (8 * 8 / 2))
          && nanGE (edgeFn sqrtf p2 p1 xc yc) (sqrtf (8 * 8 / 2))
          && nanGE (edgeFn sqrtf p1 p0 xc yc) (sqrtf (8 * 8 / 2))) = true) :
    0 < cross2 p0 p1 p2 ∧ inTriangle p0 p1 p2 ⟨x, y⟩ := by
  obtain ⟨hB, hBB⟩ := bk_inside_sq hs
  simp only [Bool.and_eq_true] at h
  obtain ⟨⟨h1, h2⟩, h3⟩ := h
  have hd : (x - xc) * (x - xc) + (y - yc) * (y - yc) < sqrtf (8 * 8 / 2) * sqrtf (8 * 8 / 2) := by
    rw [hBB]
    have kx := mul_self_le_of_abs_le _ _ hx
    have ky := mul_self_le_of_abs_le _ _ hy
    have e : (7 / 2 : α) * (7 / 2) = 49 / 4 := by norm_num
    rw [e] at kx ky
    linarith
  obtain ⟨f1, e1, g1⟩ := edgeFn_pos_of_near hs p0 p2 x y xc yc _ hB h1 hd
  obtain ⟨f2, e2, g2⟩ := edgeFn_pos_of_near hs p2 p1 x y xc yc _ hB h2 hd
  obtain ⟨f3, e3, g3⟩ := edgeFn_pos_of_near hs p1 p0 x y xc yc _ hB h3 hd
  obtain ⟨hD, hT⟩ := inTriangle_of_edgeFn_nonneg hs p0 p2 p1 x y f1 f2 f3 e1 e2 e3
    g1.le g2.le g3.le (Or.inl g1)
  rw [cross2_swap] at hD
  exact ⟨by linarith, inTriangle_swap _ _ _ _ hT⟩

theorem centreOf_sub_blockCentre (lo : α) (b k : Nat) (hk : k < 8) :
    |centreOf lo b k - blockCentre lo b| ≤ 7 / 2 := by
  have h0 : (0 : α) ≤ k := Nat.cast_nonneg k
  have h7 : (k : α) ≤ 7 := by
    have : k ≤ 7 := by omega
    exact_mod_cast this
  have e : centreOf lo b k - blockCentre lo b = k - 7 / 2 := by
    simp only [centreOf, blockCentre]; ring
  rw [e, abs_le]
  constructor <;> linarith

theorem centreOf_eq (a b c : α) (bX k : Nat) :
    centreOf (loBound a b c) bX k
      = (((loPixel a b c + ((8 * bX + k : Nat) : Int) : Int)) : α) + 1 / 2 := by
  rw [centreOf, loBound_eq]
  push_cast
  ring

/-- What is known of the pixel for which `drawAA` makes a call: its centre
lies in the triangle (classified inside and the triangle counter-clockwise)
or the clipper found a positive area. -/
theorem call_cases {sqrtf : α → α} (hs : IsSqrt sqrtf) (p0 p1 p2 : Vector2 α)
    (a0 a1 a2 dx0 dy0 : Vector3 α) (c : Call α)
    (h : c ∈ drawCalls sqrtf (Triangle.new sqrtf p0 p1 p2 a0 a1 a2 dx0 dy0)) :
    0 ≤ c.x ∧ 0 ≤ c.y ∧
    ((c.coverage = 1 ∧ 0 < cross2 p0 p1 p2 ∧
        inTriangle p0 p1 p2 ⟨(c.x : α) + 1 / 2, (c.y : α) + 1 / 2⟩) ∨
     (c.coverage = (pixelClip (Triangle.new sqrtf p0 p1 p2 a0 a1 a2 dx0 dy0)
          ((c.x : α) + 1 / 2) ((c.y : α) + 1 / 2)).area ∧
      0 < (pixelClip (Triangle.new sqrtf p0 p1 p2 a0 a1 a2 dx0 dy0)
          ((c.x : α) + 1 / 2) ((c.y : α) + 1 / 2)).area)) := by
  obtain ⟨bY, bX, r, k, _, _, hr, hk, hc⟩ := (mem_drawCalls sqrtf _ c).mp h
  obtain ⟨hx, hy, _, _, hcov⟩ := mem_pixelCalls sqrtf _ bY bX r k c hc
  have ex := centreOf_eq (Triangle.new sqrtf p0 p1 p2 a0 a1 a2 dx0 dy0).v1.x
    (Triangle.new sqrtf p0 p1 p2 a0 a1 a2 dx0 dy0).v2.x
    (Triangle.new sqrtf p0 p1 p2 a0 a1 a2 dx0 dy0).v3.x bX k
  have ey := centreOf_eq (Triangle.new sqrtf p0 p1 p2 a0 a1 a2 dx0 dy0).v1.y
    (Triangle.new sqrtf p0 p1 p2 a0 a1 a2 dx0 dy0).v2.y
    (Triangle.new sqrtf p0 p1 p2 a0 a1 a2 dx0 dy0).v3.y bY r
  rw [← hx] at ex
  rw [← hy] at ey
  refine ⟨?_, ?_, ?_⟩
  · rw [hx]
    have := loPixel_nonneg (Triangle.new sqrtf p0 p1 p2 a0 a1 a2 dx0 dy0).v1.x
      (Triangle.new sqrtf p0 p1 p2 a0 a1 a2 dx0 dy0).v2.x
      (Triangle.new sqrtf p0 p1 p2 a0 a1 a2 dx0 dy0).v3.x
    omega
  · rw [hy]
    have := loPixel_nonneg (Triangle.new sqrtf p0 p1 p2 a0 a1 a2 dx0 dy0).v1.y
      (Triangle.new sqrtf p0 p1 p2 a0 a1 a2 dx0 dy0).v2.y
      (Triangle.new sqrtf p0 p1 p2 a0 a1 a2 dx0 dy0).v3.y
    omega
  · rcases hcov with ⟨h1, h2⟩ | ⟨h1, h2⟩ | ⟨h1, h2⟩
    · left
      rw [new_allGE] at h2
      rw [← ex, ← ey]
      exact ⟨h1, inTriangle_of_block_inside hs p0 p1 p2 _ _ _ _
        (centreOf_sub_blockCentre _ bX k hk) (centreOf_sub_blockCentre _ bY r hr) h2⟩
    · left
      rw [new_allGE] at h2
      rw [← ex, ← ey]
      exact ⟨h1, inTriangle_of_allGE hs p0 p1 p2 _ _ _ (px_inside_pos hs) h2⟩
    · right
      rw [← ex, ← ey]
      exact ⟨h1, h2⟩

end Constructed

/-! ## Pixels that `drawAA` visits -/

section Visits

variable {α : Type} [LinearOrderedField α] [FloorRing α]

theorem inTriangle_bounds (a b c p : Vector2 α) (h : inTriangle a b c p) :
    min a.x (min b.x c.x) ≤ p.x ∧ p.x ≤ max a.x (max b.x c.x) ∧
    min a.y (min b.y c.y) ≤ p.y ∧ p.y ≤ max a.y (max b.y c.y) := by
  obtain ⟨l1, l2, l3, h1, h2, h3, hl, hx, hy⟩ := h
  have m1 : min a.x (min b.x c.x) ≤ a.x := min_le_left _ _
  have m2 : min a.x (min b.x c.x) ≤ b.x := le_trans (min_le_right _ _) (min_le_left _ _)
  have m3 : min a.x (min b.x c.x) ≤ c.x := le_trans (min_le_right _ _) (min_le_right _ _)
  have M1 : a.x ≤ max a.x (max b.x c.x) := le_max_left _ _
  have M2 : b.x ≤ max a.x (max b.x c.x) := le_trans (le_max_left _ _) (le_max_right _ _)
  have M3 : c.x ≤ max a.x (max b.x c.x) := le_trans (le_max_right _ _) (le_max_right _ _)
  have n1 : min a.y (min b.y c.y) ≤ a.y := min_le_left _ _
  have n2 : min a.y (min b.y c.y) ≤ b.y := le_trans (min_le_right _ _) (min_le_left _ _)
  have n3 : min a.y (min b.y c.y) ≤ c.y := le_trans (min_le_right _ _) (min_le_right _ _)
  have N1 : a.y ≤ max a.y (max b.y c.y) := le_max_left _ _
  have N2 : b.y ≤ max a.y (max b.y c.y) := le_trans (le_max_left _ _) (le_max_right _ _)
  have N3 : c.y ≤ max a.y (max b.y c.y) := le_trans (le_max_right _ _) (le_max_right _ _)
  refine ⟨?_, ?_, ?_, ?_⟩
  · have : p.x - min a.x (min b.x c.x) = l1 * (a.x - min a.x (min b.x c.x))
        + l2 * (b.x - min a.x (min b.x c.x)) + l3 * (c.x - min a.x (min b.x c.x)) := by
      linear_combination hx + min a.x (min b.x c.x) * hl
    have : 0 ≤ p.x - min a.x (min b.x c.x) := by
      rw [this]
      have := mul_nonneg h1 (sub_nonneg.mpr m1)
      have := mul_nonneg h2 (sub_nonneg.mpr m2)
      have := mul_nonneg h3 (sub_nonneg.mpr m3)
      linarith
    linarith
  · have : max a.x (max b.x c.x) - p.x = l1 * (max a.x (max b.x c.x) - a.x)
        + l2 * (max a.x (max b.x c.x) - b.x) + l3 * (max a.x (max b.x c.x) - c.x) := by
      linear_combination (-max a.x (max b.x c.x)) * hl - hx
    have : 0 ≤ max a.x (max b.x c.x) - p.x := by
      rw [this]
      have := mul_nonneg h1 (sub_nonneg.mpr M1)
      have := mul_nonneg h2 (sub_nonneg.mpr M2)
      have := mul_nonneg h3 (sub_nonneg.mpr M3)
      linarith
    linarith
  · have : p.y - min a.y (min b.y c.y) = l1 * (a.y - min a.y (min b.y c.y))
        + l2 * (b.y - min a.y (min b.y c.y)) + l3 * (c.y - min a.y (min b.y c.y)) := by
      linear_combination hy + min a.y (min b.y c.y) * hl
    have : 0 ≤ p.y - min a.y (min b.y c.y) := by
      rw [this]
      have := mul_nonneg h1 (sub_nonneg.mpr n1)
      have := mul_nonneg h2 (sub_nonneg.mpr n2)
      have := mul_nonneg h3 (sub_nonneg.mpr n3)
      linarith
    linarith
  · have : max a.y (max b.y c.y) - p.y = l1 * (max a.y (max b.y c.y) - a.y)
        + l2 * (max a.y (max b.y c.y) - b.y) + l3 * (max a.y (max b.y c.y) - c.y) := by
      linear_combination (-max a.y (max b.y c.y)) * hl - hy
    have : 0 ≤ max a.y (max b.y c.y) - p.y := by
      rw [this]
      have := mul_nonneg h1 (sub_nonneg.mpr N1)
      have := mul_nonneg h2 (sub_nonneg.mpr N2)
      have := mul_nonneg h3 (sub_nonneg.mpr N3)
      linarith
    linarith

/-- A pixel column `i ≥ 0` whose square meets the range of the coordinates
`a`, `b`, `c` in more than its right end is pixel `k` of some block `bX` of
the block loop. -/
theorem exists_block_index (a b c : α) (i : Int) (hi : 0 ≤ i)
    (hlo : min a (min b c) < (i : α) + 1) (hhi : (i : α) < max a (max b c)) :
    ∃ bX k : Nat, k < 8 ∧ bX < blockCount (loBound a b c) (hiBound a b c) ∧
      loPixel a b c + ((8 * bX + k : Nat) : Int) = i := by
  have h1 : loPixel a b c ≤ i := by
    unfold loPixel
    have : max (min a (min b c)) 0 < (i : α) + 1 := by
      apply max_lt hlo
      have : (0 : α) ≤ i := by exact_mod_cast hi
      linarith
    have := Int.floor_lt.mpr (by exact_mod_cast this : max (min a (min b c)) 0 < ((i + 1 : ℤ) : α))
    omega
  have h2 : i + 1 ≤ ⌈max a (max b c)⌉ := by
    have : i < ⌈max a (max b c)⌉ := Int.lt_ceil.mpr hhi
    omega
  obtain ⟨d, hd⟩ := Int.eq_ofNat_of_zero_le (by omega : 0 ≤ i - loPixel a b c)
  refine ⟨d / 8, d % 8, Nat.mod_lt _ (by norm_num), ?_, ?_⟩
  · unfold blockCount
    have hw : hiBound a b c - loBound a b c
        = ((⌈max a (max b c)⌉ - loPixel a b c : ℤ) : α) := by
      rw [loBound_eq, hiBound]
      push_cast
      ring
    rw [hw]
    have hfl : ((d / 8 : ℕ) : ℤ) ≤ ⌊((⌈max a (max b c)⌉ - loPixel a b c : ℤ) : α) / 8⌋ := by
      rw [Int.le_floor, le_div_iff₀ (by norm_num : (0 : α) < 8)]
      have : ((d / 8 : ℕ) : ℤ) * 8 ≤ ⌈max a (max b c)⌉ - loPixel a b c := by
        have := Nat.div_mul_le_self d 8
        omega
      exact_mod_cast this
    omega
  · have := Nat.div_add_mod d 8
    omega

theorem not_anyLE_of_near {sqrtf : α → α} (hs : IsSqrt sqrtf) (a b : Vector2 α)
    (x y xc yc f : α) (h : edgeFn sqrtf a b x y = some f) (hf : 0 ≤ f)
    (hx : |x - xc| ≤ 7 / 2) (hy : |y - yc| ≤ 7 / 2) :
    nanLE (edgeFn sqrtf a b xc yc) (-sqrtf (8 * 8 / 2)) = false := by
  obtain ⟨hB, hBB⟩ := bk_inside_sq hs
  by_contra hne
  have ht : nanLE (edgeFn sqrtf a b xc yc) (-sqrtf (8 * 8 / 2)) = true := by simpa using hne
  obtain ⟨f', e', g'⟩ := nanLE_eq_true ht
  have hl := edgeFn_lipschitz hs a b x y xc yc f f' h e'
  have kx := mul_self_le_of_abs_le _ _ hx
  have ky := mul_self_le_of_abs_le _ _ hy
  have k := (lt_of_mul_self_sub_lt f f' _ (sqrtf (8 * 8 / 2)) hB.le hl (by
    rw [hBB]
    have e : (7 / 2 : α) * (7 / 2) = 49 / 4 := by norm_num
    rw [e] at kx ky
    linarith)).2
  linarith

end Visits

section VisitsInside

variable {α : Type} [LinearOrderedField α] [FloorRing α]

theorem truncInt_half (i : Int) (hi : 0 ≤ i) : truncInt ((i : α) + 1 / 2) = i := by
  have := truncInt_pixel (α := α) i 0 hi
  simpa using this

/-- The block of a pixel whose centre has non-negative half-space functions
is not skipped. -/
theorem new_not_anyLE {sqrtf : α → α} (hs : IsSqrt sqrtf) (p0 p1 p2 : Vector2 α)
    (a0 a1 a2 dx0 dy0 : Vector3 α) (x y xc yc : α)
    (h : (Triangle.new sqrtf p0 p1 p2 a0 a1 a2 dx0 dy0).allGE 0 x y = true)
    (hx : |x - xc| ≤ 7 / 2) (hy : |y - yc| ≤ 7 / 2) :
    (Triangle.new sqrtf p0 p1 p2 a0 a1 a2 dx0 dy0).anyLE (-sqrtf (8 * 8 / 2)) xc yc = false := by
  rw [new_allGE] at h
  simp only [Bool.and_eq_true] at h
  obtain ⟨⟨h1, h2⟩, h3⟩ := h
  obtain ⟨f1, e1, g1⟩ := nanGE_eq_true h1
  obtain ⟨f2, e2, g2⟩ := nanGE_eq_true h2
  obtain ⟨f3, e3, g3⟩ := nanGE_eq_true h3
  rw [new_anyLE, not_anyLE_of_near hs p0 p2 x y xc yc f1 e1 g1 hx hy,
    not_anyLE_of_near hs p2 p1 x y xc yc f2 e2 g2 hx hy,
    not_anyLE_of_near hs p1 p0 x y xc yc f3 e3 g3 hx hy]
  rfl

theorem allGE_mono (t : Triangle α) (c c' x y : α) (hc : c' ≤ c) (h : t.allGE c x y = true) :
    t.allGE c' x y = true := by
  simp only [Triangle.allGE, Bool.and_eq_true] at h ⊢
  obtain ⟨⟨h1, h2⟩, h3⟩ := h
  obtain ⟨f1, e1, g1⟩ := nanGE_eq_true h1
  obtain ⟨f2, e2, g2⟩ := nanGE_eq_true h2
  obtain ⟨f3, e3, g3⟩ := nanGE_eq_true h3
  rw [e1, e2, e3]
  simp only [nanGE_some]
  exact ⟨⟨by linarith, by linarith⟩, by linarith⟩

/-- A pixel `(i, j)` with `i, j ≥ 0` at whose centre the three half-space
functions are at least `PX_INSIDE` gets a call with coverage 1 and the
interpolant at its centre. -/
theorem call_of_allGE {sqrtf : α → α} (hs : IsSqrt sqrtf) (p0 p1 p2 : Vector2 α)
    (a0 a1 a2 dx0 dy0 : Vector3 α) (i j : Int) (hi : 0 ≤ i) (hj : 0 ≤ j)
    (h : (Triangle.new sqrtf p0 p1 p2 a0 a1 a2 dx0 dy0).allGE (1 / sqrtf 2)
      ((i : α) + 1 / 2) ((j : α) + 1 / 2) = true) :
    (⟨i, j, (Triangle.new sqrtf p0 p1 p2 a0 a1 a2 dx0 dy0).interp ⟨(i : α) + 1 / 2, (j : α) + 1 / 2⟩,
      (Triangle.new sqrtf p0 p1 p2 a0 a1 a2 dx0 dy0).dx,
      (Triangle.new sqrtf p0 p1 p2 a0 a1 a2 dx0 dy0).dy, 1⟩ : Call α)
      ∈ drawCalls sqrtf (Triangle.new sqrtf p0 p1 p2 a0 a1 a2 dx0 dy0) := by
  have h' := h
  rw [new_allGE] at h'
  obtain ⟨hD, hin⟩ := inTriangle_of_allGE hs p0 p1 p2 _ _ _ (px_inside_pos hs) h'
  obtain ⟨bx0, bx1, by0, by1⟩ := inTriangle_bounds p0 p2 p1 _ (inTriangle_swap _ _ _ _ hin)
  simp only at bx0 bx1 by0 by1
  obtain ⟨bX, k, hk, hbX, hxi⟩ :=
    exists_block_index p0.x p2.x p1.x i hi (by linarith) (by linarith)
  obtain ⟨bY, r, hr, hbY, hyj⟩ :=
    exists_block_index p0.y p2.y p1.y j hj (by linarith) (by linarith)
  rw [mem_drawCalls]
  refine ⟨bY, bX, r, k, ?_, ?_, hr, hk, ?_⟩
  · rw [new_v1, new_v2, new_v3]; exact hbY
  · rw [new_v1, new_v2, new_v3]; exact hbX
  · rw [pixelCalls_eq]
    simp only [new_v1, new_v2, new_v3]
    have eX : centreOf (loBound p0.x p2.x p1.x) bX k = (i : α) + 1 / 2 := by
      rw [centreOf_eq, hxi]
    have eY : centreOf (loBound p0.y p2.y p1.y) bY r = (j : α) + 1 / 2 := by
      rw [centreOf_eq, hyj]
    have hX := centreOf_sub_blockCentre (loBound p0.x p2.x p1.x) bX k hk
    have hY := centreOf_sub_blockCentre (loBound p0.y p2.y p1.y) bY r hr
    rw [eX] at hX
    rw [eY] at hY
    have hno := new_not_anyLE hs p0 p1 p2 a0 a1 a2 dx0 dy0 _ _ _ _
      (allGE_mono _ _ 0 _ _ (px_inside_pos hs).le h) hX hY
    rw [eX, eY, truncInt_half i hi, truncInt_half j hj, hno]
    simp only [Bool.false_eq_true, if_false]
    split_ifs with h2
    · exact List.mem_singleton.mpr rfl
    · exact List.mem_singleton.mpr rfl

end VisitsInside

/-! ## Coverage, disjoint pixels and degenerate triangles -/

section Claims1

variable {α : Type} [LinearOrderedField α] [FloorRing α] {σ : Type}

theorem runCalls_always_true (cb : SamplingCallback σ α) (hcb : ∀ s c, (cb s c).2 = true) :
    ∀ (l : List (Call α)) (s : σ), (runCalls cb l s).2 = true
  | [], s => rfl
  | c :: l, s => by
    simp only [runCalls, hcb s c, if_true]
    exact runCalls_always_true cb hcb l _

/-- With a callback that never returns false, the log of `drawAA` is
`drawCalls`. -/
theorem log_of_always_true (sqrtf : α → α) (t : Triangle α) (cb : SamplingCallback σ α)
    (hcb : ∀ s c, (cb s c).2 = true) (s : σ) :
    (t.drawAA sqrtf (record cb) (s, [])).1.2.map Prod.fst = drawCalls sqrtf t := by
  obtain ⟨h0, _, h2, _⟩ := drawAA_record sqrtf t cb s
  have h1 : (t.drawAA sqrtf (record cb) (s, [])).2 = true := by
    have := congrArg Prod.snd h0
    simp only at this
    rw [this, drawAA_eq_runCalls]
    exact runCalls_always_true cb hcb _ s
  exact (h2 h1).1

theorem computeDeltas_snd_eq_false_iff (t : Triangle α) :
    t.computeDeltas.2 = false ↔ t.det = 0 := by
  unfold Triangle.computeDeltas
  by_cases h : t.det = 0
  · have h' : recip ((t.v3.sub t.v1).y * (t.v2.sub t.v1).x
        - (t.v2.sub t.v1).y * (t.v3.sub t.v1).x) = none := (recip_eq_none_iff _).mpr h
    simp only [h']
    simp [h]
  · have h' := recip_of_ne h
    unfold Triangle.det at h'
    simp only [h']
    simp [h]

theorem isSqrt_real : IsSqrt Real.sqrt :=
  fun x hx => ⟨Real.sqrt_nonneg x, Real.mul_self_sqrt hx⟩

/-- A half-space function is at least `PX_INSIDE = 1/sqrtf(2)` when the point
lies on the inner side of the edge line at a distance whose square is at
least `1/2`. -/
theorem nanGE_edgeFn_px_inside {sqrtf : α → α} (hs : IsSqrt sqrtf) (a b : Vector2 α) (x y : α)
    (hne : a ≠ b) (h1 : cross2 a b ⟨x, y⟩ ≤ 0)
    (h2 : (a.x - b.x) * (a.x - b.x) + (a.y - b.y) * (a.y - b.y)
      ≤ 2 * (cross2 a b ⟨x, y⟩ * cross2 a b ⟨x, y⟩)) :
    nanGE (edgeFn sqrtf a b x y) (1 / sqrtf 2) = true := by
  obtain ⟨f, hf⟩ := edgeFn_isSome hs a b x y hne
  obtain ⟨L, hL, hLL, hLf⟩ := edgeFn_eq_some hs a b x y f hf
  have hs2 : 0 < sqrtf 2 := isSqrt_pos hs (by norm_num)
  have hss : sqrtf 2 * sqrtf 2 = 2 := (hs 2 (by norm_num)).2
  rw [hf, nanGE_some, div_le_iff₀ hs2]
  have hN : 0 ≤ L * f := by rw [hLf]; linarith
  have hf0 : 0 ≤ f := by
    by_contra hneg
    push_neg at hneg
    have := mul_neg_of_pos_of_neg hL hneg
    linarith
  have key : L ≤ L * f * sqrtf 2 := by
    by_contra hlt
    push_neg at hlt
    have hnn : 0 ≤ L * f * sqrtf 2 := mul_nonneg hN hs2.le
    have := mul_lt_mul'' hlt hlt hnn hnn
    have e : L * f * sqrtf 2 * (L * f * sqrtf 2) = 2 * ((L * f) * (L * f)) := by
      calc L * f * sqrtf 2 * (L * f * sqrtf 2) = (sqrtf 2 * sqrtf 2) * ((L * f) * (L * f)) := by ring
        _ = 2 * ((L * f) * (L * f)) := by rw [hss]
    rw [e, hLf, hLL] at this
    have e2 : -cross2 a b ⟨x, y⟩ * -cross2 a b ⟨x, y⟩
        = cross2 a b ⟨x, y⟩ * cross2 a b ⟨x, y⟩ := by ring
    rw [e2] at this
    linarith
  have : L * 1 ≤ L * (f * sqrtf 2) := by linarith [mul_assoc L f (sqrtf 2)]
  exact le_of_mul_le_mul_left this hL

/-- C9: every invocation `drawAA` makes of the callback, for every triangle and
every callback, passes a coverage `c` with `0 < c ≤ 1`: either the constant
`1` or the positive area of the triangle clipped to a unit square. -/
theorem coverage_pos_le_one (sqrtf : α → α) (t : Triangle α) (cb : SamplingCallback σ α)
    (s : σ) :
    ∀ e ∈ (t.drawAA sqrtf (record cb) (s, [])).1.2,
      0 < e.1.coverage ∧ e.1.coverage ≤ 1 ∧
      (e.1.coverage = 1 ∨ ∃ x y, e.1.coverage = (pixelClip t x y).area) :=
  fun e he => coverage_of_mem_drawCalls sqrtf t e.1 (mem_drawCalls_of_mem_log sqrtf t cb s e he)

/-- In exact arithmetic, for a triangle with collinear vertices (duplicated
vertices included) `computeDeltas` returns false, `dx` and `dy` keep their
indeterminate contents, and `drawAA` makes no callback invocation and returns
true. -/
theorem collinear_triangle_no_calls {sqrtf : α → α} (hs : IsSqrt sqrtf) (p0 p1 p2 : Vector2 α)
    (a0 a1 a2 dx0 dy0 : Vector3 α) (hcol : cross2 p0 p1 p2 = 0) :
    (Triangle.new sqrtf p0 p1 p2 a0 a1 a2 dx0 dy0).computeDeltas.2 = false ∧
    (Triangle.new sqrtf p0 p1 p2 a0 a1 a2 dx0 dy0).dx = dx0 ∧
    (Triangle.new sqrtf p0 p1 p2 a0 a1 a2 dx0 dy0).dy = dy0 ∧
    drawCalls sqrtf (Triangle.new sqrtf p0 p1 p2 a0 a1 a2 dx0 dy0) = [] ∧
    ∀ (τ : Type) (cb : SamplingCallback τ α) (s : τ),
      ((Triangle.new sqrtf p0 p1 p2 a0 a1 a2 dx0 dy0).drawAA sqrtf (record cb) (s, [])).1.2 = [] ∧
      (Triangle.new sqrtf p0 p1 p2 a0 a1 a2 dx0 dy0).drawAA sqrtf cb s = (s, true) := by
  have hdet : (Triangle.new sqrtf p0 p1 p2 a0 a1 a2 dx0 dy0).det = 0 := by
    rw [Triangle.det_eq_cross2, new_v1, new_v2, new_v3, cross2_swap, hcol, neg_zero]
  have hcalls : drawCalls sqrtf (Triangle.new sqrtf p0 p1 p2 a0 a1 a2 dx0 dy0) = [] := by
    apply List.eq_nil_iff_forall_not_mem.mpr
    intro c hc
    obtain ⟨_, _, hcase⟩ := call_cases hs p0 p1 p2 a0 a1 a2 dx0 dy0 c hc
    rcases hcase with ⟨_, hD, _⟩ | ⟨_, hpos⟩
    · rw [hcol] at hD; exact lt_irrefl _ hD
    · simp only [pixelClip, new_v1, new_v2, new_v3] at hpos
      rw [clipAABox_area_collinear _ _ _ _ _ _ _
        (by rw [cross2_translate, cross2_swap, hcol, neg_zero])] at hpos
      exact lt_irrefl _ hpos
  have hD0 : (p1.y - p0.y) * (p2.x - p0.x) - (p2.y - p0.y) * (p1.x - p0.x) = 0 := by
    simp only [cross2] at hcol
    linear_combination -hcol
  have hr := (recip_eq_none_iff _).mpr hD0
  refine ⟨((computeDeltas_snd_eq_false_iff _).mpr hdet), ?_, ?_, hcalls, ?_⟩
  · simp only [Triangle.new, Triangle.computeUnitInwardNormals, Triangle.computeDeltas,
      Vector2.sub, hr]
  · simp only [Triangle.new, Triangle.computeUnitInwardNormals, Triangle.computeDeltas,
      Vector2.sub, hr]
  · intro τ cb s
    obtain ⟨_, hpre, _, _⟩ := drawAA_record sqrtf (Triangle.new sqrtf p0 p1 p2 a0 a1 a2 dx0 dy0) cb s
    rw [hcalls] at hpre
    refine ⟨?_, ?_⟩
    · have := List.prefix_nil.mp hpre
      exact List.map_eq_nil_iff.mp this
    · rw [drawAA_eq_runCalls, hcalls]
      rfl

end Claims1

/-! ## The triangle `(0,0), (16,0), (0,16)` -/

section Example

/-- At the centre of pixel `(2, 2)` the three half-space functions of the
triangle `(0,0), (16,0), (0,16)` are at least `PX_INSIDE`. -/
theorem example_allGE :
    (Triangle.new Real.sqrt (⟨0, 0⟩ : Vector2 ℝ) ⟨16, 0⟩ ⟨0, 16⟩ ⟨1, 0, 0⟩ ⟨0, 1, 0⟩ ⟨0, 0, 1⟩
      ⟨0, 0, 0⟩ ⟨0, 0, 0⟩).allGE (1 / Real.sqrt 2) (((2 : ℤ) : ℝ) + 1 / 2) (((2 : ℤ) : ℝ) + 1 / 2)
      = true := by
  rw [new_allGE,
    nanGE_edgeFn_px_inside isSqrt_real ⟨0, 0⟩ ⟨0, 16⟩ _ _
      (by intro h; have := congrArg Vector2.y h; norm_num at this)
      (by norm_num [cross2]) (by norm_num [cross2]),
    nanGE_edgeFn_px_inside isSqrt_real ⟨0, 16⟩ ⟨16, 0⟩ _ _
      (by intro h; have := congrArg Vector2.y h; norm_num at this)
      (by norm_num [cross2]) (by norm_num [cross2]),
    nanGE_edgeFn_px_inside isSqrt_real ⟨16, 0⟩ ⟨0, 0⟩ _ _
      (by intro h; have := congrArg Vector2.x h; norm_num at this)
      (by norm_num [cross2]) (by norm_num [cross2])]
  rfl

/-- Run with a callback that always returns true, `drawAA` on the triangle
`(0,0), (16,0), (0,16)` invokes the callback for pixel `(2, 2)`. -/
theorem example_entry :
    ∃ e ∈ ((Triangle.new Real.sqrt (⟨0, 0⟩ : Vector2 ℝ) ⟨16, 0⟩ ⟨0, 16⟩ ⟨1, 0, 0⟩ ⟨0, 1, 0⟩
        ⟨0, 0, 1⟩ ⟨0, 0, 0⟩ ⟨0, 0, 0⟩).drawAA Real.sqrt (record alwaysTrue) ((), [])).1.2,
      e.1.x = 2 ∧ e.1.y = 2 ∧ e.1.coverage = 1 := by
  have hmem := call_of_allGE isSqrt_real (⟨0, 0⟩ : Vector2 ℝ) ⟨16, 0⟩ ⟨0, 16⟩ ⟨1, 0, 0⟩
    ⟨0, 1, 0⟩ ⟨0, 0, 1⟩ ⟨0, 0, 0⟩ ⟨0, 0, 0⟩ 2 2 (by norm_num) (by norm_num) example_allGE
  rw [← log_of_always_true Real.sqrt _ alwaysTrue (fun _ _ => rfl) ()] at hmem
  obtain ⟨e, he, heq⟩ := List.mem_map.mp hmem
  exact ⟨e, he, by rw [heq], by rw [heq], by rw [heq]⟩

/-- C9 at the triangle `(0,0), (16,0), (0,16)`: an invocation is made and its
coverage lies in `(0, 1]`. -/
theorem coverage_pos_le_one_witness :
    ∃ e ∈ ((Triangle.new Real.sqrt (⟨0, 0⟩ : Vector2 ℝ) ⟨16, 0⟩ ⟨0, 16⟩ ⟨1, 0, 0⟩ ⟨0, 1, 0⟩
        ⟨0, 0, 1⟩ ⟨0, 0, 0⟩ ⟨0, 0, 0⟩).drawAA Real.sqrt (record alwaysTrue) ((), [])).1.2,
      0 < e.1.coverage ∧ e.1.coverage ≤ 1 := by
  obtain ⟨e, he, _⟩ := example_entry
  exact ⟨e, he, (coverage_pos_le_one Real.sqrt _ alwaysTrue () e he).1,
    (coverage_pos_le_one Real.sqrt _ alwaysTrue () e he).2.1⟩

/-- The collinear triangle `(0,0), (1,1), (2,2)` in exact arithmetic:
gradient setup fails and no invocation is made. -/
theorem collinear_triangle_no_calls_witness :
    cross2 (⟨0, 0⟩ : Vector2 ℝ) ⟨1, 1⟩ ⟨2, 2⟩ = 0 ∧
    (Triangle.new Real.sqrt (⟨0, 0⟩ : Vector2 ℝ) ⟨1, 1⟩ ⟨2, 2⟩ ⟨1, 0, 0⟩ ⟨0, 1, 0⟩ ⟨0, 0, 1⟩
      ⟨0, 0, 0⟩ ⟨0, 0, 0⟩).computeDeltas.2 = false ∧
    ((Triangle.new Real.sqrt (⟨0, 0⟩ : Vector2 ℝ) ⟨1, 1⟩ ⟨2, 2⟩ ⟨1, 0, 0⟩ ⟨0, 1, 0⟩ ⟨0, 0, 1⟩
      ⟨0, 0, 0⟩ ⟨0, 0, 0⟩).drawAA Real.sqrt (record alwaysTrue) ((), [])).1.2 = [] :=
  have hcol : cross2 (⟨0, 0⟩ : Vector2 ℝ) ⟨1, 1⟩ ⟨2, 2⟩ = 0 := by norm_num [cross2]
  have h := collinear_triangle_no_calls isSqrt_real (⟨0, 0⟩ : Vector2 ℝ) ⟨1, 1⟩ ⟨2, 2⟩ ⟨1, 0, 0⟩
    ⟨0, 1, 0⟩ ⟨0, 0, 1⟩ ⟨0, 0, 0⟩ ⟨0, 0, 0⟩ hcol
  ⟨hcol, h.1, (h.2.2.2.2 Unit alwaysTrue ()).1⟩

end Example

section RingThms

variable {α : Type} [LinearOrderedField α]

theorem clipPath_cons_cons (ins : Vector2 α → Bool)
    (isect : Vector2 α → Vector2 α → Vector2 α) (a b : Vector2 α) (rest : List (Vector2 α)) :
    clipPath ins isect (a :: b :: rest) = emitEdge ins isect a b ++ clipPath ins isect (b :: rest) := by
  rw [clipPath]; rfl

theorem emitEdge_in_in (ins : Vector2 α → Bool) (isect : Vector2 α → Vector2 α → Vector2 α)
    {a b : Vector2 α} (ha : ins a = true) (hb : ins b = true) : emitEdge ins isect a b = [a] := by
  simp [emitEdge, ha, hb]

theorem emitEdge_in_out (ins : Vector2 α → Bool) (isect : Vector2 α → Vector2 α → Vector2 α)
    {a b : Vector2 α} (ha : ins a = true) (hb : ins b = false) :
    emitEdge ins isect a b = [a, isect a b] := by
  simp [emitEdge, ha, hb]

theorem emitEdge_out_in (ins : Vector2 α → Bool) (isect : Vector2 α → Vector2 α → Vector2 α)
    {a b : Vector2 α} (ha : ins a = false) (hb : ins b = true) :
    emitEdge ins isect a b = [isect a b] := by
  simp [emitEdge, ha, hb]

theorem emitEdge_out_out (ins : Vector2 α → Bool) (isect : Vector2 α → Vector2 α → Vector2 α)
    {a b : Vector2 α} (ha : ins a = false) (hb : ins b = false) : emitEdge ins isect a b = [] := by
  simp [emitEdge, ha, hb]

theorem inPart_in_in (ins : Vector2 α → Bool) (isect : Vector2 α → Vector2 α → Vector2 α)
    (F : Vector2 α → Vector2 α → α) {a b : Vector2 α} (ha : ins a = true) (hb : ins b = true) :
    inPart ins isect F a b = F a b := by
  simp [inPart, ha, hb]

theorem inPart_in_out (ins : Vector2 α → Bool) (isect : Vector2 α → Vector2 α → Vector2 α)
    (F : Vector2 α → Vector2 α → α) {a b : Vector2 α} (ha : ins a = true) (hb : ins b = false) :
    inPart ins isect F a b = F a (isect a b) := by
  simp [inPart, ha, hb]

theorem inPart_out_in (ins : Vector2 α → Bool) (isect : Vector2 α → Vector2 α → Vector2 α)
    (F : Vector2 α → Vector2 α → α) {a b : Vector2 α} (ha : ins a = false) (hb : ins b = true) :
    inPart ins isect F a b = F (isect a b) b := by
  simp [inPart, ha, hb]

theorem inPart_out_out (ins : Vector2 α → Bool) (isect : Vector2 α → Vector2 α → Vector2 α)
    (F : Vector2 α → Vector2 α → α) {a b : Vector2 α} (ha : ins a = false) (hb : ins b = false) :
    inPart ins isect F a b = 0 := by
  simp [inPart, ha, hb]

theorem pathSum_append_swap (F : Vector2 α → Vector2 α → α) (x x' : Vector2 α) :
    ∀ p : List (Vector2 α), (∀ y ∈ p.getLast?, F y x = F y x') →
      pathSum F (p ++ [x]) = pathSum F (p ++ [x'])
  | [], _ => rfl
  | [a], h => by
    have := h a (by simp)
    simp [pathSum, this]
  | a :: b :: r, h => by
    have ih := pathSum_append_swap F x x' (b :: r) (by simpa using h)
    simp only [List.cons_append, pathSum_cons_cons] at ih ⊢
    rw [ih]

theorem pairsAll_append_swap (O : Vector2 α → Vector2 α → Prop) (x x' : Vector2 α) :
    ∀ p : List (Vector2 α), (∀ y ∈ p.getLast?, O y x → O y x') →
      pairsAll O (p ++ [x]) → pairsAll O (p ++ [x'])
  | [], _, _ => trivial
  | [a], h, hp => by
    have := h a (by simp)
    simp only [List.singleton_append, pairsAll, and_true] at hp ⊢
    exact this hp
  | a :: b :: r, h, hp => by
    have ih := pairsAll_append_swap O x x' (b :: r) (by simpa using h)
    simp only [List.cons_append, pairsAll] at ih hp ⊢
    exact ⟨hp.1, ih hp.2⟩

theorem pairsAll_cons_cons (O : Vector2 α → Vector2 α → Prop) (a b : Vector2 α)
    (rest : List (Vector2 α)) : pairsAll O (a :: b :: rest) ↔ O a b ∧ pairsAll O (b :: rest) :=
  Iff.rfl

/-- The first vertex after an inside vertex `b` that is not the last one is
`b` itself. -/
theorem clipPath_head_inside (ins : Vector2 α → Bool)
    (isect : Vector2 α → Vector2 α → Vector2 α) (b c : Vector2 α) (r : List (Vector2 α))
    (hb : ins b = true) :
    ∃ Y, clipPath ins isect (b :: c :: r) = b :: Y := by
  rw [clipPath_cons_cons]
  simp [emitEdge, hb]

/-- After an outside vertex the clip pass first emits a vertex of the clip
line, if it emits anything before the end marker `e`. -/
theorem clipPath_head_outside (ins : Vector2 α → Bool)
    (isect : Vector2 α → Vector2 α → Vector2 α) (onL : Vector2 α → Prop)
    (hi : ∀ a b, (ins a != ins b) = true → onL (isect a b)) (e : Vector2 α) (he : onL e) :
    ∀ (r : List (Vector2 α)) (b : Vector2 α), ins b = false →
      ∃ h Y, clipPath ins isect (b :: r) ++ [e] = h :: Y ∧ onL h
  | [], b, hb => ⟨e, [], by simp [clipPath], he⟩
  | c :: r, b, hb => by
    rw [clipPath_cons_cons]
    cases hc : ins c
    · obtain ⟨h, Y, hY, hh⟩ := clipPath_head_outside ins isect onL hi e he r c hc
      exact ⟨h, Y, by simp [emitEdge, hb, hc, hY], hh⟩
    · exact ⟨isect b c, clipPath ins isect (c :: r) ++ [e], by simp [emitEdge, hb, hc],
        hi b c (by simp [hb, hc])⟩

/-- An inside vertex heads what the clip pass emits from it on, the end
marker being the vertex itself when it is the last one. -/
theorem clipPath_head_inside_end (ins : Vector2 α → Bool)
    (isect : Vector2 α → Vector2 α → Vector2 α) (b e : Vector2 α) (r : List (Vector2 α))
    (hb : ins b = true) (he : ∀ z ∈ (b :: r).getLast?, ins z = true → e = z) :
    ∃ Y, clipPath ins isect (b :: r) ++ [e] = b :: Y := by
  cases r with
  | nil => exact ⟨[], by simp [clipPath, he b (by simp) hb]⟩
  | cons c r =>
    obtain ⟨Y, hY⟩ := clipPath_head_inside ins isect b c r hb
    exact ⟨Y ++ [e], by rw [hY]; rfl⟩

/-- When the last vertex of the path is outside, the last vertex the clip
pass emits lies on the clip line. -/
theorem clipPath_last_outside (ins : Vector2 α → Bool)
    (isect : Vector2 α → Vector2 α → Vector2 α) (onL : Vector2 α → Prop)
    (hi : ∀ a b, (ins a != ins b) = true → onL (isect a b)) :
    ∀ p : List (Vector2 α), (∀ z ∈ p.getLast?, ins z = false) →
      ∀ y ∈ (clipPath ins isect p).getLast?, onL y
  | [], _, y, hy => by simp [clipPath] at hy
  | [a], _, y, hy => by simp [clipPath] at hy
  | a :: b :: r, h, y, hy => by
    have ih := clipPath_last_outside ins isect onL hi (b :: r) (by simpa using h)
    rw [clipPath_cons_cons, List.getLast?_append] at hy
    cases hrec : (clipPath ins isect (b :: r)).getLast? with
    | some w =>
      rw [hrec] at hy
      simp only [Option.or, Option.mem_def, Option.some.injEq] at hy
      rw [← hy]
      exact ih w hrec
    | none =>
      rw [hrec] at hy
      simp only [Option.or] at hy
      have hnil : clipPath ins isect (b :: r) = [] := List.getLast?_eq_none_iff.mp hrec
      cases ha : ins a <;> cases hb : ins b
      · simp [emitEdge, ha, hb] at hy
      · simp [emitEdge, ha, hb] at hy
        rw [← hy]; exact hi a b (by simp [ha, hb])
      · simp [emitEdge, ha, hb] at hy
        rw [← hy]; exact hi a b (by simp [ha, hb])
      · exfalso
        cases r with
        | nil => simpa [hb] using h b (by simp)
        | cons c r =>
          obtain ⟨Y, hY⟩ := clipPath_head_inside ins isect b c r hb
          rw [hY] at hnil
          exact List.cons_ne_nil _ _ hnil

/-- One clip pass along a path: the sum of `F` over what is emitted, from a
start marker `u` to an end marker `e`, is the sum of the kept parts of the
edges, when `F` vanishes between vertices of the clip line. -/
theorem clip_exact_path (ins : Vector2 α → Bool)
    (isect : Vector2 α → Vector2 α → Vector2 α) (onL : Vector2 α → Prop)
    (hi : ∀ a b, (ins a != ins b) = true → onL (isect a b))
    (F : Vector2 α → Vector2 α → α) (hF0 : ∀ v, F v v = 0)
    (hFL : ∀ p q, onL p → onL q → F p q = 0) (e : Vector2 α) :
    ∀ (tail : List (Vector2 α)) (a u : Vector2 α),
      (ins a = true → u = a) → (ins a = false → onL u) →
      (∀ z ∈ (a :: tail).getLast?, (ins z = true → e = z) ∧ (ins z = false → onL e)) →
      pathSum F (u :: (clipPath ins isect (a :: tail) ++ [e]))
        = pathSum (inPart ins isect F) (a :: tail)
  | [], a, u, hu1, hu2, he => by
    have he' := he a (by simp)
    cases ha : ins a
    · simp [clipPath, pathSum, hFL u e (hu2 ha) (he'.2 ha)]
    · simp [clipPath, pathSum, hu1 ha, he'.1 ha, hF0]
  | b :: r, a, u, hu1, hu2, he => by
    have he' : ∀ z ∈ (b :: r).getLast?, (ins z = true → e = z) ∧ (ins z = false → onL e) := by
      simpa using he
    rw [clipPath_cons_cons, pathSum_cons_cons]
    cases ha : ins a <;> cases hb : ins b
    · have ih := clip_exact_path ins isect onL hi F hF0 hFL e r b u
        (fun h => by simp [hb] at h) (fun _ => hu2 ha) he'
      rw [emitEdge_out_out ins isect ha hb, inPart_out_out ins isect F ha hb, List.nil_append,
        ih, zero_add]
    · obtain ⟨Y, hY⟩ := clipPath_head_inside_end ins isect b e r hb (fun z hz => (he' z hz).1)
      have ih := clip_exact_path ins isect onL hi F hF0 hFL e r b b
        (fun _ => rfl) (fun h => by simp [hb] at h) he'
      have hc : onL (isect a b) := hi a b (by simp [ha, hb])
      rw [hY, pathSum_cons_cons, hF0] at ih
      rw [emitEdge_out_in ins isect ha hb, inPart_out_in ins isect F ha hb, List.append_assoc,
        hY, List.singleton_append, pathSum_cons_cons, pathSum_cons_cons, hFL u _ (hu2 ha) hc]
      linarith
    · have hc : onL (isect a b) := hi a b (by simp [ha, hb])
      have ih := clip_exact_path ins isect onL hi F hF0 hFL e r b (isect a b)
        (fun h => by simp [hb] at h) (fun _ => hc) he'
      rw [emitEdge_in_out ins isect ha hb, inPart_in_out ins isect F ha hb, List.append_assoc,
        List.cons_append, List.singleton_append, pathSum_cons_cons, pathSum_cons_cons, ih,
        hu1 ha, hF0]
      ring
    · obtain ⟨Y, hY⟩ := clipPath_head_inside_end ins isect b e r hb (fun z hz => (he' z hz).1)
      have ih := clip_exact_path ins isect onL hi F hF0 hFL e r b b
        (fun _ => rfl) (fun h => by simp [hb] at h) he'
      rw [hY, pathSum_cons_cons, hF0] at ih
      rw [emitEdge_in_in ins isect ha hb, inPart_in_in ins isect F ha hb, List.append_assoc,
        hY, List.singleton_append, pathSum_cons_cons, pathSum_cons_cons, hu1 ha, hF0]
      linarith

theorem closeRing_cons (v0 : Vector2 α) (r : List (Vector2 α)) :
    closeRing (v0 :: r) = v0 :: (r ++ [v0]) := rfl

theorem getLast?_closeRing_cons (v0 : Vector2 α) (r : List (Vector2 α)) :
    (v0 :: (r ++ [v0])).getLast? = some v0 := by
  rw [← List.cons_append, List.getLast?_append]
  simp

/-- One clip pass around a ring: the sum of `F` around the clipped ring is
the sum of the kept parts of the edges of the ring, when `F` vanishes between
vertices of the clip line. -/
theorem clip_exact_ring (ins : Vector2 α → Bool)
    (isect : Vector2 α → Vector2 α → Vector2 α) (onL : Vector2 α → Prop)
    (hi : ∀ a b, (ins a != ins b) = true → onL (isect a b))
    (F : Vector2 α → Vector2 α → α) (hF0 : ∀ v, F v v = 0)
    (hFL : ∀ p q, onL p → onL q → F p q = 0) (l0 : Vector2 α) (hl0 : onL l0)
    (vs : List (Vector2 α)) :
    pathSum F (closeRing (clipPath ins isect (closeRing vs)))
      = pathSum (inPart ins isect F) (closeRing vs) := by
  cases vs with
  | nil => simp [closeRing, clipPath, pathSum]
  | cons v0 r =>
    rw [closeRing_cons]
    have hlast := getLast?_closeRing_cons v0 r
    cases h0 : ins v0
    · have hp := clip_exact_path ins isect onL hi F hF0 hFL l0 (r ++ [v0]) v0 l0
        (fun h => by simp [h0] at h) (fun _ => hl0)
        (fun z hz => by
          rw [hlast] at hz
          simp only [Option.mem_def, Option.some.injEq] at hz
          subst hz
          exact ⟨fun h => by simp [h0] at h, fun _ => hl0⟩)
      rw [← hp]
      have hL := clipPath_last_outside ins isect onL hi (v0 :: (r ++ [v0]))
        (fun z hz => by
          rw [hlast] at hz
          simp only [Option.mem_def, Option.some.injEq] at hz
          subst hz; exact h0)
      obtain ⟨h, Y, hY, hh⟩ := clipPath_head_outside ins isect onL hi l0 hl0 (r ++ [v0]) v0 h0
      cases hout : clipPath ins isect (v0 :: (r ++ [v0])) with
      | nil => simp [closeRing, pathSum, hFL l0 l0 hl0 hl0]
      | cons c out =>
        rw [hout] at hY hL
        have hc : onL c := by
          simp only [List.cons_append, List.cons.injEq] at hY
          rw [hY.1]; exact hh
        rw [closeRing_cons, List.cons_append, pathSum_cons_cons, hFL l0 c hl0 hc, zero_add,
          ← List.cons_append, ← List.cons_append]
        exact pathSum_append_swap F c l0 (c :: out) (fun y hy => by
          rw [hFL y c (hL y hy) hc, hFL y l0 (hL y hy) hl0])
    · have hp := clip_exact_path ins isect onL hi F hF0 hFL v0 (r ++ [v0]) v0 v0
        (fun _ => rfl) (fun h => by simp [h0] at h)
        (fun z hz => by
          rw [hlast] at hz
          simp only [Option.mem_def, Option.some.injEq] at hz
          subst hz
          exact ⟨fun _ => rfl, fun h => by simp [h0] at h⟩)
      rw [← hp]
      obtain ⟨Y, hY⟩ := clipPath_head_inside_end ins isect v0 v0 (r ++ [v0]) h0
        (fun z hz _ => by
          rw [hlast] at hz
          simp only [Option.mem_def, Option.some.injEq] at hz
          exact hz)
      cases hout : clipPath ins isect (v0 :: (r ++ [v0])) with
      | nil => simp [closeRing, pathSum, hF0]
      | cons c out =>
        rw [hout] at hY
        simp only [List.cons_append, List.cons.injEq] at hY
        rw [closeRing_cons, hY.1, List.cons_append, pathSum_cons_cons, hF0, zero_add]

end RingThms

section PairThms

variable {α : Type} [LinearOrderedField α]

/-- One clip pass along a path keeps a relation `O` between consecutive
vertices, from a start marker `l` to the last vertex, when `O` passes to the
pieces of a cut edge and is transitive across outside vertices. -/
theorem clip_pairs_path (ins : Vector2 α → Bool)
    (isect : Vector2 α → Vector2 α → Vector2 α) (onL : Vector2 α → Prop)
    (hi : ∀ a b, (ins a != ins b) = true → onL (isect a b))
    (O : Vector2 α → Vector2 α → Prop) (hrefl : ∀ v, O v v)
    (h1 : ∀ a b, (ins a != ins b) = true → O a b → O a (isect a b) ∧ O (isect a b) b)
    (h2 : ∀ u v w, (ins u = false ∨ onL u) → ins v = false → (ins w = false ∨ onL w) →
      O u v → O v w → O u w) (e : Vector2 α) :
    ∀ (tail : List (Vector2 α)) (a l : Vector2 α), pairsAll O (a :: tail) →
      (ins a = true → l = a) → (ins a = false → (ins l = false ∨ onL l) ∧ O l a) →
      (∀ z ∈ (a :: tail).getLast?, e = z) →
      pairsAll O (l :: (clipPath ins isect (a :: tail) ++ [e]))
  | [], a, l, _, hl1, hl2, he => by
    have he' := he a (by simp)
    cases ha : ins a
    · simpa [clipPath, pairsAll, he'] using (hl2 ha).2
    · simpa [clipPath, pairsAll, hl1 ha, he'] using hrefl a
  | b :: r, a, l, hp, hl1, hl2, he => by
    have he' : ∀ z ∈ (b :: r).getLast?, e = z := by simpa using he
    rw [pairsAll_cons_cons] at hp
    rw [clipPath_cons_cons]
    cases ha : ins a <;> cases hb : ins b
    · have ih := clip_pairs_path ins isect onL hi O hrefl h1 h2 e r b l hp.2
        (fun h => by simp [hb] at h)
        (fun _ => ⟨(hl2 ha).1, h2 l a b (hl2 ha).1 ha (Or.inl hb) (hl2 ha).2 hp.1⟩) he'
      rw [emitEdge_out_out ins isect ha hb, List.nil_append]
      exact ih
    · obtain ⟨Y, hY⟩ := clipPath_head_inside_end ins isect b e r hb (fun z hz _ => he' z hz)
      have ih := clip_pairs_path ins isect onL hi O hrefl h1 h2 e r b b hp.2
        (fun _ => rfl) (fun h => by simp [hb] at h) he'
      have hc : onL (isect a b) := hi a b (by simp [ha, hb])
      have hcut := h1 a b (by simp [ha, hb]) hp.1
      rw [hY, pairsAll_cons_cons] at ih
      rw [emitEdge_out_in ins isect ha hb, List.append_assoc, hY, List.singleton_append,
        pairsAll_cons_cons, pairsAll_cons_cons]
      exact ⟨h2 l a _ (hl2 ha).1 ha (Or.inr hc) (hl2 ha).2 hcut.1, hcut.2, ih.2⟩
    · have hc : onL (isect a b) := hi a b (by simp [ha, hb])
      have hcut := h1 a b (by simp [ha, hb]) hp.1
      have ih := clip_pairs_path ins isect onL hi O hrefl h1 h2 e r b (isect a b) hp.2
        (fun h => by simp [hb] at h) (fun _ => ⟨Or.inr hc, hcut.2⟩) he'
      rw [emitEdge_in_out ins isect ha hb, List.append_assoc, List.cons_append,
        List.singleton_append, pairsAll_cons_cons, pairsAll_cons_cons, hl1 ha]
      exact ⟨hrefl a, hcut.1, ih⟩
    · obtain ⟨Y, hY⟩ := clipPath_head_inside_end ins isect b e r hb (fun z hz _ => he' z hz)
      have ih := clip_pairs_path ins isect onL hi O hrefl h1 h2 e r b b hp.2
        (fun _ => rfl) (fun h => by simp [hb] at h) he'
      rw [hY, pairsAll_cons_cons] at ih
      rw [emitEdge_in_in ins isect ha hb, List.append_assoc, hY, List.singleton_append,
        pairsAll_cons_cons, pairsAll_cons_cons, hl1 ha]
      exact ⟨hrefl a, hp.1, ih.2⟩

/-- One clip pass around a ring keeps a relation `O` between consecutive
vertices that passes to the pieces of a cut edge and is transitive across
outside vertices. -/
theorem clip_pairs_ring (ins : Vector2 α → Bool)
    (isect : Vector2 α → Vector2 α → Vector2 α) (onL : Vector2 α → Prop)
    (hi : ∀ a b, (ins a != ins b) = true → onL (isect a b))
    (O : Vector2 α → Vector2 α → Prop) (hrefl : ∀ v, O v v)
    (h1 : ∀ a b, (ins a != ins b) = true → O a b → O a (isect a b) ∧ O (isect a b) b)
    (h2 : ∀ u v w, (ins u = false ∨ onL u) → ins v = false → (ins w = false ∨ onL w) →
      O u v → O v w → O u w)
    (l0 : Vector2 α) (hl0 : onL l0)
    (vs : List (Vector2 α)) (hvs : pairsAll O (closeRing vs)) :
    pairsAll O (closeRing (clipPath ins isect (closeRing vs))) := by
  cases vs with
  | nil => simp [closeRing, clipPath, pairsAll]
  | cons v0 r =>
    rw [closeRing_cons] at hvs ⊢
    have hlast := getLast?_closeRing_cons v0 r
    have he : ∀ z ∈ (v0 :: (r ++ [v0])).getLast?, v0 = z := fun z hz => by
      rw [hlast] at hz
      simpa using hz
    cases h0 : ins v0
    · have hp := clip_pairs_path ins isect onL hi O hrefl h1 h2 v0 (r ++ [v0]) v0 v0 hvs
        (fun _ => rfl) (fun _ => ⟨Or.inl h0, hrefl v0⟩) he
      have hL := clipPath_last_outside ins isect onL hi (v0 :: (r ++ [v0]))
        (fun z hz => by rw [← he z hz]; exact h0)
      obtain ⟨h, Y, hY, hh⟩ := clipPath_head_outside ins isect onL hi l0 hl0 (r ++ [v0]) v0 h0
      cases hout : clipPath ins isect (v0 :: (r ++ [v0])) with
      | nil => simp [closeRing, pairsAll]
      | cons c out =>
        rw [hout] at hY hL hp
        have hc : onL c := by
          simp only [List.cons_append, List.cons.injEq] at hY
          rw [hY.1]; exact hh
        rw [List.cons_append, pairsAll_cons_cons, ← List.cons_append] at hp
        rw [closeRing_cons, ← List.cons_append]
        exact pairsAll_append_swap O v0 c (c :: out)
          (fun y hy hyv => h2 y v0 c (Or.inr (hL y hy)) h0 (Or.inr hc) hyv hp.1) hp.2
    · have hp := clip_pairs_path ins isect onL hi O hrefl h1 h2 v0 (r ++ [v0]) v0 v0 hvs
        (fun _ => rfl) (fun h => by simp [h0] at h) he
      cases hout : clipPath ins isect (v0 :: (r ++ [v0])) with
      | nil => simp [closeRing, pairsAll]
      | cons c out =>
        obtain ⟨Y, hY⟩ := clipPath_head_inside_end ins isect v0 v0 (r ++ [v0]) h0
          (fun z hz _ => he z hz)
        rw [hout] at hY hp
        simp only [List.cons_append, List.cons.injEq] at hY
        rw [closeRing_cons, hY.1]
        rw [hY.1, List.cons_append, pairsAll_cons_cons] at hp
        exact hp.2

end PairThms

section StarThms

variable {α : Type} [LinearOrderedField α]

theorem starRel_refl (s : α) (q v : Vector2 α) : starRel s q v v := by
  simp [starRel, cross2]; ring_nf; exact le_refl _

theorem starRel_lerp (s : α) (q a b : Vector2 α) (t : α) (h0 : 0 ≤ t) (h1 : t ≤ 1)
    (h : starRel s q a b) : starRel s q a (lerp a b t) ∧ starRel s q (lerp a b t) b := by
  unfold starRel at *
  have e1 : s * cross2 q a (lerp a b t) = t * (s * cross2 q a b) := by
    simp only [cross2, lerp]; ring
  have e2 : s * cross2 q (lerp a b t) b = (1 - t) * (s * cross2 q a b) := by
    simp only [cross2, lerp]; ring
  rw [e1, e2]
  exact ⟨mul_nonneg h0 h, mul_nonneg (by linarith) h⟩

/-- Seen from `q`, turning in one sense is transitive over points of an open
half-plane that does not contain `q`: here in terms of a level function
`A` at `q` and `Bu`, `Bv`, `Bw` at the three points. -/
theorem star_trans_aux (s cuw cuv cvw A Bu Bv Bw : α)
    (hid : cuw * (Bv - A) = cuv * (Bw - A) + cvw * (Bu - A))
    (hA : 0 ≤ A) (hu : Bu ≤ 0) (hv : Bv < 0) (hw : Bw ≤ 0)
    (h1 : 0 ≤ s * cuv) (h2 : 0 ≤ s * cvw) : 0 ≤ s * cuw := by
  by_contra hneg
  push_neg at hneg
  have h3 : 0 < s * cuw * (Bv - A) := mul_pos_of_neg_of_neg hneg (by linarith)
  have h4 : s * cuw * (Bv - A) = s * cuv * (Bw - A) + s * cvw * (Bu - A) := by
    linear_combination s * hid
  have h5 : s * cuv * (Bw - A) ≤ 0 := mul_nonpos_of_nonneg_of_nonpos h1 (by linarith)
  have h6 : s * cvw * (Bu - A) ≤ 0 := mul_nonpos_of_nonneg_of_nonpos h2 (by linarith)
  linarith

theorem insideV_eq_false (off dir : α) (p : Vector2 α) :
    insideV off dir p = false ↔ dir * (off - p.x) < 0 := by
  simp [insideV]

theorem insideH_eq_false (off dir : α) (p : Vector2 α) :
    insideH off dir p = false ↔ dir * (off - p.y) < 0 := by
  simp [insideH]

theorem insideV_eq_true (off dir : α) (p : Vector2 α) :
    insideV off dir p = true ↔ 0 ≤ dir * (off - p.x) := by
  simp [insideV]

theorem insideH_eq_true (off dir : α) (p : Vector2 α) :
    insideH off dir p = true ↔ 0 ≤ dir * (off - p.y) := by
  simp [insideH]

theorem isectV_x (off : α) (a b : Vector2 α) : (isectV off a b).x = off := rfl

theorem isectH_y (off : α) (a b : Vector2 α) : (isectH off a b).y = off := rfl

/-- A vertical clip pass keeps the sense in which the ring turns around a
point `q` of the kept half-plane. -/
theorem star_clipV (s : α) (q : Vector2 α) (off dir : α) (hq : insideV off dir q = true)
    (vs : List (Vector2 α)) (h : pairsAll (starRel s q) (closeRing vs)) :
    pairsAll (starRel s q) (closeRing (clipPath (insideV off dir) (isectV off) (closeRing vs))) := by
  refine clip_pairs_ring (insideV off dir) (isectV off) (fun p => p.x = off)
    (fun a b _ => rfl) (starRel s q) (starRel_refl s q) ?_ ?_ ⟨off, 0⟩ rfl vs h
  · intro a b hab hO
    obtain ⟨t, h0, h1, ht⟩ := isectV_eq_lerp off dir a b hab
    rw [ht]
    exact starRel_lerp s q a b t h0 h1 hO
  · intro u v w hu hv hw h1 h2
    rw [insideV_eq_true] at hq
    rw [insideV_eq_false] at hv
    have hu' : dir * (off - u.x) ≤ 0 := by
      rcases hu with hu | hu
      · exact le_of_lt ((insideV_eq_false off dir u).mp hu)
      · rw [hu]; simp
    have hw' : dir * (off - w.x) ≤ 0 := by
      rcases hw with hw | hw
      · exact le_of_lt ((insideV_eq_false off dir w).mp hw)
      · rw [hw]; simp
    refine star_trans_aux s (cross2 q u w) (cross2 q u v) (cross2 q v w) (dir * (off - q.x))
      (dir * (off - u.x)) (dir * (off - v.x)) (dir * (off - w.x)) ?_ hq hu' hv hw' h1 h2
    simp only [cross2]; ring

/-- A horizontal clip pass keeps the sense in which the ring turns around a
point `q` of the kept half-plane. -/
theorem star_clipH (s : α) (q : Vector2 α) (off dir : α) (hq : insideH off dir q = true)
    (vs : List (Vector2 α)) (h : pairsAll (starRel s q) (closeRing vs)) :
    pairsAll (starRel s q) (closeRing (clipPath (insideH off dir) (isectH off) (closeRing vs))) := by
  refine clip_pairs_ring (insideH off dir) (isectH off) (fun p => p.y = off)
    (fun a b _ => rfl) (starRel s q) (starRel_refl s q) ?_ ?_ ⟨0, off⟩ rfl vs h
  · intro a b hab hO
    obtain ⟨t, h0, h1, ht⟩ := isectH_eq_lerp off dir a b hab
    rw [ht]
    exact starRel_lerp s q a b t h0 h1 hO
  · intro u v w hu hv hw h1 h2
    rw [insideH_eq_true] at hq
    rw [insideH_eq_false] at hv
    have hu' : dir * (off - u.y) ≤ 0 := by
      rcases hu with hu | hu
      · exact le_of_lt ((insideH_eq_false off dir u).mp hu)
      · rw [hu]; simp
    have hw' : dir * (off - w.y) ≤ 0 := by
      rcases hw with hw | hw
      · exact le_of_lt ((insideH_eq_false off dir w).mp hw)
      · rw [hw]; simp
    refine star_trans_aux s (cross2 q u w) (cross2 q u v) (cross2 q v w) (dir * (off - q.y))
      (dir * (off - u.y)) (dir * (off - v.y)) (dir * (off - w.y)) ?_ hq hu' hv hw' h1 h2
    simp only [cross2]; ring

/-- The four clip passes keep the sense in which the ring turns around a
point `q` of the box. -/
theorem star_clipBoxRing (s : α) (q : Vector2 α) (x0 y0 x1 y1 : α) (hq : inBox x0 y0 x1 y1 q)
    (vs : List (Vector2 α)) (h : pairsAll (starRel s q) (closeRing vs)) :
    pairsAll (starRel s q) (closeRing (clipBoxRing x0 y0 x1 y1 vs)) := by
  unfold clipBoxRing
  exact star_clipH s q y1 1 ((insideH_one y1 q).mpr hq.2.2.2) _
    (star_clipV s q x1 1 ((insideV_one x1 q).mpr hq.2.1) _
      (star_clipH s q y0 (-1) ((insideH_neg_one y0 q).mpr hq.2.2.1) _
        (star_clipV s q x0 (-1) ((insideV_neg_one x0 q).mpr hq.1) _ h)))

theorem pathSum_cross2_closeRing (q : Vector2 α) (vs : List (Vector2 α)) :
    pathSum (cross2 q) (closeRing vs) = pathSum shoelace (closeRing vs) := by
  have h := pathSum_telescope_closeRing (fun p : Vector2 α => q.y * p.x - q.x * p.y) vs
  have h2 := pathSum_add shoelace (fun u w : Vector2 α =>
    (q.y * w.x - q.x * w.y) - (q.y * u.x - q.x * u.y)) (closeRing vs)
  rw [h, add_zero] at h2
  rw [← h2]
  apply pathSum_congr
  intro u _ w _
  simp only [cross2, shoelace]; ring

theorem pathSum_nonneg_of_pairs (F : Vector2 α → Vector2 α → α) :
    ∀ p : List (Vector2 α), pairsAll (fun u w => 0 ≤ F u w) p → 0 ≤ pathSum F p
  | [], _ => le_refl _
  | [a], _ => le_refl _
  | a :: b :: r, h => by
    rw [pathSum_cons_cons]
    exact add_nonneg h.1 (pathSum_nonneg_of_pairs F (b :: r) h.2)

/-- The shoelace sum of the clipped ring has the sign `s` when the ring turns
around a point of the box in the sense `s`. -/
theorem clipBoxRing_sign (s : α) (q : Vector2 α) (x0 y0 x1 y1 : α) (hq : inBox x0 y0 x1 y1 q)
    (vs : List (Vector2 α)) (h : pairsAll (starRel s q) (closeRing vs)) :
    0 ≤ s * pathSum shoelace (closeRing (clipBoxRing x0 y0 x1 y1 vs)) := by
  have h1 := star_clipBoxRing s q x0 y0 x1 y1 hq vs h
  rw [← pathSum_cross2_closeRing q, ← pathSum_mul_left]
  exact pathSum_nonneg_of_pairs _ _ h1

end StarThms

section FormThms

variable {α : Type} [LinearOrderedField α]

theorem inPart_self (ins : Vector2 α → Bool) (isect : Vector2 α → Vector2 α → Vector2 α)
    (F : Vector2 α → Vector2 α → α) (hF0 : ∀ v, F v v = 0) (v : Vector2 α) :
    inPart ins isect F v v = 0 := by
  cases h : ins v <;> simp [inPart, h, hF0]

theorem isectH_x_of_vertical (off : α) (a b : Vector2 α) (h : a.x = b.x) :
    (isectH off a b).x = a.x := by
  simp [isectH, h]

theorem isectV_y_of_horizontal (off : α) (a b : Vector2 α) (h : a.y = b.y) :
    (isectV off a b).y = a.y := by
  simp [isectV, h]

/-- What a horizontal clip pass keeps of a functional that vanishes on
vertical edges vanishes on vertical edges. -/
theorem inPartH_vertical (off dir : α) (F : Vector2 α → Vector2 α → α)
    (hF : ∀ p q : Vector2 α, p.x = q.x → F p q = 0) (p q : Vector2 α) (h : p.x = q.x) :
    inPart (insideH off dir) (isectH off) F p q = 0 := by
  have hc := isectH_x_of_vertical off p q h
  unfold inPart
  split_ifs
  · exact hF p q h
  · exact hF _ _ hc.symm
  · exact hF _ _ (by rw [hc, h])
  · rfl

/-- What a vertical clip pass keeps of any functional that vanishes on
vertical edges vanishes on vertical edges. -/
theorem inPartV_vertical (off dir : α) (F : Vector2 α → Vector2 α → α)
    (hF : ∀ p q : Vector2 α, p.x = q.x → F p q = 0) (p q : Vector2 α) (h : p.x = q.x) :
    inPart (insideV off dir) (isectV off) F p q = 0 := by
  have e : insideV off dir p = insideV off dir q := by simp [insideV, h]
  unfold inPart
  rw [e]
  split_ifs
  · exact hF p q h
  · rfl

theorem capForm_vertical (y1 : α) (p q : Vector2 α) (h : p.x = q.x) : capForm y1 p q = 0 := by
  simp [capForm, h]

theorem capForm_eq (y1 : α) (u w : Vector2 α) :
    capForm y1 u w = shoelace u w
      + ((-w.x * w.y + 2 * y1 * w.x) - (-u.x * u.y + 2 * y1 * u.x)) := by
  simp only [capForm, shoelace]; ring

theorem pathSum_capForm_closeRing (y1 : α) (vs : List (Vector2 α)) :
    pathSum (capForm y1) (closeRing vs) = pathSum shoelace (closeRing vs) := by
  have h := pathSum_telescope_closeRing (fun p : Vector2 α => -p.x * p.y + 2 * y1 * p.x) vs
  have h2 := pathSum_add shoelace (fun u w : Vector2 α =>
    (-w.x * w.y + 2 * y1 * w.x) - (-u.x * u.y + 2 * y1 * u.x)) (closeRing vs)
  rw [h, add_zero] at h2
  rw [← h2]
  apply pathSum_congr
  intro u _ w _
  exact capForm_eq y1 u w

theorem stripForm_vertical (y0 x1 y1 : α) (p q : Vector2 α) (h : p.x = q.x) :
    stripForm y0 x1 y1 p q = 0 := by
  unfold stripForm
  rw [inPartV_vertical x1 1 _ (inPartH_vertical y1 1 _ (capForm_vertical y1)) p q h]
  simp [stripPot, h]

/-- On the line `y = y0`, below `y1`, the last two passes keep of `capForm`
the differences of `stripPot`. -/
theorem stripForm_horizontal (y0 x1 y1 : α) (hy : y0 ≤ y1) (p q : Vector2 α)
    (hp : p.y = y0) (hq : q.y = y0) : stripForm y0 x1 y1 p q = 0 := by
  have key : ∀ u w : Vector2 α, u.y = y0 → w.y = y0 →
      inPart (insideH y1 1) (isectH y1) (capForm y1) u w = 2 * (y1 - y0) * (w.x - u.x) := by
    intro u w hu hw
    have iu : insideH y1 1 u = true := (insideH_one y1 u).mpr (by rw [hu]; exact hy)
    have iw : insideH y1 1 w = true := (insideH_one y1 w).mpr (by rw [hw]; exact hy)
    rw [inPart_in_in _ _ _ iu iw, capForm, hu, hw]; ring
  have hcy : (isectV x1 p q).y = y0 := by
    rw [isectV_y_of_horizontal x1 p q (by rw [hp, hq]), hp]
  have hcx : (isectV x1 p q).x = x1 := rfl
  unfold stripForm stripPot
  cases ip : insideV x1 1 p <;> cases iq : insideV x1 1 q
  · rw [inPart_out_out _ _ _ ip iq]
    have h1 : x1 < p.x := by
      by_contra hh; push_neg at hh
      rw [(insideV_one x1 p).mpr hh] at ip; exact Bool.noConfusion ip
    have h2 : x1 < q.x := by
      by_contra hh; push_neg at hh
      rw [(insideV_one x1 q).mpr hh] at iq; exact Bool.noConfusion iq
    rw [min_eq_right (le_of_lt h1), min_eq_right (le_of_lt h2)]; ring
  · rw [inPart_out_in _ _ _ ip iq, key _ _ hcy hq, hcx]
    have h1 : x1 < p.x := by
      by_contra hh; push_neg at hh
      rw [(insideV_one x1 p).mpr hh] at ip; exact Bool.noConfusion ip
    have h2 : q.x ≤ x1 := (insideV_one x1 q).mp iq
    rw [min_eq_right (le_of_lt h1), min_eq_left h2]; ring
  · rw [inPart_in_out _ _ _ ip iq, key _ _ hp hcy, hcx]
    have h1 : p.x ≤ x1 := (insideV_one x1 p).mp ip
    have h2 : x1 < q.x := by
      by_contra hh; push_neg at hh
      rw [(insideV_one x1 q).mpr hh] at iq; exact Bool.noConfusion iq
    rw [min_eq_left h1, min_eq_right (le_of_lt h2)]; ring
  · rw [inPart_in_in _ _ _ ip iq, key _ _ hp hq]
    have h1 : p.x ≤ x1 := (insideV_one x1 p).mp ip
    have h2 : q.x ≤ x1 := (insideV_one x1 q).mp iq
    rw [min_eq_left h1, min_eq_left h2]; ring

theorem pathSum_stripForm_closeRing (y0 x1 y1 : α) (vs : List (Vector2 α)) :
    pathSum (stripForm y0 x1 y1) (closeRing vs)
      = pathSum (inPart (insideV x1 1) (isectV x1)
          (inPart (insideH y1 1) (isectH y1) (capForm y1))) (closeRing vs) := by
  have h := pathSum_telescope_closeRing (fun p : Vector2 α => -stripPot y0 x1 y1 p) vs
  have h2 := pathSum_add (inPart (insideV x1 1) (isectV x1)
      (inPart (insideH y1 1) (isectH y1) (capForm y1)))
    (fun u w : Vector2 α => -stripPot y0 x1 y1 w - -stripPot y0 x1 y1 u) (closeRing vs)
  rw [h, add_zero] at h2
  rw [← h2]
  apply pathSum_congr
  intro u _ w _
  simp only [stripForm]; ring

/-- The shoelace sum of the ring left by the four clip passes is the sum of
`boxForm` over the edges of the ring that was clipped. -/
theorem clipBoxRing_shoelace (x0 y0 x1 y1 : α) (hy : y0 ≤ y1) (vs : List (Vector2 α)) :
    pathSum shoelace (closeRing (clipBoxRing x0 y0 x1 y1 vs))
      = pathSum (boxForm x0 y0 x1 y1) (closeRing vs) := by
  unfold clipBoxRing boxForm
  rw [← pathSum_capForm_closeRing y1,
    clip_exact_ring (insideH y1 1) (isectH y1) (fun p => p.y = y1) (fun a b _ => rfl)
      (capForm y1) (fun v => capForm_vertical y1 v v rfl)
      (fun p q hp hq => by
        have hp' : p.y = y1 := hp
        have hq' : q.y = y1 := hq
        rw [capForm, hp', hq']; ring) ⟨0, y1⟩ rfl,
    clip_exact_ring (insideV x1 1) (isectV x1) (fun p => p.x = x1) (fun a b _ => rfl)
      (inPart (insideH y1 1) (isectH y1) (capForm y1))
      (inPart_self _ _ _ (fun v => capForm_vertical y1 v v rfl))
      (fun p q hp hq => inPartH_vertical y1 1 _ (capForm_vertical y1) p q (by rw [hp, hq]))
      ⟨x1, 0⟩ rfl,
    ← pathSum_stripForm_closeRing y0,
    clip_exact_ring (insideH y0 (-1)) (isectH y0) (fun p => p.y = y0) (fun a b _ => rfl)
      (stripForm y0 x1 y1) (fun v => stripForm_vertical y0 x1 y1 v v rfl)
      (fun p q hp hq => stripForm_horizontal y0 x1 y1 hy p q hp hq) ⟨0, y0⟩ rfl,
    clip_exact_ring (insideV x0 (-1)) (isectV x0) (fun p => p.x = x0) (fun a b _ => rfl)
      (inPart (insideH y0 (-1)) (isectH y0) (stripForm y0 x1 y1))
      (inPart_self _ _ _ (fun v => stripForm_vertical y0 x1 y1 v v rfl))
      (fun p q hp hq => inPartH_vertical y0 (-1) _ (stripForm_vertical y0 x1 y1) p q
        (by rw [hp, hq]))
      ⟨x0, 0⟩ rfl]

end FormThms

section ClipSumThms

variable {α : Type} [LinearOrderedField α]

theorem isectV_symm (off : α) (a b : Vector2 α) (h : b.x - a.x ≠ 0) :
    isectV off b a = isectV off a b := by
  have h' : a.x - b.x ≠ 0 := fun e => h (by linear_combination -e)
  simp only [isectV, Vector2.mk.injEq, true_and]
  field_simp
  ring

theorem isectH_symm (off : α) (a b : Vector2 α) (h : b.y - a.y ≠ 0) :
    isectH off b a = isectH off a b := by
  have h' : a.y - b.y ≠ 0 := fun e => h (by linear_combination -e)
  simp only [isectH, Vector2.mk.injEq, and_true]
  field_simp
  ring

theorem inPart_antisymm (ins : Vector2 α → Bool) (isect : Vector2 α → Vector2 α → Vector2 α)
    (F : Vector2 α → Vector2 α → α) (hF : ∀ a b, F b a = -F a b)
    (hs : ∀ a b, (ins a != ins b) = true → isect b a = isect a b) (a b : Vector2 α) :
    inPart ins isect F b a = -inPart ins isect F a b := by
  cases ha : ins a <;> cases hb : ins b
  · rw [inPart_out_out _ _ _ ha hb, inPart_out_out _ _ _ hb ha, neg_zero]
  · rw [inPart_out_in _ _ _ ha hb, inPart_in_out _ _ _ hb ha, hs a b (by simp [ha, hb]), hF]
  · rw [inPart_in_out _ _ _ ha hb, inPart_out_in _ _ _ hb ha, hs a b (by simp [ha, hb]), hF]
  · rw [inPart_in_in _ _ _ ha hb, inPart_in_in _ _ _ hb ha, hF]

theorem inPartV_antisymm (off dir : α) (F : Vector2 α → Vector2 α → α)
    (hF : ∀ a b, F b a = -F a b) (a b : Vector2 α) :
    inPart (insideV off dir) (isectV off) F b a = -inPart (insideV off dir) (isectV off) F a b :=
  inPart_antisymm _ _ F hF (fun a b h => isectV_symm off a b
    (straddle_param dir off a.x b.x (by simpa [insideV] using h)).1) a b

theorem inPartH_antisymm (off dir : α) (F : Vector2 α → Vector2 α → α)
    (hF : ∀ a b, F b a = -F a b) (a b : Vector2 α) :
    inPart (insideH off dir) (isectH off) F b a = -inPart (insideH off dir) (isectH off) F a b :=
  inPart_antisymm _ _ F hF (fun a b h => isectH_symm off a b
    (straddle_param dir off a.y b.y (by simpa [insideH] using h)).1) a b

theorem stripForm_antisymm (y0 x1 y1 : α) (a b : Vector2 α) :
    stripForm y0 x1 y1 b a = -stripForm y0 x1 y1 a b := by
  unfold stripForm
  rw [inPartV_antisymm x1 1 _ (inPartH_antisymm y1 1 _ (fun a b => by
    simp only [capForm]; ring))]
  ring

/-- Reversing an edge changes the sign of its contribution. -/
theorem boxForm_antisymm (x0 y0 x1 y1 : α) (a b : Vector2 α) :
    boxForm x0 y0 x1 y1 b a = -boxForm x0 y0 x1 y1 a b :=
  inPartV_antisymm x0 (-1) _ (inPartH_antisymm y0 (-1) _ (stripForm_antisymm y0 x1 y1)) a b

theorem clipSum_eq_boxForm (x0 y0 x1 y1 : α) (hy : y0 ≤ y1) (a b c : Vector2 α) :
    clipSum x0 y0 x1 y1 a b c
      = boxForm x0 y0 x1 y1 a b + boxForm x0 y0 x1 y1 b c + boxForm x0 y0 x1 y1 c a := by
  unfold clipSum
  rw [clipBoxRing_shoelace x0 y0 x1 y1 hy]
  simp only [closeRing, pathSum, List.headD_cons, List.cons_append, List.nil_append]
  ring

theorem clipAABox_area_eq_clipSum (x0 y0 x1 y1 : α) (a b c : Vector2 α) :
    ((ClippedTriangle.new a b c).clipAABox x0 y0 x1 y1).area
      = (1 / 2) * |clipSum x0 y0 x1 y1 a b c| := by
  rw [clipAABox_area, ClippedTriangle.new_vertices]; rfl

theorem clipSum_of_inBox (x0 y0 x1 y1 : α) (a b c : Vector2 α)
    (ha : inBox x0 y0 x1 y1 a) (hb : inBox x0 y0 x1 y1 b) (hc : inBox x0 y0 x1 y1 c) :
    clipSum x0 y0 x1 y1 a b c = cross2 a b c := by
  unfold clipSum
  rw [clipBoxRing_of_inBox x0 y0 x1 y1 [a, b, c] (by
    intro v hv
    simp only [List.mem_cons, List.mem_singleton, List.not_mem_nil, or_false] at hv
    rcases hv with h | h | h <;> rw [h] <;> assumption)]
  exact pathSum_shoelace_triangle a b c

theorem cross2_of_inTriangle (a b c p : Vector2 α) (l1 l2 l3 : α) (hl : l1 + l2 + l3 = 1)
    (hx : p.x = l1 * a.x + l2 * b.x + l3 * c.x) (hy : p.y = l1 * a.y + l2 * b.y + l3 * c.y) :
    cross2 p a b = l3 * cross2 a b c ∧ cross2 p b c = l1 * cross2 a b c ∧
      cross2 p c a = l2 * cross2 a b c := by
  have e3 : l3 = 1 - l1 - l2 := by linarith
  simp only [cross2, hx, hy, e3]
  refine ⟨?_, ?_, ?_⟩ <;> ring

/-- A triangle that turns in the sense `s` turns in that sense around each of
its points. -/
theorem starRel_triangle (s : α) (a b c p : Vector2 α) (hs : 0 ≤ s * cross2 a b c)
    (hp : inTriangle a b c p) : pairsAll (starRel s p) (closeRing [a, b, c]) := by
  obtain ⟨l1, l2, l3, h1, h2, h3, hl, hx, hy⟩ := hp
  obtain ⟨e1, e2, e3⟩ := cross2_of_inTriangle a b c p l1 l2 l3 hl hx hy
  have k1 : 0 ≤ s * cross2 p a b := by rw [e1, mul_left_comm]; exact mul_nonneg h3 hs
  have k2 : 0 ≤ s * cross2 p b c := by rw [e2, mul_left_comm]; exact mul_nonneg h1 hs
  have k3 : 0 ≤ s * cross2 p c a := by rw [e3, mul_left_comm]; exact mul_nonneg h2 hs
  exact ⟨k1, k2, k3, trivial⟩

/-- The shoelace sum of the clipped ring of a triangle has the sign of the
orientation of the triangle. -/
theorem clipSum_sign (s : α) (x0 y0 x1 y1 : α) (a b c : Vector2 α)
    (hs : 0 ≤ s * cross2 a b c) : 0 ≤ s * clipSum x0 y0 x1 y1 a b c := by
  by_cases h0 : clipSum x0 y0 x1 y1 a b c = 0
  · rw [h0, mul_zero]
  · have hpos : 0 < ((ClippedTriangle.new a b c).clipAABox x0 y0 x1 y1).area := by
      rw [clipAABox_area_eq_clipSum]
      have := abs_pos.mpr h0
      linarith
    obtain ⟨w, hw, hb⟩ := exists_point_of_clipAABox_area_pos a b c x0 y0 x1 y1 hpos
    exact clipBoxRing_sign s w x0 y0 x1 y1 hb [a, b, c] (starRel_triangle s a b c w hs hw)

end ClipSumThms

section PositiveThms

variable {α : Type} [LinearOrderedField α]

/-- Points of the segment from an interior point `q` of the box towards `a`
that stay in the box. -/
theorem exists_lerp_inBox (x0 y0 x1 y1 : α) (q a : Vector2 α)
    (hq : x0 < q.x ∧ q.x < x1 ∧ y0 < q.y ∧ q.y < y1) :
    ∃ e, 0 < e ∧ ∀ t, 0 ≤ t → t ≤ e → inBox x0 y0 x1 y1 (lerp q a t) := by
  obtain ⟨h1, h2, h3, h4⟩ := hq
  have hd : 0 < min (min (q.x - x0) (x1 - q.x)) (min (q.y - y0) (y1 - q.y)) :=
    lt_min (lt_min (by linarith) (by linarith)) (lt_min (by linarith) (by linarith))
  set d := min (min (q.x - x0) (x1 - q.x)) (min (q.y - y0) (y1 - q.y)) with hdd
  have d1 : d ≤ q.x - x0 := le_trans (min_le_left _ _) (min_le_left _ _)
  have d2 : d ≤ x1 - q.x := le_trans (min_le_left _ _) (min_le_right _ _)
  have d3 : d ≤ q.y - y0 := le_trans (min_le_right _ _) (min_le_left _ _)
  have d4 : d ≤ y1 - q.y := le_trans (min_le_right _ _) (min_le_right _ _)
  have hM : 0 ≤ |a.x - q.x| + |a.y - q.y| := add_nonneg (abs_nonneg _) (abs_nonneg _)
  set M := |a.x - q.x| + |a.y - q.y| with hMM
  have hdM : 0 < d + M := by linarith
  refine ⟨d / (d + M), div_pos hd hdM, ?_⟩
  intro t t0 t1
  have hb : t * M ≤ d := by
    calc t * M ≤ d / (d + M) * M := mul_le_mul_of_nonneg_right t1 hM
      _ = d * (M / (d + M)) := by field_simp
      _ ≤ d * 1 := by
        apply mul_le_mul_of_nonneg_left _ (le_of_lt hd)
        rw [div_le_one hdM]; linarith
      _ = d := mul_one d
  have hx : |t * (a.x - q.x)| ≤ d := by
    rw [abs_mul, abs_of_nonneg t0]
    calc t * |a.x - q.x| ≤ t * M := mul_le_mul_of_nonneg_left (by
          rw [hMM]; linarith [abs_nonneg (a.y - q.y)]) t0
      _ ≤ d := hb
  have hy : |t * (a.y - q.y)| ≤ d := by
    rw [abs_mul, abs_of_nonneg t0]
    calc t * |a.y - q.y| ≤ t * M := mul_le_mul_of_nonneg_left (by
          rw [hMM]; linarith [abs_nonneg (a.x - q.x)]) t0
      _ ≤ d := hb
  rw [abs_le] at hx hy
  simp only [inBox, lerp]
  refine ⟨?_, ?_, ?_, ?_⟩ <;> linarith [hx.1, hx.2, hy.1, hy.2]

/-- The clipped ring of a triangle has a non-zero shoelace sum, of the sign of
the orientation of the triangle, when a point lies strictly inside the
triangle and strictly inside the box. -/
theorem clipSum_pos (s : α) (x0 y0 x1 y1 : α) (hy : y0 ≤ y1) (a b c q : Vector2 α)
    (hab : 0 < s * cross2 q a b) (hbc : 0 < s * cross2 q b c) (hca : 0 < s * cross2 q c a)
    (hq : x0 < q.x ∧ q.x < x1 ∧ y0 < q.y ∧ q.y < y1) :
    0 < s * clipSum x0 y0 x1 y1 a b c := by
  obtain ⟨ea, hea, Ha⟩ := exists_lerp_inBox x0 y0 x1 y1 q a hq
  obtain ⟨eb, heb, Hb⟩ := exists_lerp_inBox x0 y0 x1 y1 q b hq
  obtain ⟨ec, hec, Hc⟩ := exists_lerp_inBox x0 y0 x1 y1 q c hq
  set e := min (min ea eb) (min ec 1) with he
  have e0 : 0 < e := lt_min (lt_min hea heb) (lt_min hec one_pos)
  have e1 : e ≤ 1 := le_trans (min_le_right _ _) (min_le_right _ _)
  have hA := Ha e (le_of_lt e0) (le_trans (min_le_left _ _) (min_le_left _ _))
  have hB := Hb e (le_of_lt e0) (le_trans (min_le_left _ _) (min_le_right _ _))
  have hC := Hc e (le_of_lt e0) (le_trans (min_le_right _ _) (min_le_left _ _))
  set a' := lerp q a e with ha'
  set b' := lerp q b e with hb'
  set c' := lerp q c e with hc'
  have hD : cross2 a b c = cross2 q a b + cross2 q b c + cross2 q c a := by
    simp only [cross2]; ring
  -- the inner triangle
  have hin : clipSum x0 y0 x1 y1 a' b' c' = e * e * cross2 a b c := by
    rw [clipSum_of_inBox x0 y0 x1 y1 a' b' c' hA hB hC]
    simp only [cross2, lerp, ha', hb', hc']; ring
  -- the six outer triangles turn in the sense `s`
  have p1 : 0 ≤ s * cross2 a b b' := by
    have : s * cross2 a b b' = (1 - e) * (s * cross2 q a b) := by
      simp only [cross2, lerp, hb']; ring
    rw [this]; exact mul_nonneg (by linarith) (le_of_lt hab)
  have p2 : 0 ≤ s * cross2 a b' a' := by
    have : s * cross2 a b' a' = e * (1 - e) * (s * cross2 q a b) := by
      simp only [cross2, lerp, ha', hb']; ring
    rw [this]
    exact mul_nonneg (mul_nonneg (le_of_lt e0) (by linarith)) (le_of_lt hab)
  have p3 : 0 ≤ s * cross2 b c c' := by
    have : s * cross2 b c c' = (1 - e) * (s * cross2 q b c) := by
      simp only [cross2, lerp, hc']; ring
    rw [this]; exact mul_nonneg (by linarith) (le_of_lt hbc)
  have p4 : 0 ≤ s * cross2 b c' b' := by
    have : s * cross2 b c' b' = e * (1 - e) * (s * cross2 q b c) := by
      simp only [cross2, lerp, hb', hc']; ring
    rw [this]
    exact mul_nonneg (mul_nonneg (le_of_lt e0) (by linarith)) (le_of_lt hbc)
  have p5 : 0 ≤ s * cross2 c a a' := by
    have : s * cross2 c a a' = (1 - e) * (s * cross2 q c a) := by
      simp only [cross2, lerp, ha']; ring
    rw [this]; exact mul_nonneg (by linarith) (le_of_lt hca)
  have p6 : 0 ≤ s * cross2 c a' c' := by
    have : s * cross2 c a' c' = e * (1 - e) * (s * cross2 q c a) := by
      simp only [cross2, lerp, ha', hc']; ring
    rw [this]
    exact mul_nonneg (mul_nonneg (le_of_lt e0) (by linarith)) (le_of_lt hca)
  have q1 := clipSum_sign s x0 y0 x1 y1 a b b' p1
  have q2 := clipSum_sign s x0 y0 x1 y1 a b' a' p2
  have q3 := clipSum_sign s x0 y0 x1 y1 b c c' p3
  have q4 := clipSum_sign s x0 y0 x1 y1 b c' b' p4
  have q5 := clipSum_sign s x0 y0 x1 y1 c a a' p5
  have q6 := clipSum_sign s x0 y0 x1 y1 c a' c' p6
  -- the seven rings add up to the ring of the triangle
  have hsum : clipSum x0 y0 x1 y1 a b c = clipSum x0 y0 x1 y1 a' b' c'
      + clipSum x0 y0 x1 y1 a b b' + clipSum x0 y0 x1 y1 a b' a'
      + clipSum x0 y0 x1 y1 b c c' + clipSum x0 y0 x1 y1 b c' b'
      + clipSum x0 y0 x1 y1 c a a' + clipSum x0 y0 x1 y1 c a' c' := by
    simp only [clipSum_eq_boxForm x0 y0 x1 y1 hy]
    have r1 := boxForm_antisymm x0 y0 x1 y1 b b'
    have r2 := boxForm_antisymm x0 y0 x1 y1 a b'
    have r3 := boxForm_antisymm x0 y0 x1 y1 a' b'
    have r4 := boxForm_antisymm x0 y0 x1 y1 a a'
    have r5 := boxForm_antisymm x0 y0 x1 y1 c c'
    have r6 := boxForm_antisymm x0 y0 x1 y1 b c'
    have r7 := boxForm_antisymm x0 y0 x1 y1 b' c'
    have r8 := boxForm_antisymm x0 y0 x1 y1 c a'
    have r9 := boxForm_antisymm x0 y0 x1 y1 c' a'
    linarith
  have hpos : 0 < s * (e * e * cross2 a b c) := by
    have : s * (e * e * cross2 a b c)
        = e * e * (s * cross2 q a b + s * cross2 q b c + s * cross2 q c a) := by
      rw [hD]; ring
    rw [this]
    exact mul_pos (mul_pos e0 e0) (by linarith)
  rw [hsum, ← hin] at *
  have : s * (clipSum x0 y0 x1 y1 a' b' c' + clipSum x0 y0 x1 y1 a b b'
      + clipSum x0 y0 x1 y1 a b' a' + clipSum x0 y0 x1 y1 b c c' + clipSum x0 y0 x1 y1 b c' b'
      + clipSum x0 y0 x1 y1 c a a' + clipSum x0 y0 x1 y1 c a' c')
      = s * clipSum x0 y0 x1 y1 a' b' c' + s * clipSum x0 y0 x1 y1 a b b'
      + s * clipSum x0 y0 x1 y1 a b' a' + s * clipSum x0 y0 x1 y1 b c c'
      + s * clipSum x0 y0 x1 y1 b c' b'
      + s * clipSum x0 y0 x1 y1 c a a' + s * clipSum x0 y0 x1 y1 c a' c' := by ring
  rw [this]
  linarith

end PositiveThms

section WalkThms

variable {α : Type} [LinearOrderedField α]

theorem pairsAll_mono (O O' : Vector2 α → Vector2 α → Prop) (h : ∀ u w, O u w → O' u w) :
    ∀ p : List (Vector2 α), pairsAll O p → pairsAll O' p
  | [], _ => trivial
  | [a], _ => trivial
  | a :: b :: r, hp => ⟨h a b hp.1, pairsAll_mono O O' h (b :: r) hp.2⟩

theorem pairsAll_and (O O' : Vector2 α → Vector2 α → Prop) :
    ∀ p : List (Vector2 α), pairsAll O p → pairsAll O' p → pairsAll (fun u w => O u w ∧ O' u w) p
  | [], _, _ => trivial
  | [a], _, _ => trivial
  | a :: b :: r, hp, hp' => ⟨⟨hp.1, hp'.1⟩, pairsAll_and O O' (b :: r) hp.2 hp'.2⟩

theorem pairsAll_of_forall (P : Vector2 α → Prop) :
    ∀ p : List (Vector2 α), (∀ v ∈ p, P v) → pairsAll (fun u w => P u ∧ P w) p
  | [], _ => trivial
  | [a], _ => trivial
  | a :: b :: r, h => ⟨⟨h a (by simp), h b (by simp)⟩,
      pairsAll_of_forall P (b :: r) (fun v hv => h v (List.mem_cons_of_mem _ hv))⟩

theorem pairsAll_closeRing_of_forall (P : Vector2 α → Prop) (vs : List (Vector2 α))
    (h : ∀ v ∈ vs, P v) : pairsAll (fun u w => P u ∧ P w) (closeRing vs) := by
  cases vs with
  | nil => trivial
  | cons v r =>
    exact pairsAll_of_forall P _ (forall_mem_closeRing P (v :: r) (by simp) h)

theorem pathSum_congr_pairs (F G : Vector2 α → Vector2 α → α) :
    ∀ p : List (Vector2 α), pairsAll (fun u w => F u w = G u w) p → pathSum F p = pathSum G p
  | [], _ => rfl
  | [a], _ => rfl
  | a :: b :: r, h => by
    rw [pathSum_cons_cons, pathSum_cons_cons, h.1, pathSum_congr_pairs F G (b :: r) h.2]

theorem pathSum_wrapsAround (x0 y0 : α) :
    ∀ p : List (Vector2 α), ∃ n : ℕ, pathSum (wrapsAround x0 y0) p = n
  | [] => ⟨0, by simp [pathSum]⟩
  | [a] => ⟨0, by simp [pathSum]⟩
  | a :: b :: r => by
    obtain ⟨n, hn⟩ := pathSum_wrapsAround x0 y0 (b :: r)
    rw [pathSum_cons_cons, hn]
    unfold wrapsAround
    split_ifs
    · exact ⟨n + 1, by push_cast; ring⟩
    · exact ⟨n, by simp⟩

/-- An edge between two points of the box, around which no corner of the box
is seen counter-clockwise, runs clockwise along a side of the box. -/
theorem cwSideEdge_of_corners (x0 y0 x1 y1 : α) (u w : Vector2 α)
    (hu : inBox x0 y0 x1 y1 u) (hw : inBox x0 y0 x1 y1 w)
    (h00 : cross2 ⟨x0, y0⟩ u w ≤ 0) (h10 : cross2 ⟨x1, y0⟩ u w ≤ 0)
    (h11 : cross2 ⟨x1, y1⟩ u w ≤ 0) (h01 : cross2 ⟨x0, y1⟩ u w ≤ 0) :
    cwSideEdge x0 y0 x1 y1 u w := by
  obtain ⟨u1, u2, u3, u4⟩ := hu
  obtain ⟨w1, w2, w3, w4⟩ := hw
  have key : ∀ qx qy : α, cross2 ⟨qx, qy⟩ u w
      = (u.x - qx) * (w.y - u.y) - (u.y - qy) * (w.x - u.x) := by
    intro qx qy; simp only [cross2]; ring
  rw [key] at h00 h10 h11 h01
  unfold cwSideEdge
  rcases lt_trichotomy u.x w.x with hx | hx | hx <;>
    rcases lt_trichotomy u.y w.y with hy | hy | hy
  · -- right and up: impossible
    exfalso
    have e1 : 0 ≤ (u.x - x0) * (w.y - u.y) := mul_nonneg (by linarith) (by linarith)
    have e2 : 0 ≤ (y1 - u.y) * (w.x - u.x) := mul_nonneg (by linarith) (by linarith)
    have e3 : (u.x - x0) * (w.y - u.y) + (y1 - u.y) * (w.x - u.x) ≤ 0 := by linarith
    have e4 : (y1 - u.y) * (w.x - u.x) = 0 := by linarith
    rcases mul_eq_zero.mp e4 with h | h <;> linarith
  · -- right along a horizontal line
    right; right; left
    have e2 : 0 ≤ (y1 - u.y) * (w.x - u.x) := mul_nonneg (by linarith) (by linarith)
    have e3 : (y1 - u.y) * (w.x - u.x) ≤ 0 := by
      rw [← hy, sub_self, mul_zero, zero_sub] at h01; linarith
    have e4 : (y1 - u.y) * (w.x - u.x) = 0 := le_antisymm e3 e2
    rcases mul_eq_zero.mp e4 with h | h
    · exact ⟨by linarith, by linarith, le_of_lt hx⟩
    · linarith
  · -- right and down: impossible
    exfalso
    have e1 : 0 ≤ (x1 - u.x) * (u.y - w.y) := mul_nonneg (by linarith) (by linarith)
    have e2 : 0 ≤ (y1 - u.y) * (w.x - u.x) := mul_nonneg (by linarith) (by linarith)
    have e3 : (x1 - u.x) * (u.y - w.y) + (y1 - u.y) * (w.x - u.x) ≤ 0 := by linarith
    have e4 : (x1 - u.x) * (u.y - w.y) = 0 := by linarith
    rcases mul_eq_zero.mp e4 with h | h <;> linarith
  · -- up along a vertical line
    right; left
    have e1 : 0 ≤ (u.x - x0) * (w.y - u.y) := mul_nonneg (by linarith) (by linarith)
    have e3 : (u.x - x0) * (w.y - u.y) ≤ 0 := by
      rw [← hx, sub_self, mul_zero, sub_zero] at h00; exact h00
    have e4 : (u.x - x0) * (w.y - u.y) = 0 := le_antisymm e3 e1
    rcases mul_eq_zero.mp e4 with h | h
    · exact ⟨by linarith, by linarith, le_of_lt hy⟩
    · linarith
  · left
    cases u; cases w; simp only [Vector2.mk.injEq]; exact ⟨hx, hy⟩
  · -- down along a vertical line
    right; right; right; left
    have e1 : 0 ≤ (x1 - u.x) * (u.y - w.y) := mul_nonneg (by linarith) (by linarith)
    have e3 : (x1 - u.x) * (u.y - w.y) ≤ 0 := by
      rw [← hx, sub_self, mul_zero, sub_zero] at h10; linarith
    have e4 : (x1 - u.x) * (u.y - w.y) = 0 := le_antisymm e3 e1
    rcases mul_eq_zero.mp e4 with h | h
    · exact ⟨by linarith, by linarith, le_of_lt hy⟩
    · linarith
  · -- left and up: impossible
    exfalso
    have e1 : 0 ≤ (u.x - x0) * (w.y - u.y) := mul_nonneg (by linarith) (by linarith)
    have e2 : 0 ≤ (u.y - y0) * (u.x - w.x) := mul_nonneg (by linarith) (by linarith)
    have e3 : (u.x - x0) * (w.y - u.y) + (u.y - y0) * (u.x - w.x) ≤ 0 := by linarith
    have e4 : (u.x - x0) * (w.y - u.y) = 0 := by linarith
    rcases mul_eq_zero.mp e4 with h | h <;> linarith
  · -- left along a horizontal line
    right; right; right; right
    have e2 : 0 ≤ (u.y - y0) * (u.x - w.x) := mul_nonneg (by linarith) (by linarith)
    have e3 : (u.y - y0) * (u.x - w.x) ≤ 0 := by
      rw [← hy, sub_self, mul_zero, zero_sub] at h00; linarith
    have e4 : (u.y - y0) * (u.x - w.x) = 0 := le_antisymm e3 e2
    rcases mul_eq_zero.mp e4 with h | h
    · exact ⟨by linarith, by linarith, le_of_lt hx⟩
    · linarith
  · -- left and down: impossible
    exfalso
    have e1 : 0 ≤ (x1 - u.x) * (u.y - w.y) := mul_nonneg (by linarith) (by linarith)
    have e2 : 0 ≤ (u.y - y0) * (u.x - w.x) := mul_nonneg (by linarith) (by linarith)
    have e3 : (x1 - u.x) * (u.y - w.y) + (u.y - y0) * (u.x - w.x) ≤ 0 := by linarith
    have e4 : (u.y - y0) * (u.x - w.x) = 0 := by linarith
    rcases mul_eq_zero.mp e4 with h | h <;> linarith

end WalkThms

section ExactThms

variable {α : Type} [LinearOrderedField α]

theorem sweptArea_left (x0 y0 x1 y1 : α) (p : Vector2 α) (h : p.x = x0) :
    sweptArea x0 y0 x1 y1 p = 0 := by
  simp [sweptArea, h]

theorem sweptArea_top (x0 y0 x1 y1 : α) (p : Vector2 α) (h : p.y = y1) :
    sweptArea x0 y0 x1 y1 p = (y1 - y0) * (p.x - x0) := by
  unfold sweptArea
  split_ifs with h1
  · rw [h1]; ring
  · rfl

theorem sweptArea_right (x0 y0 x1 y1 : α) (hx : x0 < x1) (p : Vector2 α) (h : p.x = x1) :
    sweptArea x0 y0 x1 y1 p = (x1 - x0) * (y1 - y0) + (x1 - x0) * (y1 - p.y) := by
  unfold sweptArea
  have h1 : ¬ p.x = x0 := by rw [h]; exact ne_of_gt hx
  rw [if_neg h1]
  split_ifs with h2
  · rw [h2, h]; ring
  · rfl

theorem sweptArea_bottom (x0 y0 x1 y1 : α) (hy : y0 < y1) (p : Vector2 α) (h : p.y = y0)
    (h1 : p.x ≠ x0) : sweptArea x0 y0 x1 y1 p = 2 * ((x1 - x0) * (y1 - y0)) := by
  unfold sweptArea
  have h2 : ¬ p.y = y1 := by rw [h]; exact ne_of_lt hy
  rw [if_neg h1, if_neg h2]
  split_ifs with h3
  · rw [h]; ring
  · rfl

/-- Along an edge that runs clockwise on the boundary of the box, the area
swept from the corner `(x0, y0)` grows by what the edge sweeps, and starts
again from zero when the edge arrives at that corner along the bottom. -/
theorem sweptArea_step (x0 y0 x1 y1 : α) (hx : x0 < x1) (hy : y0 < y1) (u w : Vector2 α)
    (hw0 : x0 ≤ w.x) (h : cwSideEdge x0 y0 x1 y1 u w) :
    -1 * cross2 ⟨x0, y0⟩ u w = (sweptArea x0 y0 x1 y1 w - sweptArea x0 y0 x1 y1 u)
      + 2 * ((x1 - x0) * (y1 - y0)) * wrapsAround x0 y0 u w := by
  rcases h with h | ⟨h1, h2, _⟩ | ⟨h1, h2, _⟩ | ⟨h1, h2, _⟩ | ⟨h1, h2, h3⟩
  · subst h
    have : wrapsAround x0 y0 u u = 0 := by
      unfold wrapsAround
      rw [if_neg]; rintro ⟨e1, e2, _⟩; exact e2 e1
    rw [this]; simp only [cross2]; ring
  · have : wrapsAround x0 y0 u w = 0 := by
      unfold wrapsAround
      rw [if_neg]; rintro ⟨_, e2, _⟩; exact e2 h1
    rw [this, sweptArea_left _ _ _ _ u h1, sweptArea_left _ _ _ _ w h2]
    simp only [cross2, h1, h2]; ring
  · have : wrapsAround x0 y0 u w = 0 := by
      unfold wrapsAround
      rw [if_neg]; rintro ⟨_, _, e3⟩; rw [h1] at e3; exact ne_of_gt hy e3
    rw [this, sweptArea_top _ _ _ _ u h1, sweptArea_top _ _ _ _ w h2]
    simp only [cross2, h1, h2]; ring
  · have : wrapsAround x0 y0 u w = 0 := by
      unfold wrapsAround
      rw [if_neg]; rintro ⟨e1, _, _⟩; rw [h2] at e1; exact ne_of_gt hx e1
    rw [this, sweptArea_right _ _ _ _ hx u h1, sweptArea_right _ _ _ _ hx w h2]
    simp only [cross2, h1, h2]; ring
  · have hc : cross2 ⟨x0, y0⟩ u w = 0 := by simp only [cross2, h1, h2]; ring
    rw [hc]
    by_cases hu : u.x = x0
    · have hw : w.x = x0 := le_antisymm (by rw [← hu]; exact h3) hw0
      have : wrapsAround x0 y0 u w = 0 := by
        unfold wrapsAround
        rw [if_neg]; rintro ⟨_, e2, _⟩; exact e2 hu
      rw [this, sweptArea_left _ _ _ _ u hu, sweptArea_left _ _ _ _ w hw]; ring
    · by_cases hw : w.x = x0
      · have : wrapsAround x0 y0 u w = 1 := by
          unfold wrapsAround
          rw [if_pos ⟨hw, hu, h1⟩]
        rw [this, sweptArea_bottom _ _ _ _ hy u h1 hu, sweptArea_left _ _ _ _ w hw]; ring
      · have : wrapsAround x0 y0 u w = 0 := by
          unfold wrapsAround
          rw [if_neg]; rintro ⟨e1, _, _⟩; exact hw e1
        rw [this, sweptArea_bottom _ _ _ _ hy u h1 hu, sweptArea_bottom _ _ _ _ hy w h2 hw]; ring

/-- The value at the centre of the box of a function that is affine in the
point: `cross2 q a b` averages over opposite corners. -/
theorem cross2_centre (x0 y0 x1 y1 : α) (a b : Vector2 α) :
    cross2 ⟨(x0 + x1) / 2, (y0 + y1) / 2⟩ a b
      = (cross2 ⟨x0, y0⟩ a b + cross2 ⟨x1, y1⟩ a b) / 2 ∧
    cross2 ⟨(x0 + x1) / 2, (y0 + y1) / 2⟩ a b
      = (cross2 ⟨x1, y0⟩ a b + cross2 ⟨x0, y1⟩ a b) / 2 := by
  simp only [cross2]
  constructor <;> ring

/-- An edge `(a, b)` with `a ≠ b` that has the four corners of a box of
positive size on its right or on its line has the centre strictly on its
right. -/
theorem cross2_centre_neg (x0 y0 x1 y1 : α) (hx : x0 < x1) (hy : y0 < y1) (a b : Vector2 α)
    (hab : a.x ≠ b.x ∨ a.y ≠ b.y)
    (h00 : cross2 ⟨x0, y0⟩ a b ≤ 0) (h10 : cross2 ⟨x1, y0⟩ a b ≤ 0)
    (h11 : cross2 ⟨x1, y1⟩ a b ≤ 0) (h01 : cross2 ⟨x0, y1⟩ a b ≤ 0) :
    cross2 ⟨(x0 + x1) / 2, (y0 + y1) / 2⟩ a b < 0 := by
  obtain ⟨e1, e2⟩ := cross2_centre x0 y0 x1 y1 a b
  by_contra hc
  push_neg at hc
  have z00 : cross2 ⟨x0, y0⟩ a b = 0 := by linarith
  have z10 : cross2 ⟨x1, y0⟩ a b = 0 := by linarith
  have z01 : cross2 ⟨x0, y1⟩ a b = 0 := by linarith
  have d1 : (x1 - x0) * (b.y - a.y) = 0 := by
    have : (x1 - x0) * (b.y - a.y) = cross2 ⟨x0, y0⟩ a b - cross2 ⟨x1, y0⟩ a b := by
      simp only [cross2]; ring
    rw [this, z00, z10, sub_zero]
  have d2 : (y1 - y0) * (b.x - a.x) = 0 := by
    have : (y1 - y0) * (b.x - a.x) = cross2 ⟨x0, y1⟩ a b - cross2 ⟨x0, y0⟩ a b := by
      simp only [cross2]; ring
    rw [this, z00, z01, sub_zero]
  have f1 : b.y - a.y = 0 := by
    rcases mul_eq_zero.mp d1 with h | h
    · linarith
    · exact h
  have f2 : b.x - a.x = 0 := by
    rcases mul_eq_zero.mp d2 with h | h
    · linarith
    · exact h
  rcases hab with h | h
  · exact h (by linarith)
  · exact h (by linarith)

/-- The clipper is exact on a box that the triangle contains: for a clockwise
ring `(a, b, c)` and a box of positive size with its four corners in the
triangle, `clipAABox` reports the area of the box. -/
theorem clipAABox_area_of_corners (x0 y0 x1 y1 : α) (hx : x0 < x1) (hy : y0 < y1)
    (a b c : Vector2 α) (hD : cross2 a b c < 0)
    (h00 : inTriangle a b c ⟨x0, y0⟩) (h10 : inTriangle a b c ⟨x1, y0⟩)
    (h11 : inTriangle a b c ⟨x1, y1⟩) (h01 : inTriangle a b c ⟨x0, y1⟩) :
    ((ClippedTriangle.new a b c).clipAABox x0 y0 x1 y1).area = (x1 - x0) * (y1 - y0) := by
  have hs : (0 : α) ≤ -1 * cross2 a b c := by linarith
  have b00 : inBox x0 y0 x1 y1 ⟨x0, y0⟩ := ⟨le_refl _, le_of_lt hx, le_refl _, le_of_lt hy⟩
  have b10 : inBox x0 y0 x1 y1 ⟨x1, y0⟩ := ⟨le_of_lt hx, le_refl _, le_refl _, le_of_lt hy⟩
  have b11 : inBox x0 y0 x1 y1 ⟨x1, y1⟩ := ⟨le_of_lt hx, le_refl _, le_of_lt hy, le_refl _⟩
  have b01 : inBox x0 y0 x1 y1 ⟨x0, y1⟩ := ⟨le_refl _, le_of_lt hx, le_of_lt hy, le_refl _⟩
  have t00 := starRel_triangle (-1) a b c _ hs h00
  have t10 := starRel_triangle (-1) a b c _ hs h10
  have t11 := starRel_triangle (-1) a b c _ hs h11
  have t01 := starRel_triangle (-1) a b c _ hs h01
  have s00 := star_clipBoxRing (-1) _ x0 y0 x1 y1 b00 [a, b, c] t00
  have s10 := star_clipBoxRing (-1) _ x0 y0 x1 y1 b10 [a, b, c] t10
  have s11 := star_clipBoxRing (-1) _ x0 y0 x1 y1 b11 [a, b, c] t11
  have s01 := star_clipBoxRing (-1) _ x0 y0 x1 y1 b01 [a, b, c] t01
  have hin := pairsAll_closeRing_of_forall (inBox x0 y0 x1 y1) (clipBoxRing x0 y0 x1 y1 [a, b, c])
    (fun v hv => (clipBoxRing_forall x0 y0 x1 y1 (fun _ => True)
      (fun _ _ _ _ _ _ _ => trivial) [a, b, c] (fun _ _ => trivial) v hv).2)
  have hall := pairsAll_and _ _ _ hin (pairsAll_and _ _ _ s00 (pairsAll_and _ _ _ s10
    (pairsAll_and _ _ _ s11 s01)))
  have hstep := pairsAll_mono _ (fun u w => -1 * cross2 ⟨x0, y0⟩ u w
      = (sweptArea x0 y0 x1 y1 w - sweptArea x0 y0 x1 y1 u)
        + 2 * ((x1 - x0) * (y1 - y0)) * wrapsAround x0 y0 u w)
    (fun u w h => sweptArea_step x0 y0 x1 y1 hx hy u w h.1.2.1
      (cwSideEdge_of_corners x0 y0 x1 y1 u w h.1.1 h.1.2
        (by have := h.2.1; unfold starRel at this; linarith)
        (by have := h.2.2.1; unfold starRel at this; linarith)
        (by have := h.2.2.2.1; unfold starRel at this; linarith)
        (by have := h.2.2.2.2; unfold starRel at this; linarith))) _ hall
  have hsum := pathSum_congr_pairs _ _ _ hstep
  rw [pathSum_mul_left, pathSum_cross2_closeRing, pathSum_add,
    pathSum_telescope_closeRing (sweptArea x0 y0 x1 y1), zero_add, pathSum_mul_left] at hsum
  obtain ⟨n, hn⟩ := pathSum_wrapsAround x0 y0 (closeRing (clipBoxRing x0 y0 x1 y1 [a, b, c]))
  rw [hn] at hsum
  have hK : 0 < (x1 - x0) * (y1 - y0) := mul_pos (by linarith) (by linarith)
  -- the shoelace sum is not zero
  have c1 := cross2_of_inTriangle a b c
  have hne : ∀ p q r : Vector2 α, cross2 p q r < 0 → (p.x ≠ q.x ∨ p.y ≠ q.y) := by
    intro p q r h
    by_contra hc
    push_neg at hc
    have : cross2 p q r = 0 := by simp only [cross2, hc.1, hc.2]; ring
    linarith
  have hbca : cross2 b c a < 0 := by
    have : cross2 b c a = cross2 a b c := by simp only [cross2]; ring
    linarith
  have hcab : cross2 c a b < 0 := by
    have : cross2 c a b = cross2 a b c := by simp only [cross2]; ring
    linarith
  have g := fun (u w : Vector2 α) (huw : u.x ≠ w.x ∨ u.y ≠ w.y)
      (k00 : starRel (-1) ⟨x0, y0⟩ u w) (k10 : starRel (-1) ⟨x1, y0⟩ u w)
      (k11 : starRel (-1) ⟨x1, y1⟩ u w) (k01 : starRel (-1) ⟨x0, y1⟩ u w) =>
    cross2_centre_neg x0 y0 x1 y1 hx hy u w huw
      (by unfold starRel at k00; linarith) (by unfold starRel at k10; linarith)
      (by unfold starRel at k11; linarith) (by unfold starRel at k01; linarith)
  have m1 := g a b (hne a b c hD) t00.1 t10.1 t11.1 t01.1
  have m2 := g b c (hne b c a hbca) t00.2.1 t10.2.1 t11.2.1 t01.2.1
  have m3 := g c a (hne c a b hcab) t00.2.2.1 t10.2.2.1 t11.2.2.1 t01.2.2.1
  have hpos := clipSum_pos (-1) x0 y0 x1 y1 (le_of_lt hy) a b c
    ⟨(x0 + x1) / 2, (y0 + y1) / 2⟩ (by linarith) (by linarith) (by linarith)
    ⟨by show x0 < (x0 + x1) / 2; linarith, by show (x0 + x1) / 2 < x1; linarith,
     by show y0 < (y0 + y1) / 2; linarith, by show (y0 + y1) / 2 < y1; linarith⟩
  unfold clipSum at hpos
  rw [hsum] at hpos
  have hn1 : (1 : α) ≤ n := by
    have : 0 < (n : α) := by
      by_contra hc
      push_neg at hc
      have : 2 * ((x1 - x0) * (y1 - y0)) * (n : α) ≤ 0 :=
        mul_nonpos_of_nonneg_of_nonpos (by linarith) hc
      linarith
    have h0 : 0 < n := by exact_mod_cast this
    exact_mod_cast h0
  have hle := clipAABox_area_le a b c x0 y0 x1 y1 (le_of_lt hx) (le_of_lt hy)
  rw [clipAABox_area_eq_clipSum] at hle ⊢
  unfold clipSum at hle ⊢
  have habs : |pathSum shoelace (closeRing (clipBoxRing x0 y0 x1 y1 [a, b, c]))|
      = 2 * ((x1 - x0) * (y1 - y0)) * (n : α) := by
    rw [← hsum, abs_of_neg (by linarith)]; ring
  rw [habs] at hle ⊢
  have : 2 * ((x1 - x0) * (y1 - y0)) * (n : α) ≥ 2 * ((x1 - x0) * (y1 - y0)) * 1 :=
    mul_le_mul_of_nonneg_left hn1 (by linarith)
  linarith

end ExactThms

section NearThms

variable {α : Type} [LinearOrderedField α] [FloorRing α]

theorem ne_of_cross2_ne_zero (a b q : Vector2 α) (h : cross2 a b q ≠ 0) : a ≠ b := by
  intro e
  apply h
  rw [e]; simp only [cross2]; ring

/-- Near a point on the inner side of the edge line, at distance at most `B`,
the half-space function of the edge is at least `-B`. -/
theorem nanGE_edgeFn_of_near {sqrtf : α → α} (hs : IsSqrt sqrtf) (a b : Vector2 α) (hab : a ≠ b)
    (x y x' y' B : α) (hq : cross2 a b ⟨x, y⟩ ≤ 0) (hB : 0 ≤ B)
    (hd : (x - x') * (x - x') + (y - y') * (y - y') ≤ B * B) :
    nanGE (edgeFn sqrtf a b x' y') (-B) = true := by
  obtain ⟨f, e⟩ := edgeFn_isSome hs a b x y hab
  obtain ⟨f', e'⟩ := edgeFn_isSome hs a b x' y' hab
  obtain ⟨L, hL, _, hLf⟩ := edgeFn_eq_some hs a b x y f e
  have hf : 0 ≤ f := by
    by_contra hc
    push_neg at hc
    have : L * f < 0 := mul_neg_of_pos_of_neg hL hc
    linarith
  have hl := edgeFn_lipschitz hs a b x y x' y' f f' e e'
  rw [e', nanGE_some]
  by_contra hc
  push_neg at hc
  have h1 : B < f - f' := by linarith
  have h2 : B * B < (f - f') * (f - f') := mul_self_lt_mul_self hB h1
  linarith

/-- Near a point strictly on the inner side of the edge line, at distance at
most `B`, the half-space function of the edge is more than `-B`. -/
theorem nanLE_edgeFn_of_near {sqrtf : α → α} (hs : IsSqrt sqrtf) (a b : Vector2 α)
    (x y x' y' B : α) (hq : cross2 a b ⟨x, y⟩ < 0) (hB : 0 ≤ B)
    (hd : (x - x') * (x - x') + (y - y') * (y - y') ≤ B * B) :
    nanLE (edgeFn sqrtf a b x' y') (-B) = false := by
  have hab : a ≠ b := ne_of_cross2_ne_zero a b ⟨x, y⟩ (ne_of_lt hq)
  obtain ⟨f, e⟩ := edgeFn_isSome hs a b x y hab
  obtain ⟨f', e'⟩ := edgeFn_isSome hs a b x' y' hab
  obtain ⟨L, hL, _, hLf⟩ := edgeFn_eq_some hs a b x y f e
  have hf : 0 < f := by
    by_contra hc
    push_neg at hc
    have : L * f ≤ 0 := mul_nonpos_of_nonneg_of_nonpos (le_of_lt hL) hc
    linarith
  have hl := edgeFn_lipschitz hs a b x y x' y' f f' e e'
  by_contra hne
  have ht : nanLE (edgeFn sqrtf a b x' y') (-B) = true := by simpa using hne
  rw [e', nanLE_some] at ht
  have h1 : B < f - f' := by linarith
  have h2 : B * B < (f - f') * (f - f') := mul_self_lt_mul_self hB h1
  linarith

theorem px_inside_sq {sqrtf : α → α} (hs : IsSqrt sqrtf) :
    (1 / sqrtf 2) * (1 / sqrtf 2) = (1 / 2 : α) := by
  have h2 := (hs 2 (by norm_num)).2
  have hp := isSqrt_pos hs (show (0 : α) < 2 by norm_num)
  field_simp
  linarith

/-- The three half-space functions are at least `-B` within distance `B` of a
point of a counter-clockwise triangle. -/
theorem new_allGE_of_near {sqrtf : α → α} (hs : IsSqrt sqrtf) (p0 p1 p2 : Vector2 α)
    (a0 a1 a2 dx0 dy0 : Vector3 α) (hD : 0 < cross2 p0 p1 p2) (q : Vector2 α)
    (hq : inTriangle p0 p1 p2 q) (x' y' B : α) (hB : 0 ≤ B)
    (hd : (q.x - x') * (q.x - x') + (q.y - y') * (q.y - y') ≤ B * B) :
    (Triangle.new sqrtf p0 p1 p2 a0 a1 a2 dx0 dy0).allGE (-B) x' y' = true := by
  obtain ⟨l1, l2, l3, h1, h2, h3, hl, hx, hy⟩ := hq
  obtain ⟨e1, e2, e3⟩ := cross2_of_inTriangle p0 p1 p2 q l1 l2 l3 hl hx hy
  have c1 : cross2 p0 p2 ⟨q.x, q.y⟩ ≤ 0 := by
    have : cross2 p0 p2 ⟨q.x, q.y⟩ = -cross2 q p2 p0 := by simp only [cross2]; ring
    rw [this, e3]; exact neg_nonpos.mpr (mul_nonneg h2 hD.le)
  have c2 : cross2 p2 p1 ⟨q.x, q.y⟩ ≤ 0 := by
    have : cross2 p2 p1 ⟨q.x, q.y⟩ = -cross2 q p1 p2 := by simp only [cross2]; ring
    rw [this, e2]; exact neg_nonpos.mpr (mul_nonneg h1 hD.le)
  have c3 : cross2 p1 p0 ⟨q.x, q.y⟩ ≤ 0 := by
    have : cross2 p1 p0 ⟨q.x, q.y⟩ = -cross2 q p0 p1 := by simp only [cross2]; ring
    rw [this, e1]; exact neg_nonpos.mpr (mul_nonneg h3 hD.le)
  have n1 : p0 ≠ p2 := by
    intro e; rw [e] at hD
    have : cross2 p2 p1 p2 = 0 := by simp only [cross2]; ring
    linarith
  have n2 : p2 ≠ p1 := by
    intro e; rw [e] at hD
    have : cross2 p0 p1 p1 = 0 := by simp only [cross2]; ring
    linarith
  have n3 : p1 ≠ p0 := by
    intro e; rw [e] at hD
    have : cross2 p0 p0 p2 = 0 := by simp only [cross2]; ring
    linarith
  rw [new_allGE, nanGE_edgeFn_of_near hs p0 p2 n1 q.x q.y x' y' B c1 hB hd,
    nanGE_edgeFn_of_near hs p2 p1 n2 q.x q.y x' y' B c2 hB hd,
    nanGE_edgeFn_of_near hs p1 p0 n3 q.x q.y x' y' B c3 hB hd]
  rfl

/-- None of the three half-space functions is as low as `-B` within distance
`B` of a point strictly inside a counter-clockwise triangle. -/
theorem new_anyLE_of_near {sqrtf : α → α} (hs : IsSqrt sqrtf) (p0 p1 p2 : Vector2 α)
    (a0 a1 a2 dx0 dy0 : Vector3 α) (q : Vector2 α)
    (h01 : 0 < cross2 p0 p1 q) (h12 : 0 < cross2 p1 p2 q) (h20 : 0 < cross2 p2 p0 q)
    (x' y' B : α) (hB : 0 ≤ B)
    (hd : (q.x - x') * (q.x - x') + (q.y - y') * (q.y - y') ≤ B * B) :
    (Triangle.new sqrtf p0 p1 p2 a0 a1 a2 dx0 dy0).anyLE (-B) x' y' = false := by
  have c1 : cross2 p0 p2 ⟨q.x, q.y⟩ < 0 := by
    have : cross2 p0 p2 ⟨q.x, q.y⟩ = -cross2 p2 p0 q := by simp only [cross2]; ring
    rw [this]; linarith
  have c2 : cross2 p2 p1 ⟨q.x, q.y⟩ < 0 := by
    have : cross2 p2 p1 ⟨q.x, q.y⟩ = -cross2 p1 p2 q := by simp only [cross2]; ring
    rw [this]; linarith
  have c3 : cross2 p1 p0 ⟨q.x, q.y⟩ < 0 := by
    have : cross2 p1 p0 ⟨q.x, q.y⟩ = -cross2 p0 p1 q := by simp only [cross2]; ring
    rw [this]; linarith
  rw [new_anyLE, nanLE_edgeFn_of_near hs p0 p2 q.x q.y x' y' B c1 hB hd,
    nanLE_edgeFn_of_near hs p2 p1 q.x q.y x' y' B c2 hB hd,
    nanLE_edgeFn_of_near hs p1 p0 q.x q.y x' y' B c3 hB hd]
  rfl

end NearThms

section PixelAreaThms

variable {α : Type} [LinearOrderedField α] [FloorRing α]

theorem inTriangle_sub (a b c o w : Vector2 α) (h : inTriangle a b c w) :
    inTriangle (a.sub o) (b.sub o) (c.sub o) (w.sub o) := by
  obtain ⟨l1, l2, l3, h1, h2, h3, hl, hx, hy⟩ := h
  refine ⟨l1, l2, l3, h1, h2, h3, hl, ?_, ?_⟩
  · simp only [Vector2.sub, hx]
    have : l3 = 1 - l1 - l2 := by linarith
    rw [this]; ring
  · simp only [Vector2.sub, hy]
    have : l3 = 1 - l1 - l2 := by linarith
    rw [this]; ring

/-- A point on the inner side of the three edges of a counter-clockwise
triangle lies in the triangle. -/
theorem inTriangle_of_cross2 (p0 p1 p2 q : Vector2 α) (hD : 0 < cross2 p0 p1 p2)
    (h01 : 0 ≤ cross2 p0 p1 q) (h12 : 0 ≤ cross2 p1 p2 q) (h20 : 0 ≤ cross2 p2 p0 q) :
    inTriangle p0 p1 p2 q := by
  have hsum := cross2_sum p0 p1 p2 q
  have hne : cross2 p0 p1 p2 ≠ 0 := ne_of_gt hD
  refine ⟨cross2 p1 p2 q / cross2 p0 p1 p2, cross2 p2 p0 q / cross2 p0 p1 p2,
    cross2 p0 p1 q / cross2 p0 p1 p2, div_nonneg h12 hD.le, div_nonneg h20 hD.le,
    div_nonneg h01 hD.le, ?_, ?_, ?_⟩
  · rw [← add_div, ← add_div, div_eq_one_iff_eq hne]; linarith
  · field_simp
    simp only [cross2]; ring
  · field_simp
    simp only [cross2]; ring

theorem pixelClip_new (sqrtf : α → α) (p0 p1 p2 : Vector2 α) (a0 a1 a2 dx0 dy0 : Vector3 α)
    (x y : α) :
    pixelClip (Triangle.new sqrtf p0 p1 p2 a0 a1 a2 dx0 dy0) x y
      = (ClippedTriangle.new (p0.sub ⟨x, y⟩) (p2.sub ⟨x, y⟩) (p1.sub ⟨x, y⟩)).clipAABox
          (-(1 / 2)) (-(1 / 2)) (1 / 2) (1 / 2) := by
  unfold pixelClip
  rw [new_v1, new_v2, new_v3]

/-- The clipper reports coverage `1` for a pixel whose four corners lie in a
counter-clockwise triangle. -/
theorem pixelClip_area_of_corners (sqrtf : α → α) (p0 p1 p2 : Vector2 α)
    (a0 a1 a2 dx0 dy0 : Vector3 α) (x y : α) (hD : 0 < cross2 p0 p1 p2)
    (h00 : inTriangle p0 p1 p2 ⟨x - 1 / 2, y - 1 / 2⟩)
    (h10 : inTriangle p0 p1 p2 ⟨x + 1 / 2, y - 1 / 2⟩)
    (h11 : inTriangle p0 p1 p2 ⟨x + 1 / 2, y + 1 / 2⟩)
    (h01 : inTriangle p0 p1 p2 ⟨x - 1 / 2, y + 1 / 2⟩) :
    (pixelClip (Triangle.new sqrtf p0 p1 p2 a0 a1 a2 dx0 dy0) x y).area = 1 := by
  rw [pixelClip_new]
  have hcw : cross2 (p0.sub ⟨x, y⟩) (p2.sub ⟨x, y⟩) (p1.sub ⟨x, y⟩) < 0 := by
    rw [cross2_translate, cross2_swap]; linarith
  have g : ∀ u v : α, inTriangle p0 p1 p2 ⟨x + u, y + v⟩ →
      inTriangle (p0.sub ⟨x, y⟩) (p2.sub ⟨x, y⟩) (p1.sub ⟨x, y⟩) ⟨u, v⟩ := by
    intro u v h
    have h' := inTriangle_sub p0 p2 p1 ⟨x, y⟩ _ (inTriangle_swap _ _ _ _ h)
    have e : (⟨x + u, y + v⟩ : Vector2 α).sub ⟨x, y⟩ = ⟨u, v⟩ := by
      simp only [Vector2.sub, Vector2.mk.injEq]
      constructor <;> ring
    rw [e] at h'
    exact h'
  have e := clipAABox_area_of_corners (-(1 / 2) : α) (-(1 / 2)) (1 / 2) (1 / 2)
    (by norm_num) (by norm_num) _ _ _ hcw
    (g _ _ (by rw [← sub_eq_add_neg, ← sub_eq_add_neg]; exact h00))
    (g _ _ (by rw [← sub_eq_add_neg]; exact h10))
    (g _ _ h11)
    (g _ _ (by rw [← sub_eq_add_neg]; exact h01))
  rw [e]; norm_num

/-- The clipper reports a positive coverage for a pixel whose open square
holds a point strictly inside a counter-clockwise triangle. -/
theorem pixelClip_area_pos (sqrtf : α → α) (p0 p1 p2 : Vector2 α)
    (a0 a1 a2 dx0 dy0 : Vector3 α) (x y : α) (q : Vector2 α)
    (h01 : 0 < cross2 p0 p1 q) (h12 : 0 < cross2 p1 p2 q) (h20 : 0 < cross2 p2 p0 q)
    (hx0 : x - 1 / 2 < q.x) (hx1 : q.x < x + 1 / 2) (hy0 : y - 1 / 2 < q.y)
    (hy1 : q.y < y + 1 / 2) :
    0 < (pixelClip (Triangle.new sqrtf p0 p1 p2 a0 a1 a2 dx0 dy0) x y).area := by
  rw [pixelClip_new, clipAABox_area_eq_clipSum]
  have hpos := clipSum_pos (-1 : α) (-(1 / 2)) (-(1 / 2)) (1 / 2) (1 / 2) (by norm_num)
    (p0.sub ⟨x, y⟩) (p2.sub ⟨x, y⟩) (p1.sub ⟨x, y⟩) (q.sub ⟨x, y⟩)
    (by rw [cross2_translate]
        have : cross2 q p0 p2 = -cross2 p2 p0 q := by simp only [cross2]; ring
        rw [this]; linarith)
    (by rw [cross2_translate]
        have : cross2 q p2 p1 = -cross2 p1 p2 q := by simp only [cross2]; ring
        rw [this]; linarith)
    (by rw [cross2_translate]
        have : cross2 q p1 p0 = -cross2 p0 p1 q := by simp only [cross2]; ring
        rw [this]; linarith)
    ⟨by simp only [Vector2.sub]; linarith, by simp only [Vector2.sub]; linarith,
     by simp only [Vector2.sub]; linarith, by simp only [Vector2.sub]; linarith⟩
  have hne : clipSum (-(1 / 2) : α) (-(1 / 2)) (1 / 2) (1 / 2)
      (p0.sub ⟨x, y⟩) (p2.sub ⟨x, y⟩) (p1.sub ⟨x, y⟩) ≠ 0 := by
    intro e; rw [e] at hpos; simp at hpos
  have := abs_pos.mpr hne
  linarith

end PixelAreaThms

section CallThms

variable {α : Type} [LinearOrderedField α] [FloorRing α]

theorem mul_self_le_of_bounds (a A : α) (h1 : -A ≤ a) (h2 : a ≤ A) : a * a ≤ A * A :=
  mul_self_le_of_abs_le a A (abs_le.mpr ⟨h1, h2⟩)

theorem sq_dist_le (a b A : α) (ha1 : -A ≤ a) (ha2 : a ≤ A) (hb1 : -A ≤ b) (hb2 : b ≤ A) :
    a * a + b * b ≤ 2 * (A * A) := by
  have := mul_self_le_of_bounds a A ha1 ha2
  have := mul_self_le_of_bounds b A hb1 hb2
  linarith

/-- A pixel `(i, j)` with `i, j ≥ 0` whose open square holds a point strictly
inside a counter-clockwise triangle gets a call. -/
theorem call_of_overlap {sqrtf : α → α} (hs : IsSqrt sqrtf) (p0 p1 p2 : Vector2 α)
    (a0 a1 a2 dx0 dy0 : Vector3 α) (i j : Int) (hi : 0 ≤ i) (hj : 0 ≤ j) (q : Vector2 α)
    (h01 : 0 < cross2 p0 p1 q) (h12 : 0 < cross2 p1 p2 q) (h20 : 0 < cross2 p2 p0 q)
    (hx0 : (i : α) < q.x) (hx1 : q.x < (i : α) + 1) (hy0 : (j : α) < q.y)
    (hy1 : q.y < (j : α) + 1) :
    ∃ c ∈ drawCalls sqrtf (Triangle.new sqrtf p0 p1 p2 a0 a1 a2 dx0 dy0), c.x = i ∧ c.y = j := by
  have hD : 0 < cross2 p0 p1 p2 := by
    have := cross2_sum p0 p1 p2 q
    linarith only [this, h01, h12, h20]
  have hin := inTriangle_of_cross2 p0 p1 p2 q hD h01.le h12.le h20.le
  obtain ⟨bx0, bx1, by0, by1⟩ := inTriangle_bounds p0 p2 p1 _ (inTriangle_swap _ _ _ _ hin)
  obtain ⟨bX, k, hk, hbX, hxi⟩ :=
    exists_block_index p0.x p2.x p1.x i hi (by linarith only [bx0, hx1])
      (by linarith only [bx1, hx0])
  obtain ⟨bY, r, hr, hbY, hyj⟩ :=
    exists_block_index p0.y p2.y p1.y j hj (by linarith only [by0, hy1])
      (by linarith only [by1, hy0])
  have eX : centreOf (loBound p0.x p2.x p1.x) bX k = (i : α) + 1 / 2 := by
    rw [centreOf_eq, hxi]
  have eY : centreOf (loBound p0.y p2.y p1.y) bY r = (j : α) + 1 / 2 := by
    rw [centreOf_eq, hyj]
  have hX := centreOf_sub_blockCentre (loBound p0.x p2.x p1.x) bX k hk
  have hY := centreOf_sub_blockCentre (loBound p0.y p2.y p1.y) bY r hr
  rw [eX] at hX
  rw [eY] at hY
  obtain ⟨hB, hBB⟩ := bk_inside_sq hs
  have aX := abs_le.mp hX
  have aY := abs_le.mp hY
  have hno := new_anyLE_of_near hs p0 p1 p2 a0 a1 a2 dx0 dy0 q h01 h12 h20
    (blockCentre (loBound p0.x p2.x p1.x) bX) (blockCentre (loBound p0.y p2.y p1.y) bY)
    (sqrtf (8 * 8 / 2)) hB.le (by
      rw [hBB]
      have := sq_dist_le (q.x - blockCentre (loBound p0.x p2.x p1.x) bX)
        (q.y - blockCentre (loBound p0.y p2.y p1.y) bY) 4 (by linarith only [aX.1, hx0])
        (by linarith only [aX.2, hx1]) (by linarith only [aY.1, hy0])
        (by linarith only [aY.2, hy1])
      linarith only [this])
  have hpx := new_allGE_of_near hs p0 p1 p2 a0 a1 a2 dx0 dy0 hD q hin
    ((i : α) + 1 / 2) ((j : α) + 1 / 2) (1 / sqrtf 2) (px_inside_pos hs).le
    (by
      rw [px_inside_sq hs]
      have := sq_dist_le (q.x - ((i : α) + 1 / 2)) (q.y - ((j : α) + 1 / 2)) (1 / 2)
        (by linarith only [hx0]) (by linarith only [hx1]) (by linarith only [hy0])
        (by linarith only [hy1])
      linarith only [this])
  rw [← neg_div] at hpx
  have harea := pixelClip_area_pos sqrtf p0 p1 p2 a0 a1 a2 dx0 dy0 ((i : α) + 1 / 2)
    ((j : α) + 1 / 2) q h01 h12 h20 (by linarith only [hx0]) (by linarith only [hx1])
    (by linarith only [hy0]) (by linarith only [hy1])
  have hmem : ∀ c, c ∈ pixelCalls sqrtf (Triangle.new sqrtf p0 p1 p2 a0 a1 a2 dx0 dy0) bY bX r k →
      c ∈ drawCalls sqrtf (Triangle.new sqrtf p0 p1 p2 a0 a1 a2 dx0 dy0) := by
    intro c hc
    rw [mem_drawCalls]
    refine ⟨bY, bX, r, k, ?_, ?_, hr, hk, hc⟩
    · rw [new_v1, new_v2, new_v3]; exact hbY
    · rw [new_v1, new_v2, new_v3]; exact hbX
  have hcalls := pixelCalls_eq sqrtf (Triangle.new sqrtf p0 p1 p2 a0 a1 a2 dx0 dy0) bY bX r k
  simp only [new_v1, new_v2, new_v3] at hcalls
  rw [eX, eY, truncInt_half i hi, truncInt_half j hj, hno] at hcalls
  simp only [Bool.false_eq_true, if_false, hpx, if_true, gt_iff_lt, harea] at hcalls
  split_ifs at hcalls with h2 h3
  · exact ⟨_, hmem _ (by rw [hcalls]; exact List.mem_singleton.mpr rfl), rfl, rfl⟩
  · exact ⟨_, hmem _ (by rw [hcalls]; exact List.mem_singleton.mpr rfl), rfl, rfl⟩
  · exact ⟨_, hmem _ (by rw [hcalls]; exact List.mem_singleton.mpr rfl), rfl, rfl⟩

/-- A pixel `(i, j)` with `i, j ≥ 0` whose four corners lie in a
counter-clockwise triangle gets a call with coverage 1. -/
theorem call_of_square_inside {sqrtf : α → α} (hs : IsSqrt sqrtf) (p0 p1 p2 : Vector2 α)
    (a0 a1 a2 dx0 dy0 : Vector3 α) (hD : 0 < cross2 p0 p1 p2) (i j : Int) (hi : 0 ≤ i)
    (hj : 0 ≤ j)
    (h00 : inTriangle p0 p1 p2 ⟨(i : α), (j : α)⟩)
    (h10 : inTriangle p0 p1 p2 ⟨(i : α) + 1, (j : α)⟩)
    (h11 : inTriangle p0 p1 p2 ⟨(i : α) + 1, (j : α) + 1⟩)
    (h01 : inTriangle p0 p1 p2 ⟨(i : α), (j : α) + 1⟩) :
    ∃ c ∈ drawCalls sqrtf (Triangle.new sqrtf p0 p1 p2 a0 a1 a2 dx0 dy0),
      c.x = i ∧ c.y = j ∧ c.coverage = 1 := by
  have hc : inTriangle p0 p1 p2 ⟨(i : α) + 1 / 2, (j : α) + 1 / 2⟩ := by
    have := convexPred_inTriangle p0 p1 p2 _ _ (1 / 2) h00 h11 (by norm_num) (by norm_num)
    have e : lerp (⟨(i : α), (j : α)⟩ : Vector2 α) ⟨(i : α) + 1, (j : α) + 1⟩ (1 / 2)
        = ⟨(i : α) + 1 / 2, (j : α) + 1 / 2⟩ := by
      simp only [lerp, Vector2.mk.injEq]
      constructor <;> ring
    rw [e] at this
    exact this
  obtain ⟨ax0, _, ay0, _⟩ := inTriangle_bounds p0 p2 p1 _ (inTriangle_swap _ _ _ _ h00)
  obtain ⟨_, ax1, _, ay1⟩ := inTriangle_bounds p0 p2 p1 _ (inTriangle_swap _ _ _ _ h11)
  simp only at ax0 ay0 ax1 ay1
  obtain ⟨bX, k, hk, hbX, hxi⟩ :=
    exists_block_index p0.x p2.x p1.x i hi (by linarith) (by linarith)
  obtain ⟨bY, r, hr, hbY, hyj⟩ :=
    exists_block_index p0.y p2.y p1.y j hj (by linarith) (by linarith)
  have eX : centreOf (loBound p0.x p2.x p1.x) bX k = (i : α) + 1 / 2 := by
    rw [centreOf_eq, hxi]
  have eY : centreOf (loBound p0.y p2.y p1.y) bY r = (j : α) + 1 / 2 := by
    rw [centreOf_eq, hyj]
  have hX := centreOf_sub_blockCentre (loBound p0.x p2.x p1.x) bX k hk
  have hY := centreOf_sub_blockCentre (loBound p0.y p2.y p1.y) bY r hr
  rw [eX] at hX
  rw [eY] at hY
  have h0 := new_allGE_of_near hs p0 p1 p2 a0 a1 a2 dx0 dy0 hD _ hc
    ((i : α) + 1 / 2) ((j : α) + 1 / 2) 0 (le_refl _) (by simp)
  rw [neg_zero] at h0
  have hno := new_not_anyLE hs p0 p1 p2 a0 a1 a2 dx0 dy0 _ _ _ _ h0 hX hY
  have hpx := allGE_mono _ 0 (-1 / sqrtf 2) _ _ (by
    rw [neg_div]; linarith [px_inside_pos hs]) h0
  have harea := pixelClip_area_of_corners sqrtf p0 p1 p2 a0 a1 a2 dx0 dy0 ((i : α) + 1 / 2)
    ((j : α) + 1 / 2) hD
    (by rw [show (i : α) + 1 / 2 - 1 / 2 = i by ring, show (j : α) + 1 / 2 - 1 / 2 = j by ring]
        exact h00)
    (by rw [show (i : α) + 1 / 2 + 1 / 2 = i + 1 by ring, show (j : α) + 1 / 2 - 1 / 2 = j by ring]
        exact h10)
    (by rw [show (i : α) + 1 / 2 + 1 / 2 = i + 1 by ring,
          show (j : α) + 1 / 2 + 1 / 2 = j + 1 by ring]
        exact h11)
    (by rw [show (i : α) + 1 / 2 - 1 / 2 = i by ring, show (j : α) + 1 / 2 + 1 / 2 = j + 1 by ring]
        exact h01)
  have hmem : ∀ c, c ∈ pixelCalls sqrtf (Triangle.new sqrtf p0 p1 p2 a0 a1 a2 dx0 dy0) bY bX r k →
      c ∈ drawCalls sqrtf (Triangle.new sqrtf p0 p1 p2 a0 a1 a2 dx0 dy0) := by
    intro c hc
    rw [mem_drawCalls]
    refine ⟨bY, bX, r, k, ?_, ?_, hr, hk, hc⟩
    · rw [new_v1, new_v2, new_v3]; exact hbY
    · rw [new_v1, new_v2, new_v3]; exact hbX
  have hcalls := pixelCalls_eq sqrtf (Triangle.new sqrtf p0 p1 p2 a0 a1 a2 dx0 dy0) bY bX r k
  simp only [new_v1, new_v2, new_v3] at hcalls
  rw [eX, eY, truncInt_half i hi, truncInt_half j hj, hno] at hcalls
  simp only [Bool.false_eq_true, if_false, hpx, if_true, gt_iff_lt, harea, zero_lt_one] at hcalls
  split_ifs at hcalls with h2 h3
  · exact ⟨_, hmem _ (by rw [hcalls]; exact List.mem_singleton.mpr rfl), rfl, rfl, rfl⟩
  · exact ⟨_, hmem _ (by rw [hcalls]; exact List.mem_singleton.mpr rfl), rfl, rfl, rfl⟩
  · exact ⟨_, hmem _ (by rw [hcalls]; exact List.mem_singleton.mpr rfl), rfl, rfl, rfl⟩

end CallThms

section NodupThms

variable {α : Type} [LinearOrderedField α] [FloorRing α]

theorem nodup_flatMap_tag {β : Type} (tag : β → ℕ) :
    ∀ (l : List ℕ) (f : ℕ → List β), l.Nodup → (∀ i ∈ l, (f i).Nodup) →
      (∀ i ∈ l, ∀ b ∈ f i, tag b = i) → (l.flatMap f).Nodup
  | [], _, _, _, _ => by simp
  | a :: l, f, hl, hn, ht => by
    rw [List.flatMap_cons, List.nodup_append]
    rw [List.nodup_cons] at hl
    refine ⟨hn a (by simp), nodup_flatMap_tag tag l f hl.2
      (fun i hi => hn i (List.mem_cons_of_mem _ hi))
      (fun i hi => ht i (List.mem_cons_of_mem _ hi)), ?_⟩
    intro b hb hb'
    rw [List.mem_flatMap] at hb'
    obtain ⟨i, hi, hbi⟩ := hb'
    have e1 := ht a (by simp) b hb
    have e2 := ht i (List.mem_cons_of_mem _ hi) b hbi
    exact hl.1 (by rw [← e1, e2]; exact hi)

theorem pixelCalls_length (sqrtf : α → α) (t : Triangle α) (bY bX r k : Nat) :
    (pixelCalls sqrtf t bY bX r k).length ≤ 1 := by
  rw [pixelCalls_eq]
  split_ifs <;> simp

theorem nodup_of_length_le_one {β : Type} : ∀ l : List β, l.length ≤ 1 → l.Nodup
  | [], _ => List.nodup_nil
  | [a], _ => List.nodup_singleton a
  | a :: b :: l, h => by simp at h

theorem pixelKey_of_mem (sqrtf : α → α) (t : Triangle α) (bY bX r k : Nat) (c : Call α)
    (h : c ∈ pixelCalls sqrtf t bY bX r k) :
    pixelKey c = (loPixel t.v1.x t.v2.x t.v3.x + ((8 * bX + k : Nat) : Int),
      loPixel t.v1.y t.v2.y t.v3.y + ((8 * bY + r : Nat) : Int)) := by
  obtain ⟨hx, hy, _⟩ := mem_pixelCalls sqrtf t bY bX r k c h
  simp only [pixelKey, hx, hy]

/-- No two calls of `drawCalls` are for the same pixel. -/
theorem nodup_pixelKey_drawCalls (sqrtf : α → α) (t : Triangle α) :
    ((drawCalls sqrtf t).map pixelKey).Nodup := by
  rw [drawCalls_eq]
  simp only [List.map_flatMap]
  set lX := loPixel t.v1.x t.v2.x t.v3.x with hlX
  set lY := loPixel t.v1.y t.v2.y t.v3.y with hlY
  -- what a key of pixel `(k, r)` of block `(bX, bY)` is
  have key : ∀ bY bX r k : Nat, ∀ b ∈ (pixelCalls sqrtf t bY bX r k).map pixelKey,
      b = (lX + ((8 * bX + k : Nat) : Int), lY + ((8 * bY + r : Nat) : Int)) := by
    intro bY bX r k b hb
    rw [List.mem_map] at hb
    obtain ⟨c, hc, e⟩ := hb
    rw [← e]
    exact pixelKey_of_mem sqrtf t bY bX r k c hc
  have m8 : ∀ i ∈ List.range 8, i < 8 := fun i hi => List.mem_range.mp hi
  apply nodup_flatMap_tag (fun b : Int × Int => ((b.2 - lY) / 8).toNat) _ _ (List.nodup_range _)
  · intro bY _
    apply nodup_flatMap_tag (fun b : Int × Int => ((b.1 - lX) / 8).toNat) _ _
      (List.nodup_range _)
    · intro bX _
      apply nodup_flatMap_tag (fun b : Int × Int => ((b.2 - lY) % 8).toNat) _ _
        (List.nodup_range _)
      · intro r _
        apply nodup_flatMap_tag (fun b : Int × Int => ((b.1 - lX) % 8).toNat) _ _
          (List.nodup_range _)
        · intro k _
          exact nodup_of_length_le_one _ (by rw [List.length_map]; exact pixelCalls_length _ _ _ _ _ _)
        · intro k hk b hb
          rw [key bY bX r k b hb]
          have := m8 k hk
          simp only
          omega
      · intro r hr b hb
        rw [List.mem_flatMap] at hb
        obtain ⟨k, hk, hb⟩ := hb
        rw [key bY bX r k b hb]
        have := m8 r hr
        simp only
        omega
    · intro bX _ b hb
      rw [List.mem_flatMap] at hb
      obtain ⟨r, hr, hb⟩ := hb
      rw [List.mem_flatMap] at hb
      obtain ⟨k, hk, hb⟩ := hb
      rw [key bY bX r k b hb]
      have := m8 k hk
      simp only
      omega
  · intro bY _ b hb
    rw [List.mem_flatMap] at hb
    obtain ⟨bX, _, hb⟩ := hb
    rw [List.mem_flatMap] at hb
    obtain ⟨r, hr, hb⟩ := hb
    rw [List.mem_flatMap] at hb
    obtain ⟨k, hk, hb⟩ := hb
    rw [key bY bX r k b hb]
    have := m8 r hr
    simp only
    omega

end NodupThms

section ClockwiseThms

variable {α : Type} [LinearOrderedField α] [FloorRing α] {σ : Type}

/-- For a clockwise input triangle every call comes from the clipper branch:
at the centre of its pixel the three half-space functions are at least
`PX_OUTSIDE`. -/
theorem call_px_outside {sqrtf : α → α} (hs : IsSqrt sqrtf) (p0 p1 p2 : Vector2 α)
    (a0 a1 a2 dx0 dy0 : Vector3 α) (hcw : cross2 p0 p1 p2 < 0) (c : Call α)
    (h : c ∈ drawCalls sqrtf (Triangle.new sqrtf p0 p1 p2 a0 a1 a2 dx0 dy0)) :
    (Triangle.new sqrtf p0 p1 p2 a0 a1 a2 dx0 dy0).allGE (-1 / sqrtf 2)
      ((c.x : α) + 1 / 2) ((c.y : α) + 1 / 2) = true := by
  rw [mem_drawCalls] at h
  obtain ⟨bY, bX, r, k, _, _, hr, hk, hc⟩ := h
  obtain ⟨hx, hy, _⟩ := mem_pixelCalls sqrtf _ bY bX r k c hc
  rw [pixelCalls_eq] at hc
  simp only [new_v1, new_v2, new_v3] at hc hx hy
  have eX : centreOf (loBound p0.x p2.x p1.x) bX k = (c.x : α) + 1 / 2 := by
    rw [centreOf_eq, hx]
  have eY : centreOf (loBound p0.y p2.y p1.y) bY r = (c.y : α) + 1 / 2 := by
    rw [centreOf_eq, hy]
  rw [eX, eY] at hc
  split_ifs at hc with h1 h2 h3 h4 h5
  · simp at hc
  · exfalso
    rw [new_allGE] at h2
    have := (inTriangle_of_block_inside hs p0 p1 p2 _ _ _ _
      (by rw [sub_self, abs_zero]; norm_num) (by rw [sub_self, abs_zero]; norm_num) h2).1
    linarith
  · exfalso
    rw [new_allGE] at h3
    have := (inTriangle_of_allGE hs p0 p1 p2 _ _ _ (px_inside_pos hs) h3).1
    linarith
  · exact h4
  · simp at hc
  · simp at hc

/-- The clockwise triangle `(0,0), (0,8), (8,0)` gets no call at all: the
centre of no pixel of the non-negative quadrant is within `1/sqrtf(2)` of the
outer side of all three edges. -/
theorem clockwise_example_no_calls {sqrtf : α → α} (hs : IsSqrt sqrtf)
    (a0 a1 a2 dx0 dy0 : Vector3 α) :
    drawCalls sqrtf (Triangle.new sqrtf (⟨0, 0⟩ : Vector2 α) ⟨0, 8⟩ ⟨8, 0⟩ a0 a1 a2 dx0 dy0)
      = [] := by
  rw [List.eq_nil_iff_forall_not_mem]
  intro c hc
  have hcw : cross2 (⟨0, 0⟩ : Vector2 α) ⟨0, 8⟩ ⟨8, 0⟩ < 0 := by norm_num [cross2]
  have h := call_px_outside hs _ _ _ a0 a1 a2 dx0 dy0 hcw c hc
  obtain ⟨hx0, hy0, _⟩ := call_cases hs _ _ _ a0 a1 a2 dx0 dy0 c hc
  have hx : (0 : α) ≤ (c.x : α) := by exact_mod_cast hx0
  have hy : (0 : α) ≤ (c.y : α) := by exact_mod_cast hy0
  rw [new_allGE, neg_div] at h
  simp only [Bool.and_eq_true] at h
  obtain ⟨⟨h1, h2⟩, h3⟩ := h
  obtain ⟨f1, e1, g1⟩ := nanGE_eq_true h1
  obtain ⟨f2, e2, g2⟩ := nanGE_eq_true h2
  obtain ⟨f3, e3, g3⟩ := nanGE_eq_true h3
  obtain ⟨L1, hL1, q1, k1⟩ := edgeFn_eq_some hs _ _ _ _ f1 e1
  obtain ⟨L2, hL2, q2, k2⟩ := edgeFn_eq_some hs _ _ _ _ f2 e2
  obtain ⟨L3, hL3, q3, k3⟩ := edgeFn_eq_some hs _ _ _ _ f3 e3
  have hc0 := px_inside_pos hs
  have hcc := px_inside_sq hs
  set c0 := 1 / sqrtf 2 with hc0def
  simp only [cross2] at k1 k2 k3
  norm_num at q1 q2 q3 k1 k2 k3
  -- the first and third edges: the centre is less than 1 from both axes
  have b1 : L1 * c0 * (L1 * c0) = 32 := by
    have : L1 * c0 * (L1 * c0) = L1 * L1 * (c0 * c0) := by ring
    rw [this, q1, hcc]; norm_num
  have b3 : L3 * c0 * (L3 * c0) = 32 := by
    have : L3 * c0 * (L3 * c0) = L3 * L3 * (c0 * c0) := by ring
    rw [this, q3, hcc]; norm_num
  have b2 : L2 * c0 * (L2 * c0) = 64 := by
    have : L2 * c0 * (L2 * c0) = L2 * L2 * (c0 * c0) := by ring
    rw [this, q2, hcc]; norm_num
  have p1 : 0 < L1 * c0 := mul_pos hL1 hc0
  have p2 : 0 < L2 * c0 := mul_pos hL2 hc0
  have p3 : 0 < L3 * c0 := mul_pos hL3 hc0
  have u1 : L1 * c0 < 8 := by
    by_contra hh; push_neg at hh
    have := mul_self_le_mul_self (by norm_num : (0 : α) ≤ 8) hh
    linarith
  have u3 : L3 * c0 < 8 := by
    by_contra hh; push_neg at hh
    have := mul_self_le_mul_self (by norm_num : (0 : α) ≤ 8) hh
    linarith
  have u2 : L2 * c0 ≤ 8 := by
    by_contra hh; push_neg at hh
    have := mul_self_lt_mul_self (by norm_num : (0 : α) ≤ 8) hh
    linarith
  have v1 : -(L1 * c0) ≤ L1 * f1 := by
    have := mul_le_mul_of_nonneg_left g1 hL1.le
    linarith
  have v2 : -(L2 * c0) ≤ L2 * f2 := by
    have := mul_le_mul_of_nonneg_left g2 hL2.le
    linarith
  have v3 : -(L3 * c0) ≤ L3 * f3 := by
    have := mul_le_mul_of_nonneg_left g3 hL3.le
    linarith
  linarith

end ClockwiseThms

section Claims2

variable {α : Type} [LinearOrderedField α] [FloorRing α] {σ : Type}

theorem countP_key_le_one {β γ : Type} [DecidableEq γ] (f : β → γ) (k : γ) :
    ∀ l : List β, (l.map f).Nodup → l.countP (fun b => decide (f b = k)) ≤ 1
  | [], _ => by simp
  | a :: l, h => by
    rw [List.map_cons, List.nodup_cons] at h
    have ih := countP_key_le_one f k l h.2
    rw [List.countP_cons]
    by_cases e : f a = k
    · have h0 : l.countP (fun b => decide (f b = k)) = 0 := by
        rw [List.countP_eq_zero]
        intro b hb hk
        apply h.1
        rw [List.mem_map]
        exact ⟨b, hb, by rw [e]; simpa using hk⟩
      simp [e, h0]
    · simp [e, ih]

theorem countP_key_eq_one {β γ : Type} [DecidableEq γ] (f : β → γ) (k : γ) (l : List β)
    (h : (l.map f).Nodup) (a : β) (ha : a ∈ l) (hk : f a = k) :
    l.countP (fun b => decide (f b = k)) = 1 := by
  apply le_antisymm (countP_key_le_one f k l h)
  rw [Nat.succ_le_iff, List.countP_pos_iff]
  exact ⟨a, ha, by simpa using hk⟩

theorem countP_log (sqrtf : α → α) (t : Triangle α) (cb : SamplingCallback σ α)
    (hcb : ∀ s c, (cb s c).2 = true) (s : σ) (i j : Int) :
    (t.drawAA sqrtf (record cb) (s, [])).1.2.countP (fun e => decide (e.1.x = i ∧ e.1.y = j))
      = (drawCalls sqrtf t).countP (fun c => decide (pixelKey c = (i, j))) := by
  rw [← log_of_always_true sqrtf t cb hcb s, List.countP_map]
  apply List.countP_congr
  intro e _
  simp [pixelKey]

/-- C1 (amended): run with a callback that always returns true on a
counter-clockwise triangle (`cross(p1 - p0, p2 - p0) > 0`, exact arithmetic),
`drawAA` never invokes the callback twice for the same pixel, and it invokes
it exactly once for every pixel `(i, j)` with `i, j ≥ 0` whose open unit square
holds a point strictly inside the triangle, that is, whose square overlaps the
triangle in non-zero area. -/
theorem overlapped_pixels_called_once {sqrtf : α → α} (hs : IsSqrt sqrtf) (p0 p1 p2 : Vector2 α)
    (a0 a1 a2 dx0 dy0 : Vector3 α) (hccw : 0 < cross2 p0 p1 p2)
    (cb : SamplingCallback σ α) (hcb : ∀ s c, (cb s c).2 = true) (s : σ) :
    (∀ i j : Int,
      ((Triangle.new sqrtf p0 p1 p2 a0 a1 a2 dx0 dy0).drawAA sqrtf (record cb) (s, [])).1.2.countP
        (fun e => decide (e.1.x = i ∧ e.1.y = j)) ≤ 1) ∧
    ∀ i j : Int, 0 ≤ i → 0 ≤ j →
      (∃ q : Vector2 α, (i : α) < q.x ∧ q.x < (i : α) + 1 ∧ (j : α) < q.y ∧ q.y < (j : α) + 1 ∧
        0 < cross2 p0 p1 q ∧ 0 < cross2 p1 p2 q ∧ 0 < cross2 p2 p0 q) →
      ((Triangle.new sqrtf p0 p1 p2 a0 a1 a2 dx0 dy0).drawAA sqrtf (record cb) (s, [])).1.2.countP
        (fun e => decide (e.1.x = i ∧ e.1.y = j)) = 1 := by
  have hnd := nodup_pixelKey_drawCalls sqrtf (Triangle.new sqrtf p0 p1 p2 a0 a1 a2 dx0 dy0)
  constructor
  · intro i j
    rw [countP_log sqrtf _ cb hcb s]
    exact countP_key_le_one pixelKey (i, j) _ hnd
  · rintro i j hi hj ⟨q, hx0, hx1, hy0, hy1, h01, h12, h20⟩
    obtain ⟨c, hc, ex, ey⟩ := call_of_overlap hs p0 p1 p2 a0 a1 a2 dx0 dy0 i j hi hj q
      h01 h12 h20 hx0 hx1 hy0 hy1
    rw [countP_log sqrtf _ cb hcb s]
    exact countP_key_eq_one pixelKey (i, j) _ hnd c hc (by simp only [pixelKey, ex, ey])

/-- C4 (amended): for a counter-clockwise triangle and a pixel `(i, j)` with
`i, j ≥ 0` whose unit square `[i, i+1] x [j, j+1]` is contained in the
triangle, `drawAA` (callback always returning true) invokes the callback for
`(i, j)`, and every invocation for `(i, j)` has coverage exactly 1, whichever
branch handles the pixel. -/
theorem contained_pixel_coverage_one {sqrtf : α → α} (hs : IsSqrt sqrtf) (p0 p1 p2 : Vector2 α)
    (a0 a1 a2 dx0 dy0 : Vector3 α) (hccw : 0 < cross2 p0 p1 p2) (i j : Int) (hi : 0 ≤ i)
    (hj : 0 ≤ j)
    (hsq : ∀ p, inBox (i : α) (j : α) ((i : α) + 1) ((j : α) + 1) p → inTriangle p0 p1 p2 p)
    (cb : SamplingCallback σ α) (hcb : ∀ s c, (cb s c).2 = true) (s : σ) :
    (∃ e ∈ ((Triangle.new sqrtf p0 p1 p2 a0 a1 a2 dx0 dy0).drawAA sqrtf (record cb) (s, [])).1.2,
      e.1.x = i ∧ e.1.y = j ∧ e.1.coverage = 1) ∧
    ∀ e ∈ ((Triangle.new sqrtf p0 p1 p2 a0 a1 a2 dx0 dy0).drawAA sqrtf (record cb) (s, [])).1.2,
      e.1.x = i → e.1.y = j → e.1.coverage = 1 := by
  obtain ⟨c, hc, ex, ey, ecov⟩ := call_of_square_inside hs p0 p1 p2 a0 a1 a2 dx0 dy0 hccw i j
    hi hj
    (hsq _ ⟨le_refl _, by simp, le_refl _, by simp⟩)
    (hsq _ ⟨by simp, le_refl _, le_refl _, by simp⟩)
    (hsq _ ⟨by simp, le_refl _, by simp, le_refl _⟩)
    (hsq _ ⟨le_refl _, by simp, by simp, le_refl _⟩)
  have hlog := log_of_always_true sqrtf (Triangle.new sqrtf p0 p1 p2 a0 a1 a2 dx0 dy0) cb hcb s
  constructor
  · rw [← hlog, List.mem_map] at hc
    obtain ⟨e, he, ee⟩ := hc
    exact ⟨e, he, by rw [ee]; exact ex, by rw [ee]; exact ey, by rw [ee]; exact ecov⟩
  · intro e he hx hy
    have hmem : e.1 ∈ drawCalls sqrtf (Triangle.new sqrtf p0 p1 p2 a0 a1 a2 dx0 dy0) := by
      rw [← hlog]; exact List.mem_map_of_mem _ he
    have hnd := nodup_pixelKey_drawCalls sqrtf (Triangle.new sqrtf p0 p1 p2 a0 a1 a2 dx0 dy0)
    have := List.inj_on_of_nodup_map hnd hmem hc (by simp only [pixelKey, hx, hy, ex, ey])
    rw [this]; exact ecov

end Claims2

section Example2

/-- The square of pixel `(i, j)` lies in the triangle `(0,0), (16,0), (0,16)`
when `i + j + 2 ≤ 16`. -/
theorem example_square_inside (i j : Int) (hi : 0 ≤ i) (hj : 0 ≤ j) (hij : i + j + 2 ≤ 16)
    (p : Vector2 ℝ) (hp : inBox (i : ℝ) (j : ℝ) ((i : ℝ) + 1) ((j : ℝ) + 1) p) :
    inTriangle (⟨0, 0⟩ : Vector2 ℝ) ⟨16, 0⟩ ⟨0, 16⟩ p := by
  obtain ⟨h1, h2, h3, h4⟩ := hp
  have hi' : (0 : ℝ) ≤ i := by exact_mod_cast hi
  have hj' : (0 : ℝ) ≤ j := by exact_mod_cast hj
  have hij' : (i : ℝ) + j + 2 ≤ 16 := by exact_mod_cast hij
  refine ⟨1 - p.x / 16 - p.y / 16, p.x / 16, p.y / 16, ?_, ?_, ?_, ?_, ?_, ?_⟩
  · linarith
  · apply div_nonneg <;> linarith
  · apply div_nonneg <;> linarith
  · ring
  · ring
  · ring

/-- C1 at the counter-clockwise triangle `(0,0), (16,0), (0,16)`: no pixel is
called twice, and pixel `(2, 2)`, which holds the point `(2.5, 2.5)` of the
interior, is called exactly once. -/
theorem overlapped_pixels_called_once_witness :
    (∀ i j : Int,
      ((Triangle.new Real.sqrt (⟨0, 0⟩ : Vector2 ℝ) ⟨16, 0⟩ ⟨0, 16⟩ ⟨1, 0, 0⟩ ⟨0, 1, 0⟩
        ⟨0, 0, 1⟩ ⟨0, 0, 0⟩ ⟨0, 0, 0⟩).drawAA Real.sqrt (record alwaysTrue) ((), [])).1.2.countP
        (fun e => decide (e.1.x = i ∧ e.1.y = j)) ≤ 1) ∧
    ((Triangle.new Real.sqrt (⟨0, 0⟩ : Vector2 ℝ) ⟨16, 0⟩ ⟨0, 16⟩ ⟨1, 0, 0⟩ ⟨0, 1, 0⟩
        ⟨0, 0, 1⟩ ⟨0, 0, 0⟩ ⟨0, 0, 0⟩).drawAA Real.sqrt (record alwaysTrue) ((), [])).1.2.countP
        (fun e => decide (e.1.x = 2 ∧ e.1.y = 2)) = 1 := by
  have h := overlapped_pixels_called_once isSqrt_real (⟨0, 0⟩ : Vector2 ℝ) ⟨16, 0⟩ ⟨0, 16⟩
    ⟨1, 0, 0⟩ ⟨0, 1, 0⟩ ⟨0, 0, 1⟩ ⟨0, 0, 0⟩ ⟨0, 0, 0⟩ (by norm_num [cross2]) alwaysTrue
    (fun _ _ => rfl) ()
  refine ⟨h.1, h.2 2 2 (by norm_num) (by norm_num) ⟨⟨5 / 2, 5 / 2⟩, ?_⟩⟩
  norm_num [cross2]

/-- C4 at the counter-clockwise triangle `(0,0), (16,0), (0,16)` and the pixel
`(2, 2)`, whose square lies in the triangle. -/
theorem contained_pixel_coverage_one_witness :
    (∃ e ∈ ((Triangle.new Real.sqrt (⟨0, 0⟩ : Vector2 ℝ) ⟨16, 0⟩ ⟨0, 16⟩ ⟨1, 0, 0⟩ ⟨0, 1, 0⟩
        ⟨0, 0, 1⟩ ⟨0, 0, 0⟩ ⟨0, 0, 0⟩).drawAA Real.sqrt (record alwaysTrue) ((), [])).1.2,
      e.1.x = 2 ∧ e.1.y = 2 ∧ e.1.coverage = 1) ∧
    ∀ e ∈ ((Triangle.new Real.sqrt (⟨0, 0⟩ : Vector2 ℝ) ⟨16, 0⟩ ⟨0, 16⟩ ⟨1, 0, 0⟩ ⟨0, 1, 0⟩
        ⟨0, 0, 1⟩ ⟨0, 0, 0⟩ ⟨0, 0, 0⟩).drawAA Real.sqrt (record alwaysTrue) ((), [])).1.2,
      e.1.x = 2 → e.1.y = 2 → e.1.coverage = 1 :=
  contained_pixel_coverage_one isSqrt_real (⟨0, 0⟩ : Vector2 ℝ) ⟨16, 0⟩ ⟨0, 16⟩
    ⟨1, 0, 0⟩ ⟨0, 1, 0⟩ ⟨0, 0, 1⟩ ⟨0, 0, 0⟩ ⟨0, 0, 0⟩ (by norm_num [cross2]) 2 2 (by norm_num)
    (by norm_num) (example_square_inside 2 2 (by norm_num) (by norm_num) (by norm_num))
    alwaysTrue (fun _ _ => rfl) ()

/-- The log of `drawAA` on the clockwise triangle `(0,0), (0,8), (8,0)` is
empty. -/
theorem clockwise_example_log :
    ((Triangle.new Real.sqrt (⟨0, 0⟩ : Vector2 ℝ) ⟨0, 8⟩ ⟨8, 0⟩ ⟨1, 0, 0⟩ ⟨0, 1, 0⟩
        ⟨0, 0, 1⟩ ⟨0, 0, 0⟩ ⟨0, 0, 0⟩).drawAA Real.sqrt (record alwaysTrue) ((), [])).1.2 = [] := by
  have h := log_of_always_true Real.sqrt (Triangle.new Real.sqrt (⟨0, 0⟩ : Vector2 ℝ) ⟨0, 8⟩
    ⟨8, 0⟩ ⟨1, 0, 0⟩ ⟨0, 1, 0⟩ ⟨0, 0, 1⟩ ⟨0, 0, 0⟩ ⟨0, 0, 0⟩) alwaysTrue (fun _ _ => rfl) ()
  rw [clockwise_example_no_calls isSqrt_real] at h
  exact List.map_eq_nil_iff.mp h

/-- The square of pixel `(i, j)` lies in the triangle `(0,0), (0,8), (8,0)`
when `i + j + 2 ≤ 8`. -/
theorem clockwise_example_square_inside (i j : Int) (hi : 0 ≤ i) (hj : 0 ≤ j)
    (hij : i + j + 2 ≤ 8) (p : Vector2 ℝ)
    (hp : inBox (i : ℝ) (j : ℝ) ((i : ℝ) + 1) ((j : ℝ) + 1) p) :
    inTriangle (⟨0, 0⟩ : Vector2 ℝ) ⟨0, 8⟩ ⟨8, 0⟩ p := by
  obtain ⟨h1, h2, h3, h4⟩ := hp
  have hi' : (0 : ℝ) ≤ i := by exact_mod_cast hi
  have hj' : (0 : ℝ) ≤ j := by exact_mod_cast hj
  have hij' : (i : ℝ) + j + 2 ≤ 8 := by exact_mod_cast hij
  refine ⟨1 - p.x / 8 - p.y / 8, p.y / 8, p.x / 8, ?_, ?_, ?_, ?_, ?_, ?_⟩
  · linarith
  · apply div_nonneg <;> linarith
  · apply div_nonneg <;> linarith
  · ring
  · ring
  · ring

/-- C1 as stated fails: the triangle `(0,0), (0,8), (8,0)` is non-degenerate
and contains the whole unit square of pixel `(2, 3)`, yet `drawAA`, run with a
callback that always returns true, never invokes the callback for that pixel
(the vertices are given clockwise). -/
theorem overlapped_pixel_not_called_counterexample :
    cross2 (⟨0, 0⟩ : Vector2 ℝ) ⟨0, 8⟩ ⟨8, 0⟩ ≠ 0 ∧
    (∀ p : Vector2 ℝ, inBox (((2 : ℤ) : ℝ)) (((3 : ℤ) : ℝ)) (((2 : ℤ) : ℝ) + 1) (((3 : ℤ) : ℝ) + 1) p →
      inTriangle (⟨0, 0⟩ : Vector2 ℝ) ⟨0, 8⟩ ⟨8, 0⟩ p) ∧
    ((Triangle.new Real.sqrt (⟨0, 0⟩ : Vector2 ℝ) ⟨0, 8⟩ ⟨8, 0⟩ ⟨1, 0, 0⟩ ⟨0, 1, 0⟩
        ⟨0, 0, 1⟩ ⟨0, 0, 0⟩ ⟨0, 0, 0⟩).drawAA Real.sqrt (record alwaysTrue) ((), [])).1.2.countP
        (fun e => decide (e.1.x = 2 ∧ e.1.y = 3)) = 0 := by
  refine ⟨by norm_num [cross2],
    clockwise_example_square_inside 2 3 (by norm_num) (by norm_num) (by norm_num), ?_⟩
  rw [clockwise_example_log]
  rfl

/-- C4 as stated fails: the unit square of pixel `(1, 1)` is contained in the
triangle `(0,0), (0,8), (8,0)`, yet `drawAA`, run with a callback that always
returns true, makes no invocation for `(1, 1)` with coverage 1 (the vertices
are given clockwise). -/
theorem contained_pixel_not_covered_counterexample :
    (∀ p : Vector2 ℝ, inBox (((1 : ℤ) : ℝ)) (((1 : ℤ) : ℝ)) (((1 : ℤ) : ℝ) + 1) (((1 : ℤ) : ℝ) + 1) p →
      inTriangle (⟨0, 0⟩ : Vector2 ℝ) ⟨0, 8⟩ ⟨8, 0⟩ p) ∧
    ¬ ∃ e ∈ ((Triangle.new Real.sqrt (⟨0, 0⟩ : Vector2 ℝ) ⟨0, 8⟩ ⟨8, 0⟩ ⟨1, 0, 0⟩ ⟨0, 1, 0⟩
        ⟨0, 0, 1⟩ ⟨0, 0, 0⟩ ⟨0, 0, 0⟩).drawAA Real.sqrt (record alwaysTrue) ((), [])).1.2,
      e.1.x = 1 ∧ e.1.y = 1 ∧ e.1.coverage = 1 := by
  refine ⟨clockwise_example_square_inside 1 1 (by norm_num) (by norm_num) (by norm_num), ?_⟩
  rw [clockwise_example_log]
  simp

end Example2

section Claims3

variable {α : Type} [LinearOrderedField α]

theorem pathSum_shoelace_short (vs : List (Vector2 α)) (h : vs.length < 3) :
    pathSum shoelace (closeRing vs) = 0 := by
  match vs, h with
  | [], _ => simp [closeRing, pathSum]
  | [a], _ => simp [closeRing, pathSum, shoelace]
  | [a, b], _ => simp [closeRing, pathSum, shoelace]

/-- A triangle and a box without a common point leave an empty vertex ring. -/
theorem clipBoxRing_of_disjoint (a b c : Vector2 α) (x0 y0 x1 y1 : α)
    (hdis : ∀ w, inTriangle a b c w → ¬ inBox x0 y0 x1 y1 w) :
    clipBoxRing x0 y0 x1 y1 [a, b, c] = [] := by
  have hring := clipBoxRing_forall x0 y0 x1 y1 _ (convexPred_inTriangle a b c) [a, b, c] (by
    intro v hv
    simp only [List.mem_cons, List.mem_singleton, List.not_mem_nil, or_false] at hv
    rcases hv with rfl | rfl | rfl
    · exact inTriangle_vertex1 _ _ _
    · exact inTriangle_vertex2 _ _ _
    · exact inTriangle_vertex3 _ _ _)
  rw [List.eq_nil_iff_forall_not_mem]
  intro v hv
  exact hdis v (hring v hv).1 (hring v hv).2

/-- C11: in exact arithmetic, clipping a triangle to a box that has no point
in common with it (whether or not a single side of the box separates the two)
leaves no vertex and reports area `0` and centroid `(0, 0)`. -/
theorem clipAABox_of_disjoint_box (a b c : Vector2 α) (x0 y0 x1 y1 : α)
    (hdis : ∀ w, inTriangle a b c w → ¬ inBox x0 y0 x1 y1 w) :
    ((ClippedTriangle.new a b c).clipAABox x0 y0 x1 y1).m_numVertices = 0 ∧
    ((ClippedTriangle.new a b c).clipAABox x0 y0 x1 y1).area = 0 ∧
    ((ClippedTriangle.new a b c).clipAABox x0 y0 x1 y1).centroid = ⟨0, 0⟩ := by
  have hR := clipBoxRing_of_disjoint a b c x0 y0 x1 y1 hdis
  have hA : ((ClippedTriangle.new a b c).clipAABox x0 y0 x1 y1).area = 0 := by
    rw [clipAABox_area, ClippedTriangle.new_vertices, hR, pathSum_closeRing_nil]
    simp
  refine ⟨?_, hA, ?_⟩
  · rw [ClippedTriangle.m_numVertices, clipAABox_vertices, ClippedTriangle.new_vertices, hR]
    rfl
  · rw [clipAABox_centroid, if_pos hA]

/-- The triangle `(0,0), (3,0), (0,3)` and the box `[2,3] x [2,3]` have no
point in common, and no side line of the box has the triangle on one side. -/
theorem clipAABox_of_disjoint_box_witness :
    (∀ w, inTriangle (⟨0, 0⟩ : Vector2 ℚ) ⟨3, 0⟩ ⟨0, 3⟩ w → ¬ inBox 2 2 3 3 w) ∧
    ((ClippedTriangle.new (⟨0, 0⟩ : Vector2 ℚ) ⟨3, 0⟩ ⟨0, 3⟩).clipAABox 2 2 3 3).m_numVertices = 0 ∧
    ((ClippedTriangle.new (⟨0, 0⟩ : Vector2 ℚ) ⟨3, 0⟩ ⟨0, 3⟩).clipAABox 2 2 3 3).area = 0 ∧
    ((ClippedTriangle.new (⟨0, 0⟩ : Vector2 ℚ) ⟨3, 0⟩ ⟨0, 3⟩).clipAABox 2 2 3 3).centroid
      = ⟨0, 0⟩ := by
  have hdis : ∀ w, inTriangle (⟨0, 0⟩ : Vector2 ℚ) ⟨3, 0⟩ ⟨0, 3⟩ w → ¬ inBox 2 2 3 3 w := by
    rintro w ⟨l1, l2, l3, h1, h2, h3, hl, hx, hy⟩ ⟨b1, _, b3, _⟩
    simp only at hx hy
    linarith
  exact ⟨hdis, clipAABox_of_disjoint_box _ _ _ 2 2 3 3 hdis⟩

/-- C19: `computeAreaCentroid` always yields an area `>= 0`, and for a ring of
fewer than three vertices it yields area `0` and the origin as centroid. -/
theorem computeAreaCentroid_area_nonneg_short_ring (ct : ClippedTriangle α) :
    0 ≤ ct.computeAreaCentroid.area ∧
    (ct.m_numVertices < 3 →
      ct.computeAreaCentroid.area = 0 ∧ ct.computeAreaCentroid.centroid = ⟨0, 0⟩) := by
  refine ⟨?_, fun h => ?_⟩
  · rw [computeAreaCentroid_area]
    exact mul_nonneg (by norm_num) (abs_nonneg _)
  · have hA : ct.computeAreaCentroid.area = 0 := by
      rw [computeAreaCentroid_area, pathSum_shoelace_short ct.m_vertices h]
      simp
    exact ⟨hA, by rw [computeAreaCentroid_centroid, if_pos hA]⟩

end Claims3

section Claims4

variable {α : Type} [LinearOrderedField α] [FloorRing α] {σ : Type}

/-- C20: every callback invocation of `drawAA`, for every triangle and every
callback, has pixel coordinates `x >= 0` and `y >= 0`. -/
theorem callback_coordinates_nonneg (sqrtf : α → α) (t : Triangle α)
    (cb : SamplingCallback σ α) (s : σ) :
    ∀ e ∈ (t.drawAA sqrtf (record cb) (s, [])).1.2, 0 ≤ e.1.x ∧ 0 ≤ e.1.y := by
  intro e he
  have hm := mem_drawCalls_of_mem_log sqrtf t cb s e he
  obtain ⟨bY, bX, r, k, _, _, _, _, hc⟩ := (mem_drawCalls sqrtf t e.1).mp hm
  obtain ⟨hx, hy, _⟩ := mem_pixelCalls sqrtf t bY bX r k e.1 hc
  rw [hx, hy]
  exact ⟨add_nonneg (loPixel_nonneg _ _ _) (Int.natCast_nonneg _),
    add_nonneg (loPixel_nonneg _ _ _) (Int.natCast_nonneg _)⟩

end Claims4

section SoundThms

variable {α : Type} [LinearOrderedField α] [FloorRing α]

/-- Within distance `B` of a point where a half-space function is at least
`B`, the half-space function is not negative. -/
theorem edgeFn_nonneg_of_near {sqrtf : α → α} (hs : IsSqrt sqrtf) (a b : Vector2 α)
    (x y x' y' B : α) (hB : 0 ≤ B) (h : nanGE (edgeFn sqrtf a b x' y') B = true)
    (hd : (x - x') * (x - x') + (y - y') * (y - y') ≤ B * B) :
    ∃ f, edgeFn sqrtf a b x y = some f ∧ 0 ≤ f := by
  obtain ⟨f', e', g'⟩ := nanGE_eq_true h
  have hlen : edgeLen sqrtf a b ≠ 0 := by
    intro hz
    rw [edgeFn_of_len_eq_zero sqrtf a b x' y' hz] at e'
    exact absurd e' (by simp)
  refine ⟨_, edgeFn_of_len_ne_zero sqrtf a b x y hlen, ?_⟩
  have hl := edgeFn_lipschitz hs a b x y x' y' _ f' (edgeFn_of_len_ne_zero sqrtf a b x y hlen) e'
  have k := (le_of_mul_self_sub_le _ f' _ B hB hl hd).1
  exact le_trans (sub_nonneg.mpr g') k

/-- Every point within distance `B` of a point where the three half-space
functions are at least `B > 0` lies in the triangle, which is
counter-clockwise. -/
theorem inTriangle_of_allGE_near {sqrtf : α → α} (hs : IsSqrt sqrtf) (p0 p1 p2 : Vector2 α)
    (B x' y' : α) (hB : 0 < B)
    (h : (nanGE (edgeFn sqrtf p0 p2 x' y') B && nanGE (edgeFn sqrtf p2 p1 x' y') B
          && nanGE (edgeFn sqrtf p1 p0 x' y') B) = true)
    (q : Vector2 α) (hd : (q.x - x') * (q.x - x') + (q.y - y') * (q.y - y') ≤ B * B) :
    0 < cross2 p0 p1 p2 ∧ inTriangle p0 p1 p2 q := by
  have hD := (inTriangle_of_allGE hs p0 p1 p2 B x' y' hB h).1
  simp only [Bool.and_eq_true] at h
  obtain ⟨⟨h1, h2⟩, h3⟩ := h
  obtain ⟨f1, e1, g1⟩ := edgeFn_nonneg_of_near hs p0 p2 q.x q.y x' y' B hB.le h1 hd
  obtain ⟨f2, e2, g2⟩ := edgeFn_nonneg_of_near hs p2 p1 q.x q.y x' y' B hB.le h2 hd
  obtain ⟨f3, e3, g3⟩ := edgeFn_nonneg_of_near hs p1 p0 q.x q.y x' y' B hB.le h3 hd
  obtain ⟨L1, hL1, _, c1⟩ := edgeFn_eq_some hs p0 p2 q.x q.y f1 e1
  obtain ⟨L2, hL2, _, c2⟩ := edgeFn_eq_some hs p2 p1 q.x q.y f2 e2
  obtain ⟨L3, hL3, _, c3⟩ := edgeFn_eq_some hs p1 p0 q.x q.y f3 e3
  have n1 := mul_nonneg hL1.le g1
  have n2 := mul_nonneg hL2.le g2
  have n3 := mul_nonneg hL3.le g3
  refine ⟨hD, inTriangle_of_cross2 p0 p1 p2 q hD ?_ ?_ ?_⟩
  · have : cross2 p0 p1 q = -cross2 p1 p0 ⟨q.x, q.y⟩ := by simp only [cross2]; ring
    rw [this]; linarith
  · have : cross2 p1 p2 q = -cross2 p2 p1 ⟨q.x, q.y⟩ := by simp only [cross2]; ring
    rw [this]; linarith
  · have : cross2 p2 p0 q = -cross2 p0 p2 ⟨q.x, q.y⟩ := by simp only [cross2]; ring
    rw [this]; linarith

/-- Every point of the squares of the pixels of a block accepted as wholly
covered lies in the triangle. -/
theorem inTriangle_of_block_inside_square {sqrtf : α → α} (hs : IsSqrt sqrtf) (p0 p1 p2 : Vector2 α)
    (a0 a1 a2 dx0 dy0 : Vector3 α) (xc yc : α)
    (h : (Triangle.new sqrtf p0 p1 p2 a0 a1 a2 dx0 dy0).allGE (sqrtf (8 * 8 / 2)) xc yc = true)
    (q : Vector2 α) (hx : |q.x - xc| ≤ 4) (hy : |q.y - yc| ≤ 4) :
    0 < cross2 p0 p1 p2 ∧ inTriangle p0 p1 p2 q := by
  obtain ⟨hB, hBB⟩ := bk_inside_sq hs
  rw [new_allGE] at h
  refine inTriangle_of_allGE_near hs p0 p1 p2 _ xc yc hB h q ?_
  rw [hBB]
  have ax := abs_le.mp hx
  have ay := abs_le.mp hy
  have := sq_dist_le (q.x - xc) (q.y - yc) 4 ax.1 ax.2 ay.1 ay.2
  linarith

/-- Every point of the square of a pixel accepted as wholly covered lies in
the triangle. -/
theorem inTriangle_of_pixel_inside_square {sqrtf : α → α} (hs : IsSqrt sqrtf) (p0 p1 p2 : Vector2 α)
    (a0 a1 a2 dx0 dy0 : Vector3 α) (x y : α)
    (h : (Triangle.new sqrtf p0 p1 p2 a0 a1 a2 dx0 dy0).allGE (1 / sqrtf 2) x y = true)
    (q : Vector2 α) (hx : |q.x - x| ≤ 1 / 2) (hy : |q.y - y| ≤ 1 / 2) :
    0 < cross2 p0 p1 p2 ∧ inTriangle p0 p1 p2 q := by
  rw [new_allGE] at h
  refine inTriangle_of_allGE_near hs p0 p1 p2 _ x y (px_inside_pos hs) h q ?_
  rw [px_inside_sq hs]
  have ax := abs_le.mp hx
  have ay := abs_le.mp hy
  have := sq_dist_le (q.x - x) (q.y - y) (1 / 2) ax.1 ax.2 ay.1 ay.2
  linarith

/-- C16: in exact arithmetic the fully-inside classifications are sound.
When the three edge functions at the centre `(x0 + 3.5, y0 + 3.5)` of a block
are all at least `BK_INSIDE = sqrtf(32)`, every point of the unit square of each of the 64
pixels of the block (centres `(x0 + k, y0 + r)`) lies in the triangle; when
they are all at least `PX_INSIDE = 1/sqrtf(2)` at a pixel centre, every point
of that pixel's unit square lies in the triangle. -/
theorem inside_classification_sound {sqrtf : α → α} (hs : IsSqrt sqrtf) (p0 p1 p2 : Vector2 α)
    (a0 a1 a2 dx0 dy0 : Vector3 α) :
    (∀ x0 y0 : α,
      (Triangle.new sqrtf p0 p1 p2 a0 a1 a2 dx0 dy0).allGE (sqrtf (8 * 8 / 2))
        (x0 + (8 - 1) / 2) (y0 + (8 - 1) / 2) = true →
      ∀ r k : Nat, r < 8 → k < 8 → ∀ q : Vector2 α,
        inBox (x0 + (k : α) - 1 / 2) (y0 + (r : α) - 1 / 2) (x0 + (k : α) + 1 / 2)
          (y0 + (r : α) + 1 / 2) q →
        inTriangle p0 p1 p2 q) ∧
    (∀ x y : α,
      (Triangle.new sqrtf p0 p1 p2 a0 a1 a2 dx0 dy0).allGE (1 / sqrtf 2) x y = true →
      ∀ q : Vector2 α, inBox (x - 1 / 2) (y - 1 / 2) (x + 1 / 2) (y + 1 / 2) q →
        inTriangle p0 p1 p2 q) := by
  constructor
  · intro x0 y0 h r k hr hk q hq
    obtain ⟨q1, q2, q3, q4⟩ := hq
    have hk0 : (0 : α) ≤ k := Nat.cast_nonneg k
    have hr0 : (0 : α) ≤ r := Nat.cast_nonneg r
    have hk7 : (k : α) ≤ 7 := by
      have : k ≤ 7 := by omega
      exact_mod_cast this
    have hr7 : (r : α) ≤ 7 := by
      have : r ≤ 7 := by omega
      exact_mod_cast this
    refine (inTriangle_of_block_inside_square hs p0 p1 p2 a0 a1 a2 dx0 dy0 _ _ h q ?_ ?_).2
    · rw [abs_le]; constructor <;> linarith
    · rw [abs_le]; constructor <;> linarith
  · intro x y h q hq
    obtain ⟨q1, q2, q3, q4⟩ := hq
    refine (inTriangle_of_pixel_inside_square hs p0 p1 p2 a0 a1 a2 dx0 dy0 _ _ h q ?_ ?_).2
    · rw [abs_le]; constructor <;> linarith
    · rw [abs_le]; constructor <;> linarith

/-- A half-space function is at least `c` when the point lies on the inner
side of the edge line at a distance whose square is at least `c * c`. -/
theorem nanGE_edgeFn_of_sq {sqrtf : α → α} (hs : IsSqrt sqrtf) (a b : Vector2 α) (x y c K : α)
    (hne : a ≠ b) (hK : c * c = K) (h1 : cross2 a b ⟨x, y⟩ ≤ 0)
    (h2 : K * ((a.x - b.x) * (a.x - b.x) + (a.y - b.y) * (a.y - b.y))
      ≤ cross2 a b ⟨x, y⟩ * cross2 a b ⟨x, y⟩) :
    nanGE (edgeFn sqrtf a b x y) c = true := by
  obtain ⟨f, hf⟩ := edgeFn_isSome hs a b x y hne
  obtain ⟨L, hL, hLL, hLf⟩ := edgeFn_eq_some hs a b x y f hf
  rw [hf, nanGE_some]
  by_contra hlt
  push_neg at hlt
  have hf0 : 0 ≤ f := by
    by_contra hneg
    push_neg at hneg
    have := mul_neg_of_pos_of_neg hL hneg
    linarith
  have h3 : f * f < c * c := mul_self_lt_mul_self hf0 hlt
  have h4 : (L * L) * (f * f) < (L * L) * (c * c) :=
    mul_lt_mul_of_pos_left h3 (mul_pos hL hL)
  have e : (L * L) * (f * f) = cross2 a b ⟨x, y⟩ * cross2 a b ⟨x, y⟩ := by
    have : (L * L) * (f * f) = (L * f) * (L * f) := by ring
    rw [this, hLf]; ring
  rw [e, hLL, hK] at h4
  linarith

end SoundThms

section NormalThms

variable {α : Type} [LinearOrderedField α] [FloorRing α]

theorem new_normals (sqrtf : α → α) (p0 p1 p2 : Vector2 α) (a0 a1 a2 dx0 dy0 : Vector3 α) :
    (Triangle.new sqrtf p0 p1 p2 a0 a1 a2 dx0 dy0).n1 = unitNormal sqrtf p0 p2 ∧
    (Triangle.new sqrtf p0 p1 p2 a0 a1 a2 dx0 dy0).n2 = unitNormal sqrtf p2 p1 ∧
    (Triangle.new sqrtf p0 p1 p2 a0 a1 a2 dx0 dy0).n3 = unitNormal sqrtf p1 p0 := by
  simp only [Triangle.new, Triangle.computeUnitInwardNormals, Triangle.computeDeltas]
  split <;> simp

/-- The normal computed for the edge from `a` to `b ≠ a`: it has unit length,
is perpendicular to the edge, and its half-space function, scaled by the
length `L` of the edge, is minus twice the signed area of `(a, b, p)`. -/
theorem unitNormal_spec {sqrtf : α → α} (hs : IsSqrt sqrtf) (a b : Vector2 α) (hab : a ≠ b) :
    ∃ (n : Vector2 α) (L : α), unitNormal sqrtf a b = some n ∧ 0 < L ∧
      n.x * n.x + n.y * n.y = 1 ∧
      n.x * (b.x - a.x) + n.y * (b.y - a.y) = 0 ∧
      ∀ p : Vector2 α,
        L * (n.x * p.x + n.y * p.y + (n.x * (-a.x) + n.y * (-a.y))) = -cross2 a b p := by
  obtain ⟨h0, h1⟩ := edgeLen_sq hs a b
  have hz : edgeLen sqrtf a b ≠ 0 := by
    obtain ⟨f, hf⟩ := edgeFn_isSome hs a b 0 0 hab
    intro hz
    rw [edgeFn_of_len_eq_zero sqrtf a b 0 0 hz] at hf
    exact absurd hf (by simp)
  have hpos : 0 < edgeLen sqrtf a b := lt_of_le_of_ne h0 (Ne.symm hz)
  refine ⟨(⟨-(a.y - b.y), a.x - b.x⟩ : Vector2 α).smul (1 / edgeLen sqrtf a b),
    edgeLen sqrtf a b, ?_, hpos, ?_, ?_, ?_⟩
  · rw [unitNormal_def, recip, if_neg hz]
    rfl
  · simp only [Vector2.smul]
    field_simp
    rw [h1]
    ring
  · simp only [Vector2.smul]
    ring
  · intro p
    simp only [Vector2.smul, cross2]
    field_simp
    ring

/-- C12: for a triangle whose vertices are given counter-clockwise, the
constructor computes normals `n1`, `n2`, `n3` of unit length, perpendicular to
the stored edges `v1 v2`, `v2 v3`, `v3 v1`, and pointing inward: a point lies
in the triangle exactly when `n_i . p + C_i >= 0` for the three edges, with
`C_i = n_i.x * (-v_i.x) + n_i.y * (-v_i.y)` as in `drawAA`. -/
theorem unit_inward_normals {sqrtf : α → α} (hs : IsSqrt sqrtf) (p0 p1 p2 : Vector2 α)
    (a0 a1 a2 dx0 dy0 : Vector3 α) (hccw : 0 < cross2 p0 p1 p2) :
    ∃ n1 n2 n3 : Vector2 α,
      (Triangle.new sqrtf p0 p1 p2 a0 a1 a2 dx0 dy0).n1 = some n1 ∧
      (Triangle.new sqrtf p0 p1 p2 a0 a1 a2 dx0 dy0).n2 = some n2 ∧
      (Triangle.new sqrtf p0 p1 p2 a0 a1 a2 dx0 dy0).n3 = some n3 ∧
      n1.x * n1.x + n1.y * n1.y = 1 ∧ n2.x * n2.x + n2.y * n2.y = 1 ∧
      n3.x * n3.x + n3.y * n3.y = 1 ∧
      n1.x * ((Triangle.new sqrtf p0 p1 p2 a0 a1 a2 dx0 dy0).v2.x
          - (Triangle.new sqrtf p0 p1 p2 a0 a1 a2 dx0 dy0).v1.x)
        + n1.y * ((Triangle.new sqrtf p0 p1 p2 a0 a1 a2 dx0 dy0).v2.y
          - (Triangle.new sqrtf p0 p1 p2 a0 a1 a2 dx0 dy0).v1.y) = 0 ∧
      n2.x * ((Triangle.new sqrtf p0 p1 p2 a0 a1 a2 dx0 dy0).v3.x
          - (Triangle.new sqrtf p0 p1 p2 a0 a1 a2 dx0 dy0).v2.x)
        + n2.y * ((Triangle.new sqrtf p0 p1 p2 a0 a1 a2 dx0 dy0).v3.y
          - (Triangle.new sqrtf p0 p1 p2 a0 a1 a2 dx0 dy0).v2.y) = 0 ∧
      n3.x * ((Triangle.new sqrtf p0 p1 p2 a0 a1 a2 dx0 dy0).v1.x
          - (Triangle.new sqrtf p0 p1 p2 a0 a1 a2 dx0 dy0).v3.x)
        + n3.y * ((Triangle.new sqrtf p0 p1 p2 a0 a1 a2 dx0 dy0).v1.y
          - (Triangle.new sqrtf p0 p1 p2 a0 a1 a2 dx0 dy0).v3.y) = 0 ∧
      ∀ p : Vector2 α, inTriangle p0 p1 p2 p ↔
        (0 ≤ n1.x * p.x + n1.y * p.y
            + (n1.x * (-(Triangle.new sqrtf p0 p1 p2 a0 a1 a2 dx0 dy0).v1.x)
              + n1.y * (-(Triangle.new sqrtf p0 p1 p2 a0 a1 a2 dx0 dy0).v1.y)) ∧
         0 ≤ n2.x * p.x + n2.y * p.y
            + (n2.x * (-(Triangle.new sqrtf p0 p1 p2 a0 a1 a2 dx0 dy0).v2.x)
              + n2.y * (-(Triangle.new sqrtf p0 p1 p2 a0 a1 a2 dx0 dy0).v2.y)) ∧
         0 ≤ n3.x * p.x + n3.y * p.y
            + (n3.x * (-(Triangle.new sqrtf p0 p1 p2 a0 a1 a2 dx0 dy0).v3.x)
              + n3.y * (-(Triangle.new sqrtf p0 p1 p2 a0 a1 a2 dx0 dy0).v3.y))) := by
  have d1 : p0 ≠ p2 := by
    intro e; rw [e] at hccw
    have : cross2 p2 p1 p2 = 0 := by simp only [cross2]; ring
    linarith
  have d2 : p2 ≠ p1 := by
    intro e; rw [e] at hccw
    have : cross2 p0 p1 p1 = 0 := by simp only [cross2]; ring
    linarith
  have d3 : p1 ≠ p0 := by
    intro e; rw [e] at hccw
    have : cross2 p0 p0 p2 = 0 := by simp only [cross2]; ring
    linarith
  obtain ⟨n1, L1, e1, hL1, u1, q1, f1⟩ := unitNormal_spec hs p0 p2 d1
  obtain ⟨n2, L2, e2, hL2, u2, q2, f2⟩ := unitNormal_spec hs p2 p1 d2
  obtain ⟨n3, L3, e3, hL3, u3, q3, f3⟩ := unitNormal_spec hs p1 p0 d3
  obtain ⟨m1, m2, m3⟩ := new_normals sqrtf p0 p1 p2 a0 a1 a2 dx0 dy0
  rw [new_v1, new_v2, new_v3]
  refine ⟨n1, n2, n3, by rw [m1, e1], by rw [m2, e2], by rw [m3, e3], u1, u2, u3, q1, q2, q3, ?_⟩
  intro p
  have s1 : cross2 p0 p2 p = -cross2 p2 p0 p := by simp only [cross2]; ring
  have s2 : cross2 p2 p1 p = -cross2 p1 p2 p := by simp only [cross2]; ring
  have s3 : cross2 p1 p0 p = -cross2 p0 p1 p := by simp only [cross2]; ring
  constructor
  · rintro ⟨l1, l2, l3, h1, h2, h3, hl, hx, hy⟩
    obtain ⟨c1, c2, c3⟩ := cross2_of_inTriangle p0 p1 p2 p l1 l2 l3 hl hx hy
    have t1 : cross2 p0 p1 p = cross2 p p0 p1 := by simp only [cross2]; ring
    have t2 : cross2 p1 p2 p = cross2 p p1 p2 := by simp only [cross2]; ring
    have t3 : cross2 p2 p0 p = cross2 p p2 p0 := by simp only [cross2]; ring
    have g1 : 0 ≤ L1 * (n1.x * p.x + n1.y * p.y + (n1.x * (-p0.x) + n1.y * (-p0.y))) := by
      rw [f1 p, s1, t3, c3, neg_neg]; exact mul_nonneg h2 hccw.le
    have g2 : 0 ≤ L2 * (n2.x * p.x + n2.y * p.y + (n2.x * (-p2.x) + n2.y * (-p2.y))) := by
      rw [f2 p, s2, t2, c2, neg_neg]; exact mul_nonneg h1 hccw.le
    have g3 : 0 ≤ L3 * (n3.x * p.x + n3.y * p.y + (n3.x * (-p1.x) + n3.y * (-p1.y))) := by
      rw [f3 p, s3, t1, c1, neg_neg]; exact mul_nonneg h3 hccw.le
    exact ⟨nonneg_of_mul_nonneg_right g1 hL1, nonneg_of_mul_nonneg_right g2 hL2,
      nonneg_of_mul_nonneg_right g3 hL3⟩
  · rintro ⟨g1, g2, g3⟩
    have k1 := mul_nonneg hL1.le g1
    have k2 := mul_nonneg hL2.le g2
    have k3 := mul_nonneg hL3.le g3
    rw [f1 p, s1, neg_neg] at k1
    rw [f2 p, s2, neg_neg] at k2
    rw [f3 p, s3, neg_neg] at k3
    exact inTriangle_of_cross2 p0 p1 p2 p hccw k3 k2 k1

end NormalThms

section Example3

/-- The block with first pixel centre `(8.5, 8.5)` of the triangle
`(0,0), (64,0), (0,64)` is classified fully inside. -/
theorem example_block_allGE :
    (Triangle.new Real.sqrt (⟨0, 0⟩ : Vector2 ℝ) ⟨64, 0⟩ ⟨0, 64⟩ ⟨1, 0, 0⟩ ⟨0, 1, 0⟩
      ⟨0, 0, 1⟩ ⟨0, 0, 0⟩ ⟨0, 0, 0⟩).allGE (Real.sqrt (8 * 8 / 2)) (17 / 2 + (8 - 1) / 2)
        (17 / 2 + (8 - 1) / 2) = true := by
  have hK := (bk_inside_sq isSqrt_real).2
  rw [new_allGE,
    nanGE_edgeFn_of_sq isSqrt_real ⟨0, 0⟩ ⟨0, 64⟩ _ _ _ 32
      (by intro h; have := congrArg Vector2.y h; norm_num at this) hK
      (by norm_num [cross2]) (by norm_num [cross2]),
    nanGE_edgeFn_of_sq isSqrt_real ⟨0, 64⟩ ⟨64, 0⟩ _ _ _ 32
      (by intro h; have := congrArg Vector2.y h; norm_num at this) hK
      (by norm_num [cross2]) (by norm_num [cross2]),
    nanGE_edgeFn_of_sq isSqrt_real ⟨64, 0⟩ ⟨0, 0⟩ _ _ _ 32
      (by intro h; have := congrArg Vector2.x h; norm_num at this) hK
      (by norm_num [cross2]) (by norm_num [cross2])]
  rfl

/-- The pixel with centre `(2.5, 2.5)` of the triangle `(0,0), (64,0), (0,64)`
is classified fully inside. -/
theorem example_pixel_allGE :
    (Triangle.new Real.sqrt (⟨0, 0⟩ : Vector2 ℝ) ⟨64, 0⟩ ⟨0, 64⟩ ⟨1, 0, 0⟩ ⟨0, 1, 0⟩
      ⟨0, 0, 1⟩ ⟨0, 0, 0⟩ ⟨0, 0, 0⟩).allGE (1 / Real.sqrt 2) (5 / 2) (5 / 2) = true := by
  have hK := px_inside_sq isSqrt_real
  rw [new_allGE,
    nanGE_edgeFn_of_sq isSqrt_real ⟨0, 0⟩ ⟨0, 64⟩ _ _ _ (1 / 2)
      (by intro h; have := congrArg Vector2.y h; norm_num at this) hK
      (by norm_num [cross2]) (by norm_num [cross2]),
    nanGE_edgeFn_of_sq isSqrt_real ⟨0, 64⟩ ⟨64, 0⟩ _ _ _ (1 / 2)
      (by intro h; have := congrArg Vector2.y h; norm_num at this) hK
      (by norm_num [cross2]) (by norm_num [cross2]),
    nanGE_edgeFn_of_sq isSqrt_real ⟨64, 0⟩ ⟨0, 0⟩ _ _ _ (1 / 2)
      (by intro h; have := congrArg Vector2.x h; norm_num at this) hK
      (by norm_num [cross2]) (by norm_num [cross2])]
  rfl

/-- The block with first pixel centre `(8.5, 8.5)` of the triangle
`(0,0), (64,0), (0,64)` is not skipped. -/
theorem example_block_not_anyLE :
    (Triangle.new Real.sqrt (⟨0, 0⟩ : Vector2 ℝ) ⟨64, 0⟩ ⟨0, 64⟩ ⟨1, 0, 0⟩ ⟨0, 1, 0⟩
      ⟨0, 0, 1⟩ ⟨0, 0, 0⟩ ⟨0, 0, 0⟩).anyLE (-Real.sqrt (8 * 8 / 2)) (17 / 2 + (8 - 1) / 2)
        (17 / 2 + (8 - 1) / 2) = false :=
  new_anyLE_of_near isSqrt_real (⟨0, 0⟩ : Vector2 ℝ) ⟨64, 0⟩ ⟨0, 64⟩ ⟨1, 0, 0⟩ ⟨0, 1, 0⟩
    ⟨0, 0, 1⟩ ⟨0, 0, 0⟩ ⟨0, 0, 0⟩ ⟨12, 12⟩ (by norm_num [cross2]) (by norm_num [cross2])
    (by norm_num [cross2]) _ _ _ (bk_inside_sq isSqrt_real).1.le
    (by
      have := (bk_inside_sq (α := ℝ) isSqrt_real).2
      rw [this]; norm_num)

/-- C16 at the triangle `(0,0), (64,0), (0,64)`: the block with first pixel
centre `(8.5, 8.5)` is classified fully inside and the square of its pixel
`(7, 0)` lies in the triangle; the pixel with centre `(2.5, 2.5)` is
classified fully inside and its square lies in the triangle. -/
theorem inside_classification_sound_witness :
    IsSqrt Real.sqrt ∧
    (Triangle.new Real.sqrt (⟨0, 0⟩ : Vector2 ℝ) ⟨64, 0⟩ ⟨0, 64⟩ ⟨1, 0, 0⟩ ⟨0, 1, 0⟩ ⟨0, 0, 1⟩
      ⟨0, 0, 0⟩ ⟨0, 0, 0⟩).allGE (Real.sqrt (8 * 8 / 2)) (17 / 2 + (8 - 1) / 2)
        (17 / 2 + (8 - 1) / 2) = true ∧
    (∀ q : Vector2 ℝ,
      inBox (17 / 2 + ((7 : ℕ) : ℝ) - 1 / 2) (17 / 2 + ((0 : ℕ) : ℝ) - 1 / 2)
        (17 / 2 + ((7 : ℕ) : ℝ) + 1 / 2) (17 / 2 + ((0 : ℕ) : ℝ) + 1 / 2) q →
      inTriangle (⟨0, 0⟩ : Vector2 ℝ) ⟨64, 0⟩ ⟨0, 64⟩ q) ∧
    (Triangle.new Real.sqrt (⟨0, 0⟩ : Vector2 ℝ) ⟨64, 0⟩ ⟨0, 64⟩ ⟨1, 0, 0⟩ ⟨0, 1, 0⟩ ⟨0, 0, 1⟩
      ⟨0, 0, 0⟩ ⟨0, 0, 0⟩).allGE (1 / Real.sqrt 2) (5 / 2) (5 / 2) = true ∧
    (∀ q : Vector2 ℝ, inBox (5 / 2 - 1 / 2) (5 / 2 - 1 / 2) (5 / 2 + 1 / 2) (5 / 2 + 1 / 2) q →
      inTriangle (⟨0, 0⟩ : Vector2 ℝ) ⟨64, 0⟩ ⟨0, 64⟩ q) := by
  have h := inside_classification_sound isSqrt_real (⟨0, 0⟩ : Vector2 ℝ) ⟨64, 0⟩ ⟨0, 64⟩
    ⟨1, 0, 0⟩ ⟨0, 1, 0⟩ ⟨0, 0, 1⟩ ⟨0, 0, 0⟩ ⟨0, 0, 0⟩
  have hB := example_block_allGE
  have hP := example_pixel_allGE
  exact ⟨isSqrt_real, hB, h.1 _ _ hB 0 7 (by norm_num) (by norm_num), hP, h.2 _ _ hP⟩

/-- C12 at the counter-clockwise triangle `(0,0), (16,0), (0,16)`: the three
normals are numbers of unit length and the three half-space functions are
non-negative exactly on the triangle. -/
theorem unit_inward_normals_witness :
    IsSqrt Real.sqrt ∧ 0 < cross2 (⟨0, 0⟩ : Vector2 ℝ) ⟨16, 0⟩ ⟨0, 16⟩ ∧
    ∃ n1 n2 n3 : Vector2 ℝ,
      (Triangle.new Real.sqrt (⟨0, 0⟩ : Vector2 ℝ) ⟨16, 0⟩ ⟨0, 16⟩ ⟨1, 0, 0⟩ ⟨0, 1, 0⟩ ⟨0, 0, 1⟩
        ⟨0, 0, 0⟩ ⟨0, 0, 0⟩).n1 = some n1 ∧
      (Triangle.new Real.sqrt (⟨0, 0⟩ : Vector2 ℝ) ⟨16, 0⟩ ⟨0, 16⟩ ⟨1, 0, 0⟩ ⟨0, 1, 0⟩ ⟨0, 0, 1⟩
        ⟨0, 0, 0⟩ ⟨0, 0, 0⟩).n2 = some n2 ∧
      (Triangle.new Real.sqrt (⟨0, 0⟩ : Vector2 ℝ) ⟨16, 0⟩ ⟨0, 16⟩ ⟨1, 0, 0⟩ ⟨0, 1, 0⟩ ⟨0, 0, 1⟩
        ⟨0, 0, 0⟩ ⟨0, 0, 0⟩).n3 = some n3 ∧
      n1.x * n1.x + n1.y * n1.y = 1 ∧ n2.x * n2.x + n2.y * n2.y = 1 ∧
      n3.x * n3.x + n3.y * n3.y = 1 := by
  obtain ⟨n1, n2, n3, e1, e2, e3, u1, u2, u3, _⟩ :=
    unit_inward_normals isSqrt_real (⟨0, 0⟩ : Vector2 ℝ) ⟨16, 0⟩ ⟨0, 16⟩ ⟨1, 0, 0⟩ ⟨0, 1, 0⟩
      ⟨0, 0, 1⟩ ⟨0, 0, 0⟩ ⟨0, 0, 0⟩ (by norm_num [cross2])
  exact ⟨isSqrt_real, by norm_num [cross2], n1, n2, n3, e1, e2, e3, u1, u2, u3⟩

/-- For the clockwise triangle `(0,0), (0,8), (8,0)`, which is not
degenerate, the normal `n1` points outward: the point `(1, 1)` lies in the
triangle and `n1 . p + C1 < 0` there. -/
theorem normals_outward_counterexample :
    cross2 (⟨0, 0⟩ : Vector2 ℝ) ⟨0, 8⟩ ⟨8, 0⟩ ≠ 0 ∧
    inTriangle (⟨0, 0⟩ : Vector2 ℝ) ⟨0, 8⟩ ⟨8, 0⟩ ⟨1, 1⟩ ∧
    ∃ n1 : Vector2 ℝ,
      (Triangle.new Real.sqrt (⟨0, 0⟩ : Vector2 ℝ) ⟨0, 8⟩ ⟨8, 0⟩ ⟨1, 0, 0⟩ ⟨0, 1, 0⟩ ⟨0, 0, 1⟩
        ⟨0, 0, 0⟩ ⟨0, 0, 0⟩).n1 = some n1 ∧
      n1.x * 1 + n1.y * 1
        + (n1.x * (-(Triangle.new Real.sqrt (⟨0, 0⟩ : Vector2 ℝ) ⟨0, 8⟩ ⟨8, 0⟩ ⟨1, 0, 0⟩ ⟨0, 1, 0⟩
              ⟨0, 0, 1⟩ ⟨0, 0, 0⟩ ⟨0, 0, 0⟩).v1.x)
          + n1.y * (-(Triangle.new Real.sqrt (⟨0, 0⟩ : Vector2 ℝ) ⟨0, 8⟩ ⟨8, 0⟩ ⟨1, 0, 0⟩ ⟨0, 1, 0⟩
              ⟨0, 0, 1⟩ ⟨0, 0, 0⟩ ⟨0, 0, 0⟩).v1.y)) < 0 := by
  refine ⟨by norm_num [cross2], ⟨3 / 4, 1 / 8, 1 / 8, by norm_num, by norm_num, by norm_num,
    by norm_num, by norm_num, by norm_num⟩, ?_⟩
  obtain ⟨n, L, e, hL, _, _, f⟩ := unitNormal_spec isSqrt_real (⟨0, 0⟩ : Vector2 ℝ) ⟨8, 0⟩
    (by intro h; have := congrArg Vector2.x h; norm_num at this)
  refine ⟨n, by rw [(new_normals _ _ _ _ _ _ _ _ _).1, e], ?_⟩
  rw [new_v1]
  have h := f ⟨1, 1⟩
  have hc : cross2 (⟨0, 0⟩ : Vector2 ℝ) ⟨8, 0⟩ ⟨1, 1⟩ = 8 := by norm_num [cross2]
  rw [hc] at h
  by_contra hge
  push_neg at hge
  have := mul_nonneg hL.le hge
  simp only at h this
  linarith

end Example3

section BlockThms

variable {α : Type} [LinearOrderedField α] [FloorRing α] {σ : Type}

theorem flatMap_singleton_eq_map {A B : Type} (f : A → B) :
    ∀ l : List A, l.flatMap (fun a => [f a]) = l.map f
  | [] => rfl
  | a :: l => by
    rw [List.flatMap_cons, List.map_cons, flatMap_singleton_eq_map f l]
    rfl

theorem length_flatMap_const {A B : Type} (f : A → List B) (n : Nat) :
    ∀ l : List A, (∀ a ∈ l, (f a).length = n) → (l.flatMap f).length = l.length * n
  | [], _ => by simp
  | a :: l, h => by
    rw [List.flatMap_cons, List.length_append, h a (List.mem_cons_self _ _),
      length_flatMap_const f n l (fun b hb => h b (List.mem_cons_of_mem _ hb)),
      List.length_cons]
    ring

/-- C17: for a block accepted as fully inside, `drawAA` invokes the callback
on the 64 pixels of the block in order, row by row, with coverage `1` and, for
the pixel with centre `(x, y) = (x0 + k, y0 + r)`, the attribute
`t1 + dx * (x - v1.x) + dy * (y - v1.y)`: the incrementally stepped `tex` is
the value the per-pixel fully-inside branch computes directly.  With a
callback that never returns false all 64 invocations are made. -/
theorem full_block_stepping (sqrtf : α → α) (t : Triangle α) (cb : SamplingCallback σ α)
    (y0 x0 : α) (s : σ)
    (hout : t.anyLE (-sqrtf (8 * 8 / 2)) (x0 + (8 - 1) / 2) (y0 + (8 - 1) / 2) = false)
    (hin : t.allGE (sqrtf (8 * 8 / 2)) (x0 + (8 - 1) / 2) (y0 + (8 - 1) / 2) = true) :
    blockBody t cb (1 / sqrtf 2) (-1 / sqrtf 2) 8 (sqrtf (8 * 8 / 2)) (-sqrtf (8 * 8 / 2))
        (halfEdgeConstant t.n1 t.v1) (halfEdgeConstant t.n2 t.v2) (halfEdgeConstant t.n3 t.v3)
        y0 x0 s
      = runCalls cb ((List.range 8).flatMap (fun r : Nat => (List.range 8).map (fun k : Nat =>
          (⟨truncInt (x0 + k), truncInt (y0 + r),
            (t.t1.add (t.dx.smul (x0 + k - t.v1.x))).add (t.dy.smul (y0 + r - t.v1.y)),
            t.dx, t.dy, 1⟩ : Call α)))) s ∧
    ((List.range 8).flatMap (fun r : Nat => (List.range 8).map (fun k : Nat =>
          (⟨truncInt (x0 + k), truncInt (y0 + r),
            (t.t1.add (t.dx.smul (x0 + k - t.v1.x))).add (t.dy.smul (y0 + r - t.v1.y)),
            t.dx, t.dy, 1⟩ : Call α)))).length = 64 ∧
    ((∀ s c, (cb s c).2 = true) →
      (blockBody t (record cb) (1 / sqrtf 2) (-1 / sqrtf 2) 8 (sqrtf (8 * 8 / 2))
        (-sqrtf (8 * 8 / 2)) (halfEdgeConstant t.n1 t.v1) (halfEdgeConstant t.n2 t.v2)
        (halfEdgeConstant t.n3 t.v3) y0 x0 (s, [])).1.2.map Prod.fst
      = (List.range 8).flatMap (fun r : Nat => (List.range 8).map (fun k : Nat =>
          (⟨truncInt (x0 + k), truncInt (y0 + r),
            (t.t1.add (t.dx.smul (x0 + k - t.v1.x))).add (t.dy.smul (y0 + r - t.v1.y)),
            t.dx, t.dy, 1⟩ : Call α)))) ∧
    (∀ (x y : α) (cx : EdgeState α) (s' : σ),
      (nanGE cx.C1 (1 / sqrtf 2) && nanGE cx.C2 (1 / sqrtf 2) && nanGE cx.C3 (1 / sqrtf 2)) = true →
      partialPixel t cb (1 / sqrtf 2) (-1 / sqrtf 2) y x cx s'
        = cb s' ⟨truncInt x, truncInt y,
            (t.t1.add (t.dx.smul (x - t.v1.x))).add (t.dy.smul (y - t.v1.y)), t.dx, t.dy, 1⟩) := by
  have hcalls : blockCalls t (1 / sqrtf 2) (-1 / sqrtf 2) (sqrtf (8 * 8 / 2)) (-sqrtf (8 * 8 / 2))
      (halfEdgeConstant t.n1 t.v1) (halfEdgeConstant t.n2 t.v2) (halfEdgeConstant t.n3 t.v3) y0 x0
      = (List.range 8).flatMap (fun r : Nat => (List.range 8).map (fun k : Nat =>
          (⟨truncInt (x0 + k), truncInt (y0 + r),
            (t.t1.add (t.dx.smul (x0 + k - t.v1.x))).add (t.dy.smul (y0 + r - t.v1.y)),
            t.dx, t.dy, 1⟩ : Call α))) := by
    have ho : (nanLE (halfSpace (halfEdgeConstant t.n1 t.v1) t.n1 (x0 + (8 - 1) / 2)
          (y0 + (8 - 1) / 2)) (-sqrtf (8 * 8 / 2))
        || nanLE (halfSpace (halfEdgeConstant t.n2 t.v2) t.n2 (x0 + (8 - 1) / 2)
          (y0 + (8 - 1) / 2)) (-sqrtf (8 * 8 / 2))
        || nanLE (halfSpace (halfEdgeConstant t.n3 t.v3) t.n3 (x0 + (8 - 1) / 2)
          (y0 + (8 - 1) / 2)) (-sqrtf (8 * 8 / 2))) = false := hout
    have hi : (nanGE (halfSpace (halfEdgeConstant t.n1 t.v1) t.n1 (x0 + (8 - 1) / 2)
          (y0 + (8 - 1) / 2)) (sqrtf (8 * 8 / 2))
        && nanGE (halfSpace (halfEdgeConstant t.n2 t.v2) t.n2 (x0 + (8 - 1) / 2)
          (y0 + (8 - 1) / 2)) (sqrtf (8 * 8 / 2))
        && nanGE (halfSpace (halfEdgeConstant t.n3 t.v3) t.n3 (x0 + (8 - 1) / 2)
          (y0 + (8 - 1) / 2)) (sqrtf (8 * 8 / 2))) = true := hin
    unfold blockCalls
    rw [ho, hi, fullBlockCalls_eq]
    simp only [Bool.false_eq_true, if_false, if_true]
    refine congrArg _ (funext fun r => ?_)
    rw [flatMap_singleton_eq_map]
    rfl
  refine ⟨by rw [blockBody_eq, hcalls], ?_, ?_, ?_⟩
  · rw [length_flatMap_const _ 8 _ (fun r _ => by rw [List.length_map, List.length_range]),
      List.length_range]
  · intro hcb
    rw [blockBody_eq, hcalls]
    obtain ⟨entries, h1, _, _, _, h5, _⟩ := runCalls_record cb
      ((List.range 8).flatMap (fun r : Nat => (List.range 8).map (fun k : Nat =>
          (⟨truncInt (x0 + k), truncInt (y0 + r),
            (t.t1.add (t.dx.smul (x0 + k - t.v1.x))).add (t.dy.smul (y0 + r - t.v1.y)),
            t.dx, t.dy, 1⟩ : Call α)))) s []
    rw [h1, List.nil_append]
    exact (h5 (runCalls_always_true cb hcb _ s)).1
  · intro x y cx s' h
    unfold partialPixel
    rw [h]
    rfl

end BlockThms

section Example4

/-- C17 at the block with first pixel centre `(8.5, 8.5)` of the triangle
`(0,0), (64,0), (0,64)`: the block is accepted as fully inside and, with a
callback that always returns true, 64 invocations are made for it. -/
theorem full_block_stepping_witness :
    (Triangle.new Real.sqrt (⟨0, 0⟩ : Vector2 ℝ) ⟨64, 0⟩ ⟨0, 64⟩ ⟨1, 0, 0⟩ ⟨0, 1, 0⟩
      ⟨0, 0, 1⟩ ⟨0, 0, 0⟩ ⟨0, 0, 0⟩).anyLE (-Real.sqrt (8 * 8 / 2)) (17 / 2 + (8 - 1) / 2)
        (17 / 2 + (8 - 1) / 2) = false ∧
    (Triangle.new Real.sqrt (⟨0, 0⟩ : Vector2 ℝ) ⟨64, 0⟩ ⟨0, 64⟩ ⟨1, 0, 0⟩ ⟨0, 1, 0⟩
      ⟨0, 0, 1⟩ ⟨0, 0, 0⟩ ⟨0, 0, 0⟩).allGE (Real.sqrt (8 * 8 / 2)) (17 / 2 + (8 - 1) / 2)
        (17 / 2 + (8 - 1) / 2) = true ∧
    ((blockBody (Triangle.new Real.sqrt (⟨0, 0⟩ : Vector2 ℝ) ⟨64, 0⟩ ⟨0, 64⟩ ⟨1, 0, 0⟩ ⟨0, 1, 0⟩
        ⟨0, 0, 1⟩ ⟨0, 0, 0⟩ ⟨0, 0, 0⟩) (record alwaysTrue) (1 / Real.sqrt 2) (-1 / Real.sqrt 2) 8
        (Real.sqrt (8 * 8 / 2)) (-Real.sqrt (8 * 8 / 2))
        (halfEdgeConstant (Triangle.new Real.sqrt (⟨0, 0⟩ : Vector2 ℝ) ⟨64, 0⟩ ⟨0, 64⟩ ⟨1, 0, 0⟩
          ⟨0, 1, 0⟩ ⟨0, 0, 1⟩ ⟨0, 0, 0⟩ ⟨0, 0, 0⟩).n1 (Triangle.new Real.sqrt (⟨0, 0⟩ : Vector2 ℝ)
          ⟨64, 0⟩ ⟨0, 64⟩ ⟨1, 0, 0⟩ ⟨0, 1, 0⟩ ⟨0, 0, 1⟩ ⟨0, 0, 0⟩ ⟨0, 0, 0⟩).v1)
        (halfEdgeConstant (Triangle.new Real.sqrt (⟨0, 0⟩ : Vector2 ℝ) ⟨64, 0⟩ ⟨0, 64⟩ ⟨1, 0, 0⟩
          ⟨0, 1, 0⟩ ⟨0, 0, 1⟩ ⟨0, 0, 0⟩ ⟨0, 0, 0⟩).n2 (Triangle.new Real.sqrt (⟨0, 0⟩ : Vector2 ℝ)
          ⟨64, 0⟩ ⟨0, 64⟩ ⟨1, 0, 0⟩ ⟨0, 1, 0⟩ ⟨0, 0, 1⟩ ⟨0, 0, 0⟩ ⟨0, 0, 0⟩).v2)
        (halfEdgeConstant (Triangle.new Real.sqrt (⟨0, 0⟩ : Vector2 ℝ) ⟨64, 0⟩ ⟨0, 64⟩ ⟨1, 0, 0⟩
          ⟨0, 1, 0⟩ ⟨0, 0, 1⟩ ⟨0, 0, 0⟩ ⟨0, 0, 0⟩).n3 (Triangle.new Real.sqrt (⟨0, 0⟩ : Vector2 ℝ)
          ⟨64, 0⟩ ⟨0, 64⟩ ⟨1, 0, 0⟩ ⟨0, 1, 0⟩ ⟨0, 0, 1⟩ ⟨0, 0, 0⟩ ⟨0, 0, 0⟩).v3)
        (17 / 2) (17 / 2) ((), [])).1.2.map Prod.fst).length = 64 := by
  obtain ⟨_, h2, h3, _⟩ := full_block_stepping Real.sqrt
    (Triangle.new Real.sqrt (⟨0, 0⟩ : Vector2 ℝ) ⟨64, 0⟩ ⟨0, 64⟩ ⟨1, 0, 0⟩ ⟨0, 1, 0⟩
      ⟨0, 0, 1⟩ ⟨0, 0, 0⟩ ⟨0, 0, 0⟩) alwaysTrue (17 / 2) (17 / 2) ()
    example_block_not_anyLE example_block_allGE
  refine ⟨example_block_not_anyLE, example_block_allGE, ?_⟩
  rw [h3 (fun _ _ => rfl)]
  exact h2

end Example4

section CoverageThms

variable {α : Type} [LinearOrderedField α] [FloorRing α] {σ : Type}

/-- The clipper reports coverage `1` for a pixel all of whose square lies
within `B` of a point where the three half-space functions are at least
`B > 0`. -/
theorem pixelClip_area_of_allGE {sqrtf : α → α} (hs : IsSqrt sqrtf) (p0 p1 p2 : Vector2 α)
    (a0 a1 a2 dx0 dy0 : Vector3 α) (B x' y' x y : α) (hB : 0 < B)
    (h : (Triangle.new sqrtf p0 p1 p2 a0 a1 a2 dx0 dy0).allGE B x' y' = true)
    (hd : ∀ u v : α, |u| ≤ 1 / 2 → |v| ≤ 1 / 2 →
      (x + u - x') * (x + u - x') + (y + v - y') * (y + v - y') ≤ B * B) :
    (pixelClip (Triangle.new sqrtf p0 p1 p2 a0 a1 a2 dx0 dy0) x y).area = 1 := by
  rw [new_allGE] at h
  have hh : |(1 / 2 : α)| ≤ 1 / 2 := by rw [abs_of_pos (by norm_num)]
  have hn : |(-(1 / 2) : α)| ≤ 1 / 2 := by rw [abs_neg, abs_of_pos (by norm_num)]
  have g : ∀ u v : α, |u| ≤ 1 / 2 → |v| ≤ 1 / 2 →
      0 < cross2 p0 p1 p2 ∧ inTriangle p0 p1 p2 ⟨x + u, y + v⟩ :=
    fun u v hu hv => inTriangle_of_allGE_near hs p0 p1 p2 B x' y' hB h ⟨x + u, y + v⟩ (hd u v hu hv)
  refine pixelClip_area_of_corners sqrtf p0 p1 p2 a0 a1 a2 dx0 dy0 x y (g 0 0 (by simp) (by simp)).1
    ?_ ?_ ?_ ?_
  · have := (g (-(1 / 2)) (-(1 / 2)) hn hn).2
    rwa [← sub_eq_add_neg, ← sub_eq_add_neg] at this
  · have := (g (1 / 2) (-(1 / 2)) hh hn).2
    rwa [← sub_eq_add_neg] at this
  · exact (g (1 / 2) (1 / 2) hh hh).2
  · have := (g (-(1 / 2)) (1 / 2) hn hh).2
    rwa [← sub_eq_add_neg] at this

/-- Every invocation passes as coverage the area the clipper reports for the
pixel, also when the pixel is not handed to the clipper. -/
theorem coverage_eq_pixelClip_area {sqrtf : α → α} (hs : IsSqrt sqrtf) (p0 p1 p2 : Vector2 α)
    (a0 a1 a2 dx0 dy0 : Vector3 α) (c : Call α)
    (h : c ∈ drawCalls sqrtf (Triangle.new sqrtf p0 p1 p2 a0 a1 a2 dx0 dy0)) :
    c.coverage = (pixelClip (Triangle.new sqrtf p0 p1 p2 a0 a1 a2 dx0 dy0)
      ((c.x : α) + 1 / 2) ((c.y : α) + 1 / 2)).area := by
  obtain ⟨bY, bX, r, k, _, _, hr, hk, hc⟩ := (mem_drawCalls sqrtf _ c).mp h
  obtain ⟨hx, hy, _, _, hcase⟩ := mem_pixelCalls sqrtf _ bY bX r k c hc
  have ex := centreOf_eq (Triangle.new sqrtf p0 p1 p2 a0 a1 a2 dx0 dy0).v1.x
    (Triangle.new sqrtf p0 p1 p2 a0 a1 a2 dx0 dy0).v2.x
    (Triangle.new sqrtf p0 p1 p2 a0 a1 a2 dx0 dy0).v3.x bX k
  have ey := centreOf_eq (Triangle.new sqrtf p0 p1 p2 a0 a1 a2 dx0 dy0).v1.y
    (Triangle.new sqrtf p0 p1 p2 a0 a1 a2 dx0 dy0).v2.y
    (Triangle.new sqrtf p0 p1 p2 a0 a1 a2 dx0 dy0).v3.y bY r
  rw [← hx] at ex
  rw [← hy] at ey
  rcases hcase with ⟨h1, hall⟩ | ⟨h1, hall⟩ | ⟨h1, _⟩
  · rw [h1]
    symm
    obtain ⟨hB, hBB⟩ := bk_inside_sq hs
    refine pixelClip_area_of_allGE hs p0 p1 p2 a0 a1 a2 dx0 dy0 _ _ _ _ _ hB hall ?_
    intro u v hu hv
    rw [← ex, ← ey, hBB]
    have ax := abs_le.mp (centreOf_sub_blockCentre
      (loBound (Triangle.new sqrtf p0 p1 p2 a0 a1 a2 dx0 dy0).v1.x
        (Triangle.new sqrtf p0 p1 p2 a0 a1 a2 dx0 dy0).v2.x
        (Triangle.new sqrtf p0 p1 p2 a0 a1 a2 dx0 dy0).v3.x) bX k hk)
    have ay := abs_le.mp (centreOf_sub_blockCentre
      (loBound (Triangle.new sqrtf p0 p1 p2 a0 a1 a2 dx0 dy0).v1.y
        (Triangle.new sqrtf p0 p1 p2 a0 a1 a2 dx0 dy0).v2.y
        (Triangle.new sqrtf p0 p1 p2 a0 a1 a2 dx0 dy0).v3.y) bY r hr)
    have au := abs_le.mp hu
    have av := abs_le.mp hv
    have := sq_dist_le (centreOf (loBound (Triangle.new sqrtf p0 p1 p2 a0 a1 a2 dx0 dy0).v1.x
        (Triangle.new sqrtf p0 p1 p2 a0 a1 a2 dx0 dy0).v2.x
        (Triangle.new sqrtf p0 p1 p2 a0 a1 a2 dx0 dy0).v3.x) bX k + u
        - blockCentre (loBound (Triangle.new sqrtf p0 p1 p2 a0 a1 a2 dx0 dy0).v1.x
        (Triangle.new sqrtf p0 p1 p2 a0 a1 a2 dx0 dy0).v2.x
        (Triangle.new sqrtf p0 p1 p2 a0 a1 a2 dx0 dy0).v3.x) bX)
      (centreOf (loBound (Triangle.new sqrtf p0 p1 p2 a0 a1 a2 dx0 dy0).v1.y
        (Triangle.new sqrtf p0 p1 p2 a0 a1 a2 dx0 dy0).v2.y
        (Triangle.new sqrtf p0 p1 p2 a0 a1 a2 dx0 dy0).v3.y) bY r + v
        - blockCentre (loBound (Triangle.new sqrtf p0 p1 p2 a0 a1 a2 dx0 dy0).v1.y
        (Triangle.new sqrtf p0 p1 p2 a0 a1 a2 dx0 dy0).v2.y
        (Triangle.new sqrtf p0 p1 p2 a0 a1 a2 dx0 dy0).v3.y) bY) 4
      (by linarith only [ax.1, au.1]) (by linarith only [ax.2, au.2])
      (by linarith only [ay.1, av.1]) (by linarith only [ay.2, av.2])
    linarith only [this]
  · rw [h1]
    symm
    refine pixelClip_area_of_allGE hs p0 p1 p2 a0 a1 a2 dx0 dy0 _ _ _ _ _ (px_inside_pos hs)
      hall ?_
    intro u v hu hv
    rw [← ex, ← ey, px_inside_sq hs]
    have au := abs_le.mp hu
    have av := abs_le.mp hv
    have := sq_dist_le (centreOf (loBound (Triangle.new sqrtf p0 p1 p2 a0 a1 a2 dx0 dy0).v1.x
        (Triangle.new sqrtf p0 p1 p2 a0 a1 a2 dx0 dy0).v2.x
        (Triangle.new sqrtf p0 p1 p2 a0 a1 a2 dx0 dy0).v3.x) bX k + u
        - centreOf (loBound (Triangle.new sqrtf p0 p1 p2 a0 a1 a2 dx0 dy0).v1.x
        (Triangle.new sqrtf p0 p1 p2 a0 a1 a2 dx0 dy0).v2.x
        (Triangle.new sqrtf p0 p1 p2 a0 a1 a2 dx0 dy0).v3.x) bX k)
      (centreOf (loBound (Triangle.new sqrtf p0 p1 p2 a0 a1 a2 dx0 dy0).v1.y
        (Triangle.new sqrtf p0 p1 p2 a0 a1 a2 dx0 dy0).v2.y
        (Triangle.new sqrtf p0 p1 p2 a0 a1 a2 dx0 dy0).v3.y) bY r + v
        - centreOf (loBound (Triangle.new sqrtf p0 p1 p2 a0 a1 a2 dx0 dy0).v1.y
        (Triangle.new sqrtf p0 p1 p2 a0 a1 a2 dx0 dy0).v2.y
        (Triangle.new sqrtf p0 p1 p2 a0 a1 a2 dx0 dy0).v3.y) bY r) (1 / 2)
      (by linarith only [au.1]) (by linarith only [au.2])
      (by linarith only [av.1]) (by linarith only [av.2])
    linarith only [this]
  · rw [h1, ex, ey]

end CoverageThms

section Example5

variable {σ : Type}

/-- The triangle `(0,0), (0,10), (10,0)` clipped to `[-1/2, 1/2]^2` is the
square `[0, 1/2]^2`. -/
theorem corner_clipBoxRing :
    clipBoxRing (-(1 / 2) : ℝ) (-(1 / 2)) (1 / 2) (1 / 2) [⟨0, 0⟩, ⟨0, 10⟩, ⟨10, 0⟩]
      = [⟨0, 0⟩, ⟨0, 1 / 2⟩, ⟨1 / 2, 1 / 2⟩, ⟨1 / 2, 0⟩] := by
  have r1 : clipPath (insideV (-(1 / 2) : ℝ) (-1)) (isectV (-(1 / 2)))
      (closeRing [⟨0, 0⟩, ⟨0, 10⟩, ⟨10, 0⟩]) = [⟨0, 0⟩, ⟨0, 10⟩, ⟨10, 0⟩] := by
    norm_num [clipPath, closeRing, insideV, isectV]
  have r2 : clipPath (insideH (-(1 / 2) : ℝ) (-1)) (isectH (-(1 / 2)))
      (closeRing [⟨0, 0⟩, ⟨0, 10⟩, ⟨10, 0⟩]) = [⟨0, 0⟩, ⟨0, 10⟩, ⟨10, 0⟩] := by
    norm_num [clipPath, closeRing, insideH, isectH]
  have r3 : clipPath (insideV (1 / 2 : ℝ) 1) (isectV (1 / 2))
      (closeRing [⟨0, 0⟩, ⟨0, 10⟩, ⟨10, 0⟩])
        = [⟨0, 0⟩, ⟨0, 10⟩, ⟨1 / 2, 19 / 2⟩, ⟨1 / 2, 0⟩] := by
    norm_num [clipPath, closeRing, insideV, isectV]
  have r4 : clipPath (insideH (1 / 2 : ℝ) 1) (isectH (1 / 2))
      (closeRing [⟨0, 0⟩, ⟨0, 10⟩, ⟨1 / 2, 19 / 2⟩, ⟨1 / 2, 0⟩])
        = [⟨0, 0⟩, ⟨0, 1 / 2⟩, ⟨1 / 2, 1 / 2⟩, ⟨1 / 2, 0⟩] := by
    norm_num [clipPath, closeRing, insideH, isectH]
  simp only [clipBoxRing]
  rw [r1, r2, r3, r4]

/-- The clipper reports the area `1/4` for the corner pixel `(0, 0)` of the
triangle `(0.5,0.5), (10.5,0.5), (0.5,10.5)`. -/
theorem corner_pixelClip_area (a0 a1 a2 dx0 dy0 : Vector3 ℝ) :
    (pixelClip (Triangle.new Real.sqrt (⟨1 / 2, 1 / 2⟩ : Vector2 ℝ) ⟨21 / 2, 1 / 2⟩
      ⟨1 / 2, 21 / 2⟩ a0 a1 a2 dx0 dy0) (((0 : ℤ) : ℝ) + 1 / 2) (((0 : ℤ) : ℝ) + 1 / 2)).area
      = 1 / 4 := by
  rw [pixelClip_new, clipAABox_area, ClippedTriangle.new_vertices]
  have e0 : (⟨1 / 2, 1 / 2⟩ : Vector2 ℝ).sub ⟨((0 : ℤ) : ℝ) + 1 / 2, ((0 : ℤ) : ℝ) + 1 / 2⟩
      = ⟨0, 0⟩ := by norm_num [Vector2.sub]
  have e1 : (⟨1 / 2, 21 / 2⟩ : Vector2 ℝ).sub ⟨((0 : ℤ) : ℝ) + 1 / 2, ((0 : ℤ) : ℝ) + 1 / 2⟩
      = ⟨0, 10⟩ := by norm_num [Vector2.sub]
  have e2 : (⟨21 / 2, 1 / 2⟩ : Vector2 ℝ).sub ⟨((0 : ℤ) : ℝ) + 1 / 2, ((0 : ℤ) : ℝ) + 1 / 2⟩
      = ⟨10, 0⟩ := by norm_num [Vector2.sub]
  rw [e0, e1, e2, corner_clipBoxRing]
  norm_num [closeRing, pathSum, shoelace]
  rw [abs_of_pos (by norm_num)]
  norm_num

/-- With a callback that always returns true, `drawAA` on the triangle
`(0.5,0.5), (10.5,0.5), (0.5,10.5)` invokes the callback for the pixel
`(0, 0)`, and every invocation for that pixel passes coverage `1/4`. -/
theorem corner_pixel_calls (a0 a1 a2 dx0 dy0 : Vector3 ℝ) (cb : SamplingCallback σ ℝ)
    (hcb : ∀ s c, (cb s c).2 = true) (s : σ) :
    (∃ e ∈ ((Triangle.new Real.sqrt (⟨1 / 2, 1 / 2⟩ : Vector2 ℝ) ⟨21 / 2, 1 / 2⟩ ⟨1 / 2, 21 / 2⟩
        a0 a1 a2 dx0 dy0).drawAA Real.sqrt (record cb) (s, [])).1.2,
      e.1.x = 0 ∧ e.1.y = 0 ∧ e.1.coverage = 1 / 4) ∧
    ∀ e ∈ ((Triangle.new Real.sqrt (⟨1 / 2, 1 / 2⟩ : Vector2 ℝ) ⟨21 / 2, 1 / 2⟩ ⟨1 / 2, 21 / 2⟩
        a0 a1 a2 dx0 dy0).drawAA Real.sqrt (record cb) (s, [])).1.2,
      e.1.x = 0 → e.1.y = 0 → e.1.coverage = 1 / 4 := by
  have hall : ∀ e ∈ ((Triangle.new Real.sqrt (⟨1 / 2, 1 / 2⟩ : Vector2 ℝ) ⟨21 / 2, 1 / 2⟩
      ⟨1 / 2, 21 / 2⟩ a0 a1 a2 dx0 dy0).drawAA Real.sqrt (record cb) (s, [])).1.2,
      e.1.x = 0 → e.1.y = 0 → e.1.coverage = 1 / 4 := by
    intro e he hx hy
    have hm := mem_drawCalls_of_mem_log Real.sqrt _ cb s e he
    rw [coverage_eq_pixelClip_area isSqrt_real _ _ _ _ _ _ _ _ _ hm, hx, hy]
    exact corner_pixelClip_area a0 a1 a2 dx0 dy0
  refine ⟨?_, hall⟩
  obtain ⟨c, hc, hx, hy⟩ := call_of_overlap isSqrt_real (⟨1 / 2, 1 / 2⟩ : Vector2 ℝ)
    ⟨21 / 2, 1 / 2⟩ ⟨1 / 2, 21 / 2⟩ a0 a1 a2 dx0 dy0 0 0 (le_refl _) (le_refl _) ⟨3 / 4, 3 / 4⟩
    (by norm_num [cross2]) (by norm_num [cross2]) (by norm_num [cross2])
    (by norm_num) (by norm_num) (by norm_num) (by norm_num)
  rw [← log_of_always_true Real.sqrt _ cb hcb s] at hc
  obtain ⟨e, he, heq⟩ := List.mem_map.mp hc
  exact ⟨e, he, by rw [heq, hx], by rw [heq, hy],
    hall e he (by rw [heq, hx]) (by rw [heq, hy])⟩

/-- C13: for the triangle `(0.5,0.5), (10.5,0.5), (0.5,10.5)` with attributes
`(1,0,0), (0,1,0), (0,0,1)`, run with a callback that always returns true,
`drawAA` invokes the callback for the corner pixel `(0, 0)`, and the coverage
it passes for that pixel is exactly `1/4`: the right-angle corner at
`(0.5, 0.5)` covers the quarter `[0.5, 1] x [0.5, 1]` of the pixel. -/
theorem corner_pixel_coverage_quarter (dx0 dy0 : Vector3 ℝ) (cb : SamplingCallback σ ℝ)
    (hcb : ∀ s c, (cb s c).2 = true) (s : σ) :
    (∃ e ∈ ((Triangle.new Real.sqrt (⟨1 / 2, 1 / 2⟩ : Vector2 ℝ) ⟨21 / 2, 1 / 2⟩ ⟨1 / 2, 21 / 2⟩
        ⟨1, 0, 0⟩ ⟨0, 1, 0⟩ ⟨0, 0, 1⟩ dx0 dy0).drawAA Real.sqrt (record cb) (s, [])).1.2,
      e.1.x = 0 ∧ e.1.y = 0 ∧ e.1.coverage = 1 / 4) ∧
    ∀ e ∈ ((Triangle.new Real.sqrt (⟨1 / 2, 1 / 2⟩ : Vector2 ℝ) ⟨21 / 2, 1 / 2⟩ ⟨1 / 2, 21 / 2⟩
        ⟨1, 0, 0⟩ ⟨0, 1, 0⟩ ⟨0, 0, 1⟩ dx0 dy0).drawAA Real.sqrt (record cb) (s, [])).1.2,
      e.1.x = 0 → e.1.y = 0 → e.1.coverage = 1 / 4 :=
  corner_pixel_calls ⟨1, 0, 0⟩ ⟨0, 1, 0⟩ ⟨0, 0, 1⟩ dx0 dy0 cb hcb s

/-- C13 with the callback that always returns true and no state. -/
theorem corner_pixel_coverage_quarter_witness :
    (∀ (s : Unit) (c : Call ℝ), (alwaysTrue s c).2 = true) ∧
    ∃ e ∈ ((Triangle.new Real.sqrt (⟨1 / 2, 1 / 2⟩ : Vector2 ℝ) ⟨21 / 2, 1 / 2⟩ ⟨1 / 2, 21 / 2⟩
        ⟨1, 0, 0⟩ ⟨0, 1, 0⟩ ⟨0, 0, 1⟩ ⟨0, 0, 0⟩ ⟨0, 0, 0⟩).drawAA Real.sqrt (record alwaysTrue)
        ((), [])).1.2,
      e.1.x = 0 ∧ e.1.y = 0 ∧ e.1.coverage = 1 / 4 :=
  ⟨fun _ _ => rfl,
    (corner_pixel_coverage_quarter ⟨0, 0, 0⟩ ⟨0, 0, 0⟩ alwaysTrue (fun _ _ => rfl) ()).1⟩

/-- The coverage passed for the corner pixel `(0, 0)` of the triangle
`(0.5,0.5), (10.5,0.5), (0.5,10.5)` is not approximately `0.5`: the pixel gets
an invocation, and every invocation for it passes a coverage at distance
`1/4` from `1/2`. -/
theorem corner_pixel_coverage_not_half_counterexample :
    (∃ e ∈ ((Triangle.new Real.sqrt (⟨1 / 2, 1 / 2⟩ : Vector2 ℝ) ⟨21 / 2, 1 / 2⟩ ⟨1 / 2, 21 / 2⟩
        ⟨1, 0, 0⟩ ⟨0, 1, 0⟩ ⟨0, 0, 1⟩ ⟨0, 0, 0⟩ ⟨0, 0, 0⟩).drawAA Real.sqrt (record alwaysTrue)
        ((), [])).1.2, e.1.x = 0 ∧ e.1.y = 0) ∧
    ∀ e ∈ ((Triangle.new Real.sqrt (⟨1 / 2, 1 / 2⟩ : Vector2 ℝ) ⟨21 / 2, 1 / 2⟩ ⟨1 / 2, 21 / 2⟩
        ⟨1, 0, 0⟩ ⟨0, 1, 0⟩ ⟨0, 0, 1⟩ ⟨0, 0, 0⟩ ⟨0, 0, 0⟩).drawAA Real.sqrt (record alwaysTrue)
        ((), [])).1.2,
      e.1.x = 0 → e.1.y = 0 → |e.1.coverage - 1 / 2| = 1 / 4 := by
  obtain ⟨⟨e, he, hx, hy, _⟩, hall⟩ := corner_pixel_calls (⟨1, 0, 0⟩ : Vector3 ℝ) ⟨0, 1, 0⟩
    ⟨0, 0, 1⟩ ⟨0, 0, 0⟩ ⟨0, 0, 0⟩ alwaysTrue (fun _ _ => rfl) ()
  refine ⟨⟨e, he, hx, hy⟩, fun e' he' hx' hy' => ?_⟩
  rw [hall e' he' hx' hy']
  norm_num [abs_of_neg]

end Example5

section CountThms

variable {α : Type} [LinearOrderedField α]

theorem changes_cons_cons (g : Vector2 α → Bool) (a b : Vector2 α) (rest : List (Vector2 α)) :
    changes g (a :: b :: rest) = (if g a != g b then 1 else 0) + changes g (b :: rest) := rfl

theorem changes_head (g : Vector2 α → Bool) (a c : Vector2 α) :
    ∀ l : List (Vector2 α),
      changes g (a :: l) ≤ (if g a != g c then 1 else 0) + changes g (c :: l)
  | [] => by simp [changes]
  | b :: l => by
    rw [changes_cons_cons, changes_cons_cons]
    cases g a <;> cases g b <;> cases g c <;> simp <;> omega

theorem changes_tail_le (g : Vector2 α → Bool) (a : Vector2 α) :
    ∀ l : List (Vector2 α), changes g l ≤ changes g (a :: l)
  | [] => by simp [changes]
  | b :: l => by rw [changes_cons_cons]; omega

theorem changes_sublist_aux (g : Vector2 α → Bool) {l₁ l₂ : List (Vector2 α)} (h : List.Sublist l₁ l₂) :
    changes g l₁ ≤ changes g l₂ ∧ ∀ a, changes g (a :: l₁) ≤ changes g (a :: l₂) := by
  induction h with
  | slnil => exact ⟨le_refl _, fun a => le_refl _⟩
  | cons c _ ih =>
    refine ⟨le_trans ih.1 (changes_tail_le g c _), fun a => ?_⟩
    rw [changes_cons_cons]
    exact le_trans (changes_head g a c _) (Nat.add_le_add_left (ih.2 c) _)
  | cons₂ b _ ih =>
    refine ⟨ih.2 b, fun a => ?_⟩
    rw [changes_cons_cons, changes_cons_cons]
    exact Nat.add_le_add_left (ih.2 b) _

/-- Leaving vertices out of a path does not add changes. -/
theorem changes_sublist (g : Vector2 α → Bool) {l₁ l₂ : List (Vector2 α)} (h : List.Sublist l₁ l₂) :
    changes g l₁ ≤ changes g l₂ :=
  (changes_sublist_aux g h).1

theorem changes_parity (g : Vector2 α → Bool) (z : Vector2 α) :
    ∀ (l : List (Vector2 α)) (a : Vector2 α),
      changes g (a :: (l ++ [z])) % 2 = if g a != g z then 1 else 0
  | [], a => by
    simp only [List.nil_append, changes]
    cases g a <;> cases g z <;> simp
  | b :: l, a => by
    rw [List.cons_append, changes_cons_cons, Nat.add_mod, changes_parity g z l b]
    cases g a <;> cases g b <;> cases g z <;> simp

/-- Around a closed ring `g` changes an even number of times. -/
theorem changes_closeRing_even (g : Vector2 α → Bool) (vs : List (Vector2 α)) :
    changes g (closeRing vs) % 2 = 0 := by
  cases vs with
  | nil => simp [closeRing, changes]
  | cons a l =>
    rw [closeRing_cons, changes_parity]
    simp

theorem changes_append_singleton (g : Vector2 α → Bool) (q : Vector2 α) :
    ∀ l : List (Vector2 α), changes g (l ++ [q]) ≤ changes g l + 1
  | [] => by simp [changes]
  | [a] => by
    simp only [List.singleton_append, changes]
    split <;> omega
  | a :: b :: l => by
    rw [List.cons_append, List.cons_append, changes_cons_cons, changes_cons_cons]
    have := changes_append_singleton g q (b :: l)
    rw [List.cons_append] at this
    omega

/-- Inserting the intersection vertices of a clip pass does not change the
number of changes of `g`, when `g` at a point inserted on an edge is `g` at
one of the ends of the edge. -/
theorem changes_crossPath (g ins : Vector2 α → Bool)
    (isect : Vector2 α → Vector2 α → Vector2 α)
    (hb : ∀ a b, (ins a != ins b) = true → g (isect a b) = g a ∨ g (isect a b) = g b) :
    ∀ p : List (Vector2 α), changes g (crossPath ins isect p) = changes g p
  | [] => rfl
  | [a] => rfl
  | a :: b :: rest => by
    have ih := changes_crossPath g ins isect hb (b :: rest)
    have hc : ∃ tl, crossPath ins isect (b :: rest) = b :: tl := by
      cases rest with
      | nil => exact ⟨[], rfl⟩
      | cons c r => exact ⟨_, rfl⟩
    obtain ⟨tl, htl⟩ := hc
    rw [changes_cons_cons]
    by_cases hs : (ins a != ins b) = true
    · have e : crossPath ins isect (a :: b :: rest) = a :: isect a b :: b :: tl := by
        simp only [crossPath, hs, if_true, htl]
        rfl
      rw [e, changes_cons_cons, changes_cons_cons, ← htl, ih]
      rcases hb a b hs with h | h <;> rw [h] <;> cases g a <;> cases g b <;> simp
    · have e : crossPath ins isect (a :: b :: rest) = a :: b :: tl := by
        simp only [crossPath, hs, htl]
        rfl
      rw [e, changes_cons_cons, ← htl, ih]

/-- The output of a clip pass is a part of the path with the intersection
vertices inserted. -/
theorem clipPath_sublist_crossPath (ins : Vector2 α → Bool)
    (isect : Vector2 α → Vector2 α → Vector2 α) :
    ∀ p : List (Vector2 α), List.Sublist (clipPath ins isect p) (crossPath ins isect p)
  | [] => by simp [clipPath, crossPath]
  | [a] => by simp [clipPath, crossPath]
  | a :: b :: rest => by
    have ih := clipPath_sublist_crossPath ins isect (b :: rest)
    simp only [clipPath, crossPath]
    refine List.Sublist.append ?_ ih
    by_cases ha : ins a = true
    · simp [ha]
    · simp only [ha, Bool.false_eq_true, if_false, List.nil_append]
      exact List.sublist_cons_self _ _

/-- A clip pass does not raise above two the number of changes, around the
ring, of a function `g` that at an inserted vertex takes the value it has at
an end of the edge. -/
theorem changes_clipPath_closeRing (g ins : Vector2 α → Bool)
    (isect : Vector2 α → Vector2 α → Vector2 α)
    (hb : ∀ a b, (ins a != ins b) = true → g (isect a b) = g a ∨ g (isect a b) = g b)
    (vs : List (Vector2 α)) (h : changes g (closeRing vs) ≤ 2) :
    changes g (closeRing (clipPath ins isect (closeRing vs))) ≤ 2 := by
  have h1 : List.Sublist (closeRing (clipPath ins isect (closeRing vs)))
      (crossPath ins isect (closeRing vs)
        ++ [(clipPath ins isect (closeRing vs)).headD Vector2.zero]) :=
    List.Sublist.append (clipPath_sublist_crossPath ins isect _) (List.Sublist.refl _)
  have h2 := changes_sublist g h1
  have h3 := changes_append_singleton g ((clipPath ins isect (closeRing vs)).headD Vector2.zero)
    (crossPath ins isect (closeRing vs))
  rw [changes_crossPath g ins isect hb] at h3
  have h4 := changes_closeRing_even g (clipPath ins isect (closeRing vs))
  omega

theorem length_clipPath (ins : Vector2 α → Bool) (isect : Vector2 α → Vector2 α → Vector2 α) :
    ∀ (l : List (Vector2 α)) (a : Vector2 α),
      (clipPath ins isect (a :: l)).length
        = ((a :: l).dropLast).countP ins + changes ins (a :: l)
  | [], a => by simp [clipPath, changes]
  | b :: l, a => by
    have ih := length_clipPath ins isect l b
    rw [changes_cons_cons]
    simp only [clipPath, List.length_append, ih, List.dropLast_cons₂, List.countP_cons]
    cases ins a <;> cases ins b <;> simp <;> omega

theorem changes_eq_zero_of_all (g : Vector2 α → Bool) :
    ∀ l : List (Vector2 α), (∀ v ∈ l, g v = true) → changes g l = 0
  | [], _ => rfl
  | [a], _ => rfl
  | a :: b :: l, h => by
    rw [changes_cons_cons, h a (by simp), h b (by simp),
      changes_eq_zero_of_all g (b :: l) (fun v hv => h v (List.mem_cons_of_mem _ hv))]
    simp

/-- A clip pass over a ring around which the inside test changes at most
twice adds at most one vertex. -/
theorem length_clipPath_closeRing_le (ins : Vector2 α → Bool)
    (isect : Vector2 α → Vector2 α → Vector2 α) (vs : List (Vector2 α))
    (h : changes ins (closeRing vs) ≤ 2) :
    (clipPath ins isect (closeRing vs)).length ≤ vs.length + 1 := by
  cases vs with
  | nil => simp [closeRing, clipPath]
  | cons a l =>
    rw [closeRing_cons] at h ⊢
    rw [length_clipPath]
    have hd : (a :: (l ++ [a])).dropLast = a :: l := by
      have : a :: (l ++ [a]) = (a :: l) ++ [a] := rfl
      rw [this, List.dropLast_concat]
    rw [hd]
    have hle := List.countP_le_length ins (l := a :: l)
    by_cases hall : ∀ v ∈ a :: l, ins v = true
    · have : changes ins (a :: (l ++ [a])) = 0 := by
        refine changes_eq_zero_of_all ins _ (fun v hv => ?_)
        rcases List.mem_cons.mp hv with e | hv
        · rw [e]; exact hall _ (List.mem_cons_self _ _)
        · rcases List.mem_append.mp hv with hv | hv
          · exact hall v (List.mem_cons_of_mem _ hv)
          · rw [List.mem_singleton.mp hv]; exact hall _ (List.mem_cons_self _ _)
      omega
    · have hlt : (a :: l).countP ins < (a :: l).length := by
        rcases Nat.lt_or_ge ((a :: l).countP ins) (a :: l).length with h' | h'
        · exact h'
        · exact absurd (fun v hv => (List.countP_eq_length.mp (le_antisymm hle h')) v hv) hall
      omega

end CountThms

section CountThms2

variable {α : Type} [LinearOrderedField α]

theorem convexPred_not_insideV (off dir : α) :
    ConvexPred (fun v : Vector2 α => insideV off dir v = false) := by
  intro p q t hp hq h0 h1
  simp only [insideV_eq_false] at hp hq ⊢
  have e : dir * (off - (lerp p q t).x)
      = (1 - t) * (dir * (off - p.x)) + t * (dir * (off - q.x)) := by
    simp only [lerp]; ring
  rw [e]
  rcases h0.lt_or_eq with ht | ht
  · have := mul_neg_of_pos_of_neg ht hq
    have := mul_nonpos_of_nonneg_of_nonpos (sub_nonneg.mpr h1) hp.le
    linarith
  · rw [← ht]; simpa using hp

theorem convexPred_not_insideH (off dir : α) :
    ConvexPred (fun v : Vector2 α => insideH off dir v = false) := by
  intro p q t hp hq h0 h1
  simp only [insideH_eq_false] at hp hq ⊢
  have e : dir * (off - (lerp p q t).y)
      = (1 - t) * (dir * (off - p.y)) + t * (dir * (off - q.y)) := by
    simp only [lerp]; ring
  rw [e]
  rcases h0.lt_or_eq with ht | ht
  · have := mul_neg_of_pos_of_neg ht hq
    have := mul_nonpos_of_nonneg_of_nonpos (sub_nonneg.mpr h1) hp.le
    linarith
  · rw [← ht]; simpa using hp

/-- On a segment, a test that holds on a convex set and fails on a convex set
takes the value it has at one of the ends. -/
theorem between_of_convex (g : Vector2 α → Bool) (h1 : ConvexPred (fun v => g v = true))
    (h0 : ConvexPred (fun v => g v = false)) (a b : Vector2 α) (t : α) (ht0 : 0 ≤ t)
    (ht1 : t ≤ 1) : g (lerp a b t) = g a ∨ g (lerp a b t) = g b := by
  cases ha : g a <;> cases hb : g b
  · exact Or.inl (h0 a b t ha hb ht0 ht1)
  · cases g (lerp a b t) <;> simp
  · cases g (lerp a b t) <;> simp
  · exact Or.inl (h1 a b t ha hb ht0 ht1)

theorem changes_le_length (g : Vector2 α → Bool) :
    ∀ l : List (Vector2 α), changes g l ≤ l.length - 1
  | [] => by simp [changes]
  | [a] => by simp [changes]
  | a :: b :: l => by
    have := changes_le_length g (b :: l)
    rw [changes_cons_cons]
    simp only [List.length_cons] at this ⊢
    split <;> omega

theorem atMostTwoChanges_of_length (vs : List (Vector2 α)) (h : vs.length ≤ 3) :
    AtMostTwoChanges vs := by
  intro off dir
  have hl : (closeRing vs).length ≤ 4 := by
    simp only [closeRing, List.length_append, List.length_singleton]; omega
  have h1 := changes_le_length (insideV off dir) (closeRing vs)
  have h2 := changes_le_length (insideH off dir) (closeRing vs)
  have e1 := changes_closeRing_even (insideV off dir) vs
  have e2 := changes_closeRing_even (insideH off dir) vs
  constructor <;> omega

theorem atMostTwoChanges_clipV (off dir : α) (vs : List (Vector2 α))
    (h : AtMostTwoChanges vs) :
    AtMostTwoChanges (clipPath (insideV off dir) (isectV off) (closeRing vs)) := by
  intro off' dir'
  constructor
  · refine changes_clipPath_closeRing _ _ _ (fun a b hab => ?_) vs (h off' dir').1
    obtain ⟨t, h0, h1, e⟩ := isectV_eq_lerp off dir a b hab
    rw [e]
    exact between_of_convex _ (convexPred_insideV off' dir') (convexPred_not_insideV off' dir')
      a b t h0 h1
  · refine changes_clipPath_closeRing _ _ _ (fun a b hab => ?_) vs (h off' dir').2
    obtain ⟨t, h0, h1, e⟩ := isectV_eq_lerp off dir a b hab
    rw [e]
    exact between_of_convex _ (convexPred_insideH off' dir') (convexPred_not_insideH off' dir')
      a b t h0 h1

theorem atMostTwoChanges_clipH (off dir : α) (vs : List (Vector2 α))
    (h : AtMostTwoChanges vs) :
    AtMostTwoChanges (clipPath (insideH off dir) (isectH off) (closeRing vs)) := by
  intro off' dir'
  constructor
  · refine changes_clipPath_closeRing _ _ _ (fun a b hab => ?_) vs (h off' dir').1
    obtain ⟨t, h0, h1, e⟩ := isectH_eq_lerp off dir a b hab
    rw [e]
    exact between_of_convex _ (convexPred_insideV off' dir') (convexPred_not_insideV off' dir')
      a b t h0 h1
  · refine changes_clipPath_closeRing _ _ _ (fun a b hab => ?_) vs (h off' dir').2
    obtain ⟨t, h0, h1, e⟩ := isectH_eq_lerp off dir a b hab
    rw [e]
    exact between_of_convex _ (convexPred_insideH off' dir') (convexPred_not_insideH off' dir')
      a b t h0 h1

/-- In exact arithmetic, for every triangle and every box, the vertex count
after the four clip passes of `clipAABox` is at most 4, 5, 6 and 7, so
`m_numVertices <= 7` throughout: the output slots `v2[p++]` (with `p` below the count after the
pass), the closing slot `v[m_numVertices]` and the slots `v[k + 1]` with
`k < m_numVertices` all have an index below 8, the size of `m_verticesA` and
`m_verticesB`. -/
theorem clipAABox_vertex_count_le_seven (a b c : Vector2 α) (x0 y0 x1 y1 : α) :
    ((ClippedTriangle.new a b c).clipVerticalPlane x0 (-1)).m_numVertices ≤ 4 ∧
    (((ClippedTriangle.new a b c).clipVerticalPlane x0 (-1)).clipHorizontalPlane y0
      (-1)).m_numVertices ≤ 5 ∧
    ((((ClippedTriangle.new a b c).clipVerticalPlane x0 (-1)).clipHorizontalPlane y0
      (-1)).clipVerticalPlane x1 1).m_numVertices ≤ 6 ∧
    (((((ClippedTriangle.new a b c).clipVerticalPlane x0 (-1)).clipHorizontalPlane y0
      (-1)).clipVerticalPlane x1 1).clipHorizontalPlane y1 1).m_numVertices ≤ 7 ∧
    ((ClippedTriangle.new a b c).clipAABox x0 y0 x1 y1).m_numVertices ≤ 7 ∧
    ((ClippedTriangle.new a b c).clipAABox x0 y0 x1 y1).m_numVertices < 7 + 1 := by
  have c0 : AtMostTwoChanges [a, b, c] := atMostTwoChanges_of_length _ (by simp)
  have c1 := atMostTwoChanges_clipV x0 (-1) _ c0
  have c2 := atMostTwoChanges_clipH y0 (-1) _ c1
  have c3 := atMostTwoChanges_clipV x1 1 _ c2
  have l1 := length_clipPath_closeRing_le (insideV x0 (-1)) (isectV x0) [a, b, c]
    (c0 x0 (-1)).1
  have l2 := length_clipPath_closeRing_le (insideH y0 (-1)) (isectH y0) _ (c1 y0 (-1)).2
  have l3 := length_clipPath_closeRing_le (insideV x1 1) (isectV x1) _ (c2 x1 1).1
  have l4 := length_clipPath_closeRing_le (insideH y1 1) (isectH y1) _ (c3 y1 1).2
  simp only [List.length_cons, List.length_nil] at l1
  have l5 : ((ClippedTriangle.new a b c).clipAABox x0 y0 x1 y1).m_numVertices ≤ 7 := by
    rw [ClippedTriangle.m_numVertices, clipAABox_vertices, ClippedTriangle.new_vertices]
    simp only [clipBoxRing]
    omega
  simp only [ClippedTriangle.m_numVertices, clipHorizontalPlane_vertices,
    clipVerticalPlane_vertices, ClippedTriangle.new_vertices]
  refine ⟨by omega, by omega, by omega, by omega, ?_, ?_⟩
  · simpa [ClippedTriangle.m_numVertices] using l5
  · have := l5
    simp only [ClippedTriangle.m_numVertices] at this
    omega

end CountThms2

section CentroidThms

variable {α : Type} [LinearOrderedField α] [FloorRing α] {σ : Type}

/-- What a call made for pixel `(k, r)` of block `(bX, bY)` passes as
attribute. -/
theorem mem_pixelCalls_bar (sqrtf : α → α) (t : Triangle α) (bY bX r k : Nat) (c : Call α)
    (h : c ∈ pixelCalls sqrtf t bY bX r k) :
    (c.coverage = 1 ∧
      (t.allGE (sqrtf (8 * 8 / 2)) (blockCentre (loBound t.v1.x t.v2.x t.v3.x) bX)
          (blockCentre (loBound t.v1.y t.v2.y t.v3.y) bY) = true ∨
       t.allGE (1 / sqrtf 2) (centreOf (loBound t.v1.x t.v2.x t.v3.x) bX k)
          (centreOf (loBound t.v1.y t.v2.y t.v3.y) bY r) = true) ∧
      c.bar = t.interp ⟨centreOf (loBound t.v1.x t.v2.x t.v3.x) bX k,
            centreOf (loBound t.v1.y t.v2.y t.v3.y) bY r⟩) ∨
    (t.allGE (sqrtf (8 * 8 / 2)) (blockCentre (loBound t.v1.x t.v2.x t.v3.x) bX)
          (blockCentre (loBound t.v1.y t.v2.y t.v3.y) bY) = false ∧
      t.allGE (1 / sqrtf 2) (centreOf (loBound t.v1.x t.v2.x t.v3.x) bX k)
          (centreOf (loBound t.v1.y t.v2.y t.v3.y) bY r) = false ∧
      c.coverage = (pixelClip t (centreOf (loBound t.v1.x t.v2.x t.v3.x) bX k)
          (centreOf (loBound t.v1.y t.v2.y t.v3.y) bY r)).area ∧
      0 < (pixelClip t (centreOf (loBound t.v1.x t.v2.x t.v3.x) bX k)
          (centreOf (loBound t.v1.y t.v2.y t.v3.y) bY r)).area ∧
      c.bar = ((t.interp ⟨centreOf (loBound t.v1.x t.v2.x t.v3.x) bX k,
                centreOf (loBound t.v1.y t.v2.y t.v3.y) bY r⟩).sub
              (t.dx.smul (pixelClip t (centreOf (loBound t.v1.x t.v2.x t.v3.x) bX k)
                (centreOf (loBound t.v1.y t.v2.y t.v3.y) bY r)).centroid.x)).sub
              (t.dy.smul (pixelClip t (centreOf (loBound t.v1.x t.v2.x t.v3.x) bX k)
                (centreOf (loBound t.v1.y t.v2.y t.v3.y) bY r)).centroid.y)) := by
  rw [pixelCalls_eq] at h
  split_ifs at h with h1 h2 h3 h4 h5
  · simp at h
  · rw [List.mem_singleton] at h
    subst h
    exact Or.inl ⟨rfl, Or.inl h2, rfl⟩
  · rw [List.mem_singleton] at h
    subst h
    exact Or.inl ⟨rfl, Or.inr h3, rfl⟩
  · rw [List.mem_singleton] at h
    subst h
    exact Or.inr ⟨by simpa using h2, by simpa using h3, rfl, h5, rfl⟩
  · simp at h
  · simp at h

/-- The centroid the clipper reports for a pixel of positive coverage: the
area centroid of the clipped polygon for a triangle given clockwise, its
mirror image in the pixel centre for a triangle given counter-clockwise. -/
theorem pixelClip_centroid (sqrtf : α → α) (p0 p1 p2 : Vector2 α)
    (a0 a1 a2 dx0 dy0 : Vector3 α) (x y : α)
    (hA : 0 < (pixelClip (Triangle.new sqrtf p0 p1 p2 a0 a1 a2 dx0 dy0) x y).area) :
    (0 ≤ cross2 p0 p1 p2 →
      (pixelClip (Triangle.new sqrtf p0 p1 p2 a0 a1 a2 dx0 dy0) x y).centroid
        = ⟨-(polygonCentroid
              (pixelClip (Triangle.new sqrtf p0 p1 p2 a0 a1 a2 dx0 dy0) x y).m_vertices).x,
           -(polygonCentroid
              (pixelClip (Triangle.new sqrtf p0 p1 p2 a0 a1 a2 dx0 dy0) x y).m_vertices).y⟩) ∧
    (cross2 p0 p1 p2 ≤ 0 →
      (pixelClip (Triangle.new sqrtf p0 p1 p2 a0 a1 a2 dx0 dy0) x y).centroid
        = polygonCentroid
            (pixelClip (Triangle.new sqrtf p0 p1 p2 a0 a1 a2 dx0 dy0) x y).m_vertices) := by
  have hne : (pixelClip (Triangle.new sqrtf p0 p1 p2 a0 a1 a2 dx0 dy0) x y).area ≠ 0 :=
    ne_of_gt hA
  have hcen : (pixelClip (Triangle.new sqrtf p0 p1 p2 a0 a1 a2 dx0 dy0) x y).centroid
      = ⟨pathSum centroidTermX (closeRing
            (pixelClip (Triangle.new sqrtf p0 p1 p2 a0 a1 a2 dx0 dy0) x y).m_vertices)
          / (6 * (pixelClip (Triangle.new sqrtf p0 p1 p2 a0 a1 a2 dx0 dy0) x y).area),
         pathSum centroidTermY (closeRing
            (pixelClip (Triangle.new sqrtf p0 p1 p2 a0 a1 a2 dx0 dy0) x y).m_vertices)
          / (6 * (pixelClip (Triangle.new sqrtf p0 p1 p2 a0 a1 a2 dx0 dy0) x y).area)⟩ := by
    unfold pixelClip at hne ⊢
    rw [clipAABox_centroid, if_neg hne, clipAABox_vertices]
  have hS : pathSum shoelace (closeRing
      (pixelClip (Triangle.new sqrtf p0 p1 p2 a0 a1 a2 dx0 dy0) x y).m_vertices)
      = clipSum (-(1 / 2)) (-(1 / 2)) (1 / 2) (1 / 2) (p0.sub ⟨x, y⟩) (p2.sub ⟨x, y⟩)
          (p1.sub ⟨x, y⟩) := by
    rw [pixelClip_new, clipAABox_vertices, ClippedTriangle.new_vertices]
    rfl
  have hArea : (pixelClip (Triangle.new sqrtf p0 p1 p2 a0 a1 a2 dx0 dy0) x y).area
      = (1 / 2) * |clipSum (-(1 / 2)) (-(1 / 2)) (1 / 2) (1 / 2) (p0.sub ⟨x, y⟩)
          (p2.sub ⟨x, y⟩) (p1.sub ⟨x, y⟩)| := by
    rw [pixelClip_new, clipAABox_area_eq_clipSum]
  have hcr : cross2 (p0.sub ⟨x, y⟩) (p2.sub ⟨x, y⟩) (p1.sub ⟨x, y⟩) = -cross2 p0 p1 p2 := by
    rw [cross2_translate, cross2_swap]
  constructor
  · intro hD
    have hsign := clipSum_sign (-1 : α) (-(1 / 2)) (-(1 / 2)) (1 / 2) (1 / 2) (p0.sub ⟨x, y⟩)
      (p2.sub ⟨x, y⟩) (p1.sub ⟨x, y⟩) (by rw [hcr]; linarith)
    have habs : |clipSum (-(1 / 2) : α) (-(1 / 2)) (1 / 2) (1 / 2) (p0.sub ⟨x, y⟩)
        (p2.sub ⟨x, y⟩) (p1.sub ⟨x, y⟩)|
        = -clipSum (-(1 / 2)) (-(1 / 2)) (1 / 2) (1 / 2) (p0.sub ⟨x, y⟩) (p2.sub ⟨x, y⟩)
          (p1.sub ⟨x, y⟩) := abs_of_nonpos (by linarith)
    rw [hcen, polygonCentroid, hArea, hS, habs]
    have e6 : (6 : α) * (1 / 2 * -clipSum (-(1 / 2)) (-(1 / 2)) (1 / 2) (1 / 2) (p0.sub ⟨x, y⟩)
        (p2.sub ⟨x, y⟩) (p1.sub ⟨x, y⟩))
        = -(6 * (1 / 2 * clipSum (-(1 / 2)) (-(1 / 2)) (1 / 2) (1 / 2) (p0.sub ⟨x, y⟩)
          (p2.sub ⟨x, y⟩) (p1.sub ⟨x, y⟩))) := by ring
    rw [e6, div_neg, div_neg]
  · intro hD
    have hsign := clipSum_sign (1 : α) (-(1 / 2)) (-(1 / 2)) (1 / 2) (1 / 2) (p0.sub ⟨x, y⟩)
      (p2.sub ⟨x, y⟩) (p1.sub ⟨x, y⟩) (by rw [hcr]; linarith)
    have habs : |clipSum (-(1 / 2) : α) (-(1 / 2)) (1 / 2) (1 / 2) (p0.sub ⟨x, y⟩)
        (p2.sub ⟨x, y⟩) (p1.sub ⟨x, y⟩)|
        = clipSum (-(1 / 2)) (-(1 / 2)) (1 / 2) (1 / 2) (p0.sub ⟨x, y⟩) (p2.sub ⟨x, y⟩)
          (p1.sub ⟨x, y⟩) := abs_of_nonneg (by linarith)
    rw [hcen, polygonCentroid, hArea, hS, habs]

end CentroidThms

section CentroidClaim

variable {α : Type} [LinearOrderedField α] [FloorRing α] {σ : Type}

theorem attribute_at_centroid (t : Triangle α) (x y mx my px py : α) (hx : mx = -px)
    (hy : my = -py) :
    ((t.interp ⟨x, y⟩).sub (t.dx.smul mx)).sub (t.dy.smul my)
      = (t.t1.add (t.dx.smul (x + px - t.v1.x))).add (t.dy.smul (y + py - t.v1.y)) := by
  rw [hx, hy]
  simp only [Triangle.interp, Vector3.add, Vector3.sub, Vector3.smul, Vector3.mk.injEq]
  refine ⟨by ring, by ring, by ring⟩

/-- C15: for a triangle whose vertices are given counter-clockwise, a call
made for a pixel with centre `(x, y)` that is classified fully inside neither
by its block nor by itself comes from the clipper: the clipper's area is
positive, it is the coverage passed, and the attribute passed is the
interpolant `t1 + dx * (x + c.x - v1.x) + dy * (y + c.y - v1.y)` at the area
centroid `c`, relative to the pixel centre, of the triangle clipped to
`[-0.5, 0.5]^2`.  In particular every invocation with a coverage other than `1`
passes that attribute. -/
theorem clipped_pixel_attribute_at_centroid (sqrtf : α → α) (p0 p1 p2 : Vector2 α)
    (a0 a1 a2 dx0 dy0 : Vector3 α) (hccw : 0 < cross2 p0 p1 p2) :
    (∀ (bY bX r k : Nat),
      ∀ c ∈ pixelCalls sqrtf (Triangle.new sqrtf p0 p1 p2 a0 a1 a2 dx0 dy0) bY bX r k,
      (Triangle.new sqrtf p0 p1 p2 a0 a1 a2 dx0 dy0).allGE (sqrtf (8 * 8 / 2))
        (blockCentre (loBound p0.x p2.x p1.x) bX) (blockCentre (loBound p0.y p2.y p1.y) bY)
        = false →
      (Triangle.new sqrtf p0 p1 p2 a0 a1 a2 dx0 dy0).allGE (1 / sqrtf 2)
        (centreOf (loBound p0.x p2.x p1.x) bX k) (centreOf (loBound p0.y p2.y p1.y) bY r)
        = false →
      0 < (pixelClip (Triangle.new sqrtf p0 p1 p2 a0 a1 a2 dx0 dy0)
        (centreOf (loBound p0.x p2.x p1.x) bX k) (centreOf (loBound p0.y p2.y p1.y) bY r)).area ∧
      c.coverage = (pixelClip (Triangle.new sqrtf p0 p1 p2 a0 a1 a2 dx0 dy0)
        (centreOf (loBound p0.x p2.x p1.x) bX k) (centreOf (loBound p0.y p2.y p1.y) bY r)).area ∧
      c.bar = ((Triangle.new sqrtf p0 p1 p2 a0 a1 a2 dx0 dy0).t1.add
          ((Triangle.new sqrtf p0 p1 p2 a0 a1 a2 dx0 dy0).dx.smul
            (centreOf (loBound p0.x p2.x p1.x) bX k
              + (polygonCentroid (pixelClip (Triangle.new sqrtf p0 p1 p2 a0 a1 a2 dx0 dy0)
                  (centreOf (loBound p0.x p2.x p1.x) bX k)
                  (centreOf (loBound p0.y p2.y p1.y) bY r)).m_vertices).x
              - (Triangle.new sqrtf p0 p1 p2 a0 a1 a2 dx0 dy0).v1.x))).add
          ((Triangle.new sqrtf p0 p1 p2 a0 a1 a2 dx0 dy0).dy.smul
            (centreOf (loBound p0.y p2.y p1.y) bY r
              + (polygonCentroid (pixelClip (Triangle.new sqrtf p0 p1 p2 a0 a1 a2 dx0 dy0)
                  (centreOf (loBound p0.x p2.x p1.x) bX k)
                  (centreOf (loBound p0.y p2.y p1.y) bY r)).m_vertices).y
              - (Triangle.new sqrtf p0 p1 p2 a0 a1 a2 dx0 dy0).v1.y))) ∧
    ∀ (cb : SamplingCallback σ α) (s : σ),
      ∀ e ∈ ((Triangle.new sqrtf p0 p1 p2 a0 a1 a2 dx0 dy0).drawAA sqrtf (record cb) (s, [])).1.2,
      e.1.coverage ≠ 1 →
      e.1.bar = ((Triangle.new sqrtf p0 p1 p2 a0 a1 a2 dx0 dy0).t1.add
          ((Triangle.new sqrtf p0 p1 p2 a0 a1 a2 dx0 dy0).dx.smul
            ((e.1.x : α) + 1 / 2
              + (polygonCentroid (pixelClip (Triangle.new sqrtf p0 p1 p2 a0 a1 a2 dx0 dy0)
                  ((e.1.x : α) + 1 / 2) ((e.1.y : α) + 1 / 2)).m_vertices).x
              - (Triangle.new sqrtf p0 p1 p2 a0 a1 a2 dx0 dy0).v1.x))).add
          ((Triangle.new sqrtf p0 p1 p2 a0 a1 a2 dx0 dy0).dy.smul
            ((e.1.y : α) + 1 / 2
              + (polygonCentroid (pixelClip (Triangle.new sqrtf p0 p1 p2 a0 a1 a2 dx0 dy0)
                  ((e.1.x : α) + 1 / 2) ((e.1.y : α) + 1 / 2)).m_vertices).y
              - (Triangle.new sqrtf p0 p1 p2 a0 a1 a2 dx0 dy0).v1.y)) := by
  constructor
  · intro bY bX r k c hc hblk hpix
    have h := mem_pixelCalls_bar sqrtf _ bY bX r k c hc
    simp only [new_v1, new_v2, new_v3] at h
    rcases h with ⟨_, h2 | h2, _⟩ | ⟨_, _, hcov, hpos, hbar⟩
    · rw [hblk] at h2; exact absurd h2 (by simp)
    · rw [hpix] at h2; exact absurd h2 (by simp)
    · refine ⟨hpos, hcov, ?_⟩
      rw [hbar]
      have hcen := (pixelClip_centroid sqrtf p0 p1 p2 a0 a1 a2 dx0 dy0 _ _ hpos).1 hccw.le
      exact attribute_at_centroid _ _ _ _ _ _ _ (by rw [hcen]) (by rw [hcen])
  · intro cb s e he hne
    have hm := mem_drawCalls_of_mem_log sqrtf _ cb s e he
    obtain ⟨bY, bX, r, k, _, _, _, _, hc⟩ := (mem_drawCalls sqrtf _ e.1).mp hm
    obtain ⟨hx, hy, _⟩ := mem_pixelCalls sqrtf _ bY bX r k e.1 hc
    simp only [new_v1, new_v2, new_v3] at hx hy
    have ex := centreOf_eq p0.x p2.x p1.x bX k
    have ey := centreOf_eq p0.y p2.y p1.y bY r
    rw [← hx] at ex
    rw [← hy] at ey
    have h := mem_pixelCalls_bar sqrtf _ bY bX r k e.1 hc
    simp only [new_v1, new_v2, new_v3] at h
    rcases h with ⟨h1, _, _⟩ | ⟨_, _, _, hpos, hbar⟩
    · exact absurd h1 hne
    · rw [hbar, ← ex, ← ey]
      have hcen := (pixelClip_centroid sqrtf p0 p1 p2 a0 a1 a2 dx0 dy0 _ _ hpos).1 hccw.le
      exact attribute_at_centroid _ _ _ _ _ _ _ (by rw [hcen]) (by rw [hcen])

end CentroidClaim

section ClipperCall

variable {α : Type} [LinearOrderedField α] [FloorRing α] {σ : Type}

/-- The call made for a pixel `(i, j)` that reaches the clipper with a
positive area. -/
theorem clipper_call_mem (sqrtf : α → α) (p0 p1 p2 : Vector2 α)
    (a0 a1 a2 dx0 dy0 : Vector3 α) (i j : Int) (hi : 0 ≤ i) (hj : 0 ≤ j)
    (hxlo : min p0.x (min p2.x p1.x) < (i : α) + 1) (hxhi : (i : α) < max p0.x (max p2.x p1.x))
    (hylo : min p0.y (min p2.y p1.y) < (j : α) + 1) (hyhi : (j : α) < max p0.y (max p2.y p1.y))
    (hno : ∀ xc yc : α, |(i : α) + 1 / 2 - xc| ≤ 7 / 2 → |(j : α) + 1 / 2 - yc| ≤ 7 / 2 →
      (Triangle.new sqrtf p0 p1 p2 a0 a1 a2 dx0 dy0).anyLE (-sqrtf (8 * 8 / 2)) xc yc = false)
    (hnb : ∀ xc yc : α,
      (Triangle.new sqrtf p0 p1 p2 a0 a1 a2 dx0 dy0).allGE (sqrtf (8 * 8 / 2)) xc yc = false)
    (hnp : (Triangle.new sqrtf p0 p1 p2 a0 a1 a2 dx0 dy0).allGE (1 / sqrtf 2)
      ((i : α) + 1 / 2) ((j : α) + 1 / 2) = false)
    (hpo : (Triangle.new sqrtf p0 p1 p2 a0 a1 a2 dx0 dy0).allGE (-1 / sqrtf 2)
      ((i : α) + 1 / 2) ((j : α) + 1 / 2) = true)
    (harea : 0 < (pixelClip (Triangle.new sqrtf p0 p1 p2 a0 a1 a2 dx0 dy0)
      ((i : α) + 1 / 2) ((j : α) + 1 / 2)).area) :
    (⟨i, j,
      (((Triangle.new sqrtf p0 p1 p2 a0 a1 a2 dx0 dy0).interp
          ⟨(i : α) + 1 / 2, (j : α) + 1 / 2⟩).sub
        ((Triangle.new sqrtf p0 p1 p2 a0 a1 a2 dx0 dy0).dx.smul
          (pixelClip (Triangle.new sqrtf p0 p1 p2 a0 a1 a2 dx0 dy0)
            ((i : α) + 1 / 2) ((j : α) + 1 / 2)).centroid.x)).sub
        ((Triangle.new sqrtf p0 p1 p2 a0 a1 a2 dx0 dy0).dy.smul
          (pixelClip (Triangle.new sqrtf p0 p1 p2 a0 a1 a2 dx0 dy0)
            ((i : α) + 1 / 2) ((j : α) + 1 / 2)).centroid.y),
      (Triangle.new sqrtf p0 p1 p2 a0 a1 a2 dx0 dy0).dx,
      (Triangle.new sqrtf p0 p1 p2 a0 a1 a2 dx0 dy0).dy,
      (pixelClip (Triangle.new sqrtf p0 p1 p2 a0 a1 a2 dx0 dy0)
        ((i : α) + 1 / 2) ((j : α) + 1 / 2)).area⟩ : Call α)
      ∈ drawCalls sqrtf (Triangle.new sqrtf p0 p1 p2 a0 a1 a2 dx0 dy0) := by
  obtain ⟨bX, k, hk, hbX, hxi⟩ := exists_block_index p0.x p2.x p1.x i hi hxlo hxhi
  obtain ⟨bY, r, hr, hbY, hyj⟩ := exists_block_index p0.y p2.y p1.y j hj hylo hyhi
  have eX : centreOf (loBound p0.x p2.x p1.x) bX k = (i : α) + 1 / 2 := by
    rw [centreOf_eq, hxi]
  have eY : centreOf (loBound p0.y p2.y p1.y) bY r = (j : α) + 1 / 2 := by
    rw [centreOf_eq, hyj]
  have hX := centreOf_sub_blockCentre (loBound p0.x p2.x p1.x) bX k hk
  have hY := centreOf_sub_blockCentre (loBound p0.y p2.y p1.y) bY r hr
  rw [eX] at hX
  rw [eY] at hY
  have hcalls := pixelCalls_eq sqrtf (Triangle.new sqrtf p0 p1 p2 a0 a1 a2 dx0 dy0) bY bX r k
  simp only [new_v1, new_v2, new_v3] at hcalls
  rw [eX, eY, truncInt_half i hi, truncInt_half j hj, hno _ _ hX hY, hnb, hnp, hpo] at hcalls
  simp only [Bool.false_eq_true, if_false, if_true, gt_iff_lt, harea] at hcalls
  rw [mem_drawCalls]
  refine ⟨bY, bX, r, k, ?_, ?_, hr, hk, ?_⟩
  · rw [new_v1, new_v2, new_v3]; exact hbY
  · rw [new_v1, new_v2, new_v3]; exact hbX
  · rw [hcalls]; exact List.mem_singleton.mpr rfl

/-- For a triangle that is not given counter-clockwise no point is
classified fully inside. -/
theorem allGE_false_of_cw {sqrtf : α → α} (hs : IsSqrt sqrtf) (p0 p1 p2 : Vector2 α)
    (a0 a1 a2 dx0 dy0 : Vector3 α) (hcw : cross2 p0 p1 p2 ≤ 0) (c x y : α) (hc : 0 < c) :
    (Triangle.new sqrtf p0 p1 p2 a0 a1 a2 dx0 dy0).allGE c x y = false := by
  by_contra h
  have ht : (Triangle.new sqrtf p0 p1 p2 a0 a1 a2 dx0 dy0).allGE c x y = true := by
    simpa using h
  rw [new_allGE] at ht
  have := (inTriangle_of_allGE hs p0 p1 p2 c x y hc ht).1
  linarith

end ClipperCall

section Example6

/-- The gradients of the clockwise triangle `(0,0), (0,1), (1,0)` with the
barycentric attributes. -/
theorem small_cw_fields (dx0 dy0 : Vector3 ℝ) :
    (Triangle.new Real.sqrt (⟨0, 0⟩ : Vector2 ℝ) ⟨0, 1⟩ ⟨1, 0⟩ ⟨1, 0, 0⟩ ⟨0, 1, 0⟩ ⟨0, 0, 1⟩
      dx0 dy0).dx = ⟨-1, 0, 1⟩ ∧
    (Triangle.new Real.sqrt (⟨0, 0⟩ : Vector2 ℝ) ⟨0, 1⟩ ⟨1, 0⟩ ⟨1, 0, 0⟩ ⟨0, 1, 0⟩ ⟨0, 0, 1⟩
      dx0 dy0).dy = ⟨-1, 1, 0⟩ ∧
    (Triangle.new Real.sqrt (⟨0, 0⟩ : Vector2 ℝ) ⟨0, 1⟩ ⟨1, 0⟩ ⟨1, 0, 0⟩ ⟨0, 1, 0⟩ ⟨0, 0, 1⟩
      dx0 dy0).t1 = ⟨1, 0, 0⟩ ∧
    (Triangle.new Real.sqrt (⟨0, 0⟩ : Vector2 ℝ) ⟨0, 1⟩ ⟨1, 0⟩ ⟨1, 0, 0⟩ ⟨0, 1, 0⟩ ⟨0, 0, 1⟩
      dx0 dy0).v1 = ⟨0, 0⟩ := by
  simp only [Triangle.new, Triangle.computeUnitInwardNormals, Triangle.computeDeltas, recip,
    Vector2.sub, Vector3.sub, Vector3.add, Vector3.smul]
  norm_num

/-- The clipper's result for pixel `(0, 0)` of the clockwise triangle
`(0,0), (0,1), (1,0)`. -/
theorem small_cw_pixelClip (a0 a1 a2 dx0 dy0 : Vector3 ℝ) :
    (pixelClip (Triangle.new Real.sqrt (⟨0, 0⟩ : Vector2 ℝ) ⟨0, 1⟩ ⟨1, 0⟩ a0 a1 a2 dx0 dy0)
      (((0 : ℤ) : ℝ) + 1 / 2) (((0 : ℤ) : ℝ) + 1 / 2)).m_vertices
      = [⟨-(1 / 2), -(1 / 2)⟩, ⟨1 / 2, -(1 / 2)⟩, ⟨-(1 / 2), 1 / 2⟩] ∧
    (pixelClip (Triangle.new Real.sqrt (⟨0, 0⟩ : Vector2 ℝ) ⟨0, 1⟩ ⟨1, 0⟩ a0 a1 a2 dx0 dy0)
      (((0 : ℤ) : ℝ) + 1 / 2) (((0 : ℤ) : ℝ) + 1 / 2)).area = 1 / 2 ∧
    (pixelClip (Triangle.new Real.sqrt (⟨0, 0⟩ : Vector2 ℝ) ⟨0, 1⟩ ⟨1, 0⟩ a0 a1 a2 dx0 dy0)
      (((0 : ℤ) : ℝ) + 1 / 2) (((0 : ℤ) : ℝ) + 1 / 2)).centroid = ⟨-(1 / 6), -(1 / 6)⟩ := by
  rw [pixelClip_new]
  have e0 : (⟨0, 0⟩ : Vector2 ℝ).sub ⟨((0 : ℤ) : ℝ) + 1 / 2, ((0 : ℤ) : ℝ) + 1 / 2⟩
      = ⟨-(1 / 2), -(1 / 2)⟩ := by norm_num [Vector2.sub]
  have e1 : (⟨1, 0⟩ : Vector2 ℝ).sub ⟨((0 : ℤ) : ℝ) + 1 / 2, ((0 : ℤ) : ℝ) + 1 / 2⟩
      = ⟨1 / 2, -(1 / 2)⟩ := by norm_num [Vector2.sub]
  have e2 : (⟨0, 1⟩ : Vector2 ℝ).sub ⟨((0 : ℤ) : ℝ) + 1 / 2, ((0 : ℤ) : ℝ) + 1 / 2⟩
      = ⟨-(1 / 2), 1 / 2⟩ := by norm_num [Vector2.sub]
  rw [e0, e1, e2]
  obtain ⟨h1, h2, h3, _⟩ := clipAABox_of_inBox (⟨-(1 / 2), -(1 / 2)⟩ : Vector2 ℝ)
    ⟨1 / 2, -(1 / 2)⟩ ⟨-(1 / 2), 1 / 2⟩ (-(1 / 2)) (-(1 / 2)) (1 / 2) (1 / 2)
    (by norm_num [inBox]) (by norm_num [inBox]) (by norm_num [inBox])
  refine ⟨h1, ?_, ?_⟩
  · rw [h2]; norm_num [cross2]
  · rw [h3 (by norm_num [cross2])]
    norm_num

/-- The call `drawAA` makes for pixel `(0, 0)` of the clockwise triangle
`(0,0), (0,1), (1,0)`. -/
theorem small_cw_call (a0 a1 a2 dx0 dy0 : Vector3 ℝ) :
    (⟨0, 0,
      (((Triangle.new Real.sqrt (⟨0, 0⟩ : Vector2 ℝ) ⟨0, 1⟩ ⟨1, 0⟩ a0 a1 a2 dx0 dy0).interp
          ⟨((0 : ℤ) : ℝ) + 1 / 2, ((0 : ℤ) : ℝ) + 1 / 2⟩).sub
        ((Triangle.new Real.sqrt (⟨0, 0⟩ : Vector2 ℝ) ⟨0, 1⟩ ⟨1, 0⟩ a0 a1 a2 dx0 dy0).dx.smul
          (pixelClip (Triangle.new Real.sqrt (⟨0, 0⟩ : Vector2 ℝ) ⟨0, 1⟩ ⟨1, 0⟩ a0 a1 a2 dx0 dy0)
            (((0 : ℤ) : ℝ) + 1 / 2) (((0 : ℤ) : ℝ) + 1 / 2)).centroid.x)).sub
        ((Triangle.new Real.sqrt (⟨0, 0⟩ : Vector2 ℝ) ⟨0, 1⟩ ⟨1, 0⟩ a0 a1 a2 dx0 dy0).dy.smul
          (pixelClip (Triangle.new Real.sqrt (⟨0, 0⟩ : Vector2 ℝ) ⟨0, 1⟩ ⟨1, 0⟩ a0 a1 a2 dx0 dy0)
            (((0 : ℤ) : ℝ) + 1 / 2) (((0 : ℤ) : ℝ) + 1 / 2)).centroid.y),
      (Triangle.new Real.sqrt (⟨0, 0⟩ : Vector2 ℝ) ⟨0, 1⟩ ⟨1, 0⟩ a0 a1 a2 dx0 dy0).dx,
      (Triangle.new Real.sqrt (⟨0, 0⟩ : Vector2 ℝ) ⟨0, 1⟩ ⟨1, 0⟩ a0 a1 a2 dx0 dy0).dy,
      (pixelClip (Triangle.new Real.sqrt (⟨0, 0⟩ : Vector2 ℝ) ⟨0, 1⟩ ⟨1, 0⟩ a0 a1 a2 dx0 dy0)
        (((0 : ℤ) : ℝ) + 1 / 2) (((0 : ℤ) : ℝ) + 1 / 2)).area⟩ : Call ℝ)
      ∈ drawCalls Real.sqrt
        (Triangle.new Real.sqrt (⟨0, 0⟩ : Vector2 ℝ) ⟨0, 1⟩ ⟨1, 0⟩ a0 a1 a2 dx0 dy0) := by
  obtain ⟨hB, hBB⟩ := bk_inside_sq (α := ℝ) isSqrt_real
  have hcw : cross2 (⟨0, 0⟩ : Vector2 ℝ) ⟨0, 1⟩ ⟨1, 0⟩ ≤ 0 := by norm_num [cross2]
  refine clipper_call_mem Real.sqrt (⟨0, 0⟩ : Vector2 ℝ) ⟨0, 1⟩ ⟨1, 0⟩ a0 a1 a2 dx0 dy0 0 0
    (le_refl _) (le_refl _) (by norm_num) (by norm_num) (by norm_num) (by norm_num) ?_
    (fun xc yc => allGE_false_of_cw isSqrt_real _ _ _ _ _ _ _ _ hcw _ _ _ hB)
    (allGE_false_of_cw isSqrt_real _ _ _ _ _ _ _ _ hcw _ _ _ (px_inside_pos isSqrt_real)) ?_ ?_
  · intro xc yc hx hy
    have ax := abs_le.mp hx
    have ay := abs_le.mp hy
    norm_num at ax ay
    rw [new_anyLE,
      nanLE_edgeFn_of_near isSqrt_real ⟨0, 0⟩ ⟨1, 0⟩ xc (-1) xc yc _ (by norm_num [cross2]) hB.le
        (by rw [hBB]
            have := mul_self_le_of_bounds (-1 - yc) 5 (by linarith) (by linarith)
            linarith),
      nanLE_edgeFn_of_near isSqrt_real ⟨1, 0⟩ ⟨0, 1⟩ (xc + 4) (yc + 4) xc yc _
        (by norm_num [cross2]; linarith) hB.le (by rw [hBB]; ring_nf; norm_num),
      nanLE_edgeFn_of_near isSqrt_real ⟨0, 1⟩ ⟨0, 0⟩ (-1) yc xc yc _ (by norm_num [cross2]) hB.le
        (by rw [hBB]
            have := mul_self_le_of_bounds (-1 - xc) 5 (by linarith) (by linarith)
            linarith)]
    rfl
  · rw [neg_div, new_allGE,
      nanGE_edgeFn_of_near isSqrt_real ⟨0, 0⟩ ⟨1, 0⟩
        (by intro h; have := congrArg Vector2.x h; norm_num at this)
        (1 / 2) 0 _ _ _ (by norm_num [cross2]) (px_inside_pos isSqrt_real).le
        (by rw [px_inside_sq isSqrt_real]; norm_num),
      nanGE_edgeFn_of_near isSqrt_real ⟨1, 0⟩ ⟨0, 1⟩
        (by intro h; have := congrArg Vector2.x h; norm_num at this)
        (1 / 2) (1 / 2) _ _ _ (by norm_num [cross2]) (px_inside_pos isSqrt_real).le
        (by rw [px_inside_sq isSqrt_real]; norm_num),
      nanGE_edgeFn_of_near isSqrt_real ⟨0, 1⟩ ⟨0, 0⟩
        (by intro h; have := congrArg Vector2.y h; norm_num at this)
        0 (1 / 2) _ _ _ (by norm_num [cross2]) (px_inside_pos isSqrt_real).le
        (by rw [px_inside_sq isSqrt_real]; norm_num)]
    rfl
  · rw [(small_cw_pixelClip a0 a1 a2 dx0 dy0).2.1]
    norm_num

end Example6

section Example7

/-- C15 at the counter-clockwise triangle `(0.5,0.5), (10.5,0.5), (0.5,10.5)`:
the invocation for the corner pixel `(0, 0)` has a coverage other than `1` and
passes the interpolant at the centroid of the clipped triangle. -/
theorem clipped_pixel_attribute_at_centroid_witness :
    0 < cross2 (⟨1 / 2, 1 / 2⟩ : Vector2 ℝ) ⟨21 / 2, 1 / 2⟩ ⟨1 / 2, 21 / 2⟩ ∧
    ∃ e ∈ ((Triangle.new Real.sqrt (⟨1 / 2, 1 / 2⟩ : Vector2 ℝ) ⟨21 / 2, 1 / 2⟩ ⟨1 / 2, 21 / 2⟩
        ⟨1, 0, 0⟩ ⟨0, 1, 0⟩ ⟨0, 0, 1⟩ ⟨0, 0, 0⟩ ⟨0, 0, 0⟩).drawAA Real.sqrt (record alwaysTrue)
        ((), [])).1.2,
      e.1.coverage ≠ 1 ∧
      e.1.bar = ((Triangle.new Real.sqrt (⟨1 / 2, 1 / 2⟩ : Vector2 ℝ) ⟨21 / 2, 1 / 2⟩
          ⟨1 / 2, 21 / 2⟩ ⟨1, 0, 0⟩ ⟨0, 1, 0⟩ ⟨0, 0, 1⟩ ⟨0, 0, 0⟩ ⟨0, 0, 0⟩).t1.add
          ((Triangle.new Real.sqrt (⟨1 / 2, 1 / 2⟩ : Vector2 ℝ) ⟨21 / 2, 1 / 2⟩
            ⟨1 / 2, 21 / 2⟩ ⟨1, 0, 0⟩ ⟨0, 1, 0⟩ ⟨0, 0, 1⟩ ⟨0, 0, 0⟩ ⟨0, 0, 0⟩).dx.smul
            ((e.1.x : ℝ) + 1 / 2
              + (polygonCentroid (pixelClip (Triangle.new Real.sqrt (⟨1 / 2, 1 / 2⟩ : Vector2 ℝ)
                  ⟨21 / 2, 1 / 2⟩ ⟨1 / 2, 21 / 2⟩ ⟨1, 0, 0⟩ ⟨0, 1, 0⟩ ⟨0, 0, 1⟩ ⟨0, 0, 0⟩ ⟨0, 0, 0⟩)
                  ((e.1.x : ℝ) + 1 / 2) ((e.1.y : ℝ) + 1 / 2)).m_vertices).x
              - (Triangle.new Real.sqrt (⟨1 / 2, 1 / 2⟩ : Vector2 ℝ) ⟨21 / 2, 1 / 2⟩
                  ⟨1 / 2, 21 / 2⟩ ⟨1, 0, 0⟩ ⟨0, 1, 0⟩ ⟨0, 0, 1⟩ ⟨0, 0, 0⟩ ⟨0, 0, 0⟩).v1.x))).add
          ((Triangle.new Real.sqrt (⟨1 / 2, 1 / 2⟩ : Vector2 ℝ) ⟨21 / 2, 1 / 2⟩
            ⟨1 / 2, 21 / 2⟩ ⟨1, 0, 0⟩ ⟨0, 1, 0⟩ ⟨0, 0, 1⟩ ⟨0, 0, 0⟩ ⟨0, 0, 0⟩).dy.smul
            ((e.1.y : ℝ) + 1 / 2
              + (polygonCentroid (pixelClip (Triangle.new Real.sqrt (⟨1 / 2, 1 / 2⟩ : Vector2 ℝ)
                  ⟨21 / 2, 1 / 2⟩ ⟨1 / 2, 21 / 2⟩ ⟨1, 0, 0⟩ ⟨0, 1, 0⟩ ⟨0, 0, 1⟩ ⟨0, 0, 0⟩ ⟨0, 0, 0⟩)
                  ((e.1.x : ℝ) + 1 / 2) ((e.1.y : ℝ) + 1 / 2)).m_vertices).y
              - (Triangle.new Real.sqrt (⟨1 / 2, 1 / 2⟩ : Vector2 ℝ) ⟨21 / 2, 1 / 2⟩
                  ⟨1 / 2, 21 / 2⟩ ⟨1, 0, 0⟩ ⟨0, 1, 0⟩ ⟨0, 0, 1⟩ ⟨0, 0, 0⟩ ⟨0, 0, 0⟩).v1.y)) := by
  have hD : 0 < cross2 (⟨1 / 2, 1 / 2⟩ : Vector2 ℝ) ⟨21 / 2, 1 / 2⟩ ⟨1 / 2, 21 / 2⟩ := by
    norm_num [cross2]
  obtain ⟨⟨e, he, _, _, hcov⟩, _⟩ := corner_pixel_calls (⟨1, 0, 0⟩ : Vector3 ℝ) ⟨0, 1, 0⟩
    ⟨0, 0, 1⟩ ⟨0, 0, 0⟩ ⟨0, 0, 0⟩ alwaysTrue (fun _ _ => rfl) ()
  have hne : e.1.coverage ≠ 1 := by rw [hcov]; norm_num
  exact ⟨hD, e, he, hne,
    (clipped_pixel_attribute_at_centroid Real.sqrt (⟨1 / 2, 1 / 2⟩ : Vector2 ℝ) ⟨21 / 2, 1 / 2⟩
      ⟨1 / 2, 21 / 2⟩ ⟨1, 0, 0⟩ ⟨0, 1, 0⟩ ⟨0, 0, 1⟩ ⟨0, 0, 0⟩ ⟨0, 0, 0⟩ hD).2 alwaysTrue () e he
      hne⟩

/-- For the clockwise triangle `(0,0), (0,1), (1,0)`, which is not
degenerate, the invocation for pixel `(0, 0)` comes from the clipper with
coverage `1/2` and passes the attribute `(-1/3, 2/3, 2/3)`, the interpolant at
the mirror image of the centroid, while the interpolant at the centroid of
the clipped triangle is `(1/3, 1/3, 1/3)`. -/
theorem clipped_pixel_attribute_mirrored_counterexample :
    cross2 (⟨0, 0⟩ : Vector2 ℝ) ⟨0, 1⟩ ⟨1, 0⟩ ≠ 0 ∧
    ∃ e ∈ ((Triangle.new Real.sqrt (⟨0, 0⟩ : Vector2 ℝ) ⟨0, 1⟩ ⟨1, 0⟩ ⟨1, 0, 0⟩ ⟨0, 1, 0⟩
        ⟨0, 0, 1⟩ ⟨0, 0, 0⟩ ⟨0, 0, 0⟩).drawAA Real.sqrt (record alwaysTrue) ((), [])).1.2,
      e.1.x = 0 ∧ e.1.y = 0 ∧ e.1.coverage = 1 / 2 ∧
      e.1.bar = ⟨-(1 / 3), 2 / 3, 2 / 3⟩ ∧
      ((Triangle.new Real.sqrt (⟨0, 0⟩ : Vector2 ℝ) ⟨0, 1⟩ ⟨1, 0⟩ ⟨1, 0, 0⟩ ⟨0, 1, 0⟩
          ⟨0, 0, 1⟩ ⟨0, 0, 0⟩ ⟨0, 0, 0⟩).t1.add
          ((Triangle.new Real.sqrt (⟨0, 0⟩ : Vector2 ℝ) ⟨0, 1⟩ ⟨1, 0⟩ ⟨1, 0, 0⟩ ⟨0, 1, 0⟩
            ⟨0, 0, 1⟩ ⟨0, 0, 0⟩ ⟨0, 0, 0⟩).dx.smul
            ((e.1.x : ℝ) + 1 / 2
              + (polygonCentroid (pixelClip (Triangle.new Real.sqrt (⟨0, 0⟩ : Vector2 ℝ) ⟨0, 1⟩
                  ⟨1, 0⟩ ⟨1, 0, 0⟩ ⟨0, 1, 0⟩ ⟨0, 0, 1⟩ ⟨0, 0, 0⟩ ⟨0, 0, 0⟩)
                  ((e.1.x : ℝ) + 1 / 2) ((e.1.y : ℝ) + 1 / 2)).m_vertices).x
              - (Triangle.new Real.sqrt (⟨0, 0⟩ : Vector2 ℝ) ⟨0, 1⟩ ⟨1, 0⟩ ⟨1, 0, 0⟩ ⟨0, 1, 0⟩
                  ⟨0, 0, 1⟩ ⟨0, 0, 0⟩ ⟨0, 0, 0⟩).v1.x))).add
          ((Triangle.new Real.sqrt (⟨0, 0⟩ : Vector2 ℝ) ⟨0, 1⟩ ⟨1, 0⟩ ⟨1, 0, 0⟩ ⟨0, 1, 0⟩
            ⟨0, 0, 1⟩ ⟨0, 0, 0⟩ ⟨0, 0, 0⟩).dy.smul
            ((e.1.y : ℝ) + 1 / 2
              + (polygonCentroid (pixelClip (Triangle.new Real.sqrt (⟨0, 0⟩ : Vector2 ℝ) ⟨0, 1⟩
                  ⟨1, 0⟩ ⟨1, 0, 0⟩ ⟨0, 1, 0⟩ ⟨0, 0, 1⟩ ⟨0, 0, 0⟩ ⟨0, 0, 0⟩)
                  ((e.1.x : ℝ) + 1 / 2) ((e.1.y : ℝ) + 1 / 2)).m_vertices).y
              - (Triangle.new Real.sqrt (⟨0, 0⟩ : Vector2 ℝ) ⟨0, 1⟩ ⟨1, 0⟩ ⟨1, 0, 0⟩ ⟨0, 1, 0⟩
                  ⟨0, 0, 1⟩ ⟨0, 0, 0⟩ ⟨0, 0, 0⟩).v1.y))
        = ⟨1 / 3, 1 / 3, 1 / 3⟩ := by
  refine ⟨by norm_num [cross2], ?_⟩
  have hc := small_cw_call ⟨1, 0, 0⟩ ⟨0, 1, 0⟩ ⟨0, 0, 1⟩ ⟨0, 0, 0⟩ ⟨0, 0, 0⟩
  rw [← log_of_always_true Real.sqrt _ alwaysTrue (fun _ _ => rfl) ()] at hc
  obtain ⟨e, he, heq⟩ := List.mem_map.mp hc
  obtain ⟨hdx, hdy, ht1, hv1⟩ := small_cw_fields ⟨0, 0, 0⟩ ⟨0, 0, 0⟩
  obtain ⟨hring, harea, hcen⟩ := small_cw_pixelClip ⟨1, 0, 0⟩ ⟨0, 1, 0⟩ ⟨0, 0, 1⟩ ⟨0, 0, 0⟩
    ⟨0, 0, 0⟩
  refine ⟨e, he, by rw [heq], by rw [heq], by rw [heq]; exact harea, ?_, ?_⟩
  · rw [heq]
    simp only [Triangle.interp, hdx, hdy, ht1, hv1, hcen, Vector3.add, Vector3.sub, Vector3.smul,
      Vector3.mk.injEq]
    norm_num
  · rw [heq]
    simp only [hdx, hdy, ht1, hv1, hring, polygonCentroid, closeRing, pathSum, centroidTermX,
      centroidTermY, shoelace, Vector3.add, Vector3.smul, Vector3.mk.injEq, List.headD_cons,
      List.cons_append, List.nil_append]
    norm_num

end Example7

section LineThms

variable {α : Type} [LinearOrderedField α]

theorem isectV_lerp (off : α) (u w : Vector2 α) (s e : α) (hcd : w.x - u.x ≠ 0) (hse : s ≠ e) :
    isectV off (lerp u w s) (lerp u w e) = lerp u w ((off - u.x) / (w.x - u.x)) := by
  have h1 : e - s ≠ 0 := sub_ne_zero.mpr (Ne.symm hse)
  have hx : (lerp u w e).x - (lerp u w s).x = (e - s) * (w.x - u.x) := by
    simp only [lerp]; ring
  have hy : (lerp u w e).y - (lerp u w s).y = (e - s) * (w.y - u.y) := by
    simp only [lerp]; ring
  unfold isectV
  rw [hx, hy, mul_div_mul_left _ _ h1]
  simp only [lerp, Vector2.mk.injEq]
  constructor
  · field_simp
  · field_simp
    ring

theorem isectH_lerp (off : α) (u w : Vector2 α) (s e : α) (hcd : w.y - u.y ≠ 0) (hse : s ≠ e) :
    isectH off (lerp u w s) (lerp u w e) = lerp u w ((off - u.y) / (w.y - u.y)) := by
  have h1 : e - s ≠ 0 := sub_ne_zero.mpr (Ne.symm hse)
  have hx : (lerp u w e).x - (lerp u w s).x = (e - s) * (w.x - u.x) := by
    simp only [lerp]; ring
  have hy : (lerp u w e).y - (lerp u w s).y = (e - s) * (w.y - u.y) := by
    simp only [lerp]; ring
  unfold isectH
  rw [hx, hy, mul_div_mul_left _ _ h1]
  simp only [lerp, Vector2.mk.injEq]
  constructor
  · field_simp
    ring
  · field_simp

/-- The general step: a clip pass whose inside test on the line is
`0 <= dir * (off - (c0 + t * cd))` and whose inserted vertex is the point of
parameter `(off - c0) / cd` composes the potential with `lineClamp`. -/
theorem hasPot_inPart (u w : Vector2 α) (ins : Vector2 α → Bool)
    (isect : Vector2 α → Vector2 α → Vector2 α) (dir off c0 cd : α)
    (hins : ∀ t, ins (lerp u w t) = true ↔ 0 ≤ dir * (off - (c0 + t * cd)))
    (hisect : ∀ s e, cd ≠ 0 → s ≠ e →
      isect (lerp u w s) (lerp u w e) = lerp u w ((off - c0) / cd))
    (F : Vector2 α → Vector2 α → α) (P : α → α) (h : HasPot u w F P) :
    HasPot u w (inPart ins isect F) (fun t => P (lineClamp dir off c0 cd t)) := by
  intro s e hse
  have hins' : ∀ t, ins (lerp u w t) = false ↔ dir * (off - (c0 + t * cd)) < 0 := by
    intro t
    rw [← not_le, ← hins t]; simp
  have key : ∀ t, dir * (off - (c0 + t * cd)) = dir * (off - c0) + t * (-(dir * cd)) := by
    intro t; ring
  simp only [lineClamp]
  by_cases hB : 0 < -(dir * cd)
  · -- inside is `t ≥ tau`
    have hcd : cd ≠ 0 := by rintro rfl; simp at hB
    simp only [hB, if_true]
    set tau := (off - c0) / cd with htau
    have hv : ∀ t, dir * (off - (c0 + t * cd)) = (t - tau) * (-(dir * cd)) := by
      intro t; rw [htau]; field_simp; ring
    have hin : ∀ t, ins (lerp u w t) = true ↔ tau ≤ t := by
      intro t
      rw [hins, hv]
      constructor
      · intro h0
        by_contra hc; push_neg at hc
        have : (t - tau) * (-(dir * cd)) < 0 := mul_neg_of_neg_of_pos (by linarith) hB
        linarith
      · intro h0; exact mul_nonneg (by linarith) hB.le
    rcases le_or_lt tau s with h1 | h1
    · have is := (hin s).mpr h1
      have ie := (hin e).mpr (le_trans h1 hse)
      rw [inPart_in_in _ _ _ is ie, h s e hse, max_eq_left h1, max_eq_left (le_trans h1 hse)]
    · have is : ins (lerp u w s) = false := by
        rw [← Bool.not_eq_true, hin]; exact not_le.mpr h1
      rcases le_or_lt tau e with h2 | h2
      · have ie := (hin e).mpr h2
        rw [inPart_out_in _ _ _ is ie, hisect s e hcd (ne_of_lt (lt_of_lt_of_le h1 h2)),
          h tau e h2, max_eq_right h1.le, max_eq_left h2]
      · have ie : ins (lerp u w e) = false := by
          rw [← Bool.not_eq_true, hin]; exact not_le.mpr h2
        rw [inPart_out_out _ _ _ is ie, max_eq_right h1.le, max_eq_right h2.le, sub_self]
  · simp only [hB, if_false]
    by_cases hB' : -(dir * cd) < 0
    · -- inside is `t ≤ tau`
      have hcd : cd ≠ 0 := by rintro rfl; simp at hB'
      simp only [hB', if_true]
      set tau := (off - c0) / cd with htau
      have hv : ∀ t, dir * (off - (c0 + t * cd)) = (t - tau) * (-(dir * cd)) := by
        intro t; rw [htau]; field_simp; ring
      have hin : ∀ t, ins (lerp u w t) = true ↔ t ≤ tau := by
        intro t
        rw [hins, hv]
        constructor
        · intro h0
          by_contra hc; push_neg at hc
          have : (t - tau) * (-(dir * cd)) < 0 := mul_neg_of_pos_of_neg (by linarith) hB'
          linarith
        · intro h0; exact mul_nonneg_of_nonpos_of_nonpos (by linarith) hB'.le
      rcases le_or_lt e tau with h1 | h1
      · have ie := (hin e).mpr h1
        have is := (hin s).mpr (le_trans hse h1)
        rw [inPart_in_in _ _ _ is ie, h s e hse, min_eq_left h1, min_eq_left (le_trans hse h1)]
      · have ie : ins (lerp u w e) = false := by
          rw [← Bool.not_eq_true, hin]; exact not_le.mpr h1
        rcases le_or_lt s tau with h2 | h2
        · have is := (hin s).mpr h2
          rw [inPart_in_out _ _ _ is ie, hisect s e hcd (ne_of_lt (lt_of_le_of_lt h2 h1)),
            h s tau h2, min_eq_right h1.le, min_eq_left h2]
        · have is : ins (lerp u w s) = false := by
            rw [← Bool.not_eq_true, hin]; exact not_le.mpr h2
          rw [inPart_out_out _ _ _ is ie, min_eq_right h1.le, min_eq_right h2.le, sub_self]
    · -- the line is parallel to the clip line
      simp only [hB', if_false]
      have hz : -(dir * cd) = 0 := le_antisymm (not_lt.mp hB) (not_lt.mp hB')
      by_cases hA : 0 ≤ dir * (off - c0)
      · simp only [hA, if_true]
        have hin : ∀ t, ins (lerp u w t) = true := by
          intro t; rw [hins, key, hz, mul_zero, add_zero]; exact hA
        rw [inPart_in_in _ _ _ (hin s) (hin e), h s e hse]
      · simp only [hA, if_false]
        have hout : ∀ t, ins (lerp u w t) = false := by
          intro t; rw [hins', key, hz, mul_zero, add_zero]; exact not_le.mp hA
        rw [inPart_out_out _ _ _ (hout s) (hout e), sub_self]

theorem hasPot_inPartV (u w : Vector2 α) (off dir : α) (F : Vector2 α → Vector2 α → α)
    (P : α → α) (h : HasPot u w F P) :
    HasPot u w (inPart (insideV off dir) (isectV off) F)
      (fun t => P (lineClamp dir off u.x (w.x - u.x) t)) :=
  hasPot_inPart u w _ _ dir off u.x (w.x - u.x)
    (fun t => by simp [insideV, lerp])
    (fun s e hcd hse => isectV_lerp off u w s e hcd hse) F P h

theorem hasPot_inPartH (u w : Vector2 α) (off dir : α) (F : Vector2 α → Vector2 α → α)
    (P : α → α) (h : HasPot u w F P) :
    HasPot u w (inPart (insideH off dir) (isectH off) F)
      (fun t => P (lineClamp dir off u.y (w.y - u.y) t)) :=
  hasPot_inPart u w _ _ dir off u.y (w.y - u.y)
    (fun t => by simp [insideH, lerp])
    (fun s e hcd hse => isectH_lerp off u w s e hcd hse) F P h

theorem hasPot_sub (u w : Vector2 α) (F G : Vector2 α → Vector2 α → α) (P Q : α → α)
    (hF : HasPot u w F P) (hG : HasPot u w G Q) :
    HasPot u w (fun a b => F a b - G a b) (fun t => P t - Q t) := by
  intro s e hse
  simp only [hF s e hse, hG s e hse]; ring

theorem hasPot_capForm (u w : Vector2 α) (y1 : α) :
    HasPot u w (capForm y1)
      (fun t => -(w.x - u.x) * (2 * (u.y - y1) * t + (w.y - u.y) * (t * t))) := by
  intro s e _
  simp only [capForm, lerp]; ring

theorem hasPot_apply (u w : Vector2 α) (F : Vector2 α → Vector2 α → α) (P : α → α)
    (h : HasPot u w F P) : F u w = P 1 - P 0 := by
  have := h 0 1 zero_le_one
  have e0 : lerp u w 0 = u := by simp [lerp]
  have e1 : lerp u w 1 = w := by
    cases w; simp [lerp]
  rw [e0, e1] at this
  exact this

end LineThms

section ColumnThms

variable {α : Type} [LinearOrderedField α]

/-- Cutting at `tau` from above and a second cut of the line, in either
order, give the same differences of any function of the parameter. -/
theorem lineClamp_comm_min (dir off c0 cd tau : α) (f : α → α) (a b : α) :
    f (min (lineClamp dir off c0 cd a) tau) - f (min (lineClamp dir off c0 cd b) tau)
      = f (lineClamp dir off c0 cd (min a tau)) - f (lineClamp dir off c0 cd (min b tau)) := by
  unfold lineClamp
  split_ifs with h1 h2 h3
  · -- `max` then `min`
    rcases le_or_lt ((off - c0) / cd) tau with h | h
    · rw [max_min_distrib_right, max_min_distrib_right, max_eq_left h]
    · have e1 : ∀ t, min (max t ((off - c0) / cd)) tau = tau := fun t =>
        min_eq_right (le_trans h.le (le_max_right _ _))
      have e2 : ∀ t, max (min t tau) ((off - c0) / cd) = (off - c0) / cd := fun t =>
        max_eq_right (le_trans (min_le_right _ _) h.le)
      rw [e1, e1, e2, e2, sub_self, sub_self]
  · rw [min_right_comm a, min_right_comm b]
  · rfl
  · rw [sub_self, sub_self]

theorem lineClamp_neg_one_of_pos (off c0 cd t : α) (h : 0 < cd) :
    lineClamp (-1) off c0 cd t = max t ((off - c0) / cd) := by
  unfold lineClamp
  rw [if_pos (by linarith)]

theorem lineClamp_one_of_pos (off c0 cd t : α) (h : 0 < cd) :
    lineClamp 1 off c0 cd t = min t ((off - c0) / cd) := by
  unfold lineClamp
  rw [if_neg (by linarith), if_pos (by linarith)]

theorem hasPot_capPot (u w : Vector2 α) (y1 : α) : HasPot u w (capForm y1) (capPot u w y1) :=
  hasPot_capForm u w y1

theorem hasPot_rowPot (u w : Vector2 α) (y0 y1 : α) :
    HasPot u w (fun a b => inPart (insideH y1 1) (isectH y1) (capForm y1) a b
      - 2 * (y1 - y0) * (b.x - a.x)) (rowPot u w y0 y1) := by
  have h1 := hasPot_inPartH u w y1 1 _ _ (hasPot_capPot u w y1)
  have h2 : HasPot u w (fun a b => 2 * (y1 - y0) * (b.x - a.x))
      (fun t => 2 * (y1 - y0) * (u.x + t * (w.x - u.x))) := by
    intro s e _
    simp only [lerp]; ring
  exact hasPot_sub u w _ _ _ _ h1 h2

/-- The potential of `rowForm` along a line. -/
theorem hasPot_rowForm (u w : Vector2 α) (y0 y1 : α) :
    HasPot u w (rowForm y0 y1)
      (fun t => rowPot u w y0 y1 (lineClamp (-1) y0 u.y (w.y - u.y) t)) :=
  hasPot_inPartH u w y0 (-1) _ _ (hasPot_rowPot u w y0 y1)

theorem min_lerp_x (u w : Vector2 α) (x1 t : α) (hdx : 0 < w.x - u.x) :
    min (u.x + t * (w.x - u.x)) x1
      = u.x + min t ((x1 - u.x) / (w.x - u.x)) * (w.x - u.x) := by
  have e : x1 = u.x + (x1 - u.x) / (w.x - u.x) * (w.x - u.x) := by
    field_simp
  rcases le_total t ((x1 - u.x) / (w.x - u.x)) with h | h
  · rw [min_eq_left h, min_eq_left]
    rw [e]
    have := mul_le_mul_of_nonneg_right h hdx.le
    linarith
  · rw [min_eq_right h, min_eq_right, ← e]
    rw [e]
    have := mul_le_mul_of_nonneg_right h hdx.le
    linarith

/-- The potential of `stripForm` along a line that runs to the right. -/
theorem hasPot_stripForm (u w : Vector2 α) (y0 x1 y1 : α) (hdx : 0 < w.x - u.x) :
    HasPot u w (stripForm y0 x1 y1)
      (fun t => rowPot u w y0 y1 (min t ((x1 - u.x) / (w.x - u.x)))) := by
  have h4 := hasPot_inPartH u w y1 1 _ _ (hasPot_capPot u w y1)
  have h3 := hasPot_inPartV u w x1 1 _ _ h4
  intro s e hse
  have := h3 s e hse
  simp only [lineClamp_one_of_pos _ _ _ _ hdx] at this
  unfold stripForm
  rw [this]
  simp only [rowPot, stripPot, lerp, min_lerp_x u w x1 _ hdx]
  ring

/-- For an edge that runs to the right, the contribution to the box is the
contribution to the rows of the part of the edge in the columns of the box. -/
theorem boxForm_eq_rowForm (x0 y0 x1 y1 : α) (u w : Vector2 α) (hdx : 0 < w.x - u.x) :
    boxForm x0 y0 x1 y1 u w
      = rowForm y0 y1
          (lerp u w (min (max 0 ((x0 - u.x) / (w.x - u.x))) ((x1 - u.x) / (w.x - u.x))))
          (lerp u w (min (max 1 ((x0 - u.x) / (w.x - u.x))) ((x1 - u.x) / (w.x - u.x)))) := by
  have h2 := hasPot_inPartH u w y0 (-1) _ _ (hasPot_stripForm u w y0 x1 y1 hdx)
  have h1 := hasPot_inPartV u w x0 (-1) _ _ h2
  have hb := hasPot_apply u w _ _ h1
  simp only [lineClamp_neg_one_of_pos _ _ _ _ hdx] at hb
  have hmono : min (max 0 ((x0 - u.x) / (w.x - u.x))) ((x1 - u.x) / (w.x - u.x))
      ≤ min (max 1 ((x0 - u.x) / (w.x - u.x))) ((x1 - u.x) / (w.x - u.x)) :=
    min_le_min (max_le_max zero_le_one (le_refl _)) (le_refl _)
  rw [hasPot_rowForm u w y0 y1 _ _ hmono]
  have hc := lineClamp_comm_min (-1) y0 u.y (w.y - u.y) ((x1 - u.x) / (w.x - u.x))
    (rowPot u w y0 y1) (max 1 ((x0 - u.x) / (w.x - u.x))) (max 0 ((x0 - u.x) / (w.x - u.x)))
  rw [← hc]
  exact hb

end ColumnThms

section ColumnSum

variable {α : Type} [LinearOrderedField α]

theorem clamp_split (f : α → α) (a b c t : α) (hab : a ≤ b) (hbc : b ≤ c) :
    f (min (max t a) b) + f (min (max t b) c) = f (min (max t a) c) + f b := by
  rcases le_total t b with h | h
  · have h1 : max t a ≤ b := max_le h hab
    rw [min_eq_left h1, max_eq_right h, min_eq_left hbc, min_eq_left (h1.trans hbc)]
  · have h1 : b ≤ max t a := h.trans (le_max_left _ _)
    rw [min_eq_right h1, max_eq_left h, max_eq_left (hab.trans h)]
    ring

theorem rowForm_antisymm (y0 y1 : α) (a b : Vector2 α) :
    rowForm y0 y1 b a = -rowForm y0 y1 a b :=
  inPartH_antisymm y0 (-1) _ (fun a b => by
    rw [inPartH_antisymm y1 1 _ (fun p q => by simp only [capForm]; ring)]; ring) a b

theorem rowForm_vertical (y0 y1 : α) (p q : Vector2 α) (h : p.x = q.x) :
    rowForm y0 y1 p q = 0 :=
  inPartH_vertical y0 (-1) _ (fun a b hab => by
    rw [inPartH_vertical y1 1 _ (capForm_vertical y1) a b hab, hab]; ring) p q h

theorem boxForm_vertical (x0 y0 x1 y1 : α) (p q : Vector2 α) (h : p.x = q.x) :
    boxForm x0 y0 x1 y1 p q = 0 :=
  inPartV_vertical x0 (-1) _ (inPartH_vertical y0 (-1) _ (stripForm_vertical y0 x1 y1)) p q h

end ColumnSum

section RowSum

variable {α : Type} [LinearOrderedField α]

theorem isectH_on_line (off m : α) (u a b : Vector2 α)
    (ha : a.x = u.x + m * (a.y - u.y)) (hb : b.x = u.x + m * (b.y - u.y)) (hab : a.y ≠ b.y) :
    (isectH off a b).x = u.x + m * ((isectH off a b).y - u.y) ∧ (isectH off a b).y = off := by
  have h : b.y - a.y ≠ 0 := fun h => hab (by linarith)
  have e : (b.x - a.x) / (b.y - a.y) = m := by
    rw [ha, hb, div_eq_iff h]; ring
  refine ⟨?_, rfl⟩
  show a.x + (off - a.y) * ((b.x - a.x) / (b.y - a.y)) = u.x + m * (off - u.y)
  rw [e, ha]
  ring

/-- The clip pass that keeps `off ≤ y`, on a form given by a function of the
ordinate along a line of inverse slope `m`. -/
theorem slope_inPartH_lo (off m : α) (u : Vector2 α) (F : Vector2 α → Vector2 α → α) (V : α → α)
    (hF : ∀ a b : Vector2 α, a.x = u.x + m * (a.y - u.y) → b.x = u.x + m * (b.y - u.y) →
      F a b = -m * (V b.y - V a.y))
    (a b : Vector2 α) (ha : a.x = u.x + m * (a.y - u.y)) (hb : b.x = u.x + m * (b.y - u.y)) :
    inPart (insideH off (-1)) (isectH off) F a b
      = -m * (V (max b.y off) - V (max a.y off)) := by
  by_cases h1 : off ≤ a.y <;> by_cases h2 : off ≤ b.y
  · rw [inPart_in_in _ _ _ ((insideH_neg_one off a).mpr h1) ((insideH_neg_one off b).mpr h2),
      hF a b ha hb, max_eq_left h1, max_eq_left h2]
  · have hb0 : insideH off (-1) b = false := by
      rw [Bool.eq_false_iff]; exact fun h => h2 ((insideH_neg_one off b).mp h)
    have hne : a.y ≠ b.y := fun h => h2 (h ▸ h1)
    obtain ⟨hl, hy⟩ := isectH_on_line off m u a b ha hb hne
    rw [inPart_in_out _ _ _ ((insideH_neg_one off a).mpr h1) hb0, hF a _ ha hl, hy,
      max_eq_left h1, max_eq_right (le_of_not_le h2)]
  · have ha0 : insideH off (-1) a = false := by
      rw [Bool.eq_false_iff]; exact fun h => h1 ((insideH_neg_one off a).mp h)
    have hne : a.y ≠ b.y := fun h => h1 (h ▸ h2)
    obtain ⟨hl, hy⟩ := isectH_on_line off m u a b ha hb hne
    rw [inPart_out_in _ _ _ ha0 ((insideH_neg_one off b).mpr h2), hF _ b hl hb, hy,
      max_eq_left h2, max_eq_right (le_of_not_le h1)]
  · have ha0 : insideH off (-1) a = false := by
      rw [Bool.eq_false_iff]; exact fun h => h1 ((insideH_neg_one off a).mp h)
    have hb0 : insideH off (-1) b = false := by
      rw [Bool.eq_false_iff]; exact fun h => h2 ((insideH_neg_one off b).mp h)
    rw [inPart_out_out _ _ _ ha0 hb0, max_eq_right (le_of_not_le h1),
      max_eq_right (le_of_not_le h2), sub_self, mul_zero]

/-- The clip pass that keeps `y ≤ off`, on a form given by a function of the
ordinate along a line of inverse slope `m`. -/
theorem slope_inPartH_hi (off m : α) (u : Vector2 α) (F : Vector2 α → Vector2 α → α) (V : α → α)
    (hF : ∀ a b : Vector2 α, a.x = u.x + m * (a.y - u.y) → b.x = u.x + m * (b.y - u.y) →
      F a b = -m * (V b.y - V a.y))
    (a b : Vector2 α) (ha : a.x = u.x + m * (a.y - u.y)) (hb : b.x = u.x + m * (b.y - u.y)) :
    inPart (insideH off 1) (isectH off) F a b
      = -m * (V (min b.y off) - V (min a.y off)) := by
  by_cases h1 : a.y ≤ off <;> by_cases h2 : b.y ≤ off
  · rw [inPart_in_in _ _ _ ((insideH_one off a).mpr h1) ((insideH_one off b).mpr h2),
      hF a b ha hb, min_eq_left h1, min_eq_left h2]
  · have hb0 : insideH off 1 b = false := by
      rw [Bool.eq_false_iff]; exact fun h => h2 ((insideH_one off b).mp h)
    have hne : a.y ≠ b.y := fun h => h2 (h ▸ h1)
    obtain ⟨hl, hy⟩ := isectH_on_line off m u a b ha hb hne
    rw [inPart_in_out _ _ _ ((insideH_one off a).mpr h1) hb0, hF a _ ha hl, hy,
      min_eq_left h1, min_eq_right (le_of_not_le h2)]
  · have ha0 : insideH off 1 a = false := by
      rw [Bool.eq_false_iff]; exact fun h => h1 ((insideH_one off a).mp h)
    have hne : a.y ≠ b.y := fun h => h1 (h ▸ h2)
    obtain ⟨hl, hy⟩ := isectH_on_line off m u a b ha hb hne
    rw [inPart_out_in _ _ _ ha0 ((insideH_one off b).mpr h2), hF _ b hl hb, hy,
      min_eq_left h2, min_eq_right (le_of_not_le h1)]
  · have ha0 : insideH off 1 a = false := by
      rw [Bool.eq_false_iff]; exact fun h => h1 ((insideH_one off a).mp h)
    have hb0 : insideH off 1 b = false := by
      rw [Bool.eq_false_iff]; exact fun h => h2 ((insideH_one off b).mp h)
    rw [inPart_out_out _ _ _ ha0 hb0, min_eq_right (le_of_not_le h1),
      min_eq_right (le_of_not_le h2), sub_self, mul_zero]

/-- The closed form of `rowForm` on an edge that is not horizontal. -/
theorem rowForm_closed (y0 y1 : α) (u w : Vector2 α) (hdy : w.y - u.y ≠ 0) :
    rowForm y0 y1 u w
      = -((w.x - u.x) / (w.y - u.y)) * (rowW y0 y1 w.y - rowW y0 y1 u.y) := by
  have hu : u.x = u.x + (w.x - u.x) / (w.y - u.y) * (u.y - u.y) := by rw [sub_self, mul_zero, add_zero]
  have hw : w.x = u.x + (w.x - u.x) / (w.y - u.y) * (w.y - u.y) := by
    rw [div_mul_cancel₀ _ hdy]; ring
  have h1 := slope_inPartH_hi y1 ((w.x - u.x) / (w.y - u.y)) u (capForm y1)
    (fun y => (y - y1) * (y - y1))
    (fun a b ha hb => by simp only [capForm]; rw [ha, hb]; ring)
  have h2 := slope_inPartH_lo y0 ((w.x - u.x) / (w.y - u.y)) u
    (fun a b => inPart (insideH y1 1) (isectH y1) (capForm y1) a b
      - 2 * (y1 - y0) * (b.x - a.x))
    (fun y => (min y y1 - y1) * (min y y1 - y1) + 2 * (y1 - y0) * y)
    (fun a b ha hb => by
      simp only
      rw [h1 a b ha hb, ha, hb]; ring) u w hu hw
  unfold rowForm
  rw [h2]
  rfl

/-- The closed form of `rowForm` on a horizontal edge. -/
theorem rowForm_horizontal (y0 y1 : α) (hy : y0 ≤ y1) (u w : Vector2 α) (h : u.y = w.y) :
    rowForm y0 y1 u w = -(2 * (w.x - u.x) * (min (max u.y y0) y1 - y0)) := by
  unfold rowForm
  by_cases h0 : y0 ≤ u.y
  · rw [inPart_in_in _ _ _ ((insideH_neg_one y0 u).mpr h0) ((insideH_neg_one y0 w).mpr (h ▸ h0)),
      max_eq_left h0]
    by_cases h1 : u.y ≤ y1
    · rw [inPart_in_in _ _ _ ((insideH_one y1 u).mpr h1) ((insideH_one y1 w).mpr (h ▸ h1)),
        min_eq_left h1, capForm, ← h]
      ring
    · have hu0 : insideH y1 1 u = false := by
        rw [Bool.eq_false_iff]; exact fun h => h1 ((insideH_one y1 u).mp h)
      have hw0 : insideH y1 1 w = false := by
        rw [Bool.eq_false_iff]; exact fun h' => h1 (h ▸ (insideH_one y1 w).mp h')
      rw [inPart_out_out _ _ _ hu0 hw0, min_eq_right (le_of_not_le h1)]
      ring
  · have hu0 : insideH y0 (-1) u = false := by
      rw [Bool.eq_false_iff]; exact fun h => h0 ((insideH_neg_one y0 u).mp h)
    have hw0 : insideH y0 (-1) w = false := by
      rw [Bool.eq_false_iff]; exact fun h' => h0 (h ▸ (insideH_neg_one y0 w).mp h')
    rw [inPart_out_out _ _ _ hu0 hw0, max_eq_right (le_of_not_le h0), min_eq_left hy]
    ring

end RowSum

section SplitThms

variable {α : Type} [LinearOrderedField α]

theorem boxForm_split_x_pos (x0 xm x1 y0 y1 : α) (h0 : x0 ≤ xm) (h1 : xm ≤ x1)
    (u w : Vector2 α) (hdx : 0 < w.x - u.x) :
    boxForm x0 y0 xm y1 u w + boxForm xm y0 x1 y1 u w = boxForm x0 y0 x1 y1 u w := by
  have hmono : ∀ a b : α, a ≤ b → (a - u.x) / (w.x - u.x) ≤ (b - u.x) / (w.x - u.x) :=
    fun a b hab => div_le_div_of_nonneg_right (by linarith) hdx.le
  have hm : ∀ a b : α, min (max 0 ((a - u.x) / (w.x - u.x))) ((b - u.x) / (w.x - u.x))
      ≤ min (max 1 ((a - u.x) / (w.x - u.x))) ((b - u.x) / (w.x - u.x)) :=
    fun a b => min_le_min (max_le_max zero_le_one (le_refl _)) (le_refl _)
  rw [boxForm_eq_rowForm _ _ _ _ _ _ hdx, boxForm_eq_rowForm _ _ _ _ _ _ hdx,
    boxForm_eq_rowForm _ _ _ _ _ _ hdx, hasPot_rowForm u w y0 y1 _ _ (hm x0 xm),
    hasPot_rowForm u w y0 y1 _ _ (hm xm x1), hasPot_rowForm u w y0 y1 _ _ (hm x0 x1)]
  have s1 := clamp_split (fun t => rowPot u w y0 y1 (lineClamp (-1) y0 u.y (w.y - u.y) t))
    _ _ _ 1 (hmono x0 xm h0) (hmono xm x1 h1)
  have s0 := clamp_split (fun t => rowPot u w y0 y1 (lineClamp (-1) y0 u.y (w.y - u.y) t))
    _ _ _ 0 (hmono x0 xm h0) (hmono xm x1 h1)
  simp only at s1 s0
  linarith

/-- The contribution of an edge to a box is the sum of its contributions to
the two boxes a vertical line cuts it into. -/
theorem boxForm_split_x (x0 xm x1 y0 y1 : α) (h0 : x0 ≤ xm) (h1 : xm ≤ x1) (u w : Vector2 α) :
    boxForm x0 y0 xm y1 u w + boxForm xm y0 x1 y1 u w = boxForm x0 y0 x1 y1 u w := by
  rcases lt_trichotomy (w.x - u.x) 0 with h | h | h
  · have := boxForm_split_x_pos x0 xm x1 y0 y1 h0 h1 w u (by linarith)
    rw [boxForm_antisymm _ _ _ _ w u, boxForm_antisymm _ _ _ _ w u,
      boxForm_antisymm _ _ _ _ w u]
    linarith
  · have hx : u.x = w.x := by linarith
    rw [boxForm_vertical _ _ _ _ u w hx, boxForm_vertical _ _ _ _ u w hx,
      boxForm_vertical _ _ _ _ u w hx, add_zero]
  · exact boxForm_split_x_pos x0 xm x1 y0 y1 h0 h1 u w h

theorem rowW_split (y0 ym y1 y : α) (h0 : y0 ≤ ym) (h1 : ym ≤ y1) :
    rowW y0 ym y + rowW ym y1 y = rowW y0 y1 y := by
  unfold rowW
  rcases le_total y y0 with a | a
  · rw [max_eq_right a, max_eq_right (a.trans h0), min_eq_left h0, min_eq_left h1,
      min_eq_left (h0.trans h1)]
    ring
  · rcases le_total y ym with b | b
    · rw [max_eq_left a, max_eq_right b, min_eq_left b, min_eq_left h1,
        min_eq_left (b.trans h1)]
      ring
    · rcases le_total y y1 with c | c
      · rw [max_eq_left a, max_eq_left b, min_eq_right b, min_eq_left c]
        ring
      · rw [max_eq_left a, max_eq_left b, min_eq_right b, min_eq_right c]
        ring

theorem clamp_add (y0 ym y1 y : α) (h0 : y0 ≤ ym) (h1 : ym ≤ y1) :
    (min (max y y0) ym - y0) + (min (max y ym) y1 - ym) = min (max y y0) y1 - y0 := by
  rcases le_total y y0 with a | a
  · rw [max_eq_right a, max_eq_right (a.trans h0), min_eq_left h0, min_eq_left h1,
      min_eq_left (h0.trans h1)]
    ring
  · rcases le_total y ym with b | b
    · rw [max_eq_left a, max_eq_right b, min_eq_left b, min_eq_left h1,
        min_eq_left (b.trans h1)]
      ring
    · rcases le_total y y1 with c | c
      · rw [max_eq_left a, max_eq_left b, min_eq_right b, min_eq_left c]
        ring
      · rw [max_eq_left a, max_eq_left b, min_eq_right b, min_eq_right c]
        ring

/-- The contribution of an edge to a row is the sum of its contributions to
the two rows a horizontal line cuts it into. -/
theorem rowForm_split_y (y0 ym y1 : α) (h0 : y0 ≤ ym) (h1 : ym ≤ y1) (u w : Vector2 α) :
    rowForm y0 ym u w + rowForm ym y1 u w = rowForm y0 y1 u w := by
  by_cases hdy : w.y - u.y = 0
  · have h : u.y = w.y := by linarith
    rw [rowForm_horizontal _ _ h0 u w h, rowForm_horizontal _ _ h1 u w h,
      rowForm_horizontal _ _ (h0.trans h1) u w h, ← clamp_add y0 ym y1 u.y h0 h1]
    ring
  · rw [rowForm_closed _ _ u w hdy, rowForm_closed _ _ u w hdy, rowForm_closed _ _ u w hdy,
      ← rowW_split y0 ym y1 w.y h0 h1, ← rowW_split y0 ym y1 u.y h0 h1]
    ring

/-- The contribution of an edge to a box is the sum of its contributions to
the two boxes a horizontal line cuts it into. -/
theorem boxForm_split_y (x0 x1 y0 ym y1 : α) (h0 : y0 ≤ ym) (h1 : ym ≤ y1) (u w : Vector2 α) :
    boxForm x0 y0 x1 ym u w + boxForm x0 ym x1 y1 u w = boxForm x0 y0 x1 y1 u w := by
  have key : ∀ u w : Vector2 α, 0 < w.x - u.x →
      boxForm x0 y0 x1 ym u w + boxForm x0 ym x1 y1 u w = boxForm x0 y0 x1 y1 u w := by
    intro u w hdx
    rw [boxForm_eq_rowForm _ _ _ _ _ _ hdx, boxForm_eq_rowForm _ _ _ _ _ _ hdx,
      boxForm_eq_rowForm _ _ _ _ _ _ hdx]
    exact rowForm_split_y y0 ym y1 h0 h1 _ _
  rcases lt_trichotomy (w.x - u.x) 0 with h | h | h
  · have := key w u (by linarith)
    rw [boxForm_antisymm _ _ _ _ w u, boxForm_antisymm _ _ _ _ w u,
      boxForm_antisymm _ _ _ _ w u]
    linarith
  · have hx : u.x = w.x := by linarith
    rw [boxForm_vertical _ _ _ _ u w hx, boxForm_vertical _ _ _ _ u w hx,
      boxForm_vertical _ _ _ _ u w hx, add_zero]
  · exact key u w h

/-- The clipped shoelace sum of a triangle over a box is the sum of those
over the two boxes a vertical line cuts it into. -/
theorem clipSum_split_x (x0 xm x1 y0 y1 : α) (h0 : x0 ≤ xm) (h1 : xm ≤ x1) (hy : y0 ≤ y1)
    (a b c : Vector2 α) :
    clipSum x0 y0 xm y1 a b c + clipSum xm y0 x1 y1 a b c = clipSum x0 y0 x1 y1 a b c := by
  rw [clipSum_eq_boxForm _ _ _ _ hy, clipSum_eq_boxForm _ _ _ _ hy,
    clipSum_eq_boxForm _ _ _ _ hy, ← boxForm_split_x x0 xm x1 y0 y1 h0 h1 a b,
    ← boxForm_split_x x0 xm x1 y0 y1 h0 h1 b c, ← boxForm_split_x x0 xm x1 y0 y1 h0 h1 c a]
  ring

/-- The clipped shoelace sum of a triangle over a box is the sum of those
over the two boxes a horizontal line cuts it into. -/
theorem clipSum_split_y (x0 x1 y0 ym y1 : α) (h0 : y0 ≤ ym) (h1 : ym ≤ y1)
    (a b c : Vector2 α) :
    clipSum x0 y0 x1 ym a b c + clipSum x0 ym x1 y1 a b c = clipSum x0 y0 x1 y1 a b c := by
  rw [clipSum_eq_boxForm _ _ _ _ h0, clipSum_eq_boxForm _ _ _ _ h1,
    clipSum_eq_boxForm _ _ _ _ (h0.trans h1), ← boxForm_split_y x0 x1 y0 ym y1 h0 h1 a b,
    ← boxForm_split_y x0 x1 y0 ym y1 h0 h1 b c, ← boxForm_split_y x0 x1 y0 ym y1 h0 h1 c a]
  ring

end SplitThms

section AreaSplit

variable {α : Type} [LinearOrderedField α]

theorem abs_clipSum (s : α) (hs1 : s = 1 ∨ s = -1) (x0 y0 x1 y1 : α) (a b c : Vector2 α)
    (hs : 0 ≤ s * cross2 a b c) :
    |clipSum x0 y0 x1 y1 a b c| = s * clipSum x0 y0 x1 y1 a b c := by
  have h := clipSum_sign s x0 y0 x1 y1 a b c hs
  rcases hs1 with e | e
  · rw [e, one_mul] at h ⊢
    exact abs_of_nonneg h
  · rw [e] at h ⊢
    rw [abs_of_nonpos (by linarith)]
    ring

theorem exists_sign (d : α) : ∃ s : α, (s = 1 ∨ s = -1) ∧ 0 ≤ s * d := by
  rcases le_total 0 d with h | h
  · exact ⟨1, Or.inl rfl, by linarith⟩
  · exact ⟨-1, Or.inr rfl, by linarith⟩

/-- The area the clipper reports for a box is the sum of the areas it
reports for the two boxes a vertical line cuts it into. -/
theorem clipAABox_area_split_x (x0 xm x1 y0 y1 : α) (h0 : x0 ≤ xm) (h1 : xm ≤ x1) (hy : y0 ≤ y1)
    (a b c : Vector2 α) :
    ((ClippedTriangle.new a b c).clipAABox x0 y0 xm y1).area
      + ((ClippedTriangle.new a b c).clipAABox xm y0 x1 y1).area
      = ((ClippedTriangle.new a b c).clipAABox x0 y0 x1 y1).area := by
  obtain ⟨s, hs1, hs⟩ := exists_sign (cross2 a b c)
  rw [clipAABox_area_eq_clipSum, clipAABox_area_eq_clipSum, clipAABox_area_eq_clipSum,
    abs_clipSum s hs1 _ _ _ _ a b c hs, abs_clipSum s hs1 _ _ _ _ a b c hs,
    abs_clipSum s hs1 _ _ _ _ a b c hs, ← clipSum_split_x x0 xm x1 y0 y1 h0 h1 hy a b c]
  ring

/-- The area the clipper reports for a box is the sum of the areas it
reports for the two boxes a horizontal line cuts it into. -/
theorem clipAABox_area_split_y (x0 x1 y0 ym y1 : α) (h0 : y0 ≤ ym) (h1 : ym ≤ y1)
    (a b c : Vector2 α) :
    ((ClippedTriangle.new a b c).clipAABox x0 y0 x1 ym).area
      + ((ClippedTriangle.new a b c).clipAABox x0 ym x1 y1).area
      = ((ClippedTriangle.new a b c).clipAABox x0 y0 x1 y1).area := by
  obtain ⟨s, hs1, hs⟩ := exists_sign (cross2 a b c)
  rw [clipAABox_area_eq_clipSum, clipAABox_area_eq_clipSum, clipAABox_area_eq_clipSum,
    abs_clipSum s hs1 _ _ _ _ a b c hs, abs_clipSum s hs1 _ _ _ _ a b c hs,
    abs_clipSum s hs1 _ _ _ _ a b c hs, ← clipSum_split_y x0 x1 y0 ym y1 h0 h1 a b c]
  ring

/-- The area reported for a box is at most the area of the box less what a
box inside it lacks of its own area. -/
theorem clipAABox_area_le_sub_box (x0 y0 x1 y1 xa ya xb yb : α) (hxa : x0 ≤ xa) (hxab : xa ≤ xb)
    (hxb : xb ≤ x1) (hya : y0 ≤ ya) (hyab : ya ≤ yb) (hyb : yb ≤ y1) (a b c : Vector2 α) :
    ((ClippedTriangle.new a b c).clipAABox x0 y0 x1 y1).area
      ≤ (x1 - x0) * (y1 - y0) - (xb - xa) * (yb - ya)
        + ((ClippedTriangle.new a b c).clipAABox xa ya xb yb).area := by
  have hy : y0 ≤ y1 := hya.trans (hyab.trans hyb)
  have e1 := clipAABox_area_split_x x0 xa x1 y0 y1 hxa (hxab.trans hxb) hy a b c
  have e2 := clipAABox_area_split_x xa xb x1 y0 y1 hxab hxb hy a b c
  have e3 := clipAABox_area_split_y xa xb y0 ya y1 hya (hyab.trans hyb) a b c
  have e4 := clipAABox_area_split_y xa xb ya yb y1 hyab hyb a b c
  have b1 := clipAABox_area_le a b c x0 y0 xa y1 hxa hy
  have b2 := clipAABox_area_le a b c xb y0 x1 y1 hxb hy
  have b3 := clipAABox_area_le a b c xa y0 xb ya hxab hya
  have b4 := clipAABox_area_le a b c xa yb xb y1 hxab hyb
  linarith

theorem clipAABox_area_of_disjoint (a b c : Vector2 α) (x0 y0 x1 y1 : α)
    (hdis : ∀ w, inTriangle a b c w → ¬ inBox x0 y0 x1 y1 w) :
    ((ClippedTriangle.new a b c).clipAABox x0 y0 x1 y1).area = 0 := by
  rw [clipAABox_area, ClippedTriangle.new_vertices,
    clipBoxRing_of_disjoint a b c x0 y0 x1 y1 hdis, pathSum_closeRing_nil]
  simp

end AreaSplit

section AreaStrict

variable {α : Type} [LinearOrderedField α] [FloorRing α]

/-- For a point outside a triangle that is not degenerate, one edge line has
the triangle on one side and the point strictly on the other. -/
theorem exists_separating_edge (a b c q : Vector2 α) (hD : cross2 a b c ≠ 0)
    (hq : ¬ inTriangle a b c q) :
    ∃ (s : α) (A B : Vector2 α), (s = 1 ∨ s = -1) ∧ s * cross2 A B q < 0 ∧
      ∀ p, inTriangle a b c p → 0 ≤ s * cross2 A B p := by
  have hin : ∀ (s : α), 0 < s * cross2 a b c → ∀ p, inTriangle a b c p →
      0 ≤ s * cross2 a b p ∧ 0 ≤ s * cross2 b c p ∧ 0 ≤ s * cross2 c a p := by
    rintro s hs p ⟨l1, l2, l3, h1, h2, h3, hl, hx, hy⟩
    obtain ⟨c1, c2, c3⟩ := cross2_of_inTriangle a b c p l1 l2 l3 hl hx hy
    have t1 : cross2 a b p = cross2 p a b := by simp only [cross2]; ring
    have t2 : cross2 b c p = cross2 p b c := by simp only [cross2]; ring
    have t3 : cross2 c a p = cross2 p c a := by simp only [cross2]; ring
    rw [t1, t2, t3, c1, c2, c3]
    refine ⟨?_, ?_, ?_⟩
    · have := mul_nonneg h3 hs.le
      calc (0 : α) ≤ l3 * (s * cross2 a b c) := this
        _ = s * (l3 * cross2 a b c) := by ring
    · have := mul_nonneg h1 hs.le
      calc (0 : α) ≤ l1 * (s * cross2 a b c) := this
        _ = s * (l1 * cross2 a b c) := by ring
    · have := mul_nonneg h2 hs.le
      calc (0 : α) ≤ l2 * (s * cross2 a b c) := this
        _ = s * (l2 * cross2 a b c) := by ring
  have key : ∀ s : α, (s = 1 ∨ s = -1) → 0 < s * cross2 a b c →
      (0 ≤ s * cross2 a b q → 0 ≤ s * cross2 b c q → 0 ≤ s * cross2 c a q → False) →
      ∃ (s : α) (A B : Vector2 α), (s = 1 ∨ s = -1) ∧ s * cross2 A B q < 0 ∧
        ∀ p, inTriangle a b c p → 0 ≤ s * cross2 A B p := by
    intro s hs1 hs hfalse
    by_cases h1 : s * cross2 a b q < 0
    · exact ⟨s, a, b, hs1, h1, fun p hp => (hin s hs p hp).1⟩
    · by_cases h2 : s * cross2 b c q < 0
      · exact ⟨s, b, c, hs1, h2, fun p hp => (hin s hs p hp).2.1⟩
      · by_cases h3 : s * cross2 c a q < 0
        · exact ⟨s, c, a, hs1, h3, fun p hp => (hin s hs p hp).2.2⟩
        · exact absurd (hfalse (not_lt.mp h1) (not_lt.mp h2) (not_lt.mp h3)) id
  rcases lt_or_gt_of_ne hD with hneg | hpos
  · refine key (-1) (Or.inr rfl) (by linarith) (fun h1 h2 h3 => hq ?_)
    have hD' : 0 < cross2 a c b := by rw [cross2_swap]; linarith
    refine inTriangle_swap _ _ _ _ (inTriangle_of_cross2 a c b q hD' ?_ ?_ ?_)
    · have e : cross2 a c q = -cross2 c a q := by simp only [cross2]; ring
      rw [e]; linarith
    · have e : cross2 c b q = -cross2 b c q := by simp only [cross2]; ring
      rw [e]; linarith
    · have e : cross2 b a q = -cross2 a b q := by simp only [cross2]; ring
      rw [e]; linarith
  · refine key 1 (Or.inl rfl) (by linarith) (fun h1 h2 h3 => hq ?_)
    exact inTriangle_of_cross2 a b c q hpos (by linarith) (by linarith) (by linarith)

end AreaStrict

section AreaStrict2

variable {α : Type} [LinearOrderedField α] [FloorRing α]

theorem cross2_near (s : α) (hs1 : s = 1 ∨ s = -1) (A B q p : Vector2 α) (e : α)
    (hx : |p.x - q.x| ≤ e) (hy : |p.y - q.y| ≤ e) :
    s * cross2 A B p ≤ s * cross2 A B q + (|B.x - A.x| + |B.y - A.y|) * e := by
  have he : 0 ≤ e := le_trans (abs_nonneg _) hx
  have key : s * cross2 A B p - s * cross2 A B q
      = s * ((B.x - A.x) * (p.y - q.y) - (B.y - A.y) * (p.x - q.x)) := by
    simp only [cross2]; ring
  have h1 : |(B.x - A.x) * (p.y - q.y)| ≤ |B.x - A.x| * e := by
    rw [abs_mul]; exact mul_le_mul_of_nonneg_left hy (abs_nonneg _)
  have h2 : |(B.y - A.y) * (p.x - q.x)| ≤ |B.y - A.y| * e := by
    rw [abs_mul]; exact mul_le_mul_of_nonneg_left hx (abs_nonneg _)
  have a1 := abs_le.mp h1
  have a2 := abs_le.mp h2
  rcases hs1 with rfl | rfl
  · linarith
  · linarith

/-- When a point of the box lies outside a triangle that is not degenerate,
the clipper reports less than the area of the box. -/
theorem clipAABox_area_lt_of_not_mem (a b c : Vector2 α) (hD : cross2 a b c ≠ 0)
    (x0 y0 x1 y1 : α) (hx : x0 < x1) (hy : y0 < y1) (q : Vector2 α)
    (hq : inBox x0 y0 x1 y1 q) (hnq : ¬ inTriangle a b c q) :
    ((ClippedTriangle.new a b c).clipAABox x0 y0 x1 y1).area < (x1 - x0) * (y1 - y0) := by
  obtain ⟨s, A, B, hs1, hneg, hT⟩ := exists_separating_edge a b c q hD hnq
  obtain ⟨q1, q2, q3, q4⟩ := hq
  have hM : 0 < |B.x - A.x| + |B.y - A.y| + 1 := by
    have := abs_nonneg (B.x - A.x)
    have := abs_nonneg (B.y - A.y)
    linarith
  obtain ⟨e, he, hMe⟩ : ∃ e : α, 0 < e ∧ (|B.x - A.x| + |B.y - A.y|) * e < -(s * cross2 A B q) := by
    refine ⟨-(s * cross2 A B q) / (2 * (|B.x - A.x| + |B.y - A.y| + 1)),
      div_pos (by linarith) (by linarith), ?_⟩
    have e1 : (|B.x - A.x| + |B.y - A.y| + 1)
        * (-(s * cross2 A B q) / (2 * (|B.x - A.x| + |B.y - A.y| + 1)))
        = -(s * cross2 A B q) / 2 := by
      field_simp
      ring
    have e2 : 0 < -(s * cross2 A B q) / (2 * (|B.x - A.x| + |B.y - A.y| + 1)) :=
      div_pos (by linarith) (by linarith)
    linarith
  have hdis : ∀ w, inTriangle a b c w →
      ¬ inBox (max x0 (q.x - e)) (max y0 (q.y - e)) (min x1 (q.x + e)) (min y1 (q.y + e)) w := by
    rintro w hw ⟨w1, w2, w3, w4⟩
    have hx1 := le_trans (le_max_right _ _) w1
    have hx2 := le_trans w2 (min_le_right _ _)
    have hy1 := le_trans (le_max_right _ _) w3
    have hy2 := le_trans w4 (min_le_right _ _)
    have := cross2_near s hs1 A B q w e (abs_le.mpr ⟨by linarith, by linarith⟩)
      (abs_le.mpr ⟨by linarith, by linarith⟩)
    have := hT w hw
    linarith
  have hsub := clipAABox_area_le_sub_box x0 y0 x1 y1 (max x0 (q.x - e)) (max y0 (q.y - e))
    (min x1 (q.x + e)) (min y1 (q.y + e)) (le_max_left _ _)
    (max_le (le_min hx.le (by linarith)) (le_min (by linarith) (by linarith)))
    (min_le_left _ _) (le_max_left _ _)
    (max_le (le_min hy.le (by linarith)) (le_min (by linarith) (by linarith)))
    (min_le_left _ _) a b c
  rw [clipAABox_area_of_disjoint a b c _ _ _ _ hdis, add_zero] at hsub
  have wx : 0 < min x1 (q.x + e) - max x0 (q.x - e) :=
    sub_pos.mpr (max_lt (lt_min hx (by linarith)) (lt_min (by linarith) (by linarith)))
  have wy : 0 < min y1 (q.y + e) - max y0 (q.y - e) :=
    sub_pos.mpr (max_lt (lt_min hy (by linarith)) (lt_min (by linarith) (by linarith)))
  have := mul_pos wx wy
  linarith

/-- When the clipper reports the whole area of the box, the box lies in the
triangle. -/
theorem inTriangle_of_clipAABox_area_eq (a b c : Vector2 α) (x0 y0 x1 y1 : α) (hx : x0 < x1)
    (hy : y0 < y1)
    (hA : ((ClippedTriangle.new a b c).clipAABox x0 y0 x1 y1).area = (x1 - x0) * (y1 - y0))
    (q : Vector2 α) (hq : inBox x0 y0 x1 y1 q) : inTriangle a b c q := by
  have hvol : 0 < (x1 - x0) * (y1 - y0) := mul_pos (sub_pos.mpr hx) (sub_pos.mpr hy)
  have hD : cross2 a b c ≠ 0 := by
    intro h0
    rw [clipAABox_area_collinear a b c x0 y0 x1 y1 h0] at hA
    linarith
  by_contra hnq
  have := clipAABox_area_lt_of_not_mem a b c hD x0 y0 x1 y1 hx hy q hq hnq
  linarith

end AreaStrict2

section CentroidConvex

variable {α : Type} [LinearOrderedField α]

theorem pathSum_centroidTermX_about (q : Vector2 α) (vs : List (Vector2 α)) :
    pathSum (fun u w => cross2 q u w * (q.x + u.x + w.x)) (closeRing vs)
      = pathSum centroidTermX (closeRing vs) := by
  have h := pathSum_telescope_closeRing (fun p : Vector2 α =>
    -q.x * (q.x * p.y - q.y * p.x) - q.x * (p.x * p.y) + q.y * (p.x * p.x)) vs
  have h2 := pathSum_add centroidTermX (fun u w : Vector2 α =>
    (-q.x * (q.x * w.y - q.y * w.x) - q.x * (w.x * w.y) + q.y * (w.x * w.x))
      - (-q.x * (q.x * u.y - q.y * u.x) - q.x * (u.x * u.y) + q.y * (u.x * u.x)))
    (closeRing vs)
  rw [h, add_zero] at h2
  rw [← h2]
  refine pathSum_congr _ _ _ (fun u _ w _ => ?_)
  simp only [cross2, centroidTermX, shoelace]
  ring

theorem pathSum_centroidTermY_about (q : Vector2 α) (vs : List (Vector2 α)) :
    pathSum (fun u w => cross2 q u w * (q.y + u.y + w.y)) (closeRing vs)
      = pathSum centroidTermY (closeRing vs) := by
  have h := pathSum_telescope_closeRing (fun p : Vector2 α =>
    -q.y * (q.x * p.y - q.y * p.x) - q.x * (p.y * p.y) + q.y * (p.x * p.y)) vs
  have h2 := pathSum_add centroidTermY (fun u w : Vector2 α =>
    (-q.y * (q.x * w.y - q.y * w.x) - q.x * (w.y * w.y) + q.y * (w.x * w.y))
      - (-q.y * (q.x * u.y - q.y * u.x) - q.x * (u.y * u.y) + q.y * (u.x * u.y)))
    (closeRing vs)
  rw [h, add_zero] at h2
  rw [← h2]
  refine pathSum_congr _ _ _ (fun u _ w _ => ?_)
  simp only [cross2, centroidTermY, shoelace]
  ring

/-- A mean with non-negative weights of points of a convex set lies in the
set, unless all weights are zero. -/
theorem weighted_mean_mem (K : Vector2 α → Prop) (hK : ConvexPred K)
    (W : Vector2 α → Vector2 α → α) (X Y : Vector2 α → Vector2 α → α) :
    ∀ p : List (Vector2 α), pairsAll (fun u w => 0 ≤ W u w ∧ K ⟨X u w, Y u w⟩) p →
      (pathSum W p = 0 ∧ pathSum (fun u w => W u w * X u w) p = 0 ∧
        pathSum (fun u w => W u w * Y u w) p = 0) ∨
      (0 < pathSum W p ∧
        K ⟨pathSum (fun u w => W u w * X u w) p / pathSum W p,
           pathSum (fun u w => W u w * Y u w) p / pathSum W p⟩)
  | [], _ => Or.inl ⟨rfl, rfl, rfl⟩
  | [a], _ => Or.inl ⟨rfl, rfl, rfl⟩
  | a :: b :: r, h => by
    obtain ⟨⟨hW, hC⟩, hr⟩ := h
    rw [pathSum_cons_cons, pathSum_cons_cons, pathSum_cons_cons]
    rcases weighted_mean_mem K hK W X Y (b :: r) hr with ⟨z1, z2, z3⟩ | ⟨hpos, hm⟩
    · rw [z1, z2, z3, add_zero, add_zero, add_zero]
      rcases hW.lt_or_eq with hlt | heq
      · refine Or.inr ⟨hlt, ?_⟩
        rw [mul_div_cancel_left₀ _ (ne_of_gt hlt), mul_div_cancel_left₀ _ (ne_of_gt hlt)]
        exact hC
      · refine Or.inl ⟨heq.symm, ?_, ?_⟩ <;> rw [← heq, zero_mul]
    · rcases hW.lt_or_eq with hlt | heq
      · refine Or.inr ⟨by linarith, ?_⟩
        have hl := hK _ _ (W a b / (W a b + pathSum W (b :: r))) hm hC
          (div_nonneg hW (by linarith)) (by rw [div_le_one (by linarith)]; linarith)
        have hne : W a b + pathSum W (b :: r) ≠ 0 := by linarith
        have hne' : pathSum W (b :: r) ≠ 0 := ne_of_gt hpos
        have e : lerp (⟨pathSum (fun u w => W u w * X u w) (b :: r) / pathSum W (b :: r),
            pathSum (fun u w => W u w * Y u w) (b :: r) / pathSum W (b :: r)⟩ : Vector2 α)
            ⟨X a b, Y a b⟩ (W a b / (W a b + pathSum W (b :: r)))
            = ⟨(W a b * X a b + pathSum (fun u w => W u w * X u w) (b :: r))
                / (W a b + pathSum W (b :: r)),
               (W a b * Y a b + pathSum (fun u w => W u w * Y u w) (b :: r))
                / (W a b + pathSum W (b :: r))⟩ := by
          simp only [lerp, Vector2.mk.injEq]
          constructor
          · field_simp
            ring
          · field_simp
            ring
        rw [e] at hl
        exact hl
      · rw [← heq, zero_mul, zero_mul, zero_add, zero_add, zero_add]
        exact Or.inr ⟨hpos, hm⟩

theorem mean_of_three_mem (K : Vector2 α → Prop) (hK : ConvexPred K) (q u w : Vector2 α)
    (hq : K q) (hu : K u) (hw : K w) :
    K ⟨(q.x + u.x + w.x) / 3, (q.y + u.y + w.y) / 3⟩ := by
  have h1 := hK q u (1 / 2) hq hu (by norm_num) (by norm_num)
  have h2 := hK _ w (1 / 3) h1 hw (by norm_num) (by norm_num)
  have e : lerp (lerp q u (1 / 2)) w (1 / 3)
      = ⟨(q.x + u.x + w.x) / 3, (q.y + u.y + w.y) / 3⟩ := by
    simp only [lerp, Vector2.mk.injEq]
    constructor <;> ring
  rw [e] at h2
  exact h2

end CentroidConvex

section CentroidConvex2

variable {α : Type} [LinearOrderedField α]

theorem convexPred_inBox (x0 y0 x1 y1 : α) : ConvexPred (inBox x0 y0 x1 y1) := by
  rintro p q t ⟨p1, p2, p3, p4⟩ ⟨q1, q2, q3, q4⟩ h0 h1
  have h1' : 0 ≤ 1 - t := by linarith
  have ex : (lerp p q t).x = (1 - t) * p.x + t * q.x := by simp only [lerp]; ring
  have ey : (lerp p q t).y = (1 - t) * p.y + t * q.y := by simp only [lerp]; ring
  refine ⟨?_, ?_, ?_, ?_⟩
  · rw [ex]
    have := mul_le_mul_of_nonneg_left p1 h1'
    have := mul_le_mul_of_nonneg_left q1 h0
    linarith
  · rw [ex]
    have := mul_le_mul_of_nonneg_left p2 h1'
    have := mul_le_mul_of_nonneg_left q2 h0
    linarith
  · rw [ey]
    have := mul_le_mul_of_nonneg_left p3 h1'
    have := mul_le_mul_of_nonneg_left q3 h0
    linarith
  · rw [ey]
    have := mul_le_mul_of_nonneg_left p4 h1'
    have := mul_le_mul_of_nonneg_left q4 h0
    linarith

/-- The area centroid of a ring that turns in one sense around a point of a
convex set holding the vertices lies in the set. -/
theorem polygonCentroid_mem (K : Vector2 α → Prop) (hK : ConvexPred K) (s : α)
    (hs1 : s = 1 ∨ s = -1) (q : Vector2 α) (hq : K q) (vs : List (Vector2 α))
    (hvs : ∀ v ∈ vs, K v) (hstar : pairsAll (starRel s q) (closeRing vs))
    (hS : pathSum shoelace (closeRing vs) ≠ 0) : K (polygonCentroid vs) := by
  have hs0 : s ≠ 0 := by rcases hs1 with e | e <;> rw [e] <;> norm_num
  have hp : pairsAll (fun u w => 0 ≤ s * cross2 q u w
      ∧ K ⟨(q.x + u.x + w.x) / 3, (q.y + u.y + w.y) / 3⟩) (closeRing vs) :=
    pairsAll_mono _ _ (fun u w h => ⟨h.1, mean_of_three_mem K hK q u w hq h.2.1 h.2.2⟩) _
      (pairsAll_and _ _ _ hstar (pairsAll_closeRing_of_forall K vs hvs))
  have eW : pathSum (fun u w => s * cross2 q u w) (closeRing vs)
      = s * pathSum shoelace (closeRing vs) := by
    rw [pathSum_mul_left, pathSum_cross2_closeRing]
  have eX : pathSum (fun u w => s * cross2 q u w * ((q.x + u.x + w.x) / 3)) (closeRing vs)
      = s / 3 * pathSum centroidTermX (closeRing vs) := by
    rw [← pathSum_centroidTermX_about q, ← pathSum_mul_left]
    exact pathSum_congr _ _ _ (fun u _ w _ => by ring)
  have eY : pathSum (fun u w => s * cross2 q u w * ((q.y + u.y + w.y) / 3)) (closeRing vs)
      = s / 3 * pathSum centroidTermY (closeRing vs) := by
    rw [← pathSum_centroidTermY_about q, ← pathSum_mul_left]
    exact pathSum_congr _ _ _ (fun u _ w _ => by ring)
  rcases weighted_mean_mem K hK (fun u w => s * cross2 q u w)
    (fun u w => (q.x + u.x + w.x) / 3) (fun u w => (q.y + u.y + w.y) / 3) _ hp with
    ⟨z, _, _⟩ | ⟨_, hm⟩
  · rw [eW] at z
    rcases mul_eq_zero.mp z with h | h
    · exact absurd h hs0
    · exact absurd h hS
  · rw [eW, eX, eY] at hm
    have e : polygonCentroid vs
        = ⟨s / 3 * pathSum centroidTermX (closeRing vs) / (s * pathSum shoelace (closeRing vs)),
           s / 3 * pathSum centroidTermY (closeRing vs)
            / (s * pathSum shoelace (closeRing vs))⟩ := by
      simp only [polygonCentroid, Vector2.mk.injEq]
      constructor
      · field_simp
        ring
      · field_simp
        ring
    rw [e]
    exact hm

/-- The area centroid of the ring the clipper leaves, when its area is
positive, lies in the box and in the triangle. -/
theorem clipAABox_polygonCentroid_mem (a b c : Vector2 α) (x0 y0 x1 y1 : α)
    (hA : 0 < ((ClippedTriangle.new a b c).clipAABox x0 y0 x1 y1).area) :
    inTriangle a b c
        (polygonCentroid ((ClippedTriangle.new a b c).clipAABox x0 y0 x1 y1).m_vertices) ∧
      inBox x0 y0 x1 y1
        (polygonCentroid ((ClippedTriangle.new a b c).clipAABox x0 y0 x1 y1).m_vertices) := by
  obtain ⟨w, hw, hb⟩ := exists_point_of_clipAABox_area_pos a b c x0 y0 x1 y1 hA
  obtain ⟨s, hs1, hs⟩ : ∃ s : α, (s = 1 ∨ s = -1) ∧ 0 ≤ s * cross2 a b c := by
    rcases le_total 0 (cross2 a b c) with h | h
    · exact ⟨1, Or.inl rfl, by linarith⟩
    · exact ⟨-1, Or.inr rfl, by linarith⟩
  have hring := clipBoxRing_forall x0 y0 x1 y1 _ (convexPred_inTriangle a b c) [a, b, c] (by
    intro v hv
    simp only [List.mem_cons, List.mem_singleton, List.not_mem_nil, or_false] at hv
    rcases hv with rfl | rfl | rfl
    · exact inTriangle_vertex1 _ _ _
    · exact inTriangle_vertex2 _ _ _
    · exact inTriangle_vertex3 _ _ _)
  have hstar := star_clipBoxRing s w x0 y0 x1 y1 hb [a, b, c] (starRel_triangle s a b c w hs hw)
  rw [clipAABox_vertices, ClippedTriangle.new_vertices]
  refine polygonCentroid_mem (fun v => inTriangle a b c v ∧ inBox x0 y0 x1 y1 v)
    (convexPred_and _ _ (convexPred_inTriangle a b c) (convexPred_inBox x0 y0 x1 y1))
    s hs1 w ⟨hw, hb⟩ _ hring hstar ?_
  intro h0
  rw [clipAABox_area, ClippedTriangle.new_vertices, h0] at hA
  simp at hA

end CentroidConvex2

section BarycentricThms

variable {α : Type} [LinearOrderedField α] [FloorRing α] {σ : Type}

/-- With the barycentric attribute basis the interpolant at a point of the
triangle is the triple of its barycentric coordinates. -/
theorem interp_barycentric (sqrtf : α → α) (p0 p1 p2 : Vector2 α) (dx0 dy0 : Vector3 α)
    (h : cross2 p0 p1 p2 ≠ 0) (q : Vector2 α) (l1 l2 l3 : α) (hl : l1 + l2 + l3 = 1)
    (hx : q.x = l1 * p0.x + l2 * p1.x + l3 * p2.x)
    (hy : q.y = l1 * p0.y + l2 * p1.y + l3 * p2.y) :
    (Triangle.new sqrtf p0 p1 p2 ⟨1, 0, 0⟩ ⟨0, 1, 0⟩ ⟨0, 0, 1⟩ dx0 dy0).interp q
      = ⟨l1, l2, l3⟩ := by
  have hd : (p1.y - p0.y) * (p2.x - p0.x) - (p2.y - p0.y) * (p1.x - p0.x) ≠ 0 := by
    intro h0
    apply h
    simp only [cross2]
    linear_combination -h0
  have hr := recip_of_ne hd
  have e1 : l1 = 1 - l2 - l3 := by linarith
  simp only [Triangle.new, Triangle.computeUnitInwardNormals, Triangle.computeDeltas,
    Vector2.sub, hr, Triangle.interp, Vector3.add, Vector3.sub, Vector3.smul, hx, hy, e1,
    Vector3.mk.injEq]
  refine ⟨?_, ?_, ?_⟩ <;> (field_simp; ring)

/-- With the barycentric attribute basis the interpolant at a point of a
triangle with non-zero area has non-negative components of sum one. -/
theorem interp_convex (sqrtf : α → α) (p0 p1 p2 : Vector2 α) (dx0 dy0 : Vector3 α)
    (h : cross2 p0 p1 p2 ≠ 0) (q : Vector2 α) (hq : inTriangle p0 p1 p2 q) :
    0 ≤ ((Triangle.new sqrtf p0 p1 p2 ⟨1, 0, 0⟩ ⟨0, 1, 0⟩ ⟨0, 0, 1⟩ dx0 dy0).interp q).x ∧
    0 ≤ ((Triangle.new sqrtf p0 p1 p2 ⟨1, 0, 0⟩ ⟨0, 1, 0⟩ ⟨0, 0, 1⟩ dx0 dy0).interp q).y ∧
    0 ≤ ((Triangle.new sqrtf p0 p1 p2 ⟨1, 0, 0⟩ ⟨0, 1, 0⟩ ⟨0, 0, 1⟩ dx0 dy0).interp q).z ∧
    ((Triangle.new sqrtf p0 p1 p2 ⟨1, 0, 0⟩ ⟨0, 1, 0⟩ ⟨0, 0, 1⟩ dx0 dy0).interp q).x
      + ((Triangle.new sqrtf p0 p1 p2 ⟨1, 0, 0⟩ ⟨0, 1, 0⟩ ⟨0, 0, 1⟩ dx0 dy0).interp q).y
      + ((Triangle.new sqrtf p0 p1 p2 ⟨1, 0, 0⟩ ⟨0, 1, 0⟩ ⟨0, 0, 1⟩ dx0 dy0).interp q).z = 1 := by
  obtain ⟨l1, l2, l3, h1, h2, h3, hl, hx, hy⟩ := hq
  rw [interp_barycentric sqrtf p0 p1 p2 dx0 dy0 h q l1 l2 l3 hl hx hy]
  exact ⟨h1, h2, h3, hl⟩

/-- The attribute of a call with coverage one is the interpolant at a point of
the triangle, which has non-zero area. -/
theorem full_coverage_bar {sqrtf : α → α} (hs : IsSqrt sqrtf) (p0 p1 p2 : Vector2 α)
    (a0 a1 a2 dx0 dy0 : Vector3 α) (c : Call α)
    (h : c ∈ drawCalls sqrtf (Triangle.new sqrtf p0 p1 p2 a0 a1 a2 dx0 dy0))
    (h1 : c.coverage = 1) :
    cross2 p0 p1 p2 ≠ 0 ∧ ∃ q, inTriangle p0 p1 p2 q ∧
      c.bar = (Triangle.new sqrtf p0 p1 p2 a0 a1 a2 dx0 dy0).interp q := by
  obtain ⟨bY, bX, r, k, _, _, hr, hk, hc⟩ := (mem_drawCalls sqrtf _ c).mp h
  have hb := mem_pixelCalls_bar sqrtf _ bY bX r k c hc
  simp only [new_v1, new_v2, new_v3] at hb
  rcases hb with ⟨_, h2 | h2, hbar⟩ | ⟨_, _, hcov, hpos, hbar⟩
  · have hq := inTriangle_of_block_inside_square hs p0 p1 p2 a0 a1 a2 dx0 dy0 _ _ h2
      ⟨centreOf (loBound p0.x p2.x p1.x) bX k, centreOf (loBound p0.y p2.y p1.y) bY r⟩
      ((centreOf_sub_blockCentre _ bX k hk).trans (by norm_num))
      ((centreOf_sub_blockCentre _ bY r hr).trans (by norm_num))
    exact ⟨ne_of_gt hq.1, _, hq.2, hbar⟩
  · have hq := inTriangle_of_pixel_inside_square hs p0 p1 p2 a0 a1 a2 dx0 dy0 _ _ h2
      ⟨centreOf (loBound p0.x p2.x p1.x) bX k, centreOf (loBound p0.y p2.y p1.y) bY r⟩
      (by simp) (by simp)
    exact ⟨ne_of_gt hq.1, _, hq.2, hbar⟩
  · rw [h1] at hcov
    rw [pixelClip_new] at hcov hpos
    have hD : cross2 p0 p1 p2 ≠ 0 := by
      intro h0
      have hz := clipAABox_area_collinear
        (p0.sub ⟨centreOf (loBound p0.x p2.x p1.x) bX k, centreOf (loBound p0.y p2.y p1.y) bY r⟩)
        (p2.sub ⟨centreOf (loBound p0.x p2.x p1.x) bX k, centreOf (loBound p0.y p2.y p1.y) bY r⟩)
        (p1.sub ⟨centreOf (loBound p0.x p2.x p1.x) bX k, centreOf (loBound p0.y p2.y p1.y) bY r⟩)
        (-(1 / 2)) (-(1 / 2)) (1 / 2) (1 / 2) (by rw [cross2_translate, cross2_swap, h0, neg_zero])
      rw [hz] at hpos
      exact lt_irrefl _ hpos
    refine ⟨hD, ?_⟩
    have hbox := inTriangle_of_clipAABox_area_eq
      (p0.sub ⟨centreOf (loBound p0.x p2.x p1.x) bX k, centreOf (loBound p0.y p2.y p1.y) bY r⟩)
      (p2.sub ⟨centreOf (loBound p0.x p2.x p1.x) bX k, centreOf (loBound p0.y p2.y p1.y) bY r⟩)
      (p1.sub ⟨centreOf (loBound p0.x p2.x p1.x) bX k, centreOf (loBound p0.y p2.y p1.y) bY r⟩)
      (-(1 / 2)) (-(1 / 2)) (1 / 2) (1 / 2) (by norm_num) (by norm_num)
      (by rw [← hcov]; norm_num)
    have hpc := (clipAABox_polygonCentroid_mem _ _ _ _ _ _ _ hpos).2
    have hcen := pixelClip_centroid sqrtf p0 p1 p2 a0 a1 a2 dx0 dy0
      (centreOf (loBound p0.x p2.x p1.x) bX k) (centreOf (loBound p0.y p2.y p1.y) bY r)
      (by rw [pixelClip_new]; exact hpos)
    rw [pixelClip_new] at hcen
    rw [pixelClip_new] at hbar
    obtain ⟨b1, b2, b3, b4⟩ := hpc
    have hm : inBox (-(1 / 2) : α) (-(1 / 2)) (1 / 2) (1 / 2)
        ⟨-((ClippedTriangle.new
            (p0.sub ⟨centreOf (loBound p0.x p2.x p1.x) bX k,
              centreOf (loBound p0.y p2.y p1.y) bY r⟩)
            (p2.sub ⟨centreOf (loBound p0.x p2.x p1.x) bX k,
              centreOf (loBound p0.y p2.y p1.y) bY r⟩)
            (p1.sub ⟨centreOf (loBound p0.x p2.x p1.x) bX k,
              centreOf (loBound p0.y p2.y p1.y) bY r⟩)).clipAABox
            (-(1 / 2)) (-(1 / 2)) (1 / 2) (1 / 2)).centroid.x,
         -((ClippedTriangle.new
            (p0.sub ⟨centreOf (loBound p0.x p2.x p1.x) bX k,
              centreOf (loBound p0.y p2.y p1.y) bY r⟩)
            (p2.sub ⟨centreOf (loBound p0.x p2.x p1.x) bX k,
              centreOf (loBound p0.y p2.y p1.y) bY r⟩)
            (p1.sub ⟨centreOf (loBound p0.x p2.x p1.x) bX k,
              centreOf (loBound p0.y p2.y p1.y) bY r⟩)).clipAABox
            (-(1 / 2)) (-(1 / 2)) (1 / 2) (1 / 2)).centroid.y⟩ := by
      rcases le_total 0 (cross2 p0 p1 p2) with hc0 | hc0
      · rw [hcen.1 hc0]
        refine ⟨?_, ?_, ?_, ?_⟩ <;> simp only [neg_neg] <;> assumption
      · rw [hcen.2 hc0]
        refine ⟨?_, ?_, ?_, ?_⟩ <;> linarith
    have hq := inTriangle_swap _ _ _ _ (inTriangle_translate _ _ _ _ _ (hbox _ hm))
    refine ⟨_, hq, ?_⟩
    rw [hbar, attribute_at_centroid _ _ _ _ _ _ _ (neg_neg _).symm (neg_neg _).symm]
    simp only [Triangle.interp]
    congr 3 <;> ring

end BarycentricThms

section BarycentricExample

/-- The call for pixel `(3, 3)` of the triangle `(0.5,0.5), (10.5,0.5),
(0.5,10.5)` with coverage one. -/
theorem example_full_pixel_call (a0 a1 a2 dx0 dy0 : Vector3 ℝ) :
    ∃ e ∈ ((Triangle.new Real.sqrt (⟨1 / 2, 1 / 2⟩ : Vector2 ℝ) ⟨21 / 2, 1 / 2⟩ ⟨1 / 2, 21 / 2⟩
        a0 a1 a2 dx0 dy0).drawAA Real.sqrt (record alwaysTrue) ((), [])).1.2,
      e.1.x = 3 ∧ e.1.y = 3 ∧ e.1.coverage = 1 := by
  have hD : 0 < cross2 (⟨1 / 2, 1 / 2⟩ : Vector2 ℝ) ⟨21 / 2, 1 / 2⟩ ⟨1 / 2, 21 / 2⟩ := by
    norm_num [cross2]
  obtain ⟨c, hc, hx, hy, hcov⟩ := call_of_square_inside isSqrt_real (⟨1 / 2, 1 / 2⟩ : Vector2 ℝ)
    ⟨21 / 2, 1 / 2⟩ ⟨1 / 2, 21 / 2⟩ a0 a1 a2 dx0 dy0 hD 3 3 (by norm_num) (by norm_num)
    (inTriangle_of_cross2 _ _ _ _ hD (by norm_num [cross2]) (by norm_num [cross2])
      (by norm_num [cross2]))
    (inTriangle_of_cross2 _ _ _ _ hD (by norm_num [cross2]) (by norm_num [cross2])
      (by norm_num [cross2]))
    (inTriangle_of_cross2 _ _ _ _ hD (by norm_num [cross2]) (by norm_num [cross2])
      (by norm_num [cross2]))
    (inTriangle_of_cross2 _ _ _ _ hD (by norm_num [cross2]) (by norm_num [cross2])
      (by norm_num [cross2]))
  have hlog := log_of_always_true Real.sqrt (Triangle.new Real.sqrt (⟨1 / 2, 1 / 2⟩ : Vector2 ℝ)
    ⟨21 / 2, 1 / 2⟩ ⟨1 / 2, 21 / 2⟩ a0 a1 a2 dx0 dy0) alwaysTrue (fun _ _ => rfl) ()
  rw [← hlog] at hc
  obtain ⟨e, he, rfl⟩ := List.mem_map.mp hc
  exact ⟨e, he, hx, hy, hcov⟩

end BarycentricExample

section BarycentricClaim

variable {α : Type} [LinearOrderedField α] [FloorRing α] {σ : Type}

/-- C14: with the barycentric attribute basis `(1,0,0), (0,1,0), (0,0,1)`,
every callback invocation of `drawAA` that reports coverage `1` passes an
attribute whose three components are non-negative and sum to one, for every
triangle and every callback. -/
theorem full_coverage_attribute_convex {sqrtf : α → α} (hs : IsSqrt sqrtf)
    (p0 p1 p2 : Vector2 α) (dx0 dy0 : Vector3 α) (cb : SamplingCallback σ α) (s : σ) :
    ∀ e ∈ ((Triangle.new sqrtf p0 p1 p2 ⟨1, 0, 0⟩ ⟨0, 1, 0⟩ ⟨0, 0, 1⟩ dx0 dy0).drawAA sqrtf
        (record cb) (s, [])).1.2,
      e.1.coverage = 1 →
      0 ≤ e.1.bar.x ∧ 0 ≤ e.1.bar.y ∧ 0 ≤ e.1.bar.z ∧ e.1.bar.x + e.1.bar.y + e.1.bar.z = 1 := by
  intro e he h1
  have hm := mem_drawCalls_of_mem_log sqrtf _ cb s e he
  obtain ⟨hD, q, hq, hbar⟩ := full_coverage_bar hs p0 p1 p2 _ _ _ dx0 dy0 e.1 hm h1
  rw [hbar]
  exact interp_convex sqrtf p0 p1 p2 dx0 dy0 hD q hq

/-- C14 at pixel `(3, 3)` of the triangle `(0.5,0.5), (10.5,0.5), (0.5,10.5)`:
it gets a call with coverage one and a convex combination as attribute. -/
theorem full_coverage_attribute_convex_witness :
    ∃ e ∈ ((Triangle.new Real.sqrt (⟨1 / 2, 1 / 2⟩ : Vector2 ℝ) ⟨21 / 2, 1 / 2⟩ ⟨1 / 2, 21 / 2⟩
        ⟨1, 0, 0⟩ ⟨0, 1, 0⟩ ⟨0, 0, 1⟩ ⟨0, 0, 0⟩ ⟨0, 0, 0⟩).drawAA Real.sqrt (record alwaysTrue)
        ((), [])).1.2,
      e.1.x = 3 ∧ e.1.y = 3 ∧ e.1.coverage = 1 ∧
      0 ≤ e.1.bar.x ∧ 0 ≤ e.1.bar.y ∧ 0 ≤ e.1.bar.z ∧ e.1.bar.x + e.1.bar.y + e.1.bar.z = 1 := by
  obtain ⟨e, he, hx, hy, hcov⟩ := example_full_pixel_call (⟨1, 0, 0⟩ : Vector3 ℝ) ⟨0, 1, 0⟩
    ⟨0, 0, 1⟩ ⟨0, 0, 0⟩ ⟨0, 0, 0⟩
  exact ⟨e, he, hx, hy, hcov,
    full_coverage_attribute_convex isSqrt_real _ _ _ _ _ alwaysTrue () e he hcov⟩

/-- C20 at the triangle `(0.5,0.5), (10.5,0.5), (0.5,10.5)`: the call for
pixel `(3, 3)` has non-negative coordinates. -/
theorem callback_coordinates_nonneg_witness :
    ∃ e ∈ ((Triangle.new Real.sqrt (⟨1 / 2, 1 / 2⟩ : Vector2 ℝ) ⟨21 / 2, 1 / 2⟩ ⟨1 / 2, 21 / 2⟩
        ⟨1, 0, 0⟩ ⟨0, 1, 0⟩ ⟨0, 0, 1⟩ ⟨0, 0, 0⟩ ⟨0, 0, 0⟩).drawAA Real.sqrt (record alwaysTrue)
        ((), [])).1.2,
      e.1.x = 3 ∧ e.1.y = 3 ∧ 0 ≤ e.1.x ∧ 0 ≤ e.1.y := by
  obtain ⟨e, he, hx, hy, _⟩ := example_full_pixel_call (⟨1, 0, 0⟩ : Vector3 ℝ) ⟨0, 1, 0⟩
    ⟨0, 0, 1⟩ ⟨0, 0, 0⟩ ⟨0, 0, 0⟩
  exact ⟨e, he, hx, hy, callback_coordinates_nonneg Real.sqrt _ alwaysTrue () e he⟩

end BarycentricClaim

section TranslateThms

variable {α : Type} [LinearOrderedField α]

theorem clipPath_map (f : Vector2 α → Vector2 α) (ins ins' : Vector2 α → Bool)
    (isect isect' : Vector2 α → Vector2 α → Vector2 α) (hi : ∀ v, ins' (f v) = ins v)
    (hx : ∀ a b, isect' (f a) (f b) = f (isect a b)) :
    ∀ l : List (Vector2 α), clipPath ins' isect' (l.map f) = (clipPath ins isect l).map f
  | [] => rfl
  | [a] => rfl
  | a :: b :: rest => by
    have ih := clipPath_map f ins ins' isect isect' hi hx (b :: rest)
    simp only [List.map_cons] at ih
    simp only [List.map_cons, clipPath, hi, hx, ih, List.map_append]
    congr 1
    congr 1
    · cases ins a <;> rfl
    · cases (ins a != ins b) <;> rfl

theorem clipPath_closeRing_map (f : Vector2 α → Vector2 α) (ins ins' : Vector2 α → Bool)
    (isect isect' : Vector2 α → Vector2 α → Vector2 α) (hi : ∀ v, ins' (f v) = ins v)
    (hx : ∀ a b, isect' (f a) (f b) = f (isect a b)) (vs : List (Vector2 α)) :
    clipPath ins' isect' (closeRing (vs.map f)) = (clipPath ins isect (closeRing vs)).map f := by
  cases vs with
  | nil => rfl
  | cons a rest =>
    rw [← clipPath_map f ins ins' isect isect' hi hx]
    congr 1
    simp [closeRing]

theorem insideV_sub (off dir : α) (o v : Vector2 α) :
    insideV (off - o.x) dir (v.sub o) = insideV off dir v := by
  simp only [insideV, Vector2.sub, sub_sub_sub_cancel_right]

theorem insideH_sub (off dir : α) (o v : Vector2 α) :
    insideH (off - o.y) dir (v.sub o) = insideH off dir v := by
  simp only [insideH, Vector2.sub, sub_sub_sub_cancel_right]

theorem isectV_sub (off : α) (o a b : Vector2 α) :
    isectV (off - o.x) (a.sub o) (b.sub o) = (isectV off a b).sub o := by
  simp only [isectV, Vector2.sub, sub_sub_sub_cancel_right, Vector2.mk.injEq, true_and]
  ring

theorem isectH_sub (off : α) (o a b : Vector2 α) :
    isectH (off - o.y) (a.sub o) (b.sub o) = (isectH off a b).sub o := by
  simp only [isectH, Vector2.sub, sub_sub_sub_cancel_right, Vector2.mk.injEq, and_true]
  ring

/-- Clipping a translated ring against the translated box gives the
translated ring. -/
theorem clipBoxRing_sub (x0 y0 x1 y1 : α) (o : Vector2 α) (vs : List (Vector2 α)) :
    clipBoxRing (x0 - o.x) (y0 - o.y) (x1 - o.x) (y1 - o.y) (vs.map (fun v => v.sub o))
      = (clipBoxRing x0 y0 x1 y1 vs).map (fun v => v.sub o) := by
  simp only [clipBoxRing]
  rw [clipPath_closeRing_map (fun v => v.sub o) (insideV x0 (-1)) _ (isectV x0) _
      (insideV_sub x0 (-1) o) (isectV_sub x0 o),
    clipPath_closeRing_map (fun v => v.sub o) (insideH y0 (-1)) _ (isectH y0) _
      (insideH_sub y0 (-1) o) (isectH_sub y0 o),
    clipPath_closeRing_map (fun v => v.sub o) (insideV x1 1) _ (isectV x1) _
      (insideV_sub x1 1 o) (isectV_sub x1 o),
    clipPath_closeRing_map (fun v => v.sub o) (insideH y1 1) _ (isectH y1) _
      (insideH_sub y1 1 o) (isectH_sub y1 o)]

theorem pathSum_map (h : Vector2 α → Vector2 α → α) (f : Vector2 α → Vector2 α) :
    ∀ l : List (Vector2 α), pathSum h (l.map f) = pathSum (fun u w => h (f u) (f w)) l
  | [] => rfl
  | [a] => rfl
  | a :: b :: rest => by
    have ih := pathSum_map h f (b :: rest)
    simp only [List.map_cons] at ih
    simp only [List.map_cons, pathSum, ih]

/-- The shoelace sum of a closed ring does not change under translation. -/
theorem pathSum_shoelace_sub (o : Vector2 α) (vs : List (Vector2 α)) :
    pathSum shoelace (closeRing (vs.map (fun v => v.sub o)))
      = pathSum shoelace (closeRing vs) := by
  cases vs with
  | nil => rfl
  | cons a rest =>
    have e : closeRing ((a :: rest).map (fun v => v.sub o))
        = (closeRing (a :: rest)).map (fun v => v.sub o) := by simp [closeRing]
    rw [e, pathSum_map, ← pathSum_cross2_closeRing o]
    apply pathSum_congr
    intro u _ w _
    simp only [shoelace, cross2, Vector2.sub]
    ring

/-- The area the clipper reports for a translated triangle and the translated
box is the area it reports for the triangle and the box. -/
theorem clipAABox_area_sub (a b c o : Vector2 α) (x0 y0 x1 y1 : α) :
    ((ClippedTriangle.new (a.sub o) (b.sub o) (c.sub o)).clipAABox
        (x0 - o.x) (y0 - o.y) (x1 - o.x) (y1 - o.y)).area
      = ((ClippedTriangle.new a b c).clipAABox x0 y0 x1 y1).area := by
  rw [clipAABox_area, clipAABox_area, ClippedTriangle.new_vertices, ClippedTriangle.new_vertices]
  have e : [a.sub o, b.sub o, c.sub o] = [a, b, c].map (fun v => v.sub o) := rfl
  rw [e, clipBoxRing_sub, pathSum_shoelace_sub]

/-- The area the clipper reports is not negative. -/
theorem clipAABox_area_nonneg (a b c : Vector2 α) (x0 y0 x1 y1 : α) :
    0 ≤ ((ClippedTriangle.new a b c).clipAABox x0 y0 x1 y1).area := by
  rw [clipAABox_area]
  exact mul_nonneg (by norm_num) (abs_nonneg _)

/-- The area reported for a box whose points lie on one side of a line, for a
triangle on the other side, is zero. -/
theorem clipAABox_area_of_separated (a b c : Vector2 α) (x0 y0 x1 y1 : α) (A B : Vector2 α)
    (hAB : A ≠ B) (hT : ∀ w, inTriangle a b c w → cross2 A B w ≤ 0)
    (hBx : ∀ w, inBox x0 y0 x1 y1 w → 0 ≤ cross2 A B w) :
    ((ClippedTriangle.new a b c).clipAABox x0 y0 x1 y1).area = 0 := by
  have hring := clipBoxRing_forall x0 y0 x1 y1 _ (convexPred_inTriangle a b c) [a, b, c] (by
    intro v hv
    simp only [List.mem_cons, List.mem_singleton, List.not_mem_nil, or_false] at hv
    rcases hv with rfl | rfl | rfl
    · exact inTriangle_vertex1 _ _ _
    · exact inTriangle_vertex2 _ _ _
    · exact inTriangle_vertex3 _ _ _)
  have hl : -(B.y - A.y) ≠ 0 ∨ B.x - A.x ≠ 0 := by
    by_contra hcon
    push_neg at hcon
    apply hAB
    cases A; cases B
    simp only [Vector2.mk.injEq]
    simp only at hcon
    constructor <;> linarith [hcon.1, hcon.2]
  rw [clipAABox_area, ClippedTriangle.new_vertices,
    pathSum_shoelace_collinear (-(B.y - A.y)) (B.x - A.x)
      ((B.x - A.x) * A.y - (B.y - A.y) * A.x) hl _ (by
        intro v hv
        obtain ⟨h1, h2⟩ := hring v hv
        have h3 := hT v h1
        have h4 := hBx v h2
        have h5 : cross2 A B v = 0 := le_antisymm h3 h4
        simp only [cross2] at h5
        linear_combination h5)]
  simp

end TranslateThms

section SumThms

variable {α : Type} [LinearOrderedField α]

theorem sum_map_flatMap {β γ : Type} (g : γ → α) (f : β → List γ) :
    ∀ l : List β, ((l.flatMap f).map g).sum = (l.map (fun x => ((f x).map g).sum)).sum
  | [] => rfl
  | x :: l => by
    simp only [List.flatMap_cons, List.map_append, List.sum_append, List.map_cons,
      List.sum_cons, sum_map_flatMap g f l]

/-- The areas reported for a row of adjacent boxes add up to the area
reported for their union. -/
theorem clipAABox_area_sum_x (a b c : Vector2 α) (y0 y1 : α) (hy : y0 ≤ y1) (g : Nat → α)
    (hg : ∀ k, g k ≤ g (k + 1)) :
    ∀ n : Nat, ((List.range n).map
        (fun k => ((ClippedTriangle.new a b c).clipAABox (g k) y0 (g (k + 1)) y1).area)).sum
      = ((ClippedTriangle.new a b c).clipAABox (g 0) y0 (g n) y1).area
  | 0 => by
    have h1 := clipAABox_area_le a b c (g 0) y0 (g 0) y1 le_rfl hy
    have h2 := clipAABox_area_nonneg a b c (g 0) y0 (g 0) y1
    simp only [List.range_zero, List.map_nil, List.sum_nil]
    rw [sub_self, zero_mul] at h1
    exact le_antisymm h2 h1
  | n + 1 => by
    have hmono : ∀ m : Nat, g 0 ≤ g m := by
      intro m
      induction m with
      | zero => exact le_rfl
      | succ m ih => exact ih.trans (hg m)
    rw [List.range_succ, List.map_append, List.sum_append, clipAABox_area_sum_x a b c y0 y1 hy g hg n]
    simp only [List.map_cons, List.map_nil, List.sum_cons, List.sum_nil, add_zero]
    exact clipAABox_area_split_x (g 0) (g n) (g (n + 1)) y0 y1 (hmono n) (hg n) hy a b c

/-- The areas reported for a column of adjacent boxes add up to the area
reported for their union. -/
theorem clipAABox_area_sum_y (a b c : Vector2 α) (x0 x1 : α) (hx : x0 ≤ x1) (g : Nat → α)
    (hg : ∀ k, g k ≤ g (k + 1)) :
    ∀ n : Nat, ((List.range n).map
        (fun k => ((ClippedTriangle.new a b c).clipAABox x0 (g k) x1 (g (k + 1))).area)).sum
      = ((ClippedTriangle.new a b c).clipAABox x0 (g 0) x1 (g n)).area
  | 0 => by
    have h1 := clipAABox_area_le a b c x0 (g 0) x1 (g 0) hx le_rfl
    have h2 := clipAABox_area_nonneg a b c x0 (g 0) x1 (g 0)
    simp only [List.range_zero, List.map_nil, List.sum_nil]
    rw [sub_self, mul_zero] at h1
    exact le_antisymm h2 h1
  | n + 1 => by
    have hmono : ∀ m : Nat, g 0 ≤ g m := by
      intro m
      induction m with
      | zero => exact le_rfl
      | succ m ih => exact ih.trans (hg m)
    rw [List.range_succ, List.map_append, List.sum_append, clipAABox_area_sum_y a b c x0 x1 hx g hg n]
    simp only [List.map_cons, List.map_nil, List.sum_cons, List.sum_nil, add_zero]
    exact clipAABox_area_split_y x0 x1 (g 0) (g n) (g (n + 1)) (hmono n) (hg n) a b c

end SumThms

section PixelAreaThms

variable {α : Type} [LinearOrderedField α] [FloorRing α] {σ : Type}

/-- The area of the clipper run for the pixel with centre `(x, y)` is the area
reported for the triangle and the square of the pixel. -/
theorem pixelClip_area_eq (sqrtf : α → α) (p0 p1 p2 : Vector2 α) (a0 a1 a2 dx0 dy0 : Vector3 α)
    (x y : α) :
    (pixelClip (Triangle.new sqrtf p0 p1 p2 a0 a1 a2 dx0 dy0) x y).area
      = ((ClippedTriangle.new p0 p2 p1).clipAABox (x - 1 / 2) (y - 1 / 2) (x + 1 / 2)
          (y + 1 / 2)).area := by
  have h := clipAABox_area_sub p0 p2 p1 ⟨x, y⟩ (x - 1 / 2) (y - 1 / 2) (x + 1 / 2) (y + 1 / 2)
  simp only [sub_sub_cancel_left, add_sub_cancel_left] at h
  rw [pixelClip_new]
  exact h

/-- Where the half-space function of the edge from `a` to `b` is `<= -B`, the
points at a distance up to `B` lie on the side of the edge line on which
`cross2 a b` is not negative. -/
theorem cross2_nonneg_of_nanLE {sqrtf : α → α} (hs : IsSqrt sqrtf) (a b : Vector2 α)
    (xc yc B : α) (hB : 0 ≤ B) (h : nanLE (edgeFn sqrtf a b xc yc) (-B) = true)
    (w : Vector2 α)
    (hd : (w.x - xc) * (w.x - xc) + (w.y - yc) * (w.y - yc) ≤ B * B) :
    a ≠ b ∧ 0 ≤ cross2 a b w := by
  obtain ⟨f, e, g⟩ := nanLE_eq_true h
  obtain ⟨L, hL, hLL, hf⟩ := edgeFn_eq_some hs a b xc yc f e
  have hab : a ≠ b := by
    intro hab
    rw [hab] at hLL
    simp only [sub_self, mul_zero, add_zero] at hLL
    have : L = 0 := mul_self_eq_zero.mp hLL
    linarith
  refine ⟨hab, ?_⟩
  obtain ⟨fw, ew⟩ := edgeFn_isSome hs a b w.x w.y hab
  obtain ⟨L', hL', _, hf'⟩ := edgeFn_eq_some hs a b w.x w.y fw ew
  have hl := edgeFn_lipschitz hs a b w.x w.y xc yc fw f ew e
  have hfw : fw ≤ 0 := by
    have k := (le_of_mul_self_sub_le fw f _ B hB hl hd).2
    linarith
  have h3 : L' * fw ≤ 0 := mul_nonpos_of_nonneg_of_nonpos hL'.le hfw
  have e3 : cross2 a b w = cross2 a b ⟨w.x, w.y⟩ := rfl
  rw [e3]
  linarith

/-- A point of a counter-clockwise triangle lies on the side of each reversed
edge on which `cross2` is not positive. -/
theorem cross2_rev_of_inTriangle (p0 p1 p2 w : Vector2 α) (hD : 0 < cross2 p0 p1 p2)
    (hw : inTriangle p0 p1 p2 w) :
    cross2 p0 p2 w ≤ 0 ∧ cross2 p2 p1 w ≤ 0 ∧ cross2 p1 p0 w ≤ 0 := by
  obtain ⟨l1, l2, l3, h1, h2, h3, hl, hx, hy⟩ := hw
  obtain ⟨e1, e2, e3⟩ := cross2_of_inTriangle p0 p1 p2 w l1 l2 l3 hl hx hy
  have c1 : cross2 p0 p2 w = -cross2 w p2 p0 := by simp only [cross2]; ring
  have c2 : cross2 p2 p1 w = -cross2 w p1 p2 := by simp only [cross2]; ring
  have c3 : cross2 p1 p0 w = -cross2 w p0 p1 := by simp only [cross2]; ring
  rw [c1, c2, c3, e1, e2, e3]
  have := mul_nonneg h1 hD.le
  have := mul_nonneg h2 hD.le
  have := mul_nonneg h3 hD.le
  refine ⟨?_, ?_, ?_⟩ <;> linarith

/-- For a counter-clockwise triangle, a box within the distance `B` of a
point at which some half-space function is `<= -B` overlaps the triangle in
zero area. -/
theorem clipAABox_area_of_anyLE {sqrtf : α → α} (hs : IsSqrt sqrtf) (p0 p1 p2 : Vector2 α)
    (a0 a1 a2 dx0 dy0 : Vector3 α) (hD : 0 < cross2 p0 p1 p2) (xc yc B : α) (hB : 0 ≤ B)
    (h : (Triangle.new sqrtf p0 p1 p2 a0 a1 a2 dx0 dy0).anyLE (-B) xc yc = true)
    (x0 y0 x1 y1 : α)
    (hd : ∀ w, inBox x0 y0 x1 y1 w →
      (w.x - xc) * (w.x - xc) + (w.y - yc) * (w.y - yc) ≤ B * B) :
    ((ClippedTriangle.new p0 p2 p1).clipAABox x0 y0 x1 y1).area = 0 := by
  rw [new_anyLE] at h
  simp only [Bool.or_eq_true] at h
  have hT : ∀ w, inTriangle p0 p2 p1 w →
      cross2 p0 p2 w ≤ 0 ∧ cross2 p2 p1 w ≤ 0 ∧ cross2 p1 p0 w ≤ 0 :=
    fun w hw => cross2_rev_of_inTriangle p0 p1 p2 w hD (inTriangle_swap _ _ _ _ hw)
  rcases h with (h | h) | h
  · exact clipAABox_area_of_separated p0 p2 p1 x0 y0 x1 y1 p0 p2
      (cross2_nonneg_of_nanLE hs _ _ xc yc B hB h ⟨xc, yc⟩ (by
          simp only [sub_self, mul_zero, add_zero]; exact mul_nonneg hB hB)).1
      (fun w hw => (hT w hw).1)
      (fun w hw => (cross2_nonneg_of_nanLE hs _ _ xc yc B hB h w (hd w hw)).2)
  · exact clipAABox_area_of_separated p0 p2 p1 x0 y0 x1 y1 p2 p1
      (cross2_nonneg_of_nanLE hs _ _ xc yc B hB h ⟨xc, yc⟩ (by
          simp only [sub_self, mul_zero, add_zero]; exact mul_nonneg hB hB)).1
      (fun w hw => (hT w hw).2.1)
      (fun w hw => (cross2_nonneg_of_nanLE hs _ _ xc yc B hB h w (hd w hw)).2)
  · exact clipAABox_area_of_separated p0 p2 p1 x0 y0 x1 y1 p1 p0
      (cross2_nonneg_of_nanLE hs _ _ xc yc B hB h ⟨xc, yc⟩ (by
          simp only [sub_self, mul_zero, add_zero]; exact mul_nonneg hB hB)).1
      (fun w hw => (hT w hw).2.2)
      (fun w hw => (cross2_nonneg_of_nanLE hs _ _ xc yc B hB h w (hd w hw)).2)

end PixelAreaThms

section CoverageSumThms

variable {α : Type} [LinearOrderedField α] [FloorRing α] {σ : Type}

/-- The area of the clipper run for a pixel is not negative. -/
theorem pixelClip_area_nonneg (sqrtf : α → α) (p0 p1 p2 : Vector2 α)
    (a0 a1 a2 dx0 dy0 : Vector3 α) (x y : α) :
    0 ≤ (pixelClip (Triangle.new sqrtf p0 p1 p2 a0 a1 a2 dx0 dy0) x y).area := by
  rw [pixelClip_area_eq]
  exact clipAABox_area_nonneg _ _ _ _ _ _ _

/-- For a counter-clockwise triangle a pixel of a block that is classified
outside overlaps the triangle in zero area. -/
theorem pixel_area_of_anyLE {sqrtf : α → α} (hs : IsSqrt sqrtf) (p0 p1 p2 : Vector2 α)
    (a0 a1 a2 dx0 dy0 : Vector3 α) (hD : 0 < cross2 p0 p1 p2) (xc yc x y : α)
    (hx : |x - xc| ≤ 7 / 2) (hy : |y - yc| ≤ 7 / 2)
    (h : (Triangle.new sqrtf p0 p1 p2 a0 a1 a2 dx0 dy0).anyLE (-sqrtf (8 * 8 / 2)) xc yc = true) :
    (pixelClip (Triangle.new sqrtf p0 p1 p2 a0 a1 a2 dx0 dy0) x y).area = 0 := by
  obtain ⟨hB, hBB⟩ := bk_inside_sq hs
  have ax := abs_le.mp hx
  have ay := abs_le.mp hy
  rw [pixelClip_area_eq]
  refine clipAABox_area_of_anyLE hs p0 p1 p2 a0 a1 a2 dx0 dy0 hD xc yc (sqrtf (8 * 8 / 2))
    hB.le h _ _ _ _ ?_
  rintro w ⟨w1, w2, w3, w4⟩
  rw [hBB]
  have := sq_dist_le (w.x - xc) (w.y - yc) 4
    (by linarith only [ax.1, w1]) (by linarith only [ax.2, w2])
    (by linarith only [ay.1, w3]) (by linarith only [ay.2, w4])
  linarith only [this]

/-- A pixel of a block that is classified inside is covered. -/
theorem pixel_area_of_block_allGE {sqrtf : α → α} (hs : IsSqrt sqrtf) (p0 p1 p2 : Vector2 α)
    (a0 a1 a2 dx0 dy0 : Vector3 α) (xc yc x y : α)
    (hx : |x - xc| ≤ 7 / 2) (hy : |y - yc| ≤ 7 / 2)
    (h : (Triangle.new sqrtf p0 p1 p2 a0 a1 a2 dx0 dy0).allGE (sqrtf (8 * 8 / 2)) xc yc = true) :
    (pixelClip (Triangle.new sqrtf p0 p1 p2 a0 a1 a2 dx0 dy0) x y).area = 1 := by
  obtain ⟨hB, hBB⟩ := bk_inside_sq hs
  have ax := abs_le.mp hx
  have ay := abs_le.mp hy
  refine pixelClip_area_of_allGE hs p0 p1 p2 a0 a1 a2 dx0 dy0 (sqrtf (8 * 8 / 2)) xc yc x y
    hB h ?_
  intro u v hu hv
  rw [hBB]
  have au := abs_le.mp hu
  have av := abs_le.mp hv
  have := sq_dist_le (x + u - xc) (y + v - yc) 4
    (by linarith only [ax.1, au.1]) (by linarith only [ax.2, au.2])
    (by linarith only [ay.1, av.1]) (by linarith only [ay.2, av.2])
  linarith only [this]

/-- A pixel that is classified inside is covered. -/
theorem pixel_area_of_pixel_allGE {sqrtf : α → α} (hs : IsSqrt sqrtf) (p0 p1 p2 : Vector2 α)
    (a0 a1 a2 dx0 dy0 : Vector3 α) (x y : α)
    (h : (Triangle.new sqrtf p0 p1 p2 a0 a1 a2 dx0 dy0).allGE (1 / sqrtf 2) x y = true) :
    (pixelClip (Triangle.new sqrtf p0 p1 p2 a0 a1 a2 dx0 dy0) x y).area = 1 := by
  refine pixelClip_area_of_allGE hs p0 p1 p2 a0 a1 a2 dx0 dy0 (1 / sqrtf 2) x y x y
    (px_inside_pos hs) h ?_
  intro u v hu hv
  rw [px_inside_sq hs]
  have au := abs_le.mp hu
  have av := abs_le.mp hv
  have := sq_dist_le u v (1 / 2) (by linarith only [au.1]) (by linarith only [au.2])
    (by linarith only [av.1]) (by linarith only [av.2])
  have e1 : x + u - x = u := by ring
  have e2 : y + v - y = v := by ring
  rw [e1, e2]
  linarith only [this]

/-- For a counter-clockwise triangle a pixel that is classified outside
overlaps the triangle in zero area. -/
theorem pixel_area_of_not_allGE {sqrtf : α → α} (hs : IsSqrt sqrtf) (p0 p1 p2 : Vector2 α)
    (a0 a1 a2 dx0 dy0 : Vector3 α) (hD : 0 < cross2 p0 p1 p2) (x y : α)
    (h : ¬ (Triangle.new sqrtf p0 p1 p2 a0 a1 a2 dx0 dy0).allGE (-1 / sqrtf 2) x y = true) :
    (pixelClip (Triangle.new sqrtf p0 p1 p2 a0 a1 a2 dx0 dy0) x y).area = 0 := by
  by_contra hne
  have hpos : 0 < (pixelClip (Triangle.new sqrtf p0 p1 p2 a0 a1 a2 dx0 dy0) x y).area :=
    lt_of_le_of_ne (pixelClip_area_nonneg _ _ _ _ _ _ _ _ _ _ _) (Ne.symm hne)
  rw [pixelClip_area_eq] at hpos
  obtain ⟨w, hw, w1, w2, w3, w4⟩ := exists_point_of_clipAABox_area_pos _ _ _ _ _ _ _ hpos
  apply h
  have := new_allGE_of_near hs p0 p1 p2 a0 a1 a2 dx0 dy0 hD w (inTriangle_swap _ _ _ _ hw)
    x y (1 / sqrtf 2) (px_inside_pos hs).le (by
      rw [px_inside_sq hs]
      have := sq_dist_le (w.x - x) (w.y - y) (1 / 2)
        (by linarith only [w1]) (by linarith only [w2]) (by linarith only [w3])
        (by linarith only [w4])
      linarith only [this])
  rw [neg_div]
  exact this

/-- The sum of the coverages of the calls of a pixel, from what the
classification implies for the area `A` the clipper reports. -/
theorem coverage_sum_cases (c1 c2 c3 c4 : Bool) (A : α) (e1 e2 e3 : Call α)
    (he1 : e1.coverage = 1) (he2 : e2.coverage = 1) (he3 : e3.coverage = A)
    (h1 : c1 = true → A = 0) (h2 : c2 = true → A = 1) (h3 : c3 = true → A = 1)
    (h4 : ¬ c4 = true → A = 0) (h5 : 0 ≤ A) :
    ((if c1 = true then [] else if c2 = true then [e1] else if c3 = true then [e2]
        else if c4 = true then (if A > 0 then [e3] else []) else []).map Call.coverage).sum
      = A := by
  split_ifs with g1 g2 g3 g4 g5
  · simp [h1 g1]
  · simp [he1, h2 g2]
  · simp [he2, h3 g3]
  · simp [he3]
  · simp only [List.map_nil, List.sum_nil]
    exact le_antisymm h5 (not_lt.mp g5)
  · simp [h4 g4]

/-- For a counter-clockwise triangle the coverages of the calls made for one
pixel of the block loop add up to the area the clipper reports for the
triangle and the square of the pixel: a pixel without a call overlaps the
triangle in zero area. -/
theorem pixelCalls_coverage_sum {sqrtf : α → α} (hs : IsSqrt sqrtf) (p0 p1 p2 : Vector2 α)
    (a0 a1 a2 dx0 dy0 : Vector3 α) (hD : 0 < cross2 p0 p1 p2) (bY bX r k : Nat) (hr : r < 8)
    (hk : k < 8) :
    ((pixelCalls sqrtf (Triangle.new sqrtf p0 p1 p2 a0 a1 a2 dx0 dy0) bY bX r k).map
        Call.coverage).sum
      = ((ClippedTriangle.new p0 p2 p1).clipAABox
          (((loPixel p0.x p2.x p1.x : ℤ) : α) + bX * 8 + (k : α))
          (((loPixel p0.y p2.y p1.y : ℤ) : α) + bY * 8 + (r : α))
          (((loPixel p0.x p2.x p1.x : ℤ) : α) + bX * 8 + ((k + 1 : ℕ) : α))
          (((loPixel p0.y p2.y p1.y : ℤ) : α) + bY * 8 + ((r + 1 : ℕ) : α))).area := by
  have ecx : ((loPixel p0.x p2.x p1.x : ℤ) : α) + bX * 8 + (k : α)
      = centreOf (loBound p0.x p2.x p1.x) bX k - 1 / 2 := by
    simp only [centreOf, loBound_eq]; ring
  have ecy : ((loPixel p0.y p2.y p1.y : ℤ) : α) + bY * 8 + (r : α)
      = centreOf (loBound p0.y p2.y p1.y) bY r - 1 / 2 := by
    simp only [centreOf, loBound_eq]; ring
  have ecx1 : ((loPixel p0.x p2.x p1.x : ℤ) : α) + bX * 8 + ((k + 1 : ℕ) : α)
      = centreOf (loBound p0.x p2.x p1.x) bX k + 1 / 2 := by
    simp only [centreOf, loBound_eq]; push_cast; ring
  have ecy1 : ((loPixel p0.y p2.y p1.y : ℤ) : α) + bY * 8 + ((r + 1 : ℕ) : α)
      = centreOf (loBound p0.y p2.y p1.y) bY r + 1 / 2 := by
    simp only [centreOf, loBound_eq]; push_cast; ring
  rw [ecx, ecy, ecx1, ecy1, ← pixelClip_area_eq sqrtf p0 p1 p2 a0 a1 a2 dx0 dy0]
  have ax := centreOf_sub_blockCentre (loBound p0.x p2.x p1.x) bX k hk
  have ay := centreOf_sub_blockCentre (loBound p0.y p2.y p1.y) bY r hr
  rw [pixelCalls_eq]
  simp only [new_v1, new_v2, new_v3]
  exact coverage_sum_cases _ _ _ _ _ _ _ _ rfl rfl rfl
    (pixel_area_of_anyLE hs p0 p1 p2 a0 a1 a2 dx0 dy0 hD _ _ _ _ ax ay)
    (pixel_area_of_block_allGE hs p0 p1 p2 a0 a1 a2 dx0 dy0 _ _ _ _ ax ay)
    (pixel_area_of_pixel_allGE hs p0 p1 p2 a0 a1 a2 dx0 dy0 _ _)
    (pixel_area_of_not_allGE hs p0 p1 p2 a0 a1 a2 dx0 dy0 hD _ _)
    (pixelClip_area_nonneg _ _ _ _ _ _ _ _ _ _ _)

/-- The block loop reaches from the pixel column of the smallest coordinate to
beyond the largest coordinate, when the coordinates are not negative. -/
theorem grid_covers (a b c : α) (ha : 0 ≤ a) (hb : 0 ≤ b) (hc : 0 ≤ c) (v : α)
    (hlo : min a (min b c) ≤ v) (hhi : v ≤ max a (max b c)) :
    ((loPixel a b c : ℤ) : α) ≤ v ∧
      v ≤ ((loPixel a b c : ℤ) : α) + (blockCount (loBound a b c) (hiBound a b c) : α) * 8 := by
  have hm : (0 : α) ≤ min a (min b c) := le_min ha (le_min hb hc)
  have e : loPixel a b c = ⌊min a (min b c)⌋ := by
    unfold loPixel
    rw [max_eq_left hm]
  have h1 : ((loPixel a b c : ℤ) : α) ≤ min a (min b c) := by
    rw [e]; exact Int.floor_le _
  refine ⟨h1.trans hlo, ?_⟩
  have hw : hiBound a b c - loBound a b c
      = ((⌈max a (max b c)⌉ : ℤ) : α) - ((loPixel a b c : ℤ) : α) := by
    rw [loBound_eq, hiBound]
    ring
  have h2 : v ≤ ((⌈max a (max b c)⌉ : ℤ) : α) := hhi.trans (Int.le_ceil _)
  have h3 : (hiBound a b c - loBound a b c) / 8
      < ((⌊(hiBound a b c - loBound a b c) / 8⌋ + 1 : ℤ) : α) := by
    push_cast
    exact Int.lt_floor_add_one _
  have h4 : ((⌊(hiBound a b c - loBound a b c) / 8⌋ + 1 : ℤ) : α)
      ≤ (blockCount (loBound a b c) (hiBound a b c) : α) := by
    unfold blockCount
    have := Int.self_le_toNat (⌊(hiBound a b c - loBound a b c) / 8⌋ + 1)
    have h5 := (Int.cast_le (R := α)).mpr this
    rw [Int.cast_natCast] at h5
    exact h5
  have h6 : hiBound a b c - loBound a b c
      < (blockCount (loBound a b c) (hiBound a b c) : α) * 8 := by
    have := lt_of_lt_of_le h3 h4
    rw [div_lt_iff₀ (by norm_num : (0 : α) < 8)] at this
    exact this
  rw [hw] at h6
  linarith

end CoverageSumThms

section GridSumThms

variable {α : Type} [LinearOrderedField α] [FloorRing α] {σ : Type}

/-- For a counter-clockwise triangle the coverages of the calls made for one
block add up to the area the clipper reports for the triangle and the square
of the block. -/
theorem block_coverage_sum {sqrtf : α → α} (hs : IsSqrt sqrtf) (p0 p1 p2 : Vector2 α)
    (a0 a1 a2 dx0 dy0 : Vector3 α) (hD : 0 < cross2 p0 p1 p2) (bY bX : Nat) :
    ((List.range 8).map (fun r : Nat => ((List.range 8).map (fun k : Nat =>
        ((pixelCalls sqrtf (Triangle.new sqrtf p0 p1 p2 a0 a1 a2 dx0 dy0) bY bX r k).map
          Call.coverage).sum)).sum)).sum
      = ((ClippedTriangle.new p0 p2 p1).clipAABox
          (((loPixel p0.x p2.x p1.x : ℤ) : α) + (bX : α) * 8)
          (((loPixel p0.y p2.y p1.y : ℤ) : α) + (bY : α) * 8)
          (((loPixel p0.x p2.x p1.x : ℤ) : α) + ((bX + 1 : ℕ) : α) * 8)
          (((loPixel p0.y p2.y p1.y : ℤ) : α) + ((bY + 1 : ℕ) : α) * 8)).area := by
  have row : ∀ r ∈ List.range 8, ((List.range 8).map (fun k : Nat =>
        ((pixelCalls sqrtf (Triangle.new sqrtf p0 p1 p2 a0 a1 a2 dx0 dy0) bY bX r k).map
          Call.coverage).sum)).sum
      = ((ClippedTriangle.new p0 p2 p1).clipAABox
          (((loPixel p0.x p2.x p1.x : ℤ) : α) + (bX : α) * 8)
          (((loPixel p0.y p2.y p1.y : ℤ) : α) + (bY : α) * 8 + (r : α))
          (((loPixel p0.x p2.x p1.x : ℤ) : α) + ((bX + 1 : ℕ) : α) * 8)
          (((loPixel p0.y p2.y p1.y : ℤ) : α) + (bY : α) * 8 + ((r + 1 : ℕ) : α))).area := by
    intro r hr
    rw [List.map_congr_left (fun k hk => pixelCalls_coverage_sum hs p0 p1 p2 a0 a1 a2 dx0 dy0
      hD bY bX r k (List.mem_range.mp hr) (List.mem_range.mp hk))]
    have h := clipAABox_area_sum_x p0 p2 p1
      (((loPixel p0.y p2.y p1.y : ℤ) : α) + (bY : α) * 8 + (r : α))
      (((loPixel p0.y p2.y p1.y : ℤ) : α) + (bY : α) * 8 + ((r + 1 : ℕ) : α))
      (by push_cast; linarith)
      (fun k : Nat => ((loPixel p0.x p2.x p1.x : ℤ) : α) + (bX : α) * 8 + (k : α))
      (fun k => by push_cast; linarith) 8
    have e0 : ((loPixel p0.x p2.x p1.x : ℤ) : α) + (bX : α) * 8 + ((0 : ℕ) : α)
        = ((loPixel p0.x p2.x p1.x : ℤ) : α) + (bX : α) * 8 := by push_cast; ring
    have e8 : ((loPixel p0.x p2.x p1.x : ℤ) : α) + (bX : α) * 8 + ((8 : ℕ) : α)
        = ((loPixel p0.x p2.x p1.x : ℤ) : α) + ((bX + 1 : ℕ) : α) * 8 := by push_cast; ring
    rw [e0, e8] at h
    exact h
  rw [List.map_congr_left row]
  have h := clipAABox_area_sum_y p0 p2 p1
    (((loPixel p0.x p2.x p1.x : ℤ) : α) + (bX : α) * 8)
    (((loPixel p0.x p2.x p1.x : ℤ) : α) + ((bX + 1 : ℕ) : α) * 8)
    (by push_cast; linarith)
    (fun r : Nat => ((loPixel p0.y p2.y p1.y : ℤ) : α) + (bY : α) * 8 + (r : α))
    (fun r => by push_cast; linarith) 8
  have e0 : ((loPixel p0.y p2.y p1.y : ℤ) : α) + (bY : α) * 8 + ((0 : ℕ) : α)
      = ((loPixel p0.y p2.y p1.y : ℤ) : α) + (bY : α) * 8 := by push_cast; ring
  have e8 : ((loPixel p0.y p2.y p1.y : ℤ) : α) + (bY : α) * 8 + ((8 : ℕ) : α)
      = ((loPixel p0.y p2.y p1.y : ℤ) : α) + ((bY + 1 : ℕ) : α) * 8 := by push_cast; ring
  rw [e0, e8] at h
  exact h

/-- For a counter-clockwise triangle the coverages of all calls add up to the
area the clipper reports for the triangle and the rectangle of the block
loop. -/
theorem grid_coverage_sum {sqrtf : α → α} (hs : IsSqrt sqrtf) (p0 p1 p2 : Vector2 α)
    (a0 a1 a2 dx0 dy0 : Vector3 α) (hD : 0 < cross2 p0 p1 p2) :
    ((drawCalls sqrtf (Triangle.new sqrtf p0 p1 p2 a0 a1 a2 dx0 dy0)).map Call.coverage).sum
      = ((ClippedTriangle.new p0 p2 p1).clipAABox
          ((loPixel p0.x p2.x p1.x : ℤ) : α)
          ((loPixel p0.y p2.y p1.y : ℤ) : α)
          (((loPixel p0.x p2.x p1.x : ℤ) : α)
            + (blockCount (loBound p0.x p2.x p1.x) (hiBound p0.x p2.x p1.x) : α) * 8)
          (((loPixel p0.y p2.y p1.y : ℤ) : α)
            + (blockCount (loBound p0.y p2.y p1.y) (hiBound p0.y p2.y p1.y) : α) * 8)).area := by
  rw [drawCalls_eq]
  simp only [new_v1, new_v2, new_v3, sum_map_flatMap]
  have strip : ∀ bY ∈ List.range (blockCount (loBound p0.y p2.y p1.y) (hiBound p0.y p2.y p1.y)),
      ((List.range (blockCount (loBound p0.x p2.x p1.x) (hiBound p0.x p2.x p1.x))).map
        (fun bX : Nat => ((List.range 8).map (fun r : Nat => ((List.range 8).map (fun k : Nat =>
          ((pixelCalls sqrtf (Triangle.new sqrtf p0 p1 p2 a0 a1 a2 dx0 dy0) bY bX r k).map
            Call.coverage).sum)).sum)).sum)).sum
      = ((ClippedTriangle.new p0 p2 p1).clipAABox
          ((loPixel p0.x p2.x p1.x : ℤ) : α)
          (((loPixel p0.y p2.y p1.y : ℤ) : α) + (bY : α) * 8)
          (((loPixel p0.x p2.x p1.x : ℤ) : α)
            + (blockCount (loBound p0.x p2.x p1.x) (hiBound p0.x p2.x p1.x) : α) * 8)
          (((loPixel p0.y p2.y p1.y : ℤ) : α) + ((bY + 1 : ℕ) : α) * 8)).area := by
    intro bY _
    rw [List.map_congr_left (fun bX _ => block_coverage_sum hs p0 p1 p2 a0 a1 a2 dx0 dy0 hD
      bY bX)]
    have h := clipAABox_area_sum_x p0 p2 p1
      (((loPixel p0.y p2.y p1.y : ℤ) : α) + (bY : α) * 8)
      (((loPixel p0.y p2.y p1.y : ℤ) : α) + ((bY + 1 : ℕ) : α) * 8)
      (by push_cast; linarith)
      (fun b : Nat => ((loPixel p0.x p2.x p1.x : ℤ) : α) + (b : α) * 8)
      (fun b => by push_cast; linarith)
      (blockCount (loBound p0.x p2.x p1.x) (hiBound p0.x p2.x p1.x))
    have e0 : ((loPixel p0.x p2.x p1.x : ℤ) : α) + ((0 : ℕ) : α) * 8
        = ((loPixel p0.x p2.x p1.x : ℤ) : α) := by push_cast; ring
    rw [e0] at h
    exact h
  rw [List.map_congr_left strip]
  have h := clipAABox_area_sum_y p0 p2 p1
    ((loPixel p0.x p2.x p1.x : ℤ) : α)
    (((loPixel p0.x p2.x p1.x : ℤ) : α)
      + (blockCount (loBound p0.x p2.x p1.x) (hiBound p0.x p2.x p1.x) : α) * 8)
    (by
      have : (0 : α) ≤ (blockCount (loBound p0.x p2.x p1.x) (hiBound p0.x p2.x p1.x) : α) :=
        Nat.cast_nonneg _
      linarith)
    (fun b : Nat => ((loPixel p0.y p2.y p1.y : ℤ) : α) + (b : α) * 8)
    (fun b => by push_cast; linarith)
    (blockCount (loBound p0.y p2.y p1.y) (hiBound p0.y p2.y p1.y))
  have e0 : ((loPixel p0.y p2.y p1.y : ℤ) : α) + ((0 : ℕ) : α) * 8
      = ((loPixel p0.y p2.y p1.y : ℤ) : α) := by push_cast; ring
  rw [e0] at h
  exact h

/-- For a counter-clockwise triangle with vertices in the non-negative
quadrant the coverages of all calls add up to the area of the triangle. -/
theorem drawCalls_coverage_sum {sqrtf : α → α} (hs : IsSqrt sqrtf) (p0 p1 p2 : Vector2 α)
    (a0 a1 a2 dx0 dy0 : Vector3 α) (hD : 0 < cross2 p0 p1 p2)
    (h0 : 0 ≤ p0.x ∧ 0 ≤ p0.y) (h1 : 0 ≤ p1.x ∧ 0 ≤ p1.y) (h2 : 0 ≤ p2.x ∧ 0 ≤ p2.y) :
    ((drawCalls sqrtf (Triangle.new sqrtf p0 p1 p2 a0 a1 a2 dx0 dy0)).map Call.coverage).sum
      = cross2 p0 p1 p2 / 2 := by
  rw [grid_coverage_sum hs p0 p1 p2 a0 a1 a2 dx0 dy0 hD, clipAABox_area_eq_clipSum,
    clipSum_of_inBox, cross2_swap, abs_neg, abs_of_pos hD]
  · ring
  · obtain ⟨x1, x2⟩ := grid_covers p0.x p2.x p1.x h0.1 h2.1 h1.1 p0.x (min_le_left _ _)
      (le_max_left _ _)
    obtain ⟨y1, y2⟩ := grid_covers p0.y p2.y p1.y h0.2 h2.2 h1.2 p0.y (min_le_left _ _)
      (le_max_left _ _)
    exact ⟨x1, x2, y1, y2⟩
  · obtain ⟨x1, x2⟩ := grid_covers p0.x p2.x p1.x h0.1 h2.1 h1.1 p2.x
      ((min_le_right _ _).trans (min_le_left _ _)) ((le_max_left _ _).trans (le_max_right _ _))
    obtain ⟨y1, y2⟩ := grid_covers p0.y p2.y p1.y h0.2 h2.2 h1.2 p2.y
      ((min_le_right _ _).trans (min_le_left _ _)) ((le_max_left _ _).trans (le_max_right _ _))
    exact ⟨x1, x2, y1, y2⟩
  · obtain ⟨x1, x2⟩ := grid_covers p0.x p2.x p1.x h0.1 h2.1 h1.1 p1.x
      ((min_le_right _ _).trans (min_le_right _ _))
      ((le_max_right _ _).trans (le_max_right _ _))
    obtain ⟨y1, y2⟩ := grid_covers p0.y p2.y p1.y h0.2 h2.2 h1.2 p1.y
      ((min_le_right _ _).trans (min_le_right _ _))
      ((le_max_right _ _).trans (le_max_right _ _))
    exact ⟨x1, x2, y1, y2⟩

end GridSumThms

section CoverageSumClaim

variable {α : Type} [LinearOrderedField α] [FloorRing α] {σ : Type}

/-- C2 (amended): for every counter-clockwise triangle
(`cross(p1 - p0, p2 - p0) > 0`) whose vertices lie in the non-negative raster
quadrant, with a callback that always returns true, the sum of the coverage
arguments over all callback invocations made by `drawAA` equals the
triangle's geometric area `cross(p1 - p0, p2 - p0) / 2` (exact arithmetic). -/
theorem coverage_sum_eq_area {sqrtf : α → α} (hs : IsSqrt sqrtf) (p0 p1 p2 : Vector2 α)
    (a0 a1 a2 dx0 dy0 : Vector3 α) (hccw : 0 < cross2 p0 p1 p2)
    (h0 : 0 ≤ p0.x ∧ 0 ≤ p0.y) (h1 : 0 ≤ p1.x ∧ 0 ≤ p1.y) (h2 : 0 ≤ p2.x ∧ 0 ≤ p2.y)
    (cb : SamplingCallback σ α) (hcb : ∀ s c, (cb s c).2 = true) (s : σ) :
    (((Triangle.new sqrtf p0 p1 p2 a0 a1 a2 dx0 dy0).drawAA sqrtf (record cb) (s, [])).1.2.map
        (fun e => e.1.coverage)).sum
      = cross2 p0 p1 p2 / 2 := by
  rw [← drawCalls_coverage_sum hs p0 p1 p2 a0 a1 a2 dx0 dy0 hccw h0 h1 h2,
    ← log_of_always_true sqrtf _ cb hcb s, List.map_map]
  rfl

/-- C2 at the triangle `(0.5,0.5), (10.5,0.5), (0.5,10.5)`: the coverages add
up to `50`. -/
theorem coverage_sum_eq_area_witness :
    (0 : ℝ) < cross2 (⟨1 / 2, 1 / 2⟩ : Vector2 ℝ) ⟨21 / 2, 1 / 2⟩ ⟨1 / 2, 21 / 2⟩ ∧
    (((Triangle.new Real.sqrt (⟨1 / 2, 1 / 2⟩ : Vector2 ℝ) ⟨21 / 2, 1 / 2⟩ ⟨1 / 2, 21 / 2⟩
        ⟨1, 0, 0⟩ ⟨0, 1, 0⟩ ⟨0, 0, 1⟩ ⟨0, 0, 0⟩ ⟨0, 0, 0⟩).drawAA Real.sqrt (record alwaysTrue)
        ((), [])).1.2.map (fun e => e.1.coverage)).sum = 50 := by
  have hD : (0 : ℝ) < cross2 (⟨1 / 2, 1 / 2⟩ : Vector2 ℝ) ⟨21 / 2, 1 / 2⟩ ⟨1 / 2, 21 / 2⟩ := by
    norm_num [cross2]
  refine ⟨hD, ?_⟩
  rw [coverage_sum_eq_area isSqrt_real (⟨1 / 2, 1 / 2⟩ : Vector2 ℝ) ⟨21 / 2, 1 / 2⟩
    ⟨1 / 2, 21 / 2⟩ ⟨1, 0, 0⟩ ⟨0, 1, 0⟩ ⟨0, 0, 1⟩ ⟨0, 0, 0⟩ ⟨0, 0, 0⟩ hD
    (by norm_num) (by norm_num) (by norm_num) alwaysTrue (fun _ _ => rfl) ()]
  norm_num [cross2]

/-- The clockwise triangle `(0,0), (0,8), (8,0)` has its vertices in the
non-negative quadrant and area `32`, and the coverages of the calls `drawAA`
makes for it (callback always true) add up to `0`. -/
theorem coverage_sum_clockwise_counterexample :
    |cross2 (⟨0, 0⟩ : Vector2 ℝ) ⟨0, 8⟩ ⟨8, 0⟩| / 2 = 32 ∧
    (((Triangle.new Real.sqrt (⟨0, 0⟩ : Vector2 ℝ) ⟨0, 8⟩ ⟨8, 0⟩ ⟨1, 0, 0⟩ ⟨0, 1, 0⟩
        ⟨0, 0, 1⟩ ⟨0, 0, 0⟩ ⟨0, 0, 0⟩).drawAA Real.sqrt (record alwaysTrue) ((), [])).1.2.map
        (fun e => e.1.coverage)).sum = 0 := by
  constructor
  · norm_num [cross2]
  · rw [clockwise_example_log]
    rfl

end CoverageSumClaim

section WindingThms

variable {α : Type} [LinearOrderedField α] [FloorRing α] {σ : Type}

/-- The half-space function of the edge from `a` to `b` is below
`PX_OUTSIDE = -1/sqrtf(2)` at a point on the side of the edge line on which
`cross2 a b` is not negative, at a distance from the line whose square
`cross2 a b p ^ 2 / |a - b| ^ 2` is more than `1/2`. -/
theorem nanGE_edgeFn_false_of_far {sqrtf : α → α} (hs : IsSqrt sqrtf) (a b : Vector2 α)
    (x y : α) (hpos : 0 ≤ cross2 a b ⟨x, y⟩)
    (hfar : 1 / 2 * ((a.x - b.x) * (a.x - b.x) + (a.y - b.y) * (a.y - b.y))
      < cross2 a b ⟨x, y⟩ * cross2 a b ⟨x, y⟩) :
    nanGE (edgeFn sqrtf a b x y) (-1 / sqrtf 2) = false := by
  by_contra hne
  have ht : nanGE (edgeFn sqrtf a b x y) (-1 / sqrtf 2) = true := by simpa using hne
  obtain ⟨f, e, g⟩ := nanGE_eq_true ht
  obtain ⟨L, hL, hLL, hf⟩ := edgeFn_eq_some hs a b x y f e
  have hs2 := px_inside_sq hs
  have hp := px_inside_pos hs
  rw [neg_div] at g
  have h1 : L * -(1 / sqrtf 2) ≤ L * f := mul_le_mul_of_nonneg_left g hL.le
  have h2 : cross2 a b ⟨x, y⟩ ≤ L * (1 / sqrtf 2) := by
    rw [hf] at h1
    linarith only [h1]
  have h3 := mul_self_le_mul_self hpos h2
  have h4 : L * (1 / sqrtf 2) * (L * (1 / sqrtf 2))
      = 1 / 2 * ((a.x - b.x) * (a.x - b.x) + (a.y - b.y) * (a.y - b.y)) := by
    rw [← hLL, ← hs2]
    ring
  rw [h4] at h3
  exact absurd hfar (not_lt.mpr h3)

/-- For a clockwise input triangle the three half-space functions are not all
at least `PX_OUTSIDE` at a point of the triangle that lies at a distance of
more than `1/sqrt(2)` from the line of some edge. -/
theorem allGE_false_of_far {sqrtf : α → α} (hs : IsSqrt sqrtf) (p0 p1 p2 : Vector2 α)
    (a0 a1 a2 dx0 dy0 : Vector3 α) (hcw : cross2 p0 p1 p2 < 0) (x y : α)
    (hq : inTriangle p0 p1 p2 ⟨x, y⟩)
    (hfar : 1 / 2 * ((p1.x - p0.x) * (p1.x - p0.x) + (p1.y - p0.y) * (p1.y - p0.y))
          < cross2 p0 p1 ⟨x, y⟩ * cross2 p0 p1 ⟨x, y⟩ ∨
        1 / 2 * ((p2.x - p1.x) * (p2.x - p1.x) + (p2.y - p1.y) * (p2.y - p1.y))
          < cross2 p1 p2 ⟨x, y⟩ * cross2 p1 p2 ⟨x, y⟩ ∨
        1 / 2 * ((p0.x - p2.x) * (p0.x - p2.x) + (p0.y - p2.y) * (p0.y - p2.y))
          < cross2 p2 p0 ⟨x, y⟩ * cross2 p2 p0 ⟨x, y⟩) :
    (Triangle.new sqrtf p0 p1 p2 a0 a1 a2 dx0 dy0).allGE (-1 / sqrtf 2) x y = false := by
  obtain ⟨l1, l2, l3, h1, h2, h3, hl, hx, hy⟩ := hq
  obtain ⟨e1, e2, e3⟩ := cross2_of_inTriangle p0 p1 p2 ⟨x, y⟩ l1 l2 l3 hl hx hy
  have s1 : cross2 p0 p2 ⟨x, y⟩ = -cross2 ⟨x, y⟩ p2 p0 := by simp only [cross2]; ring
  have s2 : cross2 p2 p1 ⟨x, y⟩ = -cross2 ⟨x, y⟩ p1 p2 := by simp only [cross2]; ring
  have s3 : cross2 p1 p0 ⟨x, y⟩ = -cross2 ⟨x, y⟩ p0 p1 := by simp only [cross2]; ring
  have r1 : cross2 p2 p0 ⟨x, y⟩ = -cross2 p0 p2 ⟨x, y⟩ := by simp only [cross2]; ring
  have r2 : cross2 p1 p2 ⟨x, y⟩ = -cross2 p2 p1 ⟨x, y⟩ := by simp only [cross2]; ring
  have r3 : cross2 p0 p1 ⟨x, y⟩ = -cross2 p1 p0 ⟨x, y⟩ := by simp only [cross2]; ring
  have c1 : 0 ≤ cross2 p0 p2 ⟨x, y⟩ := by
    rw [s1, e3, neg_nonneg]; exact mul_nonpos_of_nonneg_of_nonpos h2 hcw.le
  have c2 : 0 ≤ cross2 p2 p1 ⟨x, y⟩ := by
    rw [s2, e2, neg_nonneg]; exact mul_nonpos_of_nonneg_of_nonpos h1 hcw.le
  have c3 : 0 ≤ cross2 p1 p0 ⟨x, y⟩ := by
    rw [s3, e1, neg_nonneg]; exact mul_nonpos_of_nonneg_of_nonpos h3 hcw.le
  rw [new_allGE]
  rcases hfar with hf | hf | hf
  · rw [r3, neg_mul_neg] at hf
    rw [nanGE_edgeFn_false_of_far hs p1 p0 x y c3 hf]
    simp
  · rw [r2, neg_mul_neg] at hf
    rw [nanGE_edgeFn_false_of_far hs p2 p1 x y c2 hf]
    simp
  · rw [r1, neg_mul_neg] at hf
    rw [nanGE_edgeFn_false_of_far hs p0 p2 x y c1 hf]
    simp

/-- For a clockwise input triangle every call is the call of the clipper
branch for its pixel. -/
theorem clipper_call_of_cw {sqrtf : α → α} (hs : IsSqrt sqrtf) (p0 p1 p2 : Vector2 α)
    (a0 a1 a2 dx0 dy0 : Vector3 α) (hcw : cross2 p0 p1 p2 < 0) (c : Call α)
    (h : c ∈ drawCalls sqrtf (Triangle.new sqrtf p0 p1 p2 a0 a1 a2 dx0 dy0)) :
    0 < (pixelClip (Triangle.new sqrtf p0 p1 p2 a0 a1 a2 dx0 dy0)
        ((c.x : α) + 1 / 2) ((c.y : α) + 1 / 2)).area ∧
    c.coverage = (pixelClip (Triangle.new sqrtf p0 p1 p2 a0 a1 a2 dx0 dy0)
        ((c.x : α) + 1 / 2) ((c.y : α) + 1 / 2)).area ∧
    c.bar = (((Triangle.new sqrtf p0 p1 p2 a0 a1 a2 dx0 dy0).interp
          ⟨(c.x : α) + 1 / 2, (c.y : α) + 1 / 2⟩).sub
        ((Triangle.new sqrtf p0 p1 p2 a0 a1 a2 dx0 dy0).dx.smul
          (pixelClip (Triangle.new sqrtf p0 p1 p2 a0 a1 a2 dx0 dy0)
            ((c.x : α) + 1 / 2) ((c.y : α) + 1 / 2)).centroid.x)).sub
        ((Triangle.new sqrtf p0 p1 p2 a0 a1 a2 dx0 dy0).dy.smul
          (pixelClip (Triangle.new sqrtf p0 p1 p2 a0 a1 a2 dx0 dy0)
            ((c.x : α) + 1 / 2) ((c.y : α) + 1 / 2)).centroid.y) := by
  obtain ⟨bY, bX, r, k, _, _, _, _, hc⟩ := (mem_drawCalls sqrtf _ c).mp h
  obtain ⟨hx, hy, _⟩ := mem_pixelCalls sqrtf _ bY bX r k c hc
  simp only [new_v1, new_v2, new_v3] at hx hy
  have ex := centreOf_eq p0.x p2.x p1.x bX k
  have ey := centreOf_eq p0.y p2.y p1.y bY r
  rw [← hx] at ex
  rw [← hy] at ey
  have hb := mem_pixelCalls_bar sqrtf _ bY bX r k c hc
  simp only [new_v1, new_v2, new_v3] at hb
  rcases hb with ⟨_, h2 | h2, _⟩ | ⟨_, _, hcov, hpos, hbar⟩
  · rw [allGE_false_of_cw hs p0 p1 p2 a0 a1 a2 dx0 dy0 hcw.le _ _ _ (bk_inside_sq hs).1] at h2
    exact absurd h2 (by simp)
  · rw [allGE_false_of_cw hs p0 p1 p2 a0 a1 a2 dx0 dy0 hcw.le _ _ _ (px_inside_pos hs)] at h2
    exact absurd h2 (by simp)
  · rw [ex, ey] at hcov hpos hbar
    exact ⟨hpos, hcov, hbar⟩

/-- For a clockwise input triangle the computed normals point outward: a
point lies in the triangle exactly when the three half-space functions
`n_i . p + C_i` are not positive there. -/
theorem outward_normals {sqrtf : α → α} (hs : IsSqrt sqrtf) (p0 p1 p2 : Vector2 α)
    (a0 a1 a2 dx0 dy0 : Vector3 α) (hcw : cross2 p0 p1 p2 < 0) :
    ∃ n1 n2 n3 : Vector2 α,
      (Triangle.new sqrtf p0 p1 p2 a0 a1 a2 dx0 dy0).n1 = some n1 ∧
      (Triangle.new sqrtf p0 p1 p2 a0 a1 a2 dx0 dy0).n2 = some n2 ∧
      (Triangle.new sqrtf p0 p1 p2 a0 a1 a2 dx0 dy0).n3 = some n3 ∧
      ∀ p : Vector2 α, inTriangle p0 p1 p2 p ↔
        (n1.x * p.x + n1.y * p.y
            + (n1.x * (-(Triangle.new sqrtf p0 p1 p2 a0 a1 a2 dx0 dy0).v1.x)
              + n1.y * (-(Triangle.new sqrtf p0 p1 p2 a0 a1 a2 dx0 dy0).v1.y)) ≤ 0 ∧
         n2.x * p.x + n2.y * p.y
            + (n2.x * (-(Triangle.new sqrtf p0 p1 p2 a0 a1 a2 dx0 dy0).v2.x)
              + n2.y * (-(Triangle.new sqrtf p0 p1 p2 a0 a1 a2 dx0 dy0).v2.y)) ≤ 0 ∧
         n3.x * p.x + n3.y * p.y
            + (n3.x * (-(Triangle.new sqrtf p0 p1 p2 a0 a1 a2 dx0 dy0).v3.x)
              + n3.y * (-(Triangle.new sqrtf p0 p1 p2 a0 a1 a2 dx0 dy0).v3.y)) ≤ 0) := by
  have d1 : p0 ≠ p2 := by
    intro e; rw [e] at hcw
    have : cross2 p2 p1 p2 = 0 := by simp only [cross2]; ring
    linarith only [hcw, this]
  have d2 : p2 ≠ p1 := by
    intro e; rw [e] at hcw
    have : cross2 p0 p1 p1 = 0 := by simp only [cross2]; ring
    linarith only [hcw, this]
  have d3 : p1 ≠ p0 := by
    intro e; rw [e] at hcw
    have : cross2 p0 p0 p2 = 0 := by simp only [cross2]; ring
    linarith only [hcw, this]
  obtain ⟨n1, L1, e1, hL1, _, _, f1⟩ := unitNormal_spec hs p0 p2 d1
  obtain ⟨n2, L2, e2, hL2, _, _, f2⟩ := unitNormal_spec hs p2 p1 d2
  obtain ⟨n3, L3, e3, hL3, _, _, f3⟩ := unitNormal_spec hs p1 p0 d3
  obtain ⟨m1, m2, m3⟩ := new_normals sqrtf p0 p1 p2 a0 a1 a2 dx0 dy0
  rw [new_v1, new_v2, new_v3]
  refine ⟨n1, n2, n3, by rw [m1, e1], by rw [m2, e2], by rw [m3, e3], ?_⟩
  intro p
  have hD : 0 < cross2 p0 p2 p1 := by rw [cross2_swap]; linarith only [hcw]
  constructor
  · rintro ⟨l1, l2, l3, h1, h2, h3, hl, hx, hy⟩
    obtain ⟨c1, c2, c3⟩ := cross2_of_inTriangle p0 p1 p2 p l1 l2 l3 hl hx hy
    have s1 : cross2 p0 p2 p = -cross2 p p2 p0 := by simp only [cross2]; ring
    have s2 : cross2 p2 p1 p = -cross2 p p1 p2 := by simp only [cross2]; ring
    have s3 : cross2 p1 p0 p = -cross2 p p0 p1 := by simp only [cross2]; ring
    have g1 : L1 * (n1.x * p.x + n1.y * p.y + (n1.x * (-p0.x) + n1.y * (-p0.y))) ≤ 0 := by
      rw [f1 p, s1, c3, neg_neg]; exact mul_nonpos_of_nonneg_of_nonpos h2 hcw.le
    have g2 : L2 * (n2.x * p.x + n2.y * p.y + (n2.x * (-p2.x) + n2.y * (-p2.y))) ≤ 0 := by
      rw [f2 p, s2, c2, neg_neg]; exact mul_nonpos_of_nonneg_of_nonpos h1 hcw.le
    have g3 : L3 * (n3.x * p.x + n3.y * p.y + (n3.x * (-p1.x) + n3.y * (-p1.y))) ≤ 0 := by
      rw [f3 p, s3, c1, neg_neg]; exact mul_nonpos_of_nonneg_of_nonpos h3 hcw.le
    exact ⟨nonpos_of_mul_nonpos_right g1 hL1, nonpos_of_mul_nonpos_right g2 hL2,
      nonpos_of_mul_nonpos_right g3 hL3⟩
  · rintro ⟨g1, g2, g3⟩
    have k1 := mul_nonpos_of_nonneg_of_nonpos hL1.le g1
    have k2 := mul_nonpos_of_nonneg_of_nonpos hL2.le g2
    have k3 := mul_nonpos_of_nonneg_of_nonpos hL3.le g3
    rw [f1 p, neg_nonpos] at k1
    rw [f2 p, neg_nonpos] at k2
    rw [f3 p, neg_nonpos] at k3
    exact inTriangle_swap _ _ _ _ (inTriangle_of_cross2 p0 p2 p1 p hD k1 k2 k3)

end WindingThms

section WindingClaim

variable {α : Type} [LinearOrderedField α] [FloorRing α] {σ : Type}

/-- C21: winding dependence of `drawAA`.  For a triangle whose input vertices
have negative orientation (`cross(p1 - p0, p2 - p0) < 0`, exact arithmetic):
the computed normals point outward (a point lies in the triangle exactly when
the three half-space functions are `<= 0` there); the whole-block test and the
per-pixel fully-inside test fail at every point, and every callback
invocation is the one of the clipper branch for its pixel (the pixel centre
passes the `PX_OUTSIDE` test, the clipped area is positive and is the coverage
passed, the attribute is the one computed from the clipper's centroid); and a
pixel `(i, j)` whose centre lies in the triangle at a distance of more than
`1/sqrt(2)` from the line of some edge, that is with
`cross(b - a, q - a)^2 > |b - a|^2 / 2` for an edge `(a, b)`, receives no
callback at all, whatever the callback. -/
theorem clockwise_winding_dependence {sqrtf : α → α} (hs : IsSqrt sqrtf) (p0 p1 p2 : Vector2 α)
    (a0 a1 a2 dx0 dy0 : Vector3 α) (hcw : cross2 p0 p1 p2 < 0) :
    (∃ n1 n2 n3 : Vector2 α,
      (Triangle.new sqrtf p0 p1 p2 a0 a1 a2 dx0 dy0).n1 = some n1 ∧
      (Triangle.new sqrtf p0 p1 p2 a0 a1 a2 dx0 dy0).n2 = some n2 ∧
      (Triangle.new sqrtf p0 p1 p2 a0 a1 a2 dx0 dy0).n3 = some n3 ∧
      ∀ p : Vector2 α, inTriangle p0 p1 p2 p ↔
        (n1.x * p.x + n1.y * p.y
            + (n1.x * (-(Triangle.new sqrtf p0 p1 p2 a0 a1 a2 dx0 dy0).v1.x)
              + n1.y * (-(Triangle.new sqrtf p0 p1 p2 a0 a1 a2 dx0 dy0).v1.y)) ≤ 0 ∧
         n2.x * p.x + n2.y * p.y
            + (n2.x * (-(Triangle.new sqrtf p0 p1 p2 a0 a1 a2 dx0 dy0).v2.x)
              + n2.y * (-(Triangle.new sqrtf p0 p1 p2 a0 a1 a2 dx0 dy0).v2.y)) ≤ 0 ∧
         n3.x * p.x + n3.y * p.y
            + (n3.x * (-(Triangle.new sqrtf p0 p1 p2 a0 a1 a2 dx0 dy0).v3.x)
              + n3.y * (-(Triangle.new sqrtf p0 p1 p2 a0 a1 a2 dx0 dy0).v3.y)) ≤ 0)) ∧
    (∀ x y : α,
      (Triangle.new sqrtf p0 p1 p2 a0 a1 a2 dx0 dy0).allGE (sqrtf (8 * 8 / 2)) x y = false ∧
      (Triangle.new sqrtf p0 p1 p2 a0 a1 a2 dx0 dy0).allGE (1 / sqrtf 2) x y = false) ∧
    (∀ (cb : SamplingCallback σ α) (s : σ),
      ∀ e ∈ ((Triangle.new sqrtf p0 p1 p2 a0 a1 a2 dx0 dy0).drawAA sqrtf (record cb) (s, [])).1.2,
      (Triangle.new sqrtf p0 p1 p2 a0 a1 a2 dx0 dy0).allGE (-1 / sqrtf 2)
        ((e.1.x : α) + 1 / 2) ((e.1.y : α) + 1 / 2) = true ∧
      0 < (pixelClip (Triangle.new sqrtf p0 p1 p2 a0 a1 a2 dx0 dy0)
        ((e.1.x : α) + 1 / 2) ((e.1.y : α) + 1 / 2)).area ∧
      e.1.coverage = (pixelClip (Triangle.new sqrtf p0 p1 p2 a0 a1 a2 dx0 dy0)
        ((e.1.x : α) + 1 / 2) ((e.1.y : α) + 1 / 2)).area ∧
      e.1.bar = (((Triangle.new sqrtf p0 p1 p2 a0 a1 a2 dx0 dy0).interp
            ⟨(e.1.x : α) + 1 / 2, (e.1.y : α) + 1 / 2⟩).sub
          ((Triangle.new sqrtf p0 p1 p2 a0 a1 a2 dx0 dy0).dx.smul
            (pixelClip (Triangle.new sqrtf p0 p1 p2 a0 a1 a2 dx0 dy0)
              ((e.1.x : α) + 1 / 2) ((e.1.y : α) + 1 / 2)).centroid.x)).sub
          ((Triangle.new sqrtf p0 p1 p2 a0 a1 a2 dx0 dy0).dy.smul
            (pixelClip (Triangle.new sqrtf p0 p1 p2 a0 a1 a2 dx0 dy0)
              ((e.1.x : α) + 1 / 2) ((e.1.y : α) + 1 / 2)).centroid.y)) ∧
    (∀ (cb : SamplingCallback σ α) (s : σ) (i j : Int),
      inTriangle p0 p1 p2 ⟨(i : α) + 1 / 2, (j : α) + 1 / 2⟩ →
      (1 / 2 * ((p1.x - p0.x) * (p1.x - p0.x) + (p1.y - p0.y) * (p1.y - p0.y))
          < cross2 p0 p1 ⟨(i : α) + 1 / 2, (j : α) + 1 / 2⟩
            * cross2 p0 p1 ⟨(i : α) + 1 / 2, (j : α) + 1 / 2⟩ ∨
        1 / 2 * ((p2.x - p1.x) * (p2.x - p1.x) + (p2.y - p1.y) * (p2.y - p1.y))
          < cross2 p1 p2 ⟨(i : α) + 1 / 2, (j : α) + 1 / 2⟩
            * cross2 p1 p2 ⟨(i : α) + 1 / 2, (j : α) + 1 / 2⟩ ∨
        1 / 2 * ((p0.x - p2.x) * (p0.x - p2.x) + (p0.y - p2.y) * (p0.y - p2.y))
          < cross2 p2 p0 ⟨(i : α) + 1 / 2, (j : α) + 1 / 2⟩
            * cross2 p2 p0 ⟨(i : α) + 1 / 2, (j : α) + 1 / 2⟩) →
      ∀ e ∈ ((Triangle.new sqrtf p0 p1 p2 a0 a1 a2 dx0 dy0).drawAA sqrtf (record cb) (s, [])).1.2,
        ¬ (e.1.x = i ∧ e.1.y = j)) := by
  refine ⟨outward_normals hs p0 p1 p2 a0 a1 a2 dx0 dy0 hcw, ?_, ?_, ?_⟩
  · intro x y
    exact ⟨allGE_false_of_cw hs p0 p1 p2 a0 a1 a2 dx0 dy0 hcw.le _ x y (bk_inside_sq hs).1,
      allGE_false_of_cw hs p0 p1 p2 a0 a1 a2 dx0 dy0 hcw.le _ x y (px_inside_pos hs)⟩
  · intro cb s e he
    have hm := mem_drawCalls_of_mem_log sqrtf _ cb s e he
    exact ⟨call_px_outside hs p0 p1 p2 a0 a1 a2 dx0 dy0 hcw e.1 hm,
      clipper_call_of_cw hs p0 p1 p2 a0 a1 a2 dx0 dy0 hcw e.1 hm⟩
  · rintro cb s i j hin hfar e he ⟨hx, hy⟩
    have hm := mem_drawCalls_of_mem_log sqrtf _ cb s e he
    have h1 := call_px_outside hs p0 p1 p2 a0 a1 a2 dx0 dy0 hcw e.1 hm
    rw [hx, hy, allGE_false_of_far hs p0 p1 p2 a0 a1 a2 dx0 dy0 hcw _ _ hin hfar] at h1
    exact absurd h1 (by simp)

/-- C21 at the clockwise triangle `(0,0), (0,8), (8,0)` and the pixel
`(2, 2)`: its centre `(2.5, 2.5)` lies in the triangle at distance `2.5` from
the line of the edge `(p0, p1)`, and no callback is invoked for it. -/
theorem clockwise_winding_dependence_witness :
    cross2 (⟨0, 0⟩ : Vector2 ℝ) ⟨0, 8⟩ ⟨8, 0⟩ < 0 ∧
    inTriangle (⟨0, 0⟩ : Vector2 ℝ) ⟨0, 8⟩ ⟨8, 0⟩ ⟨((2 : ℤ) : ℝ) + 1 / 2, ((2 : ℤ) : ℝ) + 1 / 2⟩ ∧
    ∀ e ∈ ((Triangle.new Real.sqrt (⟨0, 0⟩ : Vector2 ℝ) ⟨0, 8⟩ ⟨8, 0⟩ ⟨1, 0, 0⟩ ⟨0, 1, 0⟩
        ⟨0, 0, 1⟩ ⟨0, 0, 0⟩ ⟨0, 0, 0⟩).drawAA Real.sqrt (record alwaysTrue) ((), [])).1.2,
      ¬ (e.1.x = 2 ∧ e.1.y = 2) := by
  have hcw : cross2 (⟨0, 0⟩ : Vector2 ℝ) ⟨0, 8⟩ ⟨8, 0⟩ < 0 := by norm_num [cross2]
  have hin : inTriangle (⟨0, 0⟩ : Vector2 ℝ) ⟨0, 8⟩ ⟨8, 0⟩
      ⟨((2 : ℤ) : ℝ) + 1 / 2, ((2 : ℤ) : ℝ) + 1 / 2⟩ :=
    ⟨3 / 8, 5 / 16, 5 / 16, by norm_num, by norm_num, by norm_num, by norm_num, by norm_num,
      by norm_num⟩
  exact ⟨hcw, hin,
    (clockwise_winding_dependence isSqrt_real (⟨0, 0⟩ : Vector2 ℝ) ⟨0, 8⟩ ⟨8, 0⟩ ⟨1, 0, 0⟩
      ⟨0, 1, 0⟩ ⟨0, 0, 1⟩ ⟨0, 0, 0⟩ ⟨0, 0, 0⟩ hcw).2.2.2 alwaysTrue () 2 2 hin
      (Or.inl (by norm_num [cross2]))⟩

end WindingClaim

/-! ## Overlap of positive area -/

section Overlap

variable {α : Type} [LinearOrderedField α]

/-- Three points of one line span no area. -/
theorem cross2_eq_zero_of_line (la lb lc : α) (hl : la ≠ 0 ∨ lb ≠ 0) (w u v : Vector2 α)
    (hw : la * w.x + lb * w.y = lc) (hu : la * u.x + lb * u.y = lc)
    (hv : la * v.x + lb * v.y = lc) : cross2 w u v = 0 := by
  rcases hl with h | h
  · have e : la * cross2 w u v = 0 := by
      simp only [cross2]
      linear_combination (v.y - w.y) * (hu - hw) - (u.y - w.y) * (hv - hw)
    rcases mul_eq_zero.mp e with h0 | h0
    · exact absurd h0 h
    · exact h0
  · have e : lb * cross2 w u v = 0 := by
      simp only [cross2]
      linear_combination (u.x - w.x) * (hv - hw) - (v.x - w.x) * (hu - hw)
    rcases mul_eq_zero.mp e with h0 | h0
    · exact absurd h0 h
    · exact h0

/-- The mean of three points that span an area and lie in a closed half-plane
lies in the open half-plane. -/
theorem mean_strict_of_noncollinear (la lb lc : α) (hl : la ≠ 0 ∨ lb ≠ 0) (w u v : Vector2 α)
    (hne : cross2 w u v ≠ 0) (hw : lc ≤ la * w.x + lb * w.y) (hu : lc ≤ la * u.x + lb * u.y)
    (hv : lc ≤ la * v.x + lb * v.y) :
    lc < la * ((w.x + u.x + v.x) / 3) + lb * ((w.y + u.y + v.y) / 3) := by
  by_contra hle
  have hle' := not_lt.mp hle
  have e : la * ((w.x + u.x + v.x) / 3) + lb * ((w.y + u.y + v.y) / 3)
      = ((la * w.x + lb * w.y) + (la * u.x + lb * u.y) + (la * v.x + lb * v.y)) / 3 := by ring
  rw [e] at hle'
  have h3 : (la * w.x + lb * w.y) + (la * u.x + lb * u.y) + (la * v.x + lb * v.y) ≤ 3 * lc := by
    have := (div_le_iff₀ (by norm_num : (0 : α) < 3)).mp hle'
    linarith only [this]
  exact hne (cross2_eq_zero_of_line la lb lc hl w u v (by linarith only [h3, hw, hu, hv])
    (by linarith only [h3, hw, hu, hv]) (by linarith only [h3, hw, hu, hv]))

/-- A path with non-negative weights on its pairs and a weight sum other than
zero has a pair of positive weight. -/
theorem exists_pos_pair (W : Vector2 α → Vector2 α → α) (O : Vector2 α → Vector2 α → Prop) :
    ∀ p : List (Vector2 α), pairsAll (fun u v => 0 ≤ W u v ∧ O u v) p → pathSum W p ≠ 0 →
      ∃ u v, O u v ∧ 0 < W u v
  | [], _, h => absurd rfl h
  | [a], _, h => absurd rfl h
  | a :: b :: r, hp, h => by
    obtain ⟨⟨hW, hO⟩, hr⟩ := hp
    rcases hW.lt_or_eq with hlt | heq
    · exact ⟨a, b, hO, hlt⟩
    · rw [pathSum_cons_cons, ← heq, zero_add] at h
      exact exists_pos_pair W O (b :: r) hr h

theorem cross2_cycle (a b p : Vector2 α) : cross2 p a b = cross2 a b p := by
  simp only [cross2]
  ring

theorem cross2_as_line (s : α) (a b p : Vector2 α) :
    s * cross2 a b p = (-(s * (b.y - a.y))) * p.x + (s * (b.x - a.x)) * p.y
      - ((-(s * (b.y - a.y))) * a.x + (s * (b.x - a.x)) * a.y) := by
  simp only [cross2]
  ring

/-- The mean of three points of a triangle that span an area lies strictly on
the inner side of the edge from `a` to `b`. -/
theorem edge_strict_of_noncollinear (s : α) (hs0 : s ≠ 0) (a b w u v : Vector2 α) (hab : a ≠ b)
    (hne : cross2 w u v ≠ 0) (hw : 0 ≤ s * cross2 a b w) (hu : 0 ≤ s * cross2 a b u)
    (hv : 0 ≤ s * cross2 a b v) :
    0 < s * cross2 a b ⟨(w.x + u.x + v.x) / 3, (w.y + u.y + v.y) / 3⟩ := by
  have hl : -(s * (b.y - a.y)) ≠ 0 ∨ s * (b.x - a.x) ≠ 0 := by
    by_contra hcon
    push_neg at hcon
    obtain ⟨h1, h2⟩ := hcon
    have hy : b.y - a.y = 0 := by
      rcases mul_eq_zero.mp (neg_eq_zero.mp h1) with h | h
      · exact absurd h hs0
      · exact h
    have hx : b.x - a.x = 0 := by
      rcases mul_eq_zero.mp h2 with h | h
      · exact absurd h hs0
      · exact h
    apply hab
    cases a
    cases b
    simp only [Vector2.mk.injEq]
    simp only at hx hy
    exact ⟨(sub_eq_zero.mp hx).symm, (sub_eq_zero.mp hy).symm⟩
  rw [cross2_as_line] at hw hu hv ⊢
  have := mean_strict_of_noncollinear (-(s * (b.y - a.y))) (s * (b.x - a.x))
    ((-(s * (b.y - a.y))) * a.x + (s * (b.x - a.x)) * a.y) hl w u v hne
    (by linarith only [hw]) (by linarith only [hu]) (by linarith only [hv])
  simp only
  linarith only [this]

theorem vertices_ne_of_cross2_ne_zero (a b c : Vector2 α) (h : cross2 a b c ≠ 0) :
    a ≠ b ∧ b ≠ c ∧ c ≠ a := by
  refine ⟨?_, ?_, ?_⟩
  · rintro rfl
    apply h
    simp only [cross2]
    ring
  · rintro rfl
    apply h
    simp only [cross2]
    ring
  · rintro rfl
    apply h
    simp only [cross2]
    ring

theorem inTriangle_rot (a b c p : Vector2 α) (h : inTriangle a b c p) : inTriangle b c a p := by
  obtain ⟨l1, l2, l3, h1, h2, h3, hl, hx, hy⟩ := h
  exact ⟨l2, l3, l1, h2, h3, h1, by linarith only [hl], by linarith only [hx],
    by linarith only [hy]⟩

/-- When `clipAABox` reports a positive area, some point lies in the interior
of the triangle and in the interior of the box. -/
theorem exists_interior_point_of_clipAABox_area_pos (a b c : Vector2 α) (x0 y0 x1 y1 : α)
    (h : 0 < ((ClippedTriangle.new a b c).clipAABox x0 y0 x1 y1).area) :
    ∃ m, inOpenTriangle a b c m ∧ inOpenBox x0 y0 x1 y1 m := by
  have hD : cross2 a b c ≠ 0 := by
    intro h0
    rw [clipAABox_area_collinear a b c x0 y0 x1 y1 h0] at h
    exact lt_irrefl _ h
  obtain ⟨hab, hbc, hca⟩ := vertices_ne_of_cross2_ne_zero a b c hD
  obtain ⟨w, hw, hb⟩ := exists_point_of_clipAABox_area_pos a b c x0 y0 x1 y1 h
  obtain ⟨s, hs1, hs⟩ : ∃ s : α, (s = 1 ∨ s = -1) ∧ 0 ≤ s * cross2 a b c := by
    rcases le_total 0 (cross2 a b c) with h | h
    · exact ⟨1, Or.inl rfl, by linarith⟩
    · exact ⟨-1, Or.inr rfl, by linarith⟩
  have hs0 : s ≠ 0 := by rcases hs1 with e | e <;> rw [e] <;> norm_num
  have hring := clipBoxRing_forall x0 y0 x1 y1 _ (convexPred_inTriangle a b c) [a, b, c] (by
    intro v hv
    simp only [List.mem_cons, List.mem_singleton, List.not_mem_nil, or_false] at hv
    rcases hv with rfl | rfl | rfl
    · exact inTriangle_vertex1 _ _ _
    · exact inTriangle_vertex2 _ _ _
    · exact inTriangle_vertex3 _ _ _)
  have hstar := star_clipBoxRing s w x0 y0 x1 y1 hb [a, b, c] (starRel_triangle s a b c w hs hw)
  have hpairs := pairsAll_and _ _ _ hstar (pairsAll_closeRing_of_forall _ _ hring)
  have eW : pathSum (fun u v => s * cross2 w u v) (closeRing (clipBoxRing x0 y0 x1 y1 [a, b, c]))
      = s * pathSum shoelace (closeRing (clipBoxRing x0 y0 x1 y1 [a, b, c])) := by
    rw [pathSum_mul_left, pathSum_cross2_closeRing]
  have hS : pathSum shoelace (closeRing (clipBoxRing x0 y0 x1 y1 [a, b, c])) ≠ 0 := by
    intro h0
    rw [clipAABox_area, ClippedTriangle.new_vertices, h0] at h
    simp at h
  obtain ⟨u, v, ⟨⟨hTu, hBu⟩, hTv, hBv⟩, hpos⟩ := exists_pos_pair (fun u v => s * cross2 w u v)
    (fun u v => (inTriangle a b c u ∧ inBox x0 y0 x1 y1 u)
      ∧ inTriangle a b c v ∧ inBox x0 y0 x1 y1 v) _ hpairs (by
      rw [eW]
      exact mul_ne_zero hs0 hS)
  have hne : cross2 w u v ≠ 0 := by
    intro h0
    rw [h0, mul_zero] at hpos
    exact lt_irrefl _ hpos
  have edge : ∀ p q r : Vector2 α, 0 ≤ s * cross2 p q r → inTriangle p q r w → inTriangle p q r u →
      inTriangle p q r v → p ≠ q →
      0 < s * cross2 p q ⟨(w.x + u.x + v.x) / 3, (w.y + u.y + v.y) / 3⟩ := by
    intro p q r hsr tw tu tv hpq
    have kw := (starRel_triangle s p q r w hsr tw).1
    have ku := (starRel_triangle s p q r u hsr tu).1
    have kv := (starRel_triangle s p q r v hsr tv).1
    simp only [starRel] at kw ku kv
    rw [cross2_cycle] at kw ku kv
    exact edge_strict_of_noncollinear s hs0 p q w u v hpq hne kw ku kv
  have rot1 : cross2 b c a = cross2 a b c := by simp only [cross2]; ring
  have rot2 : cross2 c a b = cross2 a b c := by simp only [cross2]; ring
  have t1 := edge a b c hs hw hTu hTv hab
  have t2 := edge b c a (by rw [rot1]; exact hs) (inTriangle_rot a b c w hw)
    (inTriangle_rot a b c u hTu) (inTriangle_rot a b c v hTv) hbc
  have t3 := edge c a b (by rw [rot2]; exact hs) (inTriangle_rot b c a w (inTriangle_rot a b c w hw))
    (inTriangle_rot b c a u (inTriangle_rot a b c u hTu))
    (inTriangle_rot b c a v (inTriangle_rot a b c v hTv)) hca
  obtain ⟨w1, w2, w3, w4⟩ := hb
  obtain ⟨u1, u2, u3, u4⟩ := hBu
  obtain ⟨v1, v2, v3, v4⟩ := hBv
  have b1 := mean_strict_of_noncollinear 1 0 x0 (Or.inl one_ne_zero) w u v hne
    (by linarith only [w1]) (by linarith only [u1]) (by linarith only [v1])
  have b2 := mean_strict_of_noncollinear (-1) 0 (-x1) (Or.inl (by norm_num)) w u v hne
    (by linarith only [w2]) (by linarith only [u2]) (by linarith only [v2])
  have b3 := mean_strict_of_noncollinear 0 1 y0 (Or.inr one_ne_zero) w u v hne
    (by linarith only [w3]) (by linarith only [u3]) (by linarith only [v3])
  have b4 := mean_strict_of_noncollinear 0 (-1) (-y1) (Or.inr (by norm_num)) w u v hne
    (by linarith only [w4]) (by linarith only [u4]) (by linarith only [v4])
  refine ⟨⟨(w.x + u.x + v.x) / 3, (w.y + u.y + v.y) / 3⟩, ?_, ?_⟩
  · rcases hs1 with e | e
    · rw [e, one_mul] at t1 t2 t3
      exact Or.inl ⟨t1, t2, t3⟩
    · rw [e] at t1 t2 t3
      exact Or.inr ⟨by linarith only [t1], by linarith only [t2], by linarith only [t3]⟩
  · exact ⟨by linarith only [b1], by linarith only [b2], by linarith only [b3],
      by linarith only [b4]⟩

end Overlap


section OverlapClaim

variable {α : Type} [LinearOrderedField α] [FloorRing α] {σ : Type}

theorem inOpenTriangle_swap (a b c p : Vector2 α) (h : inOpenTriangle a c b p) :
    inOpenTriangle a b c p := by
  have e1 : cross2 a c p = -cross2 c a p := by simp only [cross2]; ring
  have e2 : cross2 c b p = -cross2 b c p := by simp only [cross2]; ring
  have e3 : cross2 b a p = -cross2 a b p := by simp only [cross2]; ring
  simp only [inOpenTriangle, e1, e2, e3] at h
  rcases h with ⟨h1, h2, h3⟩ | ⟨h1, h2, h3⟩
  · exact Or.inr ⟨by linarith only [h3], by linarith only [h2], by linarith only [h1]⟩
  · exact Or.inl ⟨by linarith only [h3], by linarith only [h2], by linarith only [h1]⟩

/-- The clipper reports a positive area for the pixel of every call of
`drawCalls`, whichever branch makes the call. -/
theorem call_area_pos {sqrtf : α → α} (hs : IsSqrt sqrtf) (p0 p1 p2 : Vector2 α)
    (a0 a1 a2 dx0 dy0 : Vector3 α) (c : Call α)
    (h : c ∈ drawCalls sqrtf (Triangle.new sqrtf p0 p1 p2 a0 a1 a2 dx0 dy0)) :
    0 < (pixelClip (Triangle.new sqrtf p0 p1 p2 a0 a1 a2 dx0 dy0)
      ((c.x : α) + 1 / 2) ((c.y : α) + 1 / 2)).area := by
  obtain ⟨bY, bX, r, k, _, _, hr, hk, hc⟩ := (mem_drawCalls sqrtf _ c).mp h
  obtain ⟨hx, hy, _, _, hcov⟩ := mem_pixelCalls sqrtf _ bY bX r k c hc
  have ex := centreOf_eq (Triangle.new sqrtf p0 p1 p2 a0 a1 a2 dx0 dy0).v1.x
    (Triangle.new sqrtf p0 p1 p2 a0 a1 a2 dx0 dy0).v2.x
    (Triangle.new sqrtf p0 p1 p2 a0 a1 a2 dx0 dy0).v3.x bX k
  have ey := centreOf_eq (Triangle.new sqrtf p0 p1 p2 a0 a1 a2 dx0 dy0).v1.y
    (Triangle.new sqrtf p0 p1 p2 a0 a1 a2 dx0 dy0).v2.y
    (Triangle.new sqrtf p0 p1 p2 a0 a1 a2 dx0 dy0).v3.y bY r
  rw [← hx] at ex
  rw [← hy] at ey
  rw [← ex, ← ey]
  rcases hcov with ⟨_, h2⟩ | ⟨_, h2⟩ | ⟨_, h2⟩
  · rw [pixel_area_of_block_allGE hs p0 p1 p2 a0 a1 a2 dx0 dy0 _ _ _ _
      (centreOf_sub_blockCentre _ bX k hk) (centreOf_sub_blockCentre _ bY r hr) h2]
    exact one_pos
  · rw [pixel_area_of_pixel_allGE hs p0 p1 p2 a0 a1 a2 dx0 dy0 _ _ h2]
    exact one_pos
  · exact h2

/-- C5: for every constructed triangle, of either winding or degenerate, a
pixel `(i, j)` whose unit square has no overlap with the triangle (no point
lies both in the interior of the square `[i,i+1] x [j,j+1]` and in the
interior of the triangle; the two may touch along their boundaries) never
gets a callback invocation, whatever the callback (exact arithmetic). -/
theorem no_call_for_disjoint_pixel {sqrtf : α → α} (hs : IsSqrt sqrtf) (p0 p1 p2 : Vector2 α)
    (a0 a1 a2 dx0 dy0 : Vector3 α) (i j : Int)
    (hdis : ∀ p, inOpenTriangle p0 p1 p2 p →
      ¬ inOpenBox (i : α) (j : α) ((i : α) + 1) ((j : α) + 1) p)
    (cb : SamplingCallback σ α) (s : σ) :
    ∀ e ∈ ((Triangle.new sqrtf p0 p1 p2 a0 a1 a2 dx0 dy0).drawAA sqrtf (record cb) (s, [])).1.2,
      ¬ (e.1.x = i ∧ e.1.y = j) := by
  rintro e he ⟨hx, hy⟩
  have hc := mem_drawCalls_of_mem_log sqrtf _ cb s e he
  have hpos := call_area_pos hs p0 p1 p2 a0 a1 a2 dx0 dy0 e.1 hc
  rw [hx, hy, pixelClip_area_eq] at hpos
  obtain ⟨m, hm, b1, b2, b3, b4⟩ := exists_interior_point_of_clipAABox_area_pos _ _ _ _ _ _ _ hpos
  refine hdis m (inOpenTriangle_swap _ _ _ _ hm) ⟨?_, ?_, ?_, ?_⟩
  · linarith only [b1]
  · linarith only [b2]
  · linarith only [b3]
  · linarith only [b4]

/-- C5 at the triangle `(0,0), (16,0), (0,16)` and the pixel `(16, 0)`, whose
square touches the triangle in the vertex `(16, 0)` only: invocations are
made, none of them for that pixel. -/
theorem no_call_for_disjoint_pixel_witness :
    (∀ p, inOpenTriangle (⟨0, 0⟩ : Vector2 ℝ) ⟨16, 0⟩ ⟨0, 16⟩ p →
      ¬ inOpenBox (((16 : ℤ) : ℝ)) (((0 : ℤ) : ℝ)) (((16 : ℤ) : ℝ) + 1) (((0 : ℤ) : ℝ) + 1) p) ∧
    ∃ e ∈ ((Triangle.new Real.sqrt (⟨0, 0⟩ : Vector2 ℝ) ⟨16, 0⟩ ⟨0, 16⟩ ⟨1, 0, 0⟩ ⟨0, 1, 0⟩
        ⟨0, 0, 1⟩ ⟨0, 0, 0⟩ ⟨0, 0, 0⟩).drawAA Real.sqrt (record alwaysTrue) ((), [])).1.2,
      ¬ (e.1.x = 16 ∧ e.1.y = 0) := by
  have hdis : ∀ p, inOpenTriangle (⟨0, 0⟩ : Vector2 ℝ) ⟨16, 0⟩ ⟨0, 16⟩ p →
      ¬ inOpenBox (((16 : ℤ) : ℝ)) (((0 : ℤ) : ℝ)) (((16 : ℤ) : ℝ) + 1) (((0 : ℤ) : ℝ) + 1) p := by
    rintro p h ⟨b1, b2, b3, b4⟩
    simp only [inOpenTriangle, cross2] at h
    push_cast at b1 b3
    rcases h with ⟨h1, h2, h3⟩ | ⟨h1, h2, h3⟩
    · linarith only [h2, b1, b3]
    · linarith only [h1, b3]
  obtain ⟨e, he, _⟩ := example_entry
  exact ⟨hdis, e, he, no_call_for_disjoint_pixel isSqrt_real (⟨0, 0⟩ : Vector2 ℝ) ⟨16, 0⟩ ⟨0, 16⟩
    ⟨1, 0, 0⟩ ⟨0, 1, 0⟩ ⟨0, 0, 1⟩ ⟨0, 0, 0⟩ ⟨0, 0, 0⟩ 16 0 hdis alwaysTrue () e he⟩

end OverlapClaim

/-! ## The claims in binary32 -/

section Binary32Claims

open Binary32

theorem F32.zero_eq : (0 : F32) = F32.fin false 0 := by decide!

theorem F32.one_eq : (1 : F32) = F32.fin false (2 ^ 149) := by decide!

/-- The reciprocal of a zero is not finite. -/
theorem F32.recip_zero_not_finite (d : F32) (h : F32.eq d 0 = true) :
    F32.isFinite (1 / d) = false := by
  rw [F32.zero_eq] at h
  rw [F32.one_eq]
  cases d with
  | nan => simp [F32.eq] at h
  | inf s => simp [F32.eq] at h
  | fin s m =>
    have hm : m = 0 := by
      simp only [F32.eq, decide_True, Bool.and_true, Bool.or_eq_true, decide_eq_true_eq,
        Bool.and_eq_true, beq_iff_eq] at h
      rcases h with h | h
      · exact h
      · exact h.2
    subst hm
    show F32.isFinite (F32.div (F32.fin false (2 ^ 149)) (F32.fin s 0)) = false
    cases s <;> decide!

/-- In binary32 `computeDeltas` returns false exactly when the reciprocal of
the determinant is not finite, and then leaves the triangle as it is. -/
theorem Binary32.computeDeltas_false_iff (u : Binary32.Triangle) :
    (u.computeDeltas.2 = false ↔ F32.isFinite (1 / u.det) = false) ∧
    (u.computeDeltas.2 = false → u.computeDeltas.1 = u) := by
  unfold Binary32.Triangle.computeDeltas Binary32.Triangle.det
  dsimp only
  cases h : F32.isFinite (1 / ((Binary32.Vector2.sub u.v3 u.v1).y * (Binary32.Vector2.sub u.v2 u.v1).x
      - (Binary32.Vector2.sub u.v2 u.v1).y * (Binary32.Vector2.sub u.v3 u.v1).x))
  · simp only [Bool.not_false, if_true]
    exact ⟨trivial, fun _ => trivial⟩
  · simp only [Bool.not_true, Bool.false_eq_true, if_false]
    exact ⟨trivial, fun h1 => Bool.noConfusion h1⟩

/-- C7: `computeDeltas` returns false exactly when the reciprocal `1.0f / det`
of the edge-vector determinant is not finite.  In binary32 this is so
whenever the determinant is zero (and also for some determinants that are not
zero); in exact arithmetic it is so exactly when the determinant is zero,
which is exactly when the triangle has zero signed area.  When it returns
false the triangle (so `dx`, `dy`) is left unmodified; otherwise it returns
true. -/
theorem computeDeltas_false_iff_det_zero {α : Type} [LinearOrderedField α] (t : Triangle α)
    (u : Binary32.Triangle) :
    ((t.computeDeltas.2 = false ↔ t.det = 0) ∧
      (t.computeDeltas.2 = false ↔ cross2 t.v1 t.v2 t.v3 = 0) ∧
      (t.computeDeltas.2 = true ↔ t.det ≠ 0) ∧
      (t.det = 0 → t.computeDeltas.1 = t)) ∧
    ((u.computeDeltas.2 = false ↔ F32.isFinite (1 / u.det) = false) ∧
      (u.computeDeltas.2 = true ↔ F32.isFinite (1 / u.det) = true) ∧
      (F32.eq u.det 0 = true → u.computeDeltas.2 = false) ∧
      (u.computeDeltas.2 = false → u.computeDeltas.1 = u)) := by
  refine ⟨computeDeltas_exact t, (Binary32.computeDeltas_false_iff u).1, ?_, ?_,
    (Binary32.computeDeltas_false_iff u).2⟩
  · have h := (Binary32.computeDeltas_false_iff u).1
    constructor
    · intro h1
      by_contra h2
      rw [Bool.not_eq_true] at h2
      have h3 := h.mpr h2
      rw [h1] at h3
      exact Bool.noConfusion h3
    · intro h1
      by_contra h2
      rw [Bool.not_eq_true] at h2
      have h3 := h.mp h2
      rw [h1] at h3
      exact Bool.noConfusion h3
  · intro h0
    exact (Binary32.computeDeltas_false_iff u).1.mpr (F32.recip_zero_not_finite _ h0)

/-- C18 in binary32, at the triangle `(5,2), (0,1), (-13,-6)`.  Pixel
`(0, 0)` is the first pixel of the first block; the half-space values at its
centre `(0.5, 0.5)` fail the fully-inside test and pass the `PX_OUTSIDE` test,
so `drawAA` builds the `ClippedTriangle` of the vertices less the centre and
clips it to `[-0.5, 0.5]^2`.  The four clip passes leave 4, 5, 6 and 8
vertices, so `computeAreaCentroid` writes the closing vertex to slot
`v[8]` of a buffer of `7 + 1` slots: `clipAABox`, and with it `drawAA`, leaves
the buffer.  The same happens for the triangle `(5,2), (-13,-6), (0,1)` and
the box `[0,1]^2`, and in `drawAA` for the counter-clockwise triangle
`(18,8), (13,7), (0,0)` (at pixel `(13, 6)`). -/
theorem clipAABox_binary32_vertex_count_eight :
    (Binary32.Triangle.new ⟨5, 2⟩ ⟨0, 1⟩ ⟨-13, -6⟩ ⟨1, 0, 0⟩ ⟨0, 1, 0⟩ ⟨0, 0, 1⟩ ⟨7, 7, 7⟩
      ⟨7, 7, 7⟩).allGE PX_INSIDE F32.half F32.half = false ∧
    (Binary32.Triangle.new ⟨5, 2⟩ ⟨0, 1⟩ ⟨-13, -6⟩ ⟨1, 0, 0⟩ ⟨0, 1, 0⟩ ⟨0, 0, 1⟩ ⟨7, 7, 7⟩
      ⟨7, 7, 7⟩).allGE PX_OUTSIDE F32.half F32.half = true ∧
    ((Binary32.ClippedTriangle.new (Binary32.Vector2.sub ⟨5, 2⟩ ⟨F32.half, F32.half⟩)
        (Binary32.Vector2.sub ⟨-13, -6⟩ ⟨F32.half, F32.half⟩)
        (Binary32.Vector2.sub ⟨0, 1⟩ ⟨F32.half, F32.half⟩)).clipVerticalPlane (-F32.half) (-1)).map
      Binary32.ClippedTriangle.m_numVertices = .ok 4 ∧
    (((Binary32.ClippedTriangle.new (Binary32.Vector2.sub ⟨5, 2⟩ ⟨F32.half, F32.half⟩)
        (Binary32.Vector2.sub ⟨-13, -6⟩ ⟨F32.half, F32.half⟩)
        (Binary32.Vector2.sub ⟨0, 1⟩ ⟨F32.half, F32.half⟩)).clipVerticalPlane (-F32.half) (-1)).bind
      (fun ct => ct.clipHorizontalPlane (-F32.half) (-1))).map
      Binary32.ClippedTriangle.m_numVertices = .ok 5 ∧
    ((((Binary32.ClippedTriangle.new (Binary32.Vector2.sub ⟨5, 2⟩ ⟨F32.half, F32.half⟩)
        (Binary32.Vector2.sub ⟨-13, -6⟩ ⟨F32.half, F32.half⟩)
        (Binary32.Vector2.sub ⟨0, 1⟩ ⟨F32.half, F32.half⟩)).clipVerticalPlane (-F32.half) (-1)).bind
      (fun ct => ct.clipHorizontalPlane (-F32.half) (-1))).bind
      (fun ct => ct.clipVerticalPlane F32.half 1)).map
      Binary32.ClippedTriangle.m_numVertices = .ok 6 ∧
    (((((Binary32.ClippedTriangle.new (Binary32.Vector2.sub ⟨5, 2⟩ ⟨F32.half, F32.half⟩)
        (Binary32.Vector2.sub ⟨-13, -6⟩ ⟨F32.half, F32.half⟩)
        (Binary32.Vector2.sub ⟨0, 1⟩ ⟨F32.half, F32.half⟩)).clipVerticalPlane (-F32.half) (-1)).bind
      (fun ct => ct.clipHorizontalPlane (-F32.half) (-1))).bind
      (fun ct => ct.clipVerticalPlane F32.half 1)).bind
      (fun ct => ct.clipHorizontalPlane F32.half 1)).map
      Binary32.ClippedTriangle.m_numVertices = .ok 8 ∧
    (Binary32.ClippedTriangle.new (Binary32.Vector2.sub ⟨5, 2⟩ ⟨F32.half, F32.half⟩)
        (Binary32.Vector2.sub ⟨-13, -6⟩ ⟨F32.half, F32.half⟩)
        (Binary32.Vector2.sub ⟨0, 1⟩ ⟨F32.half, F32.half⟩)).clipAABox (-F32.half) (-F32.half) F32.half
      F32.half = .error .outOfBounds ∧
    callsOf ((Binary32.Triangle.new ⟨5, 2⟩ ⟨0, 1⟩ ⟨-13, -6⟩ ⟨1, 0, 0⟩ ⟨0, 1, 0⟩ ⟨0, 0, 1⟩ ⟨7, 7, 7⟩
      ⟨7, 7, 7⟩).drawAA 16 (record alwaysTrue) ((), [])) = .error .outOfBounds ∧
    (Binary32.ClippedTriangle.new ⟨5, 2⟩ ⟨-13, -6⟩ ⟨0, 1⟩).clipAABox 0 0 1 1
      = .error .outOfBounds ∧
    callsOf ((Binary32.Triangle.new ⟨18, 8⟩ ⟨13, 7⟩ ⟨0, 0⟩ ⟨1, 0, 0⟩ ⟨0, 1, 0⟩ ⟨0, 0, 1⟩ ⟨7, 7, 7⟩
      ⟨7, 7, 7⟩).drawAA 16 (record alwaysTrue) ((), [])) = .error .outOfBounds := by
  refine ⟨?_, ?_, ?_, ?_, ?_, ?_, ?_, ?_, ?_, ?_⟩ <;> decide!

/-- C5 in binary32.  The counter-clockwise triangle
`(2 - 2^-23, 5), (2 + 2^-22, -7 + 2^-20), (2 + 2^-22, -1 - 2^-23)` has no
point in common with the square `[1,2] x [0,1]` of pixel `(1, 0)`, so the two
do not overlap either, and `drawAA` invokes the callback for `(1, 0)`, with
coverage `2^-27`. -/
theorem no_call_for_disjoint_pixel_binary32_counterexample :
    toQ ⟨F32.ofScaled (2 ^ 24 - 1) 23, 5⟩ = ⟨2 - 1 / 2 ^ 23, 5⟩ ∧
    toQ ⟨F32.ofScaled (2 ^ 23 + 1) 22, F32.ofScaled (-(7 * 2 ^ 20 - 1)) 20⟩
      = ⟨2 + 1 / 2 ^ 22, -7 + 1 / 2 ^ 20⟩ ∧
    toQ ⟨F32.ofScaled (2 ^ 23 + 1) 22, F32.ofScaled (-(2 ^ 23 + 1)) 23⟩
      = ⟨2 + 1 / 2 ^ 22, -1 - 1 / 2 ^ 23⟩ ∧
    (∀ p, inTriangle (⟨2 - 1 / 2 ^ 23, 5⟩ : Vector2 ℚ) ⟨2 + 1 / 2 ^ 22, -7 + 1 / 2 ^ 20⟩
        ⟨2 + 1 / 2 ^ 22, -1 - 1 / 2 ^ 23⟩ p → ¬ inBox 1 0 2 1 p) ∧
    (∀ p, inOpenTriangle (⟨2 - 1 / 2 ^ 23, 5⟩ : Vector2 ℚ) ⟨2 + 1 / 2 ^ 22, -7 + 1 / 2 ^ 20⟩
        ⟨2 + 1 / 2 ^ 22, -1 - 1 / 2 ^ 23⟩ p →
      ¬ inOpenBox (((1 : ℤ) : ℚ)) (((0 : ℤ) : ℚ)) (((1 : ℤ) : ℚ) + 1) (((0 : ℤ) : ℚ) + 1) p) ∧
    callsOf ((Binary32.Triangle.new ⟨F32.ofScaled (2 ^ 24 - 1) 23, 5⟩
        ⟨F32.ofScaled (2 ^ 23 + 1) 22, F32.ofScaled (-(7 * 2 ^ 20 - 1)) 20⟩
        ⟨F32.ofScaled (2 ^ 23 + 1) 22, F32.ofScaled (-(2 ^ 23 + 1)) 23⟩
        ⟨1, 0, 0⟩ ⟨0, 1, 0⟩ ⟨0, 0, 1⟩ ⟨7, 7, 7⟩ ⟨7, 7, 7⟩).drawAA 16 (record alwaysTrue) ((), []))
      = .ok [(1, 0, F32.ofScaled 1 27), (2, 0, F32.ofScaled 5 25), (1, 1, F32.ofScaled 1 27),
          (2, 1, F32.ofScaled 3 25), (1, 2, F32.ofScaled 3 26), (2, 2, F32.ofScaled 1 25),
          (1, 3, F32.ofScaled 5 27), (1, 4, F32.ofScaled 1 25)] := by
  refine ⟨?_, ?_, ?_, ?_, ?_, by decide!⟩
  · have h : (⟨F32.ofScaled (2 ^ 24 - 1) 23, 5⟩ : Vector2 F32)
        = ⟨F32.fin false ((2 ^ 24 - 1) * 2 ^ 126), F32.fin false (5 * 2 ^ 149)⟩ := by decide!
    rw [h]
    simp only [toQ, F32.toRat]
    norm_num
  · have h : (⟨F32.ofScaled (2 ^ 23 + 1) 22, F32.ofScaled (-(7 * 2 ^ 20 - 1)) 20⟩ : Vector2 F32)
        = ⟨F32.fin false ((2 ^ 23 + 1) * 2 ^ 127), F32.fin true ((7 * 2 ^ 20 - 1) * 2 ^ 129)⟩ := by
      decide!
    rw [h]
    simp only [toQ, F32.toRat]
    norm_num
  · have h : (⟨F32.ofScaled (2 ^ 23 + 1) 22, F32.ofScaled (-(2 ^ 23 + 1)) 23⟩ : Vector2 F32)
        = ⟨F32.fin false ((2 ^ 23 + 1) * 2 ^ 127), F32.fin true ((2 ^ 23 + 1) * 2 ^ 126)⟩ := by
      decide!
    rw [h]
    simp only [toQ, F32.toRat]
    norm_num
  · rintro p ⟨l1, l2, l3, h1, h2, h3, hl, hx, hy⟩ ⟨b1, b2, b3, b4⟩
    simp only at hx hy
    linarith
  · rintro p h ⟨b1, b2, b3, b4⟩
    simp only [inOpenTriangle, cross2] at h
    push_cast at b1 b2 b3 b4
    rcases h with ⟨h1, h2, h3⟩ | ⟨h1, h2, h3⟩
    · linarith
    · linarith

/-- C6 in binary32, at the collinear triangle `(0,0), (3,1), (6,2)`:
`computeDeltas` returns false (the determinant is `0`, its reciprocal
infinite), the constructor goes on, the fields `dx`, `dy` keep their
indeterminate contents (here `(7,7,7)`), the clipper leaves slivers of
positive area, and `drawAA` invokes the callback six times, each time handing
over the unset `dx` and `dy`. -/
theorem collinear_triangle_binary32_calls :
    toQ ⟨0, 0⟩ = ⟨0, 0⟩ ∧ toQ ⟨3, 1⟩ = ⟨3, 1⟩ ∧ toQ ⟨6, 2⟩ = ⟨6, 2⟩ ∧
    cross2 (⟨0, 0⟩ : Vector2 ℚ) ⟨3, 1⟩ ⟨6, 2⟩ = 0 ∧
    (Binary32.Triangle.new ⟨0, 0⟩ ⟨3, 1⟩ ⟨6, 2⟩ ⟨1, 0, 0⟩ ⟨0, 1, 0⟩ ⟨0, 0, 1⟩ ⟨7, 7, 7⟩
      ⟨7, 7, 7⟩).computeDeltas.2 = false ∧
    (Binary32.Triangle.new ⟨0, 0⟩ ⟨3, 1⟩ ⟨6, 2⟩ ⟨1, 0, 0⟩ ⟨0, 1, 0⟩ ⟨0, 0, 1⟩ ⟨7, 7, 7⟩
      ⟨7, 7, 7⟩).dx = ⟨7, 7, 7⟩ ∧
    (Binary32.Triangle.new ⟨0, 0⟩ ⟨3, 1⟩ ⟨6, 2⟩ ⟨1, 0, 0⟩ ⟨0, 1, 0⟩ ⟨0, 0, 1⟩ ⟨7, 7, 7⟩
      ⟨7, 7, 7⟩).dy = ⟨7, 7, 7⟩ ∧
    ((Binary32.Triangle.new ⟨0, 0⟩ ⟨3, 1⟩ ⟨6, 2⟩ ⟨1, 0, 0⟩ ⟨0, 1, 0⟩ ⟨0, 0, 1⟩ ⟨7, 7, 7⟩
      ⟨7, 7, 7⟩).drawAA 16 (record alwaysTrue) ((), [])).map
        (fun r => (r.2, r.1.2.map (fun e => (e.1.x, e.1.y, e.1.coverage,
          decide (e.1.dx = ⟨7, 7, 7⟩ ∧ e.1.dy = ⟨7, 7, 7⟩)))))
      = .ok (true, [(0, 0, F32.ofScaled 1 26, true), (1, 0, F32.ofScaled 1 26, true),
          (2, 0, F32.ofScaled 3 27, true), (3, 1, F32.ofScaled 1 26, true),
          (4, 1, F32.ofScaled 3 26, true), (5, 1, F32.ofScaled 7 27, true)]) := by
  refine ⟨?_, ?_, ?_, by norm_num [cross2], by decide!, by decide!, by decide!, by decide!⟩
  · have h : (⟨0, 0⟩ : Vector2 F32) = ⟨F32.fin false 0, F32.fin false 0⟩ := by decide!
    rw [h]
    simp only [toQ, F32.toRat]
    norm_num
  · have h : (⟨3, 1⟩ : Vector2 F32) = ⟨F32.fin false (3 * 2 ^ 149), F32.fin false (2 ^ 149)⟩ := by
      decide!
    rw [h]
    simp only [toQ, F32.toRat]
    norm_num
  · have h : (⟨6, 2⟩ : Vector2 F32)
        = ⟨F32.fin false (6 * 2 ^ 149), F32.fin false (2 * 2 ^ 149)⟩ := by decide!
    rw [h]
    simp only [toQ, F32.toRat]
    norm_num

/-- C7 in binary32, at the triangle `(0,0), (2^-70, 0), (0, 2^-70)`: the
edge-vector determinant is `-2^-140`, not zero (the signed area is not zero
either), its reciprocal overflows to `-inf`, and `computeDeltas` returns
false. -/
theorem computeDeltas_binary32_counterexample :
    toQ ⟨0, 0⟩ = ⟨0, 0⟩ ∧ toQ ⟨F32.ofScaled 1 70, 0⟩ = ⟨1 / 2 ^ 70, 0⟩ ∧
    toQ ⟨0, F32.ofScaled 1 70⟩ = ⟨0, 1 / 2 ^ 70⟩ ∧
    cross2 (⟨0, 0⟩ : Vector2 ℚ) ⟨1 / 2 ^ 70, 0⟩ ⟨0, 1 / 2 ^ 70⟩ ≠ 0 ∧
    (Binary32.Triangle.new ⟨0, 0⟩ ⟨F32.ofScaled 1 70, 0⟩ ⟨0, F32.ofScaled 1 70⟩ ⟨1, 0, 0⟩
      ⟨0, 1, 0⟩ ⟨0, 0, 1⟩ ⟨7, 7, 7⟩ ⟨7, 7, 7⟩).det = F32.ofScaled (-1) 140 ∧
    F32.toRat (F32.ofScaled (-1) 140) = -(1 / 2 ^ 140) ∧
    F32.eq (Binary32.Triangle.new ⟨0, 0⟩ ⟨F32.ofScaled 1 70, 0⟩ ⟨0, F32.ofScaled 1 70⟩ ⟨1, 0, 0⟩
      ⟨0, 1, 0⟩ ⟨0, 0, 1⟩ ⟨7, 7, 7⟩ ⟨7, 7, 7⟩).det 0 = false ∧
    1 / (Binary32.Triangle.new ⟨0, 0⟩ ⟨F32.ofScaled 1 70, 0⟩ ⟨0, F32.ofScaled 1 70⟩ ⟨1, 0, 0⟩
      ⟨0, 1, 0⟩ ⟨0, 0, 1⟩ ⟨7, 7, 7⟩ ⟨7, 7, 7⟩).det = F32.inf true ∧
    (Binary32.Triangle.new ⟨0, 0⟩ ⟨F32.ofScaled 1 70, 0⟩ ⟨0, F32.ofScaled 1 70⟩ ⟨1, 0, 0⟩
      ⟨0, 1, 0⟩ ⟨0, 0, 1⟩ ⟨7, 7, 7⟩ ⟨7, 7, 7⟩).computeDeltas.2 = false := by
  refine ⟨?_, ?_, ?_, by norm_num [cross2], by decide!, ?_, by decide!, by decide!, by decide!⟩
  · have h : (⟨0, 0⟩ : Vector2 F32) = ⟨F32.fin false 0, F32.fin false 0⟩ := by decide!
    rw [h]
    simp only [toQ, F32.toRat]
    norm_num
  · have h : (⟨F32.ofScaled 1 70, 0⟩ : Vector2 F32)
        = ⟨F32.fin false (2 ^ 79), F32.fin false 0⟩ := by decide!
    rw [h]
    simp only [toQ, F32.toRat]
    norm_num
  · have h : (⟨0, F32.ofScaled 1 70⟩ : Vector2 F32)
        = ⟨F32.fin false 0, F32.fin false (2 ^ 79)⟩ := by decide!
    rw [h]
    simp only [toQ, F32.toRat]
    norm_num
  · have h : F32.ofScaled (-1) 140 = F32.fin true (2 ^ 9) := by decide!
    rw [h]
    simp only [F32.toRat]
    norm_num

/-- C11 in binary32.  The triangle
`(-1, 1 + 2^-22), (-8, -8), (5, -5 - 3 * 2^-21)` has no point in common with
the box `[0,1] x [0,1]`, and `clipAABox(0, 0, 1, 1)` leaves three vertices and
reports the area `2^-43`, which is not zero, and a centroid other than
`(0, 0)`. -/
theorem clipAABox_of_disjoint_box_binary32_counterexample :
    toQ ⟨-1, F32.ofScaled (2 ^ 22 + 1) 22⟩ = ⟨-1, 1 + 1 / 2 ^ 22⟩ ∧
    toQ ⟨-8, -8⟩ = ⟨-8, -8⟩ ∧
    toQ ⟨5, F32.ofScaled (-(5 * 2 ^ 21 + 3)) 21⟩ = ⟨5, -5 - 3 / 2 ^ 21⟩ ∧
    toQ ⟨0, 0⟩ = ⟨0, 0⟩ ∧ toQ ⟨1, 1⟩ = ⟨1, 1⟩ ∧
    (∀ w, inTriangle (⟨-1, 1 + 1 / 2 ^ 22⟩ : Vector2 ℚ) ⟨-8, -8⟩ ⟨5, -5 - 3 / 2 ^ 21⟩ w →
      ¬ inBox 0 0 1 1 w) ∧
    ((Binary32.ClippedTriangle.new ⟨-1, F32.ofScaled (2 ^ 22 + 1) 22⟩ ⟨-8, -8⟩
        ⟨5, F32.ofScaled (-(5 * 2 ^ 21 + 3)) 21⟩).clipAABox 0 0 1 1).map
        (fun ct => (ct.m_numVertices, ct.area, F32.eq ct.area 0, ct.centroid))
      = .ok (3, F32.ofScaled 1 43, false,
          ⟨F32.ofScaled 11184811 46, F32.ofScaled 11184811 46⟩) ∧
    F32.toRat (F32.ofScaled 1 43) = 1 / 2 ^ 43 := by
  refine ⟨?_, ?_, ?_, ?_, ?_, ?_, by decide!, ?_⟩
  · have h : (⟨-1, F32.ofScaled (2 ^ 22 + 1) 22⟩ : Vector2 F32)
        = ⟨F32.fin true (2 ^ 149), F32.fin false ((2 ^ 22 + 1) * 2 ^ 127)⟩ := by decide!
    rw [h]
    simp only [toQ, F32.toRat]
    norm_num
  · have h : (⟨-8, -8⟩ : Vector2 F32)
        = ⟨F32.fin true (8 * 2 ^ 149), F32.fin true (8 * 2 ^ 149)⟩ := by decide!
    rw [h]
    simp only [toQ, F32.toRat]
    norm_num
  · have h : (⟨5, F32.ofScaled (-(5 * 2 ^ 21 + 3)) 21⟩ : Vector2 F32)
        = ⟨F32.fin false (5 * 2 ^ 149), F32.fin true ((5 * 2 ^ 21 + 3) * 2 ^ 128)⟩ := by decide!
    rw [h]
    simp only [toQ, F32.toRat]
    norm_num
  · have h : (⟨0, 0⟩ : Vector2 F32) = ⟨F32.fin false 0, F32.fin false 0⟩ := by decide!
    rw [h]
    simp only [toQ, F32.toRat]
    norm_num
  · have h : (⟨1, 1⟩ : Vector2 F32) = ⟨F32.fin false (2 ^ 149), F32.fin false (2 ^ 149)⟩ := by
      decide!
    rw [h]
    simp only [toQ, F32.toRat]
    norm_num
  · rintro w ⟨l1, l2, l3, h1, h2, h3, hl, hx, hy⟩ ⟨b1, b2, b3, b4⟩
    simp only at hx hy
    linarith
  · have h : F32.ofScaled 1 43 = F32.fin false (2 ^ 106) := by decide!
    rw [h]
    simp only [F32.toRat]
    norm_num

/-- C16 in binary32.  For the counter-clockwise triangle
`(-1, -1), (7/4, 1/4 - 2^-23), (1/4, 7/4 - 2^-23)` the three half-space
values at the centre `(0.5, 0.5)` of pixel `(0, 0)`, the first pixel of the
first block, are all `>= PX_INSIDE`, and `drawAA` invokes the callback for
`(0, 0)` with coverage `1`; the corner `(1, 1)` of the pixel's square lies
outside the triangle, beyond the edge on the line `x + y = 2 - 2^-23`. -/
theorem inside_classification_binary32_counterexample :
    toQ ⟨-1, -1⟩ = ⟨-1, -1⟩ ∧
    toQ ⟨F32.ofScaled 7 2, F32.ofScaled (2 ^ 21 - 1) 23⟩ = ⟨7 / 4, 1 / 4 - 1 / 2 ^ 23⟩ ∧
    toQ ⟨F32.ofScaled 1 2, F32.ofScaled (7 * 2 ^ 21 - 1) 23⟩ = ⟨1 / 4, 7 / 4 - 1 / 2 ^ 23⟩ ∧
    toQ ⟨F32.half, F32.half⟩ = ⟨1 / 2, 1 / 2⟩ ∧
    0 < cross2 (⟨-1, -1⟩ : Vector2 ℚ) ⟨7 / 4, 1 / 4 - 1 / 2 ^ 23⟩ ⟨1 / 4, 7 / 4 - 1 / 2 ^ 23⟩ ∧
    (Binary32.Triangle.new ⟨-1, -1⟩ ⟨F32.ofScaled 7 2, F32.ofScaled (2 ^ 21 - 1) 23⟩
      ⟨F32.ofScaled 1 2, F32.ofScaled (7 * 2 ^ 21 - 1) 23⟩ ⟨1, 0, 0⟩ ⟨0, 1, 0⟩ ⟨0, 0, 1⟩
      ⟨7, 7, 7⟩ ⟨7, 7, 7⟩).allGE PX_INSIDE F32.half F32.half = true ∧
    inBox ((1 : ℚ) / 2 - 1 / 2) (1 / 2 - 1 / 2) (1 / 2 + 1 / 2) (1 / 2 + 1 / 2)
      (⟨1, 1⟩ : Vector2 ℚ) ∧
    ¬ inTriangle (⟨-1, -1⟩ : Vector2 ℚ) ⟨7 / 4, 1 / 4 - 1 / 2 ^ 23⟩ ⟨1 / 4, 7 / 4 - 1 / 2 ^ 23⟩
      ⟨1, 1⟩ ∧
    callsOf ((Binary32.Triangle.new ⟨-1, -1⟩ ⟨F32.ofScaled 7 2, F32.ofScaled (2 ^ 21 - 1) 23⟩
      ⟨F32.ofScaled 1 2, F32.ofScaled (7 * 2 ^ 21 - 1) 23⟩ ⟨1, 0, 0⟩ ⟨0, 1, 0⟩ ⟨0, 0, 1⟩
      ⟨7, 7, 7⟩ ⟨7, 7, 7⟩).drawAA 16 (record alwaysTrue) ((), []))
      = .ok [(0, 0, 1), (1, 0, F32.ofScaled 3355443 23), (0, 1, F32.ofScaled 6710885 24)] := by
  refine ⟨?_, ?_, ?_, ?_, by norm_num [cross2], by decide!, ?_, ?_, by decide!⟩
  · have h : (⟨-1, -1⟩ : Vector2 F32) = ⟨F32.fin true (2 ^ 149), F32.fin true (2 ^ 149)⟩ := by
      decide!
    rw [h]
    simp only [toQ, F32.toRat]
    norm_num
  · have h : (⟨F32.ofScaled 7 2, F32.ofScaled (2 ^ 21 - 1) 23⟩ : Vector2 F32)
        = ⟨F32.fin false (7 * 2 ^ 147), F32.fin false ((2 ^ 21 - 1) * 2 ^ 126)⟩ := by decide!
    rw [h]
    simp only [toQ, F32.toRat]
    norm_num
  · have h : (⟨F32.ofScaled 1 2, F32.ofScaled (7 * 2 ^ 21 - 1) 23⟩ : Vector2 F32)
        = ⟨F32.fin false (2 ^ 147), F32.fin false ((7 * 2 ^ 21 - 1) * 2 ^ 126)⟩ := by decide!
    rw [h]
    simp only [toQ, F32.toRat]
    norm_num
  · simp only [toQ, F32.toRat, F32.half]
    norm_num
  · simp only [inBox]
    norm_num
  · rintro ⟨l1, l2, l3, h1, h2, h3, hl, hx, hy⟩
    simp only at hx hy
    linarith

/-- C21 in binary32.  The triangle `(0,0), (2^-30, 2), (2, 2^-30)` is
clockwise, the centre `(0.5, 0.5)` of pixel `(0, 0)` lies in it at a distance
of more than `1/sqrt(2)` from the line of the edge `(p1, p2)`, and `drawAA`
invokes the callback for `(0, 0)`, with coverage `1`. -/
theorem clockwise_winding_binary32_counterexample :
    toQ ⟨0, 0⟩ = ⟨0, 0⟩ ∧ toQ ⟨F32.ofScaled 1 30, 2⟩ = ⟨1 / 2 ^ 30, 2⟩ ∧
    toQ ⟨2, F32.ofScaled 1 30⟩ = ⟨2, 1 / 2 ^ 30⟩ ∧
    cross2 (⟨0, 0⟩ : Vector2 ℚ) ⟨1 / 2 ^ 30, 2⟩ ⟨2, 1 / 2 ^ 30⟩ < 0 ∧
    inTriangle (⟨0, 0⟩ : Vector2 ℚ) ⟨1 / 2 ^ 30, 2⟩ ⟨2, 1 / 2 ^ 30⟩
      ⟨((0 : ℤ) : ℚ) + 1 / 2, ((0 : ℤ) : ℚ) + 1 / 2⟩ ∧
    (1 : ℚ) / 2 * ((2 - 1 / 2 ^ 30) * (2 - 1 / 2 ^ 30)
        + (1 / 2 ^ 30 - 2) * (1 / 2 ^ 30 - 2))
      < cross2 (⟨1 / 2 ^ 30, 2⟩ : Vector2 ℚ) ⟨2, 1 / 2 ^ 30⟩
          ⟨((0 : ℤ) : ℚ) + 1 / 2, ((0 : ℤ) : ℚ) + 1 / 2⟩
        * cross2 (⟨1 / 2 ^ 30, 2⟩ : Vector2 ℚ) ⟨2, 1 / 2 ^ 30⟩
          ⟨((0 : ℤ) : ℚ) + 1 / 2, ((0 : ℤ) : ℚ) + 1 / 2⟩ ∧
    callsOf ((Binary32.Triangle.new ⟨0, 0⟩ ⟨F32.ofScaled 1 30, 2⟩ ⟨2, F32.ofScaled 1 30⟩
      ⟨1, 0, 0⟩ ⟨0, 1, 0⟩ ⟨0, 0, 1⟩ ⟨7, 7, 7⟩ ⟨7, 7, 7⟩).drawAA 16 (record alwaysTrue) ((), []))
      = .ok [(0, 0, 1)] := by
  refine ⟨?_, ?_, ?_, by norm_num [cross2], ?_, by norm_num [cross2], by decide!⟩
  · have h : (⟨0, 0⟩ : Vector2 F32) = ⟨F32.fin false 0, F32.fin false 0⟩ := by decide!
    rw [h]
    simp only [toQ, F32.toRat]
    norm_num
  · have h : (⟨F32.ofScaled 1 30, 2⟩ : Vector2 F32)
        = ⟨F32.fin false (2 ^ 119), F32.fin false (2 * 2 ^ 149)⟩ := by decide!
    rw [h]
    simp only [toQ, F32.toRat]
    norm_num
  · have h : (⟨2, F32.ofScaled 1 30⟩ : Vector2 F32)
        = ⟨F32.fin false (2 * 2 ^ 149), F32.fin false (2 ^ 119)⟩ := by decide!
    rw [h]
    simp only [toQ, F32.toRat]
    norm_num
  · refine ⟨1 - 2 / (4 + 2 / 2 ^ 30), 1 / (4 + 2 / 2 ^ 30), 1 / (4 + 2 / 2 ^ 30), ?_, ?_, ?_, ?_,
      ?_, ?_⟩ <;> norm_num

end Binary32Claims

end Repack
